import Mathlib

/-!
# Aurora compiler front end: a verification development

A shallow embedding of the typed/SSA pipeline of the Aurora compiler
(`src/src/*.cpp`): token and type model, lexer, parser, scope stack,
semantic analyser and IR emitter, followed by theorems about them.

Conventions of the embedding.

* `fatal(msg)` prints the message and exits the process; it is modelled by
  `Except.error msg`, so a function that can call `fatal` returns
  `Except String _`.
* `std::int64_t` and `int` values are modelled by `Int`/`Nat` (the code never
  relies on wrap-around).
* `std::unordered_map<std::string, V>` is modelled by an association list
  `List (String × V)` that holds each key at most once.
* `std::vector<T>` is modelled by `List T`.  For the scope stack the head of
  the list is `stack.back()`, the innermost frame.
* `std::unique_ptr<Type>` that may be null is `Option Ty`; the pointers that
  the code always sets (a parameter type, a signature's return type, the type
  of a binding) are plain `Ty`.
-/

namespace Aurora

/-! ## token.h -/

inductive TokKind where
  | Eof | Ident | IntLit | True | False
  | KwLet | KwFn | KwIf | KwElse | KwWhile | KwReturn | KwDefer | KwBreak | KwContinue
  | KwI32 | KwI64 | KwBool | KwPtr | KwUnique | KwVoid
  | LParen | RParen | LBrace | RBrace | LBracket | RBracket | Comma | Colon | Semicolon | Arrow
  | Plus | Minus | Star | Slash | Percent
  | Bang | AmpAmp | PipePipe
  | Eq | EqEq | BangEq | Lt | Le | Gt | Ge
  | PlusEq | MinusEq | StarEq | SlashEq | PercentEq
deriving DecidableEq, Repr

structure Token where
  kind : TokKind
  lexeme : String
  intValue : Int
  line : Nat
  col : Nat
deriving DecidableEq, Repr

/-! ## types.h, types.cpp -/

inductive TyKind where
  | I32 | I64 | Bool | Ptr | Array | Void
deriving DecidableEq, Repr

/-- The `Type` struct: a kind, an owned element type that may be null, and an
array size. -/
inductive Ty where
  | mk (k : TyKind) (elem : Option Ty) (arraySize : Int)
deriving Repr

namespace Ty

def k : Ty → TyKind
  | mk k _ _ => k

def elem : Ty → Option Ty
  | mk _ e _ => e

def arraySize : Ty → Int
  | mk _ _ n => n

def i32 : Ty := mk TyKind.I32 none 0
def i64 : Ty := mk TyKind.I64 none 0
def boolean : Ty := mk TyKind.Bool none 0
def voidty : Ty := mk TyKind.Void none 0
def ptr (t : Ty) : Ty := mk TyKind.Ptr (some t) 0
def array (t : Ty) (size : Int) : Ty := mk TyKind.Array (some t) size

/-- `Type::str`. -/
def str : Ty → String
  | mk TyKind.I32 _ _ => "i32"
  | mk TyKind.I64 _ _ => "i64"
  | mk TyKind.Bool _ _ => "bool"
  | mk TyKind.Void _ _ => "void"
  | mk TyKind.Ptr (some e) _ => "ptr<" ++ str e ++ ">"
  | mk TyKind.Ptr none _ => "ptr<" ++ "?" ++ ">"
  | mk TyKind.Array (some e) n => str e ++ "[" ++ toString n ++ "]"
  | mk TyKind.Array none n => "?" ++ "[" ++ toString n ++ "]"

/-- `Type::equals`. -/
def equals : Ty → Ty → Bool
  | mk k e n, mk k2 e2 n2 =>
    if k ≠ k2 then false
    else if k = TyKind.Ptr then
      match e, e2 with
      | some a, some b => equals a b
      | _, _ => false
    else if k = TyKind.Array then
      n == n2 &&
        (match e, e2 with
         | some a, some b => equals a b
         | _, _ => false)
    else true

/-- `Type::clone`. -/
def clone : Ty → Ty
  | mk k (some e) n => mk k (some (clone e)) n
  | mk k none n => mk k none n

end Ty

/-! ## ast.h -/

inductive Expr where
  | EInt (v : Int)
  | EBool (v : Bool)
  | EVar (name : String)
  | EUnary (op : TokKind) (rhs : Expr)
  | EBin (lhs : Expr) (op : TokKind) (rhs : Expr)
  | ECall (callee : String) (args : List Expr)
  | EArrayLit (elems : List Expr)
  | EIndex (arr : Expr) (idx : Expr)
deriving Repr

inductive Stmt where
  | SLet (name : String) (annType : Option Ty) (init : Expr) (isUnique : Bool)
  | SExpr (e : Expr)
  | SReturn (e : Option Expr)
  | SIf (cond : Expr) (thenStmts : List Stmt) (elseStmts : List Stmt)
  | SWhile (cond : Expr) (body : List Stmt)
  | SDefer (e : Expr)
  | SBreak
  | SContinue
deriving Repr

structure Param where
  name : String
  ty : Ty
deriving Repr

structure Func where
  name : String
  params : List Param
  ret : Ty
  body : List Stmt
deriving Repr

structure Program where
  funcs : List Func
deriving Repr

/-! ## lexer.h, lexer.cpp

The lexer state is the unread input `src[i..]` together with `line` and `col`.
One `Char` of the model stands for one `char` of the `std::string`.  The
character classes are those of the "C" locale, which is in force because the
program never calls `setlocale`. -/

structure LexState where
  rest : List Char
  line : Nat
  col : Nat
deriving Repr, DecidableEq

/-- `isspace` in the "C" locale: space, `\t`, `\n`, `\v`, `\f`, `\r`. -/
def isspace (c : Char) : Bool := c = ' ' || (9 ≤ c.toNat && c.toNat ≤ 13)

namespace LexState

/-- `Lexer::peek`: `i<src.size()? src[i] : '\0'`. -/
def peek (s : LexState) : Char :=
  match s.rest with
  | [] => '\x00'
  | c :: _ => c

/-- The test `i+1<src.size() && src[i+1]==a`. -/
def nextIs (s : LexState) (a : Char) : Bool :=
  match s.rest with
  | _ :: d :: _ => d = a
  | _ => false

/-- `Lexer::get`, returning the character and the new state. -/
def get (s : LexState) : Char × LexState :=
  let c := s.peek
  if c = '\x00' then (c, s)
  else if c = '\n' then (c, { rest := s.rest.tail, line := s.line + 1, col := 1 })
  else (c, { rest := s.rest.tail, line := s.line, col := s.col + 1 })

/-- The loop `while (cond) get();`, returning the characters read and the
state after the loop.  Every loop condition of the lexer is false at `'\0'`,
in particular at the end of the input; the model stops there too. -/
def getWhileAux (cond : LexState → Bool) : List Char → Nat → Nat → List Char × LexState
  | [], l, c => ([], { rest := [], line := l, col := c })
  | ch :: rest, l, c =>
    let s : LexState := { rest := ch :: rest, line := l, col := c }
    if cond s && ch != '\x00' then
      let r := getWhileAux cond rest s.get.2.line s.get.2.col
      (ch :: r.1, r.2)
    else ([], s)

def getWhile (s : LexState) (cond : LexState → Bool) : List Char × LexState :=
  getWhileAux cond s.rest s.line s.col

end LexState

/-- The loop of `Lexer::skipWS`; `fuel` bounds the number of iterations. -/
def skipWSLoop : Nat → LexState → LexState
  | 0, s => s
  | fuel + 1, s =>
    let c := s.peek
    if isspace c then skipWSLoop fuel s.get.2
    else if c = '/' && s.nextIs '/' then
      skipWSLoop fuel (s.getWhile (fun t => t.peek != '\x00' && t.peek != '\n')).2
    else if c = '/' && s.nextIs '*' then
      let s1 := s.get.2.get.2
      let s2 := (s1.getWhile
        (fun t => t.peek != '\x00' && !(t.peek = '*' && t.nextIs '/'))).2
      let s3 := if s2.peek != '\x00' then s2.get.2.get.2 else s2
      skipWSLoop fuel s3
    else s

/-- `Lexer::skipWS`.  Every iteration but the last reads at least one
character, so `rest.length + 1` iterations are enough. -/
def skipWS (s : LexState) : LexState := skipWSLoop (s.rest.length + 1) s

/-- The keyword table of `Lexer::identOrKw`. -/
def keywordKind (s : String) : TokKind :=
  if s = "let" then TokKind.KwLet
  else if s = "fn" then TokKind.KwFn
  else if s = "if" then TokKind.KwIf
  else if s = "else" then TokKind.KwElse
  else if s = "while" then TokKind.KwWhile
  else if s = "return" then TokKind.KwReturn
  else if s = "defer" then TokKind.KwDefer
  else if s = "break" then TokKind.KwBreak
  else if s = "continue" then TokKind.KwContinue
  else if s = "true" then TokKind.True
  else if s = "false" then TokKind.False
  else if s = "i32" then TokKind.KwI32
  else if s = "i64" then TokKind.KwI64
  else if s = "bool" then TokKind.KwBool
  else if s = "void" then TokKind.KwVoid
  else if s = "ptr" then TokKind.KwPtr
  else if s = "unique" then TokKind.KwUnique
  else TokKind.Ident

/-- `Lexer::identOrKw`. -/
def identOrKw (s : LexState) : Token × LexState :=
  let r := s.getWhile (fun t => t.peek.isAlphanum || t.peek = '_')
  let lexeme := String.mk r.1
  ({ kind := keywordKind lexeme, lexeme := lexeme, intValue := 0, line := s.line, col := s.col },
    r.2)

/-- The value of a string of decimal digits. -/
def decimalValue (ds : List Char) : Nat :=
  ds.foldl (fun acc c => acc * 10 + (c.toNat - 48)) 0

/-- `std::stoll` on a non-empty string of decimal digits: the value, or the
exception `std::out_of_range` when it exceeds `LLONG_MAX`. -/
def stoll (ds : List Char) : Except String Int :=
  if decimalValue ds ≤ 9223372036854775807 then Except.ok (Int.ofNat (decimalValue ds))
  else Except.error "std::out_of_range"

/-- `Lexer::number`.  An exception thrown by `std::stoll` is not caught. -/
def number (s : LexState) : Except String (Token × LexState) :=
  let r := s.getWhile (fun t => t.peek.isDigit)
  match stoll r.1 with
  | Except.error m => Except.error m
  | Except.ok v =>
    Except.ok ({ kind := TokKind.IntLit, lexeme := String.mk r.1, intValue := v,
                 line := s.line, col := s.col }, r.2)

/-- The outcome of the lexer loop: `none` when the model's iteration bound is
reached, `some (Except.error _)` when an uncaught exception ends the run, and
`some (Except.ok v)` when the loop returns the vector `v`. -/
abbrev LexResult := Option (Except String (List Token))

/-- The statement `v.push_back(t)` followed by the rest of the loop. -/
def pushTok (t : Token) : LexResult → LexResult
  | none => none
  | some (Except.error m) => some (Except.error m)
  | some (Except.ok ts) => some (Except.ok (t :: ts))

/-- The chain of punctuation tests of `Lexer::lex`, entered when the current
character `c = s.peek` is not `'\0'`, a letter, `_` or a digit: the kind of the
token and whether it is pushed by `two` (two characters read) or by `one`.
The last line is the "soft landing" for an unknown character. -/
def punct (s : LexState) : TokKind × Bool :=
  let c := s.peek
  if c = '(' then (TokKind.LParen, false)
  else if c = ')' then (TokKind.RParen, false)
  else if c = '[' then (TokKind.LBracket, false)
  else if c = ']' then (TokKind.RBracket, false)
  else if c = '{' then (TokKind.LBrace, false)
  else if c = '}' then (TokKind.RBrace, false)
  else if c = ',' then (TokKind.Comma, false)
  else if c = ':' then (TokKind.Colon, false)
  else if c = ';' then (TokKind.Semicolon, false)
  else if c = '+' then
    if s.nextIs '=' then (TokKind.PlusEq, true) else (TokKind.Plus, false)
  else if c = '-' then
    if s.nextIs '>' then (TokKind.Arrow, true)
    else if s.nextIs '=' then (TokKind.MinusEq, true)
    else (TokKind.Minus, false)
  else if c = '*' then
    if s.nextIs '=' then (TokKind.StarEq, true) else (TokKind.Star, false)
  else if c = '/' then
    if s.nextIs '=' then (TokKind.SlashEq, true) else (TokKind.Slash, false)
  else if c = '%' then
    if s.nextIs '=' then (TokKind.PercentEq, true) else (TokKind.Percent, false)
  else if c = '!' then
    if s.nextIs '=' then (TokKind.BangEq, true) else (TokKind.Bang, false)
  else if c = '&' && s.nextIs '&' then (TokKind.AmpAmp, true)
  else if c = '|' && s.nextIs '|' then (TokKind.PipePipe, true)
  else if c = '=' then
    if s.nextIs '=' then (TokKind.EqEq, true) else (TokKind.Eq, false)
  else if c = '<' then
    if s.nextIs '=' then (TokKind.Le, true) else (TokKind.Lt, false)
  else if c = '>' then
    if s.nextIs '=' then (TokKind.Ge, true) else (TokKind.Gt, false)
  else (TokKind.Semicolon, false)

/-- The loop of `Lexer::lex`; `fuel` bounds the number of iterations.  The
lambdas `one(k)` and `two(k)` read one or two characters and push the token
`Token{k,"",0,L,C}`. -/
def lexLoop : Nat → LexState → LexResult
  | 0, _ => none
  | fuel + 1, s0 =>
    let s := skipWS s0
    let c := s.peek
    if c = '\x00' then
      some (Except.ok [{ kind := TokKind.Eof, lexeme := "", intValue := 0,
                         line := s.line, col := s.col }])
    else if c.isAlpha || c = '_' then
      pushTok (identOrKw s).1 (lexLoop fuel (identOrKw s).2)
    else if c.isDigit then
      match number s with
      | Except.error m => some (Except.error m)
      | Except.ok r => pushTok r.1 (lexLoop fuel r.2)
    else
      pushTok { kind := (punct s).1, lexeme := "", intValue := 0, line := s.line, col := s.col }
        (lexLoop fuel (if (punct s).2 then s.get.2.get.2 else s.get.2))

/-- The lexer run from a given state.  Every iteration but the last reads at
least one character, so `rest.length + 1` iterations are enough. -/
def lexFrom (s : LexState) : LexResult := lexLoop (s.rest.length + 1) s

/-- `Lexer::lex` on the source `src`, starting at line 1, column 1. -/
def lex (src : List Char) : LexResult := lexFrom { rest := src, line := 1, col := 1 }

/-- Lexing a source given as a string of ASCII characters, for which one
`Char` of the string is one `char` of the `std::string`.  A text with other
characters is given to `lex` as the list of its bytes. -/
def lexString (src : String) : LexResult := lex src.toList

/-! ## parser.h, parser.cpp

The parser state is the unread part `toks[i..]` of the token vector.  Reading
`toks[i]` when no token is left is undefined behaviour in C++; the model
reports it as `PErr.outOfBounds`.  The recursive functions take a bound `fuel`
on the depth of the recursion, and `PErr.outOfFuel` reports that the bound was
reached. -/

inductive PErr where
  | fatal (msg : String)
  | outOfBounds
  | outOfFuel
deriving Repr, DecidableEq

/-- The result of a parsing function: a value and the unread tokens. -/
abbrev PRes (α : Type) := Except PErr (α × List Token)

/-- `Parser::expect`: the unread tokens after the expected token. -/
def expect (k : TokKind) (msg : String) : List Token → Except PErr (List Token)
  | [] => Except.error PErr.outOfBounds
  | t :: rest =>
    if t.kind = k then Except.ok rest else Except.error (PErr.fatal ("expected " ++ msg))

/-- `Parser::parseType`. -/
def parseType : Nat → List Token → PRes Ty
  | 0, _ => Except.error PErr.outOfFuel
  | _ + 1, [] => Except.error PErr.outOfBounds
  | fuel + 1, t :: rest =>
    let base : PRes Ty :=
      if t.kind = TokKind.KwI32 then Except.ok (Ty.i32, rest)
      else if t.kind = TokKind.KwI64 then Except.ok (Ty.i64, rest)
      else if t.kind = TokKind.KwBool then Except.ok (Ty.boolean, rest)
      else if t.kind = TokKind.KwVoid then Except.ok (Ty.voidty, rest)
      else if t.kind = TokKind.KwPtr then
        match expect TokKind.Lt "'<'" rest with
        | Except.error e => Except.error e
        | Except.ok rest1 =>
          match parseType fuel rest1 with
          | Except.error e => Except.error e
          | Except.ok (t1, rest2) =>
            match expect TokKind.Gt "'>'" rest2 with
            | Except.error e => Except.error e
            | Except.ok rest3 => Except.ok (Ty.ptr t1, rest3)
      else Except.error (PErr.fatal "unknown type")
    match base with
    | Except.error e => Except.error e
    | Except.ok (_, []) => Except.error PErr.outOfBounds
    | Except.ok (baseType, t2 :: rest5) =>
      if t2.kind = TokKind.LBracket then
        match rest5 with
        | [] => Except.error PErr.outOfBounds
        | t3 :: rest6 =>
          if t3.kind ≠ TokKind.IntLit then
            Except.error (PErr.fatal "expected integer size for array")
          else
            match expect TokKind.RBracket "']'" rest6 with
            | Except.error e => Except.error e
            | Except.ok rest7 => Except.ok (Ty.array baseType t3.intValue, rest7)
      else Except.ok (baseType, t2 :: rest5)

/-- The token kinds of the compound assignment operators. -/
def isCompoundAssign (k : TokKind) : Bool :=
  k = TokKind.PlusEq || k = TokKind.MinusEq || k = TokKind.StarEq ||
    k = TokKind.SlashEq || k = TokKind.PercentEq

/-- The binary operator that `Parser::parseAssign` takes from a compound
assignment operator. -/
def compoundBinOp (compoundOp : TokKind) : TokKind :=
  if compoundOp = TokKind.PlusEq then TokKind.Plus
  else if compoundOp = TokKind.MinusEq then TokKind.Minus
  else if compoundOp = TokKind.StarEq then TokKind.Star
  else if compoundOp = TokKind.SlashEq then TokKind.Slash
  else TokKind.Percent

mutual

/-- `Parser::parseExpr`. -/
def parseExpr : Nat → List Token → PRes Expr
  | 0, _ => Except.error PErr.outOfFuel
  | fuel + 1, toks => parseAssign fuel toks

/-- `Parser::parseAssign`. -/
def parseAssign : Nat → List Token → PRes Expr
  | 0, _ => Except.error PErr.outOfFuel
  | fuel + 1, toks =>
    match parseOr fuel toks with
    | Except.error e => Except.error e
    | Except.ok (_, []) => Except.error PErr.outOfBounds
    | Except.ok (lhs, t :: rest) =>
      if t.kind = TokKind.Eq then
        match parseAssign fuel rest with
        | Except.error e => Except.error e
        | Except.ok (rhs, rest2) => Except.ok (Expr.EBin lhs TokKind.Eq rhs, rest2)
      else if isCompoundAssign t.kind then
        match lhs with
        | Expr.EVar varName =>
          match parseAssign fuel rest with
          | Except.error e => Except.error e
          | Except.ok (rhs, rest2) =>
            Except.ok (Expr.EBin lhs TokKind.Eq
              (Expr.EBin (Expr.EVar varName) (compoundBinOp t.kind) rhs), rest2)
        | _ =>
          Except.error (PErr.fatal "compound assignment requires simple variable on left side")
      else Except.ok (lhs, t :: rest)

/-- `Parser::parseOr`. -/
def parseOr : Nat → List Token → PRes Expr
  | 0, _ => Except.error PErr.outOfFuel
  | fuel + 1, toks =>
    match parseAnd fuel toks with
    | Except.error e => Except.error e
    | Except.ok (e, rest) => parseOrLoop fuel e rest

/-- The loop `while (accept(PipePipe)) e = EBin(e, PipePipe, parseAnd())`. -/
def parseOrLoop : Nat → Expr → List Token → PRes Expr
  | 0, _, _ => Except.error PErr.outOfFuel
  | _ + 1, _, [] => Except.error PErr.outOfBounds
  | fuel + 1, e, t :: rest =>
    if t.kind = TokKind.PipePipe then
      match parseAnd fuel rest with
      | Except.error err => Except.error err
      | Except.ok (r, rest2) => parseOrLoop fuel (Expr.EBin e TokKind.PipePipe r) rest2
    else Except.ok (e, t :: rest)

/-- `Parser::parseAnd`. -/
def parseAnd : Nat → List Token → PRes Expr
  | 0, _ => Except.error PErr.outOfFuel
  | fuel + 1, toks =>
    match parseEq fuel toks with
    | Except.error e => Except.error e
    | Except.ok (e, rest) => parseAndLoop fuel e rest

/-- The loop `while (accept(AmpAmp)) e = EBin(e, AmpAmp, parseEq())`. -/
def parseAndLoop : Nat → Expr → List Token → PRes Expr
  | 0, _, _ => Except.error PErr.outOfFuel
  | _ + 1, _, [] => Except.error PErr.outOfBounds
  | fuel + 1, e, t :: rest =>
    if t.kind = TokKind.AmpAmp then
      match parseEq fuel rest with
      | Except.error err => Except.error err
      | Except.ok (r, rest2) => parseAndLoop fuel (Expr.EBin e TokKind.AmpAmp r) rest2
    else Except.ok (e, t :: rest)

/-- `Parser::parseEq`. -/
def parseEq : Nat → List Token → PRes Expr
  | 0, _ => Except.error PErr.outOfFuel
  | fuel + 1, toks =>
    match parseRel fuel toks with
    | Except.error e => Except.error e
    | Except.ok (e, rest) => parseEqLoop fuel e rest

/-- The loop of `Parser::parseEq` over `==` and `!=`. -/
def parseEqLoop : Nat → Expr → List Token → PRes Expr
  | 0, _, _ => Except.error PErr.outOfFuel
  | _ + 1, _, [] => Except.error PErr.outOfBounds
  | fuel + 1, e, t :: rest =>
    if t.kind = TokKind.EqEq ∨ t.kind = TokKind.BangEq then
      match parseRel fuel rest with
      | Except.error err => Except.error err
      | Except.ok (r, rest2) => parseEqLoop fuel (Expr.EBin e t.kind r) rest2
    else Except.ok (e, t :: rest)

/-- `Parser::parseRel`. -/
def parseRel : Nat → List Token → PRes Expr
  | 0, _ => Except.error PErr.outOfFuel
  | fuel + 1, toks =>
    match parseAdd fuel toks with
    | Except.error e => Except.error e
    | Except.ok (e, rest) => parseRelLoop fuel e rest

/-- The loop of `Parser::parseRel` over `<`, `<=`, `>` and `>=`. -/
def parseRelLoop : Nat → Expr → List Token → PRes Expr
  | 0, _, _ => Except.error PErr.outOfFuel
  | _ + 1, _, [] => Except.error PErr.outOfBounds
  | fuel + 1, e, t :: rest =>
    if t.kind = TokKind.Lt ∨ t.kind = TokKind.Le ∨ t.kind = TokKind.Gt ∨ t.kind = TokKind.Ge then
      match parseAdd fuel rest with
      | Except.error err => Except.error err
      | Except.ok (r, rest2) => parseRelLoop fuel (Expr.EBin e t.kind r) rest2
    else Except.ok (e, t :: rest)

/-- `Parser::parseAdd`. -/
def parseAdd : Nat → List Token → PRes Expr
  | 0, _ => Except.error PErr.outOfFuel
  | fuel + 1, toks =>
    match parseMul fuel toks with
    | Except.error e => Except.error e
    | Except.ok (e, rest) => parseAddLoop fuel e rest

/-- The loop of `Parser::parseAdd` over `+` and `-`. -/
def parseAddLoop : Nat → Expr → List Token → PRes Expr
  | 0, _, _ => Except.error PErr.outOfFuel
  | _ + 1, _, [] => Except.error PErr.outOfBounds
  | fuel + 1, e, t :: rest =>
    if t.kind = TokKind.Plus ∨ t.kind = TokKind.Minus then
      match parseMul fuel rest with
      | Except.error err => Except.error err
      | Except.ok (r, rest2) => parseAddLoop fuel (Expr.EBin e t.kind r) rest2
    else Except.ok (e, t :: rest)

/-- `Parser::parseMul`. -/
def parseMul : Nat → List Token → PRes Expr
  | 0, _ => Except.error PErr.outOfFuel
  | fuel + 1, toks =>
    match parseUnary fuel toks with
    | Except.error e => Except.error e
    | Except.ok (e, rest) => parseMulLoop fuel e rest

/-- The loop of `Parser::parseMul` over `*`, `/` and `%`. -/
def parseMulLoop : Nat → Expr → List Token → PRes Expr
  | 0, _, _ => Except.error PErr.outOfFuel
  | _ + 1, _, [] => Except.error PErr.outOfBounds
  | fuel + 1, e, t :: rest =>
    if t.kind = TokKind.Star ∨ t.kind = TokKind.Slash ∨ t.kind = TokKind.Percent then
      match parseUnary fuel rest with
      | Except.error err => Except.error err
      | Except.ok (r, rest2) => parseMulLoop fuel (Expr.EBin e t.kind r) rest2
    else Except.ok (e, t :: rest)

/-- `Parser::parseUnary`. -/
def parseUnary : Nat → List Token → PRes Expr
  | 0, _ => Except.error PErr.outOfFuel
  | _ + 1, [] => Except.error PErr.outOfBounds
  | fuel + 1, t :: rest =>
    if t.kind = TokKind.Bang then
      match parseUnary fuel rest with
      | Except.error e => Except.error e
      | Except.ok (r, rest2) => Except.ok (Expr.EUnary TokKind.Bang r, rest2)
    else if t.kind = TokKind.Minus then
      match parseUnary fuel rest with
      | Except.error e => Except.error e
      | Except.ok (r, rest2) => Except.ok (Expr.EUnary TokKind.Minus r, rest2)
    else parsePostfix fuel (t :: rest)

/-- The list `parseExpr(); while (accept(Comma)) parseExpr();` of call
arguments and of array elements, entered when the next token is not the
closing bracket. -/
def parseExprList : Nat → List Token → PRes (List Expr)
  | 0, _ => Except.error PErr.outOfFuel
  | fuel + 1, toks =>
    match parseExpr fuel toks with
    | Except.error e => Except.error e
    | Except.ok (_, []) => Except.error PErr.outOfBounds
    | Except.ok (e, t :: rest) =>
      if t.kind = TokKind.Comma then
        match parseExprList fuel rest with
        | Except.error err => Except.error err
        | Except.ok (es, rest2) => Except.ok (e :: es, rest2)
      else Except.ok ([e], t :: rest)

/-- `Parser::parsePostfix`: the primary expression, then the index loop. -/
def parsePostfix : Nat → List Token → PRes Expr
  | 0, _ => Except.error PErr.outOfFuel
  | _ + 1, [] => Except.error PErr.outOfBounds
  | fuel + 1, t :: rest =>
    let primary : PRes Expr :=
      if t.kind = TokKind.Ident then
        match rest with
        | [] => Except.error PErr.outOfBounds
        | t1 :: rest1 =>
          if t1.kind = TokKind.LParen then
            match rest1 with
            | [] => Except.error PErr.outOfBounds
            | t2 :: rest2 =>
              if t2.kind ≠ TokKind.RParen then
                match parseExprList fuel (t2 :: rest2) with
                | Except.error e => Except.error e
                | Except.ok (args, rest3) =>
                  match expect TokKind.RParen "')'" rest3 with
                  | Except.error e => Except.error e
                  | Except.ok rest4 => Except.ok (Expr.ECall t.lexeme args, rest4)
              else Except.ok (Expr.ECall t.lexeme [], rest2)
          else Except.ok (Expr.EVar t.lexeme, t1 :: rest1)
      else if t.kind = TokKind.IntLit then Except.ok (Expr.EInt t.intValue, rest)
      else if t.kind = TokKind.True then Except.ok (Expr.EBool true, rest)
      else if t.kind = TokKind.False then Except.ok (Expr.EBool false, rest)
      else if t.kind = TokKind.LBracket then
        match rest with
        | [] => Except.error PErr.outOfBounds
        | t1 :: rest1 =>
          if t1.kind ≠ TokKind.RBracket then
            match parseExprList fuel (t1 :: rest1) with
            | Except.error e => Except.error e
            | Except.ok (elems, rest2) =>
              match expect TokKind.RBracket "']'" rest2 with
              | Except.error e => Except.error e
              | Except.ok rest3 => Except.ok (Expr.EArrayLit elems, rest3)
          else Except.ok (Expr.EArrayLit [], rest1)
      else if t.kind = TokKind.LParen then
        match parseExpr fuel rest with
        | Except.error e => Except.error e
        | Except.ok (e, rest1) =>
          match expect TokKind.RParen "')'" rest1 with
          | Except.error err => Except.error err
          | Except.ok rest2 => Except.ok (e, rest2)
      else Except.error (PErr.fatal "expected expression")
    match primary with
    | Except.error e => Except.error e
    | Except.ok (e, rest5) => parseIndexLoop fuel e rest5

/-- The loop `while (peek().kind == LBracket)` of `Parser::parsePostfix`. -/
def parseIndexLoop : Nat → Expr → List Token → PRes Expr
  | 0, _, _ => Except.error PErr.outOfFuel
  | _ + 1, _, [] => Except.error PErr.outOfBounds
  | fuel + 1, e, t :: rest =>
    if t.kind = TokKind.LBracket then
      match parseExpr fuel rest with
      | Except.error err => Except.error err
      | Except.ok (idx, rest1) =>
        match expect TokKind.RBracket "']'" rest1 with
        | Except.error err => Except.error err
        | Except.ok rest2 => parseIndexLoop fuel (Expr.EIndex e idx) rest2
    else Except.ok (e, t :: rest)

end

mutual

/-- `Parser::parseBlock`. -/
def parseBlock : Nat → List Token → PRes (List Stmt)
  | 0, _ => Except.error PErr.outOfFuel
  | fuel + 1, toks =>
    match expect TokKind.LBrace "'\x7b'" toks with
    | Except.error e => Except.error e
    | Except.ok rest =>
      match parseBlockLoop fuel rest with
      | Except.error e => Except.error e
      | Except.ok (stmts, rest1) =>
        match expect TokKind.RBrace "'\x7d'" rest1 with
        | Except.error e => Except.error e
        | Except.ok rest2 => Except.ok (stmts, rest2)

/-- The loop `while (peek().kind!=RBrace && peek().kind!=Eof)` of
`Parser::parseBlock`. -/
def parseBlockLoop : Nat → List Token → PRes (List Stmt)
  | 0, _ => Except.error PErr.outOfFuel
  | _ + 1, [] => Except.error PErr.outOfBounds
  | fuel + 1, t :: rest =>
    if t.kind ≠ TokKind.RBrace ∧ t.kind ≠ TokKind.Eof then
      match parseStmt fuel (t :: rest) with
      | Except.error e => Except.error e
      | Except.ok (st, rest1) =>
        match parseBlockLoop fuel rest1 with
        | Except.error e => Except.error e
        | Except.ok (stmts, rest2) => Except.ok (st :: stmts, rest2)
    else Except.ok ([], t :: rest)

/-- `Parser::parseStmt`. -/
def parseStmt : Nat → List Token → PRes Stmt
  | 0, _ => Except.error PErr.outOfFuel
  | _ + 1, [] => Except.error PErr.outOfBounds
  | fuel + 1, t :: rest =>
    if t.kind = TokKind.KwLet then
      let afterUnique : PRes Bool :=
        match rest with
        | [] => Except.error PErr.outOfBounds
        | t1 :: rest1 =>
          if t1.kind = TokKind.KwUnique then
            match expect TokKind.Lt "'<'" rest1 with
            | Except.error e => Except.error e
            | Except.ok rest2 =>
              match parseType fuel rest2 with
              | Except.error e => Except.error e
              | Except.ok (_, rest3) =>
                match expect TokKind.Gt "'>'" rest3 with
                | Except.error e => Except.error e
                | Except.ok rest4 => Except.ok (true, rest4)
          else Except.ok (false, t1 :: rest1)
      match afterUnique with
      | Except.error e => Except.error e
      | Except.ok (_, []) => Except.error PErr.outOfBounds
      | Except.ok (isUnique, tn :: rest5) =>
        if tn.kind ≠ TokKind.Ident then
          Except.error (PErr.fatal "expected identifier after 'let'")
        else
          let afterAnn : PRes (Option Ty) :=
            match rest5 with
            | [] => Except.error PErr.outOfBounds
            | t2 :: rest6 =>
              if t2.kind = TokKind.Colon then
                match parseType fuel rest6 with
                | Except.error e => Except.error e
                | Except.ok (ann, rest7) => Except.ok (some ann, rest7)
              else Except.ok (none, t2 :: rest6)
          match afterAnn with
          | Except.error e => Except.error e
          | Except.ok (ann, rest8) =>
            match expect TokKind.Eq "'='" rest8 with
            | Except.error e => Except.error e
            | Except.ok rest9 =>
              match parseExpr fuel rest9 with
              | Except.error e => Except.error e
              | Except.ok (init, rest10) =>
                match expect TokKind.Semicolon "';'" rest10 with
                | Except.error e => Except.error e
                | Except.ok rest11 => Except.ok (Stmt.SLet tn.lexeme ann init isUnique, rest11)
    else if t.kind = TokKind.KwReturn then
      match rest with
      | [] => Except.error PErr.outOfBounds
      | t1 :: rest1 =>
        if t1.kind = TokKind.Semicolon then Except.ok (Stmt.SReturn none, rest1)
        else
          match parseExpr fuel (t1 :: rest1) with
          | Except.error e => Except.error e
          | Except.ok (e, rest2) =>
            match expect TokKind.Semicolon "';'" rest2 with
            | Except.error err => Except.error err
            | Except.ok rest3 => Except.ok (Stmt.SReturn (some e), rest3)
    else if t.kind = TokKind.KwIf then
      match expect TokKind.LParen "'('" rest with
      | Except.error e => Except.error e
      | Except.ok rest1 =>
        match parseExpr fuel rest1 with
        | Except.error e => Except.error e
        | Except.ok (cond, rest2) =>
          match expect TokKind.RParen "')'" rest2 with
          | Except.error e => Except.error e
          | Except.ok rest3 =>
            match parseBlock fuel rest3 with
            | Except.error e => Except.error e
            | Except.ok (_, []) => Except.error PErr.outOfBounds
            | Except.ok (thenStmts, t4 :: rest4) =>
              if t4.kind = TokKind.KwElse then
                match parseBlock fuel rest4 with
                | Except.error e => Except.error e
                | Except.ok (elseStmts, rest5) =>
                  Except.ok (Stmt.SIf cond thenStmts elseStmts, rest5)
              else Except.ok (Stmt.SIf cond thenStmts [], t4 :: rest4)
    else if t.kind = TokKind.KwWhile then
      match expect TokKind.LParen "'('" rest with
      | Except.error e => Except.error e
      | Except.ok rest1 =>
        match parseExpr fuel rest1 with
        | Except.error e => Except.error e
        | Except.ok (cond, rest2) =>
          match expect TokKind.RParen "')'" rest2 with
          | Except.error e => Except.error e
          | Except.ok rest3 =>
            match parseBlock fuel rest3 with
            | Except.error e => Except.error e
            | Except.ok (body, rest4) => Except.ok (Stmt.SWhile cond body, rest4)
    else if t.kind = TokKind.KwDefer then
      match parseExpr fuel rest with
      | Except.error e => Except.error e
      | Except.ok (e, rest1) =>
        match expect TokKind.Semicolon "';'" rest1 with
        | Except.error err => Except.error err
        | Except.ok rest2 => Except.ok (Stmt.SDefer e, rest2)
    else if t.kind = TokKind.KwBreak then
      match expect TokKind.Semicolon "';'" rest with
      | Except.error e => Except.error e
      | Except.ok rest1 => Except.ok (Stmt.SBreak, rest1)
    else if t.kind = TokKind.KwContinue then
      match expect TokKind.Semicolon "';'" rest with
      | Except.error e => Except.error e
      | Except.ok rest1 => Except.ok (Stmt.SContinue, rest1)
    else
      match parseExpr fuel (t :: rest) with
      | Except.error e => Except.error e
      | Except.ok (e, rest1) =>
        match expect TokKind.Semicolon "';'" rest1 with
        | Except.error err => Except.error err
        | Except.ok rest2 => Except.ok (Stmt.SExpr e, rest2)

end

/-- The parameter loop `while (true) { ...; if (!accept(Comma)) break; }` of
`Parser::parseFunc`. -/
def parseParams : Nat → List Token → PRes (List Param)
  | 0, _ => Except.error PErr.outOfFuel
  | _ + 1, [] => Except.error PErr.outOfBounds
  | fuel + 1, t :: rest =>
    if t.kind ≠ TokKind.Ident then Except.error (PErr.fatal "expected parameter name")
    else
      match expect TokKind.Colon "':'" rest with
      | Except.error e => Except.error e
      | Except.ok rest1 =>
        match parseType fuel rest1 with
        | Except.error e => Except.error e
        | Except.ok (_, []) => Except.error PErr.outOfBounds
        | Except.ok (ty, t2 :: rest2) =>
          if t2.kind = TokKind.Comma then
            match parseParams fuel rest2 with
            | Except.error e => Except.error e
            | Except.ok (ps, rest3) => Except.ok ({ name := t.lexeme, ty := ty } :: ps, rest3)
          else Except.ok ([{ name := t.lexeme, ty := ty }], t2 :: rest2)

/-- `Parser::parseFunc`. -/
def parseFunc (fuel : Nat) (toks : List Token) : PRes Func :=
  match expect TokKind.KwFn "'fn'" toks with
  | Except.error e => Except.error e
  | Except.ok [] => Except.error PErr.outOfBounds
  | Except.ok (tn :: rest) =>
    if tn.kind ≠ TokKind.Ident then Except.error (PErr.fatal "expected function name")
    else
      match expect TokKind.LParen "'('" rest with
      | Except.error e => Except.error e
      | Except.ok [] => Except.error PErr.outOfBounds
      | Except.ok (t1 :: rest1) =>
        let params : PRes (List Param) :=
          if t1.kind ≠ TokKind.RParen then parseParams fuel (t1 :: rest1)
          else Except.ok ([], t1 :: rest1)
        match params with
        | Except.error e => Except.error e
        | Except.ok (ps, rest2) =>
          match expect TokKind.RParen "')'" rest2 with
          | Except.error e => Except.error e
          | Except.ok rest3 =>
            match expect TokKind.Arrow "'->'" rest3 with
            | Except.error e => Except.error e
            | Except.ok rest4 =>
              match parseType fuel rest4 with
              | Except.error e => Except.error e
              | Except.ok (ret, rest5) =>
                match parseBlock fuel rest5 with
                | Except.error e => Except.error e
                | Except.ok (body, rest6) =>
                  Except.ok ({ name := tn.lexeme, params := ps, ret := ret, body := body },
                    rest6)

/-- The loop of `Parser::parseProgram`. -/
def parseFuncs : Nat → List Token → Except PErr (List Func)
  | 0, _ => Except.error PErr.outOfFuel
  | _ + 1, [] => Except.error PErr.outOfBounds
  | fuel + 1, t :: rest =>
    if t.kind ≠ TokKind.Eof then
      match parseFunc fuel (t :: rest) with
      | Except.error e => Except.error e
      | Except.ok (fn, rest1) =>
        match parseFuncs fuel rest1 with
        | Except.error e => Except.error e
        | Except.ok fns => Except.ok (fn :: fns)
    else Except.ok []

/-- `Parser::parseProgram`, with the recursion bound `fuel`. -/
def parseProgram (fuel : Nat) (toks : List Token) : Except PErr Program :=
  match parseFuncs fuel toks with
  | Except.error e => Except.error e
  | Except.ok fns => Except.ok { funcs := fns }

/-- The front end as `main` runs it, lexer then parser, on a source string.
`none` when the lexer returns no token vector.  The recursion bound given to
the parser grows with the number of tokens. -/
def parseSource (src : String) : Option (Except PErr Program) :=
  match lexString src with
  | some (Except.ok toks) => some (parseProgram (16 * toks.length + 16) toks)
  | _ => none

/-! ## scope.h -/

structure VarInfo where
  ty : Ty
  isUnique : Bool
deriving Repr

/-- One frame of the scope stack, an `unordered_map<string, VarInfo>`. -/
abbrev Frame := List (String × VarInfo)

/-- The scope stack; the head of `stack` is `stack.back()`. -/
structure Scope where
  stack : List Frame
deriving Repr

namespace Scope

/-- The constructor `Scope(){ push(); }`. -/
def init : Scope := { stack := [[]] }

def push (s : Scope) : Scope := { stack := [] :: s.stack }

def pop (s : Scope) : Scope := { stack := s.stack.tail }

/-- `Scope::declare`.  On an empty stack `stack.back()` is undefined behaviour
in C++; the model then reports failure and changes nothing. -/
def declare (s : Scope) (n : String) (t : Ty) (isUnique : Bool) : Bool × Scope :=
  match s.stack with
  | [] => (false, s)
  | m :: rest =>
    if (m.lookup n).isSome then (false, s)
    else (true, { stack := ((n, { ty := t, isUnique := isUnique }) :: m) :: rest })

/-- The loop of `Scope::lookup`, from the innermost frame outward. -/
def lookupIn : List Frame → String → Option VarInfo
  | [], _ => none
  | m :: rest, n =>
    match m.lookup n with
    | some vi => some vi
    | none => lookupIn rest n

def lookup (s : Scope) (n : String) : Option VarInfo := lookupIn s.stack n

end Scope

/-! ## sema.h, sema.cpp -/

structure FnSig where
  params : List Ty
  ret : Ty
deriving Repr

/-- The function table, an `unordered_map<string, FnSig>`. -/
abbrev FnTable := List (String × FnSig)

/-- The assignment `fns[name] = sig`, which overwrites an existing entry. -/
def FnTable.set (t : FnTable) (name : String) (sig : FnSig) : FnTable :=
  (name, sig) :: t.filter (fun p => p.1 != name)

/-- The lookup `fns.find(name)`. -/
def FnTable.find (t : FnTable) (name : String) : Option FnSig := t.lookup name

structure Sema where
  scope : Scope
  fns : FnTable
  loopDepth : Int
deriving Repr

def isVoid (t : Ty) : Bool := t.k = TyKind.Void

/-- `requireNonVoid(t, where)`. -/
def requireNonVoid (t : Ty) (place : String) : Except String Unit :=
  if isVoid t then Except.error ("void value not allowed in " ++ place) else Except.ok ()

/-- `Sema::primaries`. -/
def Sema.primaries (s : Sema) : Sema :=
  let f1 := s.fns.set "print_i64" { params := [Ty.i64], ret := Ty.i64 }
  let f2 := f1.set "read_i64" { params := [], ret := Ty.i64 }
  let f3 := f2.set "malloc" { params := [Ty.i64], ret := Ty.ptr Ty.i64 }
  let f4 := f3.set "free" { params := [Ty.ptr Ty.i64], ret := Ty.voidty }
  { s with fns := f4 }

def isArithOp (op : TokKind) : Bool :=
  op = TokKind.Plus || op = TokKind.Minus || op = TokKind.Star ||
    op = TokKind.Slash || op = TokKind.Percent

def isCompareOp (op : TokKind) : Bool :=
  op = TokKind.EqEq || op = TokKind.BangEq || op = TokKind.Lt ||
    op = TokKind.Le || op = TokKind.Gt || op = TokKind.Ge

def isLogicOp (op : TokKind) : Bool :=
  op = TokKind.AmpAmp || op = TokKind.PipePipe

mutual

/-- `Sema::infer`.  It reads the scope stack and the function table and
changes neither. -/
def infer (scope : Scope) (fns : FnTable) : Expr → Except String Ty
  | Expr.EInt _ => Except.ok Ty.i64
  | Expr.EBool _ => Except.ok Ty.boolean
  | Expr.EVar name =>
    match scope.lookup name with
    | none => Except.error ("unknown variable: " ++ name)
    | some vi => Except.ok vi.ty.clone
  | Expr.EUnary _ rhs =>
    match infer scope fns rhs with
    | Except.error m => Except.error m
    | Except.ok t =>
      if isVoid t then Except.error ("void value not allowed in " ++ "unary operator")
      else Except.ok t.clone
  | Expr.EBin lhs op rhs =>
    if op = TokKind.Eq then
      match infer scope fns lhs with
      | Except.error m => Except.error m
      | Except.ok tL =>
        match infer scope fns rhs with
        | Except.error m => Except.error m
        | Except.ok tR =>
          if isVoid tR then Except.error "cannot assign a void value"
          else if !(tL.equals tR) then
            Except.error ("type mismatch in assignment: " ++ tL.str ++ " vs " ++ tR.str)
          else Except.ok tL
    else if isArithOp op then
      match infer scope fns lhs with
      | Except.error m => Except.error m
      | Except.ok lt =>
        match infer scope fns rhs with
        | Except.error m => Except.error m
        | Except.ok rt =>
          if isVoid lt then Except.error ("void value not allowed in " ++ "arithmetic operator")
          else if isVoid rt then
            Except.error ("void value not allowed in " ++ "arithmetic operator")
          else Except.ok Ty.i64
    else if isCompareOp op then
      match infer scope fns lhs with
      | Except.error m => Except.error m
      | Except.ok lt =>
        match infer scope fns rhs with
        | Except.error m => Except.error m
        | Except.ok rt =>
          if isVoid lt then Except.error ("void value not allowed in " ++ "comparison")
          else if isVoid rt then Except.error ("void value not allowed in " ++ "comparison")
          else Except.ok Ty.boolean
    else if isLogicOp op then
      match infer scope fns lhs with
      | Except.error m => Except.error m
      | Except.ok lt =>
        match infer scope fns rhs with
        | Except.error m => Except.error m
        | Except.ok rt =>
          if isVoid lt then Except.error ("void value not allowed in " ++ "logical operator")
          else if isVoid rt then
            Except.error ("void value not allowed in " ++ "logical operator")
          else Except.ok Ty.boolean
    else Except.error "cannot infer expression"
  | Expr.ECall callee args =>
    match fns.find callee with
    | none => Except.error ("unknown function: " ++ callee)
    | some sig =>
      if args.length ≠ sig.params.length then
        Except.error ("wrong number of arguments to " ++ callee)
      else
        match inferArgs scope fns callee 0 args sig.params with
        | Except.error m => Except.error m
        | Except.ok _ => Except.ok sig.ret.clone
  | Expr.EArrayLit elems =>
    match elems with
    | [] => Except.error "cannot infer type of empty array literal"
    | e0 :: rest =>
      match infer scope fns e0 with
      | Except.error m => Except.error m
      | Except.ok elemType =>
        match inferElems scope fns elemType rest with
        | Except.error m => Except.error m
        | Except.ok _ => Except.ok (Ty.array elemType (Int.ofNat (e0 :: rest).length))
  | Expr.EIndex arr idx =>
    match infer scope fns arr with
    | Except.error m => Except.error m
    | Except.ok arrType =>
      if arrType.k ≠ TyKind.Array ∧ arrType.k ≠ TyKind.Ptr then
        Except.error ("indexing requires array or pointer type, got: " ++ arrType.str)
      else
        match infer scope fns idx with
        | Except.error m => Except.error m
        | Except.ok idxType =>
          if idxType.k ≠ TyKind.I64 ∧ idxType.k ≠ TyKind.I32 then
            Except.error "array index must be integer"
          else
            match arrType.elem with
            | some t => Except.ok t.clone
            | none => Except.error "null element type dereferenced"

/-- The argument loop of the `ECall` case: `k` is the loop index, the third
list the parameters `sig.params[k..]`.  The caller has checked that both lists
have the same length, so the last case is never reached. -/
def inferArgs (scope : Scope) (fns : FnTable) (callee : String) :
    Nat → List Expr → List Ty → Except String Unit
  | _, [], _ => Except.ok ()
  | k, a :: rest, p :: ps =>
    match infer scope fns a with
    | Except.error m => Except.error m
    | Except.ok t =>
      if isVoid t then
        Except.error ("argument " ++ toString (k + 1) ++ " to " ++ callee ++ " is void")
      else if !(t.equals p) then
        Except.error ("argument " ++ toString (k + 1) ++ " type mismatch in " ++ callee)
      else inferArgs scope fns callee (k + 1) rest ps
  | _, _ :: _, [] => Except.error "parameter index out of range"

/-- The element loop of the `EArrayLit` case, over `elems[1..]`. -/
def inferElems (scope : Scope) (fns : FnTable) (elemType : Ty) :
    List Expr → Except String Unit
  | [] => Except.ok ()
  | e :: rest =>
    match infer scope fns e with
    | Except.error m => Except.error m
    | Except.ok t =>
      if !(t.equals elemType) then Except.error "array literal has mixed types"
      else inferElems scope fns elemType rest

end

/-- The expression `free(name)` that a `unique` binding records. -/
def freeCall (name : String) : Expr := Expr.ECall "free" [Expr.EVar name]

mutual

/-- `Sema::checkStmt`.  The result is the analyser state and the `defers`
vector after the call. -/
def checkStmt (currentRet : Option Ty) : Sema → List Expr → Stmt →
    Except String (Sema × List Expr)
  | s, defers, Stmt.SLet name annType init isUnique =>
    let inferred : Except String Ty :=
      match annType with
      | some a => Except.ok a.clone
      | none => infer s.scope s.fns init
    match inferred with
    | Except.error m => Except.error m
    | Except.ok t =>
      if t.k = TyKind.Void then
        Except.error ("variable '" ++ name ++ "' cannot have type void")
      else
        match s.scope.declare name t isUnique with
        | (false, _) => Except.error ("redeclaration: " ++ name)
        | (true, sc) =>
          if isUnique then Except.ok ({ s with scope := sc }, defers ++ [freeCall name])
          else Except.ok ({ s with scope := sc }, defers)
  | s, defers, Stmt.SExpr e =>
    match infer s.scope s.fns e with
    | Except.error m => Except.error m
    | Except.ok _ => Except.ok (s, defers)
  | s, defers, Stmt.SReturn e =>
    match currentRet with
    | none => Except.error "return outside function"
    | some ret =>
      if ret.k = TyKind.Void then
        match e with
        | some _ => Except.error "void function cannot return a value"
        | none => Except.ok (s, defers)
      else
        match e with
        | none => Except.error "non-void function must return a value"
        | some v =>
          match infer s.scope s.fns v with
          | Except.error m => Except.error m
          | Except.ok t =>
            if !(t.equals ret) then
              Except.error ("return type mismatch, expected " ++ ret.str ++ " got " ++ t.str)
            else Except.ok (s, defers)
  | s, defers, Stmt.SIf cond thenStmts elseStmts =>
    match infer s.scope s.fns cond with
    | Except.error m => Except.error m
    | Except.ok t =>
      if isVoid t then Except.error ("void value not allowed in " ++ "if condition")
      else
        match checkStmts currentRet { s with scope := s.scope.push } [] thenStmts with
        | Except.error m => Except.error m
        | Except.ok (s1, _) =>
          let s2 := { s1 with scope := s1.scope.pop }
          match checkStmts currentRet { s2 with scope := s2.scope.push } [] elseStmts with
          | Except.error m => Except.error m
          | Except.ok (s3, _) => Except.ok ({ s3 with scope := s3.scope.pop }, defers)
  | s, defers, Stmt.SWhile cond body =>
    match infer s.scope s.fns cond with
    | Except.error m => Except.error m
    | Except.ok t =>
      if isVoid t then Except.error ("void value not allowed in " ++ "while condition")
      else
        match checkStmts currentRet
            { s with scope := s.scope.push, loopDepth := s.loopDepth + 1 } [] body with
        | Except.error m => Except.error m
        | Except.ok (s1, _) =>
          Except.ok ({ s1 with scope := s1.scope.pop, loopDepth := s1.loopDepth - 1 }, defers)
  | s, defers, Stmt.SDefer e => Except.ok (s, defers ++ [e])
  | s, defers, Stmt.SBreak =>
    if s.loopDepth = 0 then Except.error "break statement outside of loop"
    else Except.ok (s, defers)
  | s, defers, Stmt.SContinue =>
    if s.loopDepth = 0 then Except.error "continue statement outside of loop"
    else Except.ok (s, defers)

/-- The loop `for (auto& st : stmts) checkStmt(*st, currentRet, defers)`. -/
def checkStmts (currentRet : Option Ty) : Sema → List Expr → List Stmt →
    Except String (Sema × List Expr)
  | s, defers, [] => Except.ok (s, defers)
  | s, defers, st :: rest =>
    match checkStmt currentRet s defers st with
    | Except.error m => Except.error m
    | Except.ok (s1, d1) => checkStmts currentRet s1 d1 rest

end

/-- The parameter loop of the signature pass for one function. -/
def gatherParams : List Param → Except String (List Ty)
  | [] => Except.ok []
  | pr :: rest =>
    if pr.ty.k = TyKind.Void then
      Except.error ("parameter '" ++ pr.name ++ "' cannot have type void")
    else
      match gatherParams rest with
      | Except.error m => Except.error m
      | Except.ok ps => Except.ok (pr.ty.clone :: ps)

/-- The first loop of `Sema::analyze`: gather function signatures. -/
def gatherSigs : FnTable → List Func → Except String FnTable
  | fns, [] => Except.ok fns
  | fns, fn :: rest =>
    match gatherParams fn.params with
    | Except.error m => Except.error m
    | Except.ok ps => gatherSigs (fns.set fn.name { params := ps, ret := fn.ret.clone }) rest

/-- The loop `for (auto& pr : fn->params) scope.declare(pr.name, pr.ty->clone())`;
the result of `declare` is ignored. -/
def declareParams : Scope → List Param → Scope
  | sc, [] => sc
  | sc, pr :: rest => declareParams (sc.declare pr.name pr.ty.clone false).2 rest

/-- The second loop of `Sema::analyze`: type-check the bodies. -/
def checkBodies : Sema → List Func → Except String Sema
  | s, [] => Except.ok s
  | s, fn :: rest =>
    let s1 := { s with scope := declareParams s.scope.push fn.params }
    match checkStmts (some fn.ret) s1 [] fn.body with
    | Except.error m => Except.error m
    | Except.ok (s2, _) => checkBodies { s2 with scope := s2.scope.pop } rest

/-- A freshly constructed `Sema`. -/
def Sema.fresh : Sema := { scope := Scope.init, fns := [], loopDepth := 0 }

/-- `Sema::analyze`, run on a freshly constructed `Sema` as `main` does. -/
def analyze (p : Program) : Except String Sema :=
  let s := Sema.fresh.primaries
  match gatherSigs s.fns p.funcs with
  | Except.error m => Except.error m
  | Except.ok fns => checkBodies { s with fns := fns } p.funcs

/-! ## codegen.h, codegen.cpp

The emitter builds LLVM IR through `llvm::IRBuilder`.  The model keeps what the
emitter decides: the types of values, the instructions it asks the builder to
create, the basic blocks and their order.  What LLVM itself does is modelled as
follows.

* Pointers are opaque (`ptr`), as in the LLVM releases that provide both
  `Type::getInt8PtrTy` and the header `llvm/TargetParser/Host.h`.
* Every `Create...` call appends one instruction to the insertion block.  The
  builder's constant folder may instead return a constant for an arithmetic,
  comparison or cast instruction whose operands are constants; the model
  records the instruction in that case too.  Allocas, loads, stores, calls,
  branches and returns are never folded.
* A value has the type LLVM gives it: a binary operator the type of its left
  operand, a comparison `i1`, a load the loaded type, a call the return type of
  the callee.
* `ConstantInt::get(ty, 0)` on a type that is not an integer type fails an
  LLVM assertion; the model reports it as an error.
* Block and value names are kept as given; LLVM's renaming of duplicates is
  not modelled.
* Of `llvm::verifyFunction` the model has two checks: every block ends with
  its only terminator, and every `ret` agrees with the return type of the
  function. -/

/-- An LLVM type. -/
inductive LType where
  | i1
  | i32
  | i64
  | void
  | ptr
  | array (elem : LType) (size : Int)
deriving Repr, DecidableEq

def LType.isArrayTy : LType → Bool
  | LType.array _ _ => true
  | _ => false

def LType.isPointerTy : LType → Bool
  | LType.ptr => true
  | _ => false

def LType.isIntegerTy : LType → Bool
  | LType.i1 => true
  | LType.i32 => true
  | LType.i64 => true
  | _ => false

/-- An LLVM value: a constant, a function argument, or the result of the
instruction numbered `id`. -/
inductive Value where
  | const (ty : LType) (v : Int)
  | arg (name : String) (ty : LType)
  | reg (id : Nat) (ty : LType)
deriving Repr, DecidableEq

/-- `Value::getType`. -/
def Value.type : Value → LType
  | Value.const ty _ => ty
  | Value.arg _ ty => ty
  | Value.reg _ ty => ty

/-- An instruction.  `op` stands for the value instructions (`neg`, `not`,
`add`, ..., `icmp`, `trunc`, `zext`); `dst` is the number of the result. -/
inductive Instr where
  | alloca (dst : Nat) (ty : LType) (name : String)
  | load (dst : Nat) (ty : LType) (ptr : Value)
  | store (val : Value) (ptr : Value)
  | gep (dst : Nat) (ty : LType) (ptr : Value) (idxs : List Value)
  | op (dst : Nat) (name : String) (ty : LType) (args : List Value)
  | call (dst : Nat) (callee : String) (ret : LType) (args : List Value)
  | ret (val : Value)
  | retVoid
  | br (target : Nat)
  | condBr (cond : Value) (ifTrue : Nat) (ifFalse : Nat)
deriving Repr, DecidableEq

def Instr.isTerminator : Instr → Bool
  | Instr.ret _ => true
  | Instr.retVoid => true
  | Instr.br _ => true
  | Instr.condBr _ _ _ => true
  | _ => false

/-- A basic block: its number, its label and its instructions in order. -/
structure Block where
  id : Nat
  label : String
  instrs : List Instr
deriving Repr, DecidableEq

/-- `BasicBlock::getTerminator`: the last instruction if it is a terminator. -/
def Block.getTerminator (b : Block) : Option Instr :=
  match b.instrs.getLast? with
  | some i => if i.isTerminator then some i else none
  | none => none

/-- A function of the module: signature and, once defined, the numbers of its
blocks in layout order. -/
structure LFunc where
  name : String
  params : List (String × LType)
  ret : LType
  layout : List Nat
deriving Repr, DecidableEq

/-- The state of `CodeGen` together with that of the builder: the functions of
the module, all blocks created so far, the index in `funcs` of the function
being defined, the insertion block, the next free number for blocks and results, the two name
maps and the two loop stacks (head = `back()`). -/
structure CG where
  funcs : List LFunc
  blocks : List Block
  curFn : Nat
  cur : Nat
  next : Nat
  namedValues : List (String × Value)
  namedTypes : List (String × LType)
  loopExitStack : List Nat
  loopContinueStack : List Nat
deriving Repr

/-- The emitter's monad: state passing with `fatal`. -/
abbrev Gen := StateT CG (Except String)

/-- `fatal(msg)`. -/
def Gen.fatal {α : Type} (msg : String) : Gen α := fun _ => Except.error msg

/-- The constructor `CodeGen::CodeGen`: the module with the five declarations. -/
def CG.init : CG :=
  { funcs := [{ name := "printf", params := [("", LType.ptr)], ret := LType.i32, layout := [] },
              { name := "malloc", params := [("", LType.i64)], ret := LType.ptr, layout := [] },
              { name := "free", params := [("", LType.ptr)], ret := LType.void, layout := [] },
              { name := "print_i64", params := [("", LType.i64)], ret := LType.i64,
                layout := [] },
              { name := "read_i64", params := [], ret := LType.i64, layout := [] }],
    blocks := [], curFn := 0, cur := 0, next := 0, namedValues := [], namedTypes := [],
    loopExitStack := [], loopContinueStack := [] }

/-- `CodeGen::tyLLVM`.  For a `Ptr` the element type does not matter, the
result is the opaque pointer type; for an `Array` with a null element type the
C++ dereferences a null pointer, which the model reports as `none`. -/
def tyLLVM : Ty → Option LType
  | Ty.mk TyKind.I32 _ _ => some LType.i32
  | Ty.mk TyKind.I64 _ _ => some LType.i64
  | Ty.mk TyKind.Bool _ _ => some LType.i1
  | Ty.mk TyKind.Void _ _ => some LType.void
  | Ty.mk TyKind.Ptr (some e) _ =>
    match tyLLVM e with
    | some _ => some LType.ptr
    | none => none
  | Ty.mk TyKind.Ptr none _ => none
  | Ty.mk TyKind.Array (some e) n =>
    match tyLLVM e with
    | some t => some (LType.array t n)
    | none => none
  | Ty.mk TyKind.Array none _ => none

/-- `tyLLVM` inside the emitter. -/
def genType (t : Ty) : Gen LType :=
  match tyLLVM t with
  | some l => pure l
  | none => Gen.fatal "null element type dereferenced"

/-- Append an instruction to the insertion block. -/
def CG.insert (s : CG) (i : Instr) : CG :=
  let put := fun (b : Block) =>
    if b.id = s.cur then { b with instrs := b.instrs ++ [i] } else b
  { s with blocks := s.blocks.map put }

/-- Create an instruction that has a result of type `ty`. -/
def emitVal (mk : Nat → Instr) (ty : LType) : Gen Value := fun s =>
  let s1 := s.insert (mk s.next)
  Except.ok (Value.reg s.next ty, { s1 with next := s.next + 1 })

/-- Create an instruction that has no result. -/
def emitVoid (i : Instr) : Gen Unit := fun s => Except.ok ((), s.insert i)

/-- Put the block `bb` at the end of the function being defined. -/
def CG.attach (s : CG) (bb : Nat) : CG :=
  match s.funcs[s.curFn]? with
  | some f => { s with funcs := s.funcs.set s.curFn { f with layout := f.layout ++ [bb] } }
  | none => s

/-- `BasicBlock::Create(ctx, label, parent)`; with `attach = false` the block
is created without a parent and is put into the function later. -/
def createBlock (label : String) (attach : Bool) : Gen Nat := fun s =>
  let b : Block := { id := s.next, label := label, instrs := [] }
  let s1 : CG := { s with blocks := s.blocks ++ [b], next := s.next + 1 }
  if attach then Except.ok (s.next, s1.attach s.next) else Except.ok (s.next, s1)

/-- `TheFunction->insert(TheFunction->end(), bb)`. -/
def attachBlock (bb : Nat) : Gen Unit := fun s => Except.ok ((), s.attach bb)

/-- The assignments `namedValues[name]=alloca; namedTypes[name]=ty;`. -/
def CG.bind (s : CG) (name : String) (alloca : Value) (ty : LType) : CG :=
  let vs := (name, alloca) :: s.namedValues.filter (fun p => p.1 != name)
  let ts := (name, ty) :: s.namedTypes.filter (fun p => p.1 != name)
  { s with namedValues := vs, namedTypes := ts }

/-- Entering a loop: `loopExitStack.push_back(EndBB);
loopContinueStack.push_back(CondBB);`. -/
def CG.pushLoop (s : CG) (endBB condBB : Nat) : CG :=
  { s with loopExitStack := endBB :: s.loopExitStack,
           loopContinueStack := condBB :: s.loopContinueStack }

/-- Leaving a loop: both stacks are popped. -/
def CG.popLoop (s : CG) : CG :=
  { s with loopExitStack := s.loopExitStack.tail,
           loopContinueStack := s.loopContinueStack.tail }

/-- `B.SetInsertPoint(bb)`. -/
def setInsertPoint (bb : Nat) : Gen Unit := fun s => Except.ok ((), { s with cur := bb })

/-- `B.GetInsertBlock()->getTerminator()` is not null. -/
def hasTerminator : Gen Bool := fun s =>
  match s.blocks.find? (fun b => b.id = s.cur) with
  | some b => Except.ok (b.getTerminator.isSome, s)
  | none => Except.ok (false, s)

/-- `ConstantInt::get(ty, 0)`. -/
def constZero (ty : LType) : Gen Value :=
  if ty.isIntegerTy then pure (Value.const ty 0)
  else Gen.fatal "llvm: ConstantInt::get on a type that is not an integer type"

/-- The name of the instruction that the `switch` of `genExpr` creates for a
binary operator, and whether it is a comparison. -/
def binInstr : TokKind → Option (String × Bool)
  | TokKind.Plus => some ("add", false)
  | TokKind.Minus => some ("sub", false)
  | TokKind.Star => some ("mul", false)
  | TokKind.Slash => some ("sdiv", false)
  | TokKind.Percent => some ("srem", false)
  | TokKind.EqEq => some ("icmp eq", true)
  | TokKind.BangEq => some ("icmp ne", true)
  | TokKind.Lt => some ("icmp slt", true)
  | TokKind.Le => some ("icmp sle", true)
  | TokKind.Gt => some ("icmp sgt", true)
  | TokKind.Ge => some ("icmp sge", true)
  | TokKind.AmpAmp => some ("and", false)
  | TokKind.PipePipe => some ("or", false)
  | _ => none

mutual

/-- `CodeGen::genExpr`. -/
def genExpr : Expr → Gen Value
  | Expr.EInt v => pure (Value.const LType.i64 v)
  | Expr.EBool b => pure (Value.const LType.i1 (if b then 1 else 0))
  | Expr.EVar name => do
    let s ← get
    match s.namedValues.lookup name with
    | none => Gen.fatal ("unknown var: " ++ name)
    | some slot =>
      match s.namedTypes.lookup name with
      | none => Gen.fatal ("unknown var type: " ++ name)
      | some ty =>
        if ty.isArrayTy then pure slot
        else emitVal (fun d => Instr.load d ty slot) ty
  | Expr.EUnary op rhs => do
    let r ← genExpr rhs
    if op = TokKind.Minus then emitVal (fun d => Instr.op d "neg" r.type [r]) r.type
    else if op = TokKind.Bang then emitVal (fun d => Instr.op d "not" r.type [r]) r.type
    else Gen.fatal "unary op"
  | Expr.EBin lhs op rhs =>
    if op = TokKind.Eq then
      match lhs with
      | Expr.EIndex arr idx =>
        match arr with
        | Expr.EVar arrName => do
          let s ← get
          match s.namedValues.lookup arrName with
          | none => Gen.fatal "unknown array/pointer variable in assignment"
          | some arrPtr =>
            match s.namedTypes.lookup arrName with
            | none => Gen.fatal "unknown array/pointer type"
            | some ty => do
              let index0 ← genExpr idx
              let index ←
                if index0.type ≠ LType.i32 then
                  emitVal (fun d => Instr.op d "trunc" LType.i32 [index0]) LType.i32
                else pure index0
              let ptr ←
                match ty with
                | LType.array _ _ =>
                  emitVal (fun d => Instr.gep d ty arrPtr [Value.const LType.i32 0, index])
                    LType.ptr
                | _ => do
                  let ptrValue ← emitVal (fun d => Instr.load d LType.ptr arrPtr) LType.ptr
                  emitVal (fun d => Instr.gep d LType.i64 ptrValue [index]) LType.ptr
              let rv ← genExpr rhs
              emitVoid (Instr.store rv ptr)
              pure rv
        | _ => Gen.fatal "array/pointer indexing on non-variable"
      | Expr.EVar name => do
        let s ← get
        match s.namedValues.lookup name with
        | none => Gen.fatal "unknown var in assign"
        | some slot => do
          let rv ← genExpr rhs
          emitVoid (Instr.store rv slot)
          pure rv
      | _ => Gen.fatal "assignment target must be a variable"
    else do
      let a ← genExpr lhs
      let b ← genExpr rhs
      match binInstr op with
      | some (name, isCmp) =>
        emitVal (fun d => Instr.op d name (if isCmp then LType.i1 else a.type) [a, b])
          (if isCmp then LType.i1 else a.type)
      | none => Gen.fatal "binary op"
  | Expr.ECall callee args => do
    let s ← get
    match s.funcs.find? (fun f => f.name = callee) with
    | none => Gen.fatal ("unknown callee: " ++ callee)
    | some f => do
      let argv ← genArgs args
      emitVal (fun d => Instr.call d callee f.ret argv) f.ret
  | Expr.EArrayLit elems =>
    match elems with
    | [] => Gen.fatal "empty array literal"
    | e0 :: rest => do
      let first ← genExpr e0
      let arrayType := LType.array first.type (Int.ofNat (e0 :: rest).length)
      let alloca ← emitVal (fun d => Instr.alloca d arrayType "array_lit") LType.ptr
      genElems arrayType alloca 0 (e0 :: rest)
      pure alloca
  | Expr.EIndex arr idx => do
    let arrExpr ← genExpr arr
    if !arrExpr.type.isPointerTy then Gen.fatal "array/pointer expression must be a pointer"
    else do
      let s ← get
      let varType : Option LType :=
        match arr with
        | Expr.EVar arrName => s.namedTypes.lookup arrName
        | _ => none
      let arrayType : Option LType :=
        match varType with
        | some (LType.array e n) => some (LType.array e n)
        | _ => none
      let elemType : LType :=
        match arrayType with
        | some (LType.array e _) => e
        | _ => LType.i64
      let index0 ← genExpr idx
      let index ←
        if index0.type = LType.i64 then
          emitVal (fun d => Instr.op d "trunc" LType.i32 [index0]) LType.i32
        else pure index0
      let gep ←
        match arrayType with
        | some aty =>
          emitVal (fun d => Instr.gep d aty arrExpr [Value.const LType.i32 0, index]) LType.ptr
        | none => emitVal (fun d => Instr.gep d elemType arrExpr [index]) LType.ptr
      emitVal (fun d => Instr.load d elemType gep) elemType

/-- The loop `for (auto& a : c->args) argv.push_back(genExpr(*a))`. -/
def genArgs : List Expr → Gen (List Value)
  | [] => pure []
  | a :: rest => do
    let v ← genExpr a
    let vs ← genArgs rest
    pure (v :: vs)

/-- The initialisation loop of an array: for the element number `i` a
two-index GEP, the element, and the store. -/
def genElems (arrayType : LType) (alloca : Value) : Nat → List Expr → Gen Unit
  | _, [] => pure ()
  | i, e :: rest => do
    let ptr ← emitVal
      (fun d => Instr.gep d arrayType alloca
        [Value.const LType.i32 0, Value.const LType.i32 (Int.ofNat i)]) LType.ptr
    let v ← genExpr e
    emitVoid (Instr.store v ptr)
    genElems arrayType alloca (i + 1) rest

end

/-- `CodeGen::runDefers`: the deferred expressions in reverse order.  No
function of the emitter calls it. -/
def runDefers : List Expr → Gen Unit
  | [] => pure ()
  | e :: rest => do
    runDefers rest
    let _ ← genExpr e
    pure ()

/-- The type of the stack slot that `genStmt` chooses for a `let`. -/
def letType (annType : Option Ty) (init : Expr) : Gen LType :=
  match annType with
  | some a => genType a
  | none =>
    match init with
    | Expr.EInt _ => pure LType.i64
    | Expr.EBool _ => pure LType.i1
    | Expr.EArrayLit [] => pure LType.i64
    | Expr.EArrayLit (e0 :: rest) => do
      let first ← genExpr e0
      pure (LType.array first.type (Int.ofNat (e0 :: rest).length))
    | _ => pure LType.i64

mutual

/-- `CodeGen::genStmt`. -/
def genStmt : Stmt → Gen Unit
  | Stmt.SLet name annType init _ => do
    let ty ← letType annType init
    let alloca ← emitVal (fun d => Instr.alloca d ty name) LType.ptr
    match init with
    | Expr.EArrayLit elems => do
      match elems with
      | [] => pure ()
      | e0 :: _ => do
        let _ ← genExpr e0
        pure ()
      genElems ty alloca 0 elems
    | _ => do
      let val0 ← genExpr init
      let val ←
        if val0.type ≠ ty then
          if val0.type = LType.i1 ∧ ty = LType.i64 then
            emitVal (fun d => Instr.op d "zext" ty [val0]) ty
          else if val0.type = LType.i64 ∧ ty = LType.i1 then
            emitVal (fun d => Instr.op d "icmp ne" LType.i1 [val0, Value.const val0.type 0])
              LType.i1
          else pure val0
        else pure val0
      emitVoid (Instr.store val alloca)
    modify (fun s => s.bind name alloca ty)
  | Stmt.SExpr e => do
    let _ ← genExpr e
    pure ()
  | Stmt.SReturn (some e) => do
    let rv ← genExpr e
    emitVoid (Instr.ret rv)
  | Stmt.SReturn none => emitVoid Instr.retVoid
  | Stmt.SIf cond thenStmts elseStmts => do
    let c0 ← genExpr cond
    let zero ← constZero c0.type
    let c ← emitVal (fun d => Instr.op d "icmp ne" LType.i1 [c0, zero]) LType.i1
    let thenBB ← createBlock "then" true
    let elseBB ← createBlock "else" false
    let mergeBB ← createBlock "ifend" false
    emitVoid (Instr.condBr c thenBB elseBB)
    setInsertPoint thenBB
    genStmts thenStmts
    if !(← hasTerminator) then emitVoid (Instr.br mergeBB)
    attachBlock elseBB
    setInsertPoint elseBB
    genStmts elseStmts
    if !(← hasTerminator) then emitVoid (Instr.br mergeBB)
    attachBlock mergeBB
    setInsertPoint mergeBB
  | Stmt.SWhile cond body => do
    let condBB ← createBlock "while.cond" true
    let bodyBB ← createBlock "while.body" false
    let endBB ← createBlock "while.end" false
    modify (fun s => s.pushLoop endBB condBB)
    emitVoid (Instr.br condBB)
    setInsertPoint condBB
    let c0 ← genExpr cond
    let zero ← constZero c0.type
    let c ← emitVal (fun d => Instr.op d "icmp ne" LType.i1 [c0, zero]) LType.i1
    emitVoid (Instr.condBr c bodyBB endBB)
    attachBlock bodyBB
    setInsertPoint bodyBB
    genStmts body
    if !(← hasTerminator) then emitVoid (Instr.br condBB)
    modify (fun s => s.popLoop)
    attachBlock endBB
    setInsertPoint endBB
  | Stmt.SDefer _ => pure ()
  | Stmt.SBreak => do
    let s ← get
    match s.loopExitStack with
    | [] => Gen.fatal "break statement outside of loop"
    | target :: _ => do
      emitVoid (Instr.br target)
      let after ← createBlock "after.break" true
      setInsertPoint after
  | Stmt.SContinue => do
    let s ← get
    match s.loopContinueStack with
    | [] => Gen.fatal "continue statement outside of loop"
    | target :: _ => do
      emitVoid (Instr.br target)
      let after ← createBlock "after.continue" true
      setInsertPoint after

/-- The loop `for (auto& st : stmts) genStmt(*st, fn)`. -/
def genStmts : List Stmt → Gen Unit
  | [] => pure ()
  | st :: rest => do
    genStmt st
    genStmts rest

end

/-- The first loop of `CodeGen::emit` for one function: its declaration.  The
assignment `functions[fn->name]=F` makes the latest declaration of a name the
one that is defined. -/
def declareFunc (fn : Func) : Gen Unit := do
  let params ← fn.params.mapM (fun pr => do
    let t ← genType pr.ty
    pure (pr.name, t))
  let ret ← genType fn.ret
  let f : LFunc := { name := fn.name, params := params, ret := ret, layout := [] }
  modify (fun s => { s with funcs := s.funcs ++ [f] })

/-- The parameter loop of `CodeGen::emit`: a slot for each argument. -/
def genParams : List (String × LType) → Gen Unit
  | [] => pure ()
  | (name, ty) :: rest => do
    let alloca ← emitVal (fun d => Instr.alloca d ty name) LType.ptr
    emitVoid (Instr.store (Value.arg name ty) alloca)
    modify (fun s => s.bind name alloca ty)
    genParams rest

/-- The two modelled checks of `llvm::verifyFunction` on the blocks `bs` of a
function that returns `ret`: true when the function is found broken. -/
def verifyFunction (ret : LType) (bs : List Block) : Bool :=
  !(bs.all (fun b =>
    b.getTerminator.isSome &&
    (b.instrs.dropLast.all (fun i => !i.isTerminator)) &&
    (b.instrs.all (fun i =>
      match i with
      | Instr.ret v => decide (v.type = ret)
      | Instr.retVoid => decide (ret = LType.void)
      | _ => true))))

/-- The index of the function that `functions[name]` refers to: the latest
declaration of that name. -/
def latestDecl (fs : List LFunc) (name : String) : Option Nat :=
  match (fs.enum.filter (fun p => p.2.name = name)).getLast? with
  | some p => some p.1
  | none => none

/-- The second loop of `CodeGen::emit` for one function: its definition. -/
def defineFunc (fn : Func) : Gen Unit := do
  let s ← get
  match latestDecl s.funcs fn.name with
  | none => Gen.fatal "function not declared"
  | some i =>
    match s.funcs[i]? with
    | none => Gen.fatal "function not declared"
    | some f => do
      modify (fun s => { s with curFn := i, namedValues := [], namedTypes := [] })
      let entry ← createBlock "entry" true
      setInsertPoint entry
      genParams f.params
      genStmts fn.body
      if !(← hasTerminator) then
        if fn.ret.k = TyKind.I64 then emitVoid (Instr.ret (Value.const LType.i64 0))
        else if fn.ret.k = TyKind.Bool then emitVoid (Instr.ret (Value.const LType.i1 0))
        else emitVoid Instr.retVoid
      let s2 ← get
      match s2.funcs[i]? with
      | none => Gen.fatal "function not declared"
      | some g =>
        if verifyFunction g.ret (s2.blocks.filter (fun b => g.layout.contains b.id)) then
          Gen.fatal "invalid function IR"
        else pure ()

/-- `CodeGen::emit` on the freshly constructed `CodeGen`. -/
def emit (p : Program) : Except String CG :=
  match (do p.funcs.forM declareFunc; p.funcs.forM defineFunc : Gen Unit) CG.init with
  | Except.error m => Except.error m
  | Except.ok (_, s) => Except.ok s

/-- The instructions of all blocks of the module. -/
def CG.allInstrs (s : CG) : List Instr := s.blocks.flatMap (fun b => b.instrs)

/-- The number of `call free` instructions in the module. -/
def CG.freeCalls (s : CG) : Nat :=
  (s.allInstrs.filter (fun i =>
    match i with
    | Instr.call _ callee _ _ => callee = "free"
    | _ => false)).length

/-! ## Programs of the specification's scenarios, as syntax trees -/

/-- Scenario 5: `fn main() -> i64 { let x: bool = 1; return 0; }`. -/
def scenario5 : Program :=
  Program.mk [Func.mk "main" [] Ty.i64
    [Stmt.SLet "x" (some Ty.boolean) (Expr.EInt 1) false,
     Stmt.SReturn (some (Expr.EInt 0))]]

/-- `fn main() -> i64 { let x: i64 = y; return 0; }`: the initializer names a
variable that is bound nowhere. -/
def unboundInit : Program :=
  Program.mk [Func.mk "main" [] Ty.i64
    [Stmt.SLet "x" (some Ty.i64) (Expr.EVar "y") false,
     Stmt.SReturn (some (Expr.EInt 0))]]

/-- `fn main() -> i64 { let x = y; return 0; }`: the program `unboundInit`
without the annotation. -/
def unboundPlain : Program :=
  Program.mk [Func.mk "main" [] Ty.i64
    [Stmt.SLet "x" none (Expr.EVar "y") false,
     Stmt.SReturn (some (Expr.EInt 0))]]

/-- `fn main() -> i64 { let x: bool = true; x = 1; return 0; }`: the mismatch
of scenario 5, `bool` against `i64`, in an assignment. -/
def boolAssign : Program :=
  Program.mk [Func.mk "main" [] Ty.i64
    [Stmt.SLet "x" (some Ty.boolean) (Expr.EBool true) false,
     Stmt.SExpr (Expr.EBin (Expr.EVar "x") TokKind.Eq (Expr.EInt 1)),
     Stmt.SReturn (some (Expr.EInt 0))]]

/-- `fn main() -> bool { return 1; }`: the mismatch of scenario 5 in a
`return`. -/
def boolReturn : Program :=
  Program.mk [Func.mk "main" [] Ty.boolean [Stmt.SReturn (some (Expr.EInt 1))]]

/-- Scenario 6: `fn main() -> i64 { break; return 0; }`. -/
def scenario6 : Program :=
  Program.mk [Func.mk "main" [] Ty.i64
    [Stmt.SBreak, Stmt.SReturn (some (Expr.EInt 0))]]

/-- `fn main() -> i64 { continue; return 0; }`. -/
def continueOutside : Program :=
  Program.mk [Func.mk "main" [] Ty.i64
    [Stmt.SContinue, Stmt.SReturn (some (Expr.EInt 0))]]

/-- Scenario 2:
`fn main() -> i64 { let s = 0; let i = 0; while (i < 10) { i = i + 1;
 if (i == 5) { continue; } if (i == 8) { break; } s = s + i; } return s; }`. -/
def scenario2 : Program :=
  Program.mk [Func.mk "main" [] Ty.i64
    [Stmt.SLet "s" none (Expr.EInt 0) false,
     Stmt.SLet "i" none (Expr.EInt 0) false,
     Stmt.SWhile (Expr.EBin (Expr.EVar "i") TokKind.Lt (Expr.EInt 10))
       [Stmt.SExpr (Expr.EBin (Expr.EVar "i") TokKind.Eq
          (Expr.EBin (Expr.EVar "i") TokKind.Plus (Expr.EInt 1))),
        Stmt.SIf (Expr.EBin (Expr.EVar "i") TokKind.EqEq (Expr.EInt 5)) [Stmt.SContinue] [],
        Stmt.SIf (Expr.EBin (Expr.EVar "i") TokKind.EqEq (Expr.EInt 8)) [Stmt.SBreak] [],
        Stmt.SExpr (Expr.EBin (Expr.EVar "s") TokKind.Eq
          (Expr.EBin (Expr.EVar "s") TokKind.Plus (Expr.EVar "i")))],
     Stmt.SReturn (some (Expr.EVar "s"))]]

/-- Scenario 4:
`fn main() -> i64 { let unique<i64> p = malloc(8); p[0] = 42; return p[0]; }`. -/
def scenario4 : Program :=
  Program.mk [Func.mk "main" [] Ty.i64
    [Stmt.SLet "p" none (Expr.ECall "malloc" [Expr.EInt 8]) true,
     Stmt.SExpr (Expr.EBin (Expr.EIndex (Expr.EVar "p") (Expr.EInt 0)) TokKind.Eq
       (Expr.EInt 42)),
     Stmt.SReturn (some (Expr.EIndex (Expr.EVar "p") (Expr.EInt 0)))]]

/-- `fn main() -> i64 { let unique<i64> p = malloc(8); return 0; }`. -/
def uniqueOnly : Program :=
  Program.mk [Func.mk "main" [] Ty.i64
    [Stmt.SLet "p" none (Expr.ECall "malloc" [Expr.EInt 8]) true,
     Stmt.SReturn (some (Expr.EInt 0))]]

/-- `fn main() -> i64 { let unique<i64> p: ptr<i64> = malloc(8); p[0] = 42;
return p[0]; }`: scenario 4 with the slot type given by an annotation. -/
def scenario4Annotated : Program :=
  Program.mk [Func.mk "main" [] Ty.i64
    [Stmt.SLet "p" (some (Ty.ptr Ty.i64)) (Expr.ECall "malloc" [Expr.EInt 8]) true,
     Stmt.SExpr (Expr.EBin (Expr.EIndex (Expr.EVar "p") (Expr.EInt 0)) TokKind.Eq
       (Expr.EInt 42)),
     Stmt.SReturn (some (Expr.EIndex (Expr.EVar "p") (Expr.EInt 0)))]]

/-! ## The scenario programs as source text -/

/-- The source text of `scenario5`. -/
def scenario5Src : String :=
  "fn main() -> i64 \x7b let x: bool = 1; return 0; \x7d"

/-- The tokens of `scenario5Src`. -/
def scenario5Toks : List Token :=
  [⟨TokKind.KwFn, "fn", 0, 1, 1⟩,
   ⟨TokKind.Ident, "main", 0, 1, 4⟩,
   ⟨TokKind.LParen, "", 0, 1, 8⟩,
   ⟨TokKind.RParen, "", 0, 1, 9⟩,
   ⟨TokKind.Arrow, "", 0, 1, 11⟩,
   ⟨TokKind.KwI64, "i64", 0, 1, 14⟩,
   ⟨TokKind.LBrace, "", 0, 1, 18⟩,
   ⟨TokKind.KwLet, "let", 0, 1, 20⟩,
   ⟨TokKind.Ident, "x", 0, 1, 24⟩,
   ⟨TokKind.Colon, "", 0, 1, 25⟩,
   ⟨TokKind.KwBool, "bool", 0, 1, 27⟩,
   ⟨TokKind.Eq, "", 0, 1, 32⟩,
   ⟨TokKind.IntLit, "1", 1, 1, 34⟩,
   ⟨TokKind.Semicolon, "", 0, 1, 35⟩,
   ⟨TokKind.KwReturn, "return", 0, 1, 37⟩,
   ⟨TokKind.IntLit, "0", 0, 1, 44⟩,
   ⟨TokKind.Semicolon, "", 0, 1, 45⟩,
   ⟨TokKind.RBrace, "", 0, 1, 47⟩,
   ⟨TokKind.Eof, "", 0, 1, 48⟩]

/-- The source text of `scenario2`. -/
def scenario2Src : String :=
  "fn main() -> i64 \x7b let s = 0; let i = 0; while (i < 10) \x7b i = i + 1; i" ++
    "f (i == 5) \x7b continue; \x7d if (i == 8) \x7b break; \x7d s = s + i; \x7d return s;" ++
    " \x7d"

/-- The tokens of `scenario2Src`. -/
def scenario2Toks : List Token :=
  [⟨TokKind.KwFn, "fn", 0, 1, 1⟩,
   ⟨TokKind.Ident, "main", 0, 1, 4⟩,
   ⟨TokKind.LParen, "", 0, 1, 8⟩,
   ⟨TokKind.RParen, "", 0, 1, 9⟩,
   ⟨TokKind.Arrow, "", 0, 1, 11⟩,
   ⟨TokKind.KwI64, "i64", 0, 1, 14⟩,
   ⟨TokKind.LBrace, "", 0, 1, 18⟩,
   ⟨TokKind.KwLet, "let", 0, 1, 20⟩,
   ⟨TokKind.Ident, "s", 0, 1, 24⟩,
   ⟨TokKind.Eq, "", 0, 1, 26⟩,
   ⟨TokKind.IntLit, "0", 0, 1, 28⟩,
   ⟨TokKind.Semicolon, "", 0, 1, 29⟩,
   ⟨TokKind.KwLet, "let", 0, 1, 31⟩,
   ⟨TokKind.Ident, "i", 0, 1, 35⟩,
   ⟨TokKind.Eq, "", 0, 1, 37⟩,
   ⟨TokKind.IntLit, "0", 0, 1, 39⟩,
   ⟨TokKind.Semicolon, "", 0, 1, 40⟩,
   ⟨TokKind.KwWhile, "while", 0, 1, 42⟩,
   ⟨TokKind.LParen, "", 0, 1, 48⟩,
   ⟨TokKind.Ident, "i", 0, 1, 49⟩,
   ⟨TokKind.Lt, "", 0, 1, 51⟩,
   ⟨TokKind.IntLit, "10", 10, 1, 53⟩,
   ⟨TokKind.RParen, "", 0, 1, 55⟩,
   ⟨TokKind.LBrace, "", 0, 1, 57⟩,
   ⟨TokKind.Ident, "i", 0, 1, 59⟩,
   ⟨TokKind.Eq, "", 0, 1, 61⟩,
   ⟨TokKind.Ident, "i", 0, 1, 63⟩,
   ⟨TokKind.Plus, "", 0, 1, 65⟩,
   ⟨TokKind.IntLit, "1", 1, 1, 67⟩,
   ⟨TokKind.Semicolon, "", 0, 1, 68⟩,
   ⟨TokKind.KwIf, "if", 0, 1, 70⟩,
   ⟨TokKind.LParen, "", 0, 1, 73⟩,
   ⟨TokKind.Ident, "i", 0, 1, 74⟩,
   ⟨TokKind.EqEq, "", 0, 1, 76⟩,
   ⟨TokKind.IntLit, "5", 5, 1, 79⟩,
   ⟨TokKind.RParen, "", 0, 1, 80⟩,
   ⟨TokKind.LBrace, "", 0, 1, 82⟩,
   ⟨TokKind.KwContinue, "continue", 0, 1, 84⟩,
   ⟨TokKind.Semicolon, "", 0, 1, 92⟩,
   ⟨TokKind.RBrace, "", 0, 1, 94⟩,
   ⟨TokKind.KwIf, "if", 0, 1, 96⟩,
   ⟨TokKind.LParen, "", 0, 1, 99⟩,
   ⟨TokKind.Ident, "i", 0, 1, 100⟩,
   ⟨TokKind.EqEq, "", 0, 1, 102⟩,
   ⟨TokKind.IntLit, "8", 8, 1, 105⟩,
   ⟨TokKind.RParen, "", 0, 1, 106⟩,
   ⟨TokKind.LBrace, "", 0, 1, 108⟩,
   ⟨TokKind.KwBreak, "break", 0, 1, 110⟩,
   ⟨TokKind.Semicolon, "", 0, 1, 115⟩,
   ⟨TokKind.RBrace, "", 0, 1, 117⟩,
   ⟨TokKind.Ident, "s", 0, 1, 119⟩,
   ⟨TokKind.Eq, "", 0, 1, 121⟩,
   ⟨TokKind.Ident, "s", 0, 1, 123⟩,
   ⟨TokKind.Plus, "", 0, 1, 125⟩,
   ⟨TokKind.Ident, "i", 0, 1, 127⟩,
   ⟨TokKind.Semicolon, "", 0, 1, 128⟩,
   ⟨TokKind.RBrace, "", 0, 1, 130⟩,
   ⟨TokKind.KwReturn, "return", 0, 1, 132⟩,
   ⟨TokKind.Ident, "s", 0, 1, 139⟩,
   ⟨TokKind.Semicolon, "", 0, 1, 140⟩,
   ⟨TokKind.RBrace, "", 0, 1, 142⟩,
   ⟨TokKind.Eof, "", 0, 1, 143⟩]

/-- The source text of `scenario6`. -/
def scenario6Src : String :=
  "fn main() -> i64 \x7b break; return 0; \x7d"

/-- The tokens of `scenario6Src`. -/
def scenario6Toks : List Token :=
  [⟨TokKind.KwFn, "fn", 0, 1, 1⟩,
   ⟨TokKind.Ident, "main", 0, 1, 4⟩,
   ⟨TokKind.LParen, "", 0, 1, 8⟩,
   ⟨TokKind.RParen, "", 0, 1, 9⟩,
   ⟨TokKind.Arrow, "", 0, 1, 11⟩,
   ⟨TokKind.KwI64, "i64", 0, 1, 14⟩,
   ⟨TokKind.LBrace, "", 0, 1, 18⟩,
   ⟨TokKind.KwBreak, "break", 0, 1, 20⟩,
   ⟨TokKind.Semicolon, "", 0, 1, 25⟩,
   ⟨TokKind.KwReturn, "return", 0, 1, 27⟩,
   ⟨TokKind.IntLit, "0", 0, 1, 34⟩,
   ⟨TokKind.Semicolon, "", 0, 1, 35⟩,
   ⟨TokKind.RBrace, "", 0, 1, 37⟩,
   ⟨TokKind.Eof, "", 0, 1, 38⟩]

/-- The source text of `continueOutside`. -/
def continueOutsideSrc : String :=
  "fn main() -> i64 \x7b continue; return 0; \x7d"

/-- The tokens of `continueOutsideSrc`. -/
def continueOutsideToks : List Token :=
  [⟨TokKind.KwFn, "fn", 0, 1, 1⟩,
   ⟨TokKind.Ident, "main", 0, 1, 4⟩,
   ⟨TokKind.LParen, "", 0, 1, 8⟩,
   ⟨TokKind.RParen, "", 0, 1, 9⟩,
   ⟨TokKind.Arrow, "", 0, 1, 11⟩,
   ⟨TokKind.KwI64, "i64", 0, 1, 14⟩,
   ⟨TokKind.LBrace, "", 0, 1, 18⟩,
   ⟨TokKind.KwContinue, "continue", 0, 1, 20⟩,
   ⟨TokKind.Semicolon, "", 0, 1, 28⟩,
   ⟨TokKind.KwReturn, "return", 0, 1, 30⟩,
   ⟨TokKind.IntLit, "0", 0, 1, 37⟩,
   ⟨TokKind.Semicolon, "", 0, 1, 38⟩,
   ⟨TokKind.RBrace, "", 0, 1, 40⟩,
   ⟨TokKind.Eof, "", 0, 1, 41⟩]

/-- The source text of `unboundInit`. -/
def unboundInitSrc : String :=
  "fn main() -> i64 \x7b let x: i64 = y; return 0; \x7d"

/-- The tokens of `unboundInitSrc`. -/
def unboundInitToks : List Token :=
  [⟨TokKind.KwFn, "fn", 0, 1, 1⟩,
   ⟨TokKind.Ident, "main", 0, 1, 4⟩,
   ⟨TokKind.LParen, "", 0, 1, 8⟩,
   ⟨TokKind.RParen, "", 0, 1, 9⟩,
   ⟨TokKind.Arrow, "", 0, 1, 11⟩,
   ⟨TokKind.KwI64, "i64", 0, 1, 14⟩,
   ⟨TokKind.LBrace, "", 0, 1, 18⟩,
   ⟨TokKind.KwLet, "let", 0, 1, 20⟩,
   ⟨TokKind.Ident, "x", 0, 1, 24⟩,
   ⟨TokKind.Colon, "", 0, 1, 25⟩,
   ⟨TokKind.KwI64, "i64", 0, 1, 27⟩,
   ⟨TokKind.Eq, "", 0, 1, 31⟩,
   ⟨TokKind.Ident, "y", 0, 1, 33⟩,
   ⟨TokKind.Semicolon, "", 0, 1, 34⟩,
   ⟨TokKind.KwReturn, "return", 0, 1, 36⟩,
   ⟨TokKind.IntLit, "0", 0, 1, 43⟩,
   ⟨TokKind.Semicolon, "", 0, 1, 44⟩,
   ⟨TokKind.RBrace, "", 0, 1, 46⟩,
   ⟨TokKind.Eof, "", 0, 1, 47⟩]

/-- The source text of `scenario4`. -/
def scenario4Src : String :=
  "fn main() -> i64 \x7b let unique<i64> p = malloc(8); p[0] = 42; return p[" ++
    "0]; \x7d"

/-- The tokens of `scenario4Src`. -/
def scenario4Toks : List Token :=
  [⟨TokKind.KwFn, "fn", 0, 1, 1⟩,
   ⟨TokKind.Ident, "main", 0, 1, 4⟩,
   ⟨TokKind.LParen, "", 0, 1, 8⟩,
   ⟨TokKind.RParen, "", 0, 1, 9⟩,
   ⟨TokKind.Arrow, "", 0, 1, 11⟩,
   ⟨TokKind.KwI64, "i64", 0, 1, 14⟩,
   ⟨TokKind.LBrace, "", 0, 1, 18⟩,
   ⟨TokKind.KwLet, "let", 0, 1, 20⟩,
   ⟨TokKind.KwUnique, "unique", 0, 1, 24⟩,
   ⟨TokKind.Lt, "", 0, 1, 30⟩,
   ⟨TokKind.KwI64, "i64", 0, 1, 31⟩,
   ⟨TokKind.Gt, "", 0, 1, 34⟩,
   ⟨TokKind.Ident, "p", 0, 1, 36⟩,
   ⟨TokKind.Eq, "", 0, 1, 38⟩,
   ⟨TokKind.Ident, "malloc", 0, 1, 40⟩,
   ⟨TokKind.LParen, "", 0, 1, 46⟩,
   ⟨TokKind.IntLit, "8", 8, 1, 47⟩,
   ⟨TokKind.RParen, "", 0, 1, 48⟩,
   ⟨TokKind.Semicolon, "", 0, 1, 49⟩,
   ⟨TokKind.Ident, "p", 0, 1, 51⟩,
   ⟨TokKind.LBracket, "", 0, 1, 52⟩,
   ⟨TokKind.IntLit, "0", 0, 1, 53⟩,
   ⟨TokKind.RBracket, "", 0, 1, 54⟩,
   ⟨TokKind.Eq, "", 0, 1, 56⟩,
   ⟨TokKind.IntLit, "42", 42, 1, 58⟩,
   ⟨TokKind.Semicolon, "", 0, 1, 60⟩,
   ⟨TokKind.KwReturn, "return", 0, 1, 62⟩,
   ⟨TokKind.Ident, "p", 0, 1, 69⟩,
   ⟨TokKind.LBracket, "", 0, 1, 70⟩,
   ⟨TokKind.IntLit, "0", 0, 1, 71⟩,
   ⟨TokKind.RBracket, "", 0, 1, 72⟩,
   ⟨TokKind.Semicolon, "", 0, 1, 73⟩,
   ⟨TokKind.RBrace, "", 0, 1, 75⟩,
   ⟨TokKind.Eof, "", 0, 1, 76⟩]

/-- The source text of `uniqueOnly`. -/
def uniqueOnlySrc : String :=
  "fn main() -> i64 \x7b let unique<i64> p = malloc(8); return 0; \x7d"

/-- The tokens of `uniqueOnlySrc`. -/
def uniqueOnlyToks : List Token :=
  [⟨TokKind.KwFn, "fn", 0, 1, 1⟩,
   ⟨TokKind.Ident, "main", 0, 1, 4⟩,
   ⟨TokKind.LParen, "", 0, 1, 8⟩,
   ⟨TokKind.RParen, "", 0, 1, 9⟩,
   ⟨TokKind.Arrow, "", 0, 1, 11⟩,
   ⟨TokKind.KwI64, "i64", 0, 1, 14⟩,
   ⟨TokKind.LBrace, "", 0, 1, 18⟩,
   ⟨TokKind.KwLet, "let", 0, 1, 20⟩,
   ⟨TokKind.KwUnique, "unique", 0, 1, 24⟩,
   ⟨TokKind.Lt, "", 0, 1, 30⟩,
   ⟨TokKind.KwI64, "i64", 0, 1, 31⟩,
   ⟨TokKind.Gt, "", 0, 1, 34⟩,
   ⟨TokKind.Ident, "p", 0, 1, 36⟩,
   ⟨TokKind.Eq, "", 0, 1, 38⟩,
   ⟨TokKind.Ident, "malloc", 0, 1, 40⟩,
   ⟨TokKind.LParen, "", 0, 1, 46⟩,
   ⟨TokKind.IntLit, "8", 8, 1, 47⟩,
   ⟨TokKind.RParen, "", 0, 1, 48⟩,
   ⟨TokKind.Semicolon, "", 0, 1, 49⟩,
   ⟨TokKind.KwReturn, "return", 0, 1, 51⟩,
   ⟨TokKind.IntLit, "0", 0, 1, 58⟩,
   ⟨TokKind.Semicolon, "", 0, 1, 59⟩,
   ⟨TokKind.RBrace, "", 0, 1, 61⟩,
   ⟨TokKind.Eof, "", 0, 1, 62⟩]

/-! ## Decidable equality of results, for evaluation on concrete inputs -/

deriving instance DecidableEq for Except

deriving instance DecidableEq for CG

/-- The lexer loop returned a token vector that ends with an `Eof` token and
holds no other `Eof` token, or it was ended by an exception; the iteration
bound of the model was not reached. -/
def LexResult.wellEnded (r : LexResult) : Prop :=
  (∃ x, r = some x) ∧
    ∀ ts, r = some (Except.ok ts) →
      ∃ init e, ts = init ++ [e] ∧ e.kind = TokKind.Eof ∧ ∀ t ∈ init, t.kind ≠ TokKind.Eof

/-- The character `c`, followed in the input by `rest`, can start no token:
it is not `'\0'`, white space, a letter, `_`, a digit or one of the
punctuation characters, and if it is `&` or `|` it is a lone one. -/
def startsNoToken (c : Char) (rest : List Char) : Bool :=
  c != '\x00' && !isspace c && !c.isAlpha && c != '_' && !c.isDigit &&
    !(['(', ')', '[', ']', '{', '}', ',', ':', ';', '+', '-', '*', '/', '%', '!', '=', '<',
       '>'].contains c) &&
    !(c = '&' && rest.head? = some '&') && !(c = '|' && rest.head? = some '|')

/-! ## The precedence ladder, stated independently of the parser -/

/-- The level of a binary operator on the ladder, from 1 (lowest, `||`) to 6
(highest, `*` `/` `%`); `none` for a token that is no binary operator. -/
def binLevel : TokKind → Option Nat
  | TokKind.PipePipe => some 1
  | TokKind.AmpAmp => some 2
  | TokKind.EqEq => some 3
  | TokKind.BangEq => some 3
  | TokKind.Lt => some 4
  | TokKind.Le => some 4
  | TokKind.Gt => some 4
  | TokKind.Ge => some 4
  | TokKind.Plus => some 5
  | TokKind.Minus => some 5
  | TokKind.Star => some 6
  | TokKind.Slash => some 6
  | TokKind.Percent => some 6
  | _ => none

/-- A token of this kind after an operand cannot continue the expression: it
is no binary operator, no assignment operator, and opens neither a call nor an
index. -/
def endsExpr (k : TokKind) : Bool :=
  (binLevel k).isNone && k != TokKind.Eq && !isCompoundAssign k &&
    k != TokKind.LParen && k != TokKind.LBracket

/-- The function of the parser that parses the operators of level `r` and
above: `parseOr` for level 1 up to `parseMul` for level 6, and `parseUnary`,
the operand parser of level 6, beyond. -/
def parseAt : Nat → Nat → List Token → PRes Expr
  | 1 => parseOr
  | 2 => parseAnd
  | 3 => parseEq
  | 4 => parseRel
  | 5 => parseAdd
  | 6 => parseMul
  | _ => parseUnary

/-- The operator loop of the function for level `r`. -/
def loopAt : Nat → Nat → Expr → List Token → PRes Expr
  | 1 => parseOrLoop
  | 2 => parseAndLoop
  | 3 => parseEqLoop
  | 4 => parseRelLoop
  | 5 => parseAddLoop
  | 6 => parseMulLoop
  | _ => fun _ e toks => Except.ok (e, toks)

/-- With any recursion bound of at least `n`, the parsing function `p` reads
the expression `e` from `toks` and leaves `rest` unread. -/
def ParsesTo (p : Nat → List Token → PRes Expr) (n : Nat) (toks : List Token) (e : Expr)
    (rest : List Token) : Prop :=
  ∀ fuel, n ≤ fuel → p fuel toks = Except.ok (e, rest)

/-- With any recursion bound of at least `n`, the operator loop `p`, entered
with the left operand `e0`, returns `e` and leaves `rest` unread. -/
def LoopsTo (p : Nat → Expr → List Token → PRes Expr) (n : Nat) (e0 : Expr)
    (toks : List Token) (e : Expr) (rest : List Token) : Prop :=
  ∀ fuel, n ≤ fuel → p fuel e0 toks = Except.ok (e, rest)

/-! ## Lexical visibility of names, stated independently of the checker -/

mutual

/-- The names of the variable references (`EVar`) occurring in an expression. -/
def Expr.vars : Expr → List String
  | Expr.EInt _ => []
  | Expr.EBool _ => []
  | Expr.EVar name => [name]
  | Expr.EUnary _ rhs => rhs.vars
  | Expr.EBin lhs _ rhs => lhs.vars ++ rhs.vars
  | Expr.ECall _ args => varsOfList args
  | Expr.EArrayLit elems => varsOfList elems
  | Expr.EIndex arr idx => arr.vars ++ idx.vars

def varsOfList : List Expr → List String
  | [] => []
  | e :: rest => e.vars ++ varsOfList rest

end

/-- Every variable reference of `e` names a member of `vis`. -/
def Expr.varsIn (vis : List String) (e : Expr) : Bool :=
  e.vars.all (fun n => vis.contains n)

/-- The names visible after a statement of a block, given those visible
before it: a `let` adds its name for the rest of the block. -/
def visibleAfter : Stmt → List String → List String
  | Stmt.SLet name _ _ _, vis => name :: vis
  | _, vis => vis

mutual

/-- Variable references resolve lexically.  `vis` lists the parameters and
let-bindings visible at the statement.  With `strict = true` every expression
of the statement is examined; with `strict = false` the initializer of an
annotated `let` and the expression of a `defer` are left out. -/
def stmtVarsOk (strict : Bool) : List String → Stmt → Bool
  | vis, Stmt.SLet _ annType init _ => (annType.isSome && !strict) || init.varsIn vis
  | vis, Stmt.SExpr e => e.varsIn vis
  | _, Stmt.SReturn none => true
  | vis, Stmt.SReturn (some e) => e.varsIn vis
  | vis, Stmt.SIf cond thenStmts elseStmts =>
    cond.varsIn vis && stmtsVarsOk strict vis thenStmts && stmtsVarsOk strict vis elseStmts
  | vis, Stmt.SWhile cond body => cond.varsIn vis && stmtsVarsOk strict vis body
  | vis, Stmt.SDefer e => !strict || e.varsIn vis
  | _, Stmt.SBreak => true
  | _, Stmt.SContinue => true

def stmtsVarsOk (strict : Bool) : List String → List Stmt → Bool
  | _, [] => true
  | vis, st :: rest =>
    stmtVarsOk strict vis st && stmtsVarsOk strict (visibleAfter st vis) rest

end

/-- Variable references of a function body resolve; the parameters are visible
throughout. -/
def Func.varsOk (strict : Bool) (f : Func) : Bool :=
  stmtsVarsOk strict (f.params.map (fun pr => pr.name)) f.body

def Program.varsOk (strict : Bool) (p : Program) : Bool :=
  p.funcs.all (fun f => f.varsOk strict)

/-! ## Lexical loop nesting, stated independently of the checker -/

mutual

/-- Lexical nesting of `break` and `continue`.  `inLoop` tells whether the
statement is inside a `while` body of its function.  With `brk = true` every
`break` of the statement must be inside a `while` body, with `cont = true`
every `continue`. -/
def stmtLoopsOk (brk cont : Bool) : Bool → Stmt → Bool
  | inLoop, Stmt.SBreak => !brk || inLoop
  | inLoop, Stmt.SContinue => !cont || inLoop
  | inLoop, Stmt.SIf _ thenStmts elseStmts =>
    stmtsLoopsOk brk cont inLoop thenStmts && stmtsLoopsOk brk cont inLoop elseStmts
  | _, Stmt.SWhile _ body => stmtsLoopsOk brk cont true body
  | _, Stmt.SLet _ _ _ _ => true
  | _, Stmt.SExpr _ => true
  | _, Stmt.SReturn _ => true
  | _, Stmt.SDefer _ => true

def stmtsLoopsOk (brk cont : Bool) : Bool → List Stmt → Bool
  | _, [] => true
  | inLoop, st :: rest =>
    stmtLoopsOk brk cont inLoop st && stmtsLoopsOk brk cont inLoop rest

end

/-- Every `break` (if `brk`) and every `continue` (if `cont`) of the program
is inside a `while` body of its function. -/
def Program.loopsOk (brk cont : Bool) (p : Program) : Bool :=
  p.funcs.all (fun f => stmtsLoopsOk brk cont false f.body)

/-- The two diagnostics of the loop check. -/
def isLoopMsg (m : String) : Bool :=
  m = "break statement outside of loop" || m = "continue statement outside of loop"

/-- The diagnostic for a misplaced `break` (`isBrk = true`) or `continue`. -/
def loopMsg (isBrk : Bool) : String :=
  if isBrk then "break statement outside of loop" else "continue statement outside of loop"

/-! ## Further programs, as syntax trees -/

/-- `fn main() -> i64 { let x = 1; let x = 2; return x; }`: the second `let`
names a variable of the same frame. -/
def redeclSame : Program :=
  Program.mk [Func.mk "main" [] Ty.i64
    [Stmt.SLet "x" none (Expr.EInt 1) false,
     Stmt.SLet "x" none (Expr.EInt 2) false,
     Stmt.SReturn (some (Expr.EVar "x"))]]

/-- `fn main() -> i64 { let x = 1; if (x == 1) { let x = true; }
while (x < 0) { let x = 2; } return x; }`: the inner `let`s name a variable of
the enclosing frame. -/
def shadowNested : Program :=
  Program.mk [Func.mk "main" [] Ty.i64
    [Stmt.SLet "x" none (Expr.EInt 1) false,
     Stmt.SIf (Expr.EBin (Expr.EVar "x") TokKind.EqEq (Expr.EInt 1))
       [Stmt.SLet "x" none (Expr.EBool true) false] [],
     Stmt.SWhile (Expr.EBin (Expr.EVar "x") TokKind.Lt (Expr.EInt 0))
       [Stmt.SLet "x" none (Expr.EInt 2) false],
     Stmt.SReturn (some (Expr.EVar "x"))]]

/-- The function `fn main() -> i64 { return twice(4); }`. -/
def mainCallsTwice : Func :=
  Func.mk "main" [] Ty.i64 [Stmt.SReturn (some (Expr.ECall "twice" [Expr.EInt 4]))]

/-- The function `fn twice(n: i64) -> i64 { let m: i64 = n; return m + n; }`. -/
def twice : Func :=
  Func.mk "twice" [Param.mk "n" Ty.i64] Ty.i64
    [Stmt.SLet "m" (some Ty.i64) (Expr.EVar "n") false,
     Stmt.SReturn (some (Expr.EBin (Expr.EVar "m") TokKind.Plus (Expr.EVar "n")))]

/-- The program with `main` first: its call of `twice` is a forward reference. -/
def forwardCall : Program := Program.mk [mainCallsTwice, twice]

/-- The same functions with the callee first. -/
def backwardCall : Program := Program.mk [twice, mainCallsTwice]

/-- `fn even(n: i64) -> bool { if (n == 0) { return true; } return odd(n - 1); }
fn odd(n: i64) -> bool { if (n == 0) { return false; } return even(n - 1); }`. -/
def mutualRec : Program :=
  Program.mk
    [Func.mk "even" [Param.mk "n" Ty.i64] Ty.boolean
       [Stmt.SIf (Expr.EBin (Expr.EVar "n") TokKind.EqEq (Expr.EInt 0))
          [Stmt.SReturn (some (Expr.EBool true))] [],
        Stmt.SReturn (some (Expr.ECall "odd"
          [Expr.EBin (Expr.EVar "n") TokKind.Minus (Expr.EInt 1)]))],
     Func.mk "odd" [Param.mk "n" Ty.i64] Ty.boolean
       [Stmt.SIf (Expr.EBin (Expr.EVar "n") TokKind.EqEq (Expr.EInt 0))
          [Stmt.SReturn (some (Expr.EBool false))] [],
        Stmt.SReturn (some (Expr.ECall "even"
          [Expr.EBin (Expr.EVar "n") TokKind.Minus (Expr.EInt 1)]))]]

/-- `fn f(p: ptr<void>) -> i64 { let a: void[2] = 0; let b = [free(malloc(8))];
return 0; }`: `void` inside the type of a parameter, of an annotation and of
an inferred variable type. -/
def nestedVoid : Program :=
  Program.mk [Func.mk "f" [Param.mk "p" (Ty.ptr Ty.voidty)] Ty.i64
    [Stmt.SLet "a" (some (Ty.array Ty.voidty 2)) (Expr.EInt 0) false,
     Stmt.SLet "b" none
       (Expr.EArrayLit [Expr.ECall "free" [Expr.ECall "malloc" [Expr.EInt 8]]]) false,
     Stmt.SReturn (some (Expr.EInt 0))]]

/-- `fn main() -> i64 { let x = 1; x = x + (2 * 3); return x; }`. -/
def compoundTree : Program :=
  Program.mk [Func.mk "main" [] Ty.i64
    [Stmt.SLet "x" none (Expr.EInt 1) false,
     Stmt.SExpr (Expr.EBin (Expr.EVar "x") TokKind.Eq
       (Expr.EBin (Expr.EVar "x") TokKind.Plus
         (Expr.EBin (Expr.EInt 2) TokKind.Star (Expr.EInt 3)))),
     Stmt.SReturn (some (Expr.EVar "x"))]]

/-- Source texts whose compound assignment has, on its left, an index
expression, a call, a literal, a unary expression, a binary expression. -/
def compoundLhsSrcs : List String :=
  ["fn main() -> i64 \x7b a[0] += 1; return 0; \x7d",
   "fn main() -> i64 \x7b f() -= 1; return 0; \x7d",
   "fn main() -> i64 \x7b 1 *= 1; return 0; \x7d",
   "fn main() -> i64 \x7b -a /= 1; return 0; \x7d",
   "fn main() -> i64 \x7b a + b %= 1; return 0; \x7d"]

/-- The front end stopped with the parser's diagnostic `msg`. -/
def failsWith (r : Option (Except PErr Program)) (msg : String) : Bool :=
  match r with
  | some (Except.error (PErr.fatal m)) => m == msg
  | _ => false

/-! ## Further programs as source text -/

/-- The source text of `nestedVoid`. -/
def nestedVoidSrc : String :=
  "fn f(p: ptr<void>) -> i64 \x7b let a: void[2] = 0; let b = [free(malloc(8" ++
    "))]; return 0; \x7d"

/-- The tokens of `nestedVoidSrc`. -/
def nestedVoidToks : List Token :=
  [⟨TokKind.KwFn, "fn", 0, 1, 1⟩,
   ⟨TokKind.Ident, "f", 0, 1, 4⟩,
   ⟨TokKind.LParen, "", 0, 1, 5⟩,
   ⟨TokKind.Ident, "p", 0, 1, 6⟩,
   ⟨TokKind.Colon, "", 0, 1, 7⟩,
   ⟨TokKind.KwPtr, "ptr", 0, 1, 9⟩,
   ⟨TokKind.Lt, "", 0, 1, 12⟩,
   ⟨TokKind.KwVoid, "void", 0, 1, 13⟩,
   ⟨TokKind.Gt, "", 0, 1, 17⟩,
   ⟨TokKind.RParen, "", 0, 1, 18⟩,
   ⟨TokKind.Arrow, "", 0, 1, 20⟩,
   ⟨TokKind.KwI64, "i64", 0, 1, 23⟩,
   ⟨TokKind.LBrace, "", 0, 1, 27⟩,
   ⟨TokKind.KwLet, "let", 0, 1, 29⟩,
   ⟨TokKind.Ident, "a", 0, 1, 33⟩,
   ⟨TokKind.Colon, "", 0, 1, 34⟩,
   ⟨TokKind.KwVoid, "void", 0, 1, 36⟩,
   ⟨TokKind.LBracket, "", 0, 1, 40⟩,
   ⟨TokKind.IntLit, "2", 2, 1, 41⟩,
   ⟨TokKind.RBracket, "", 0, 1, 42⟩,
   ⟨TokKind.Eq, "", 0, 1, 44⟩,
   ⟨TokKind.IntLit, "0", 0, 1, 46⟩,
   ⟨TokKind.Semicolon, "", 0, 1, 47⟩,
   ⟨TokKind.KwLet, "let", 0, 1, 49⟩,
   ⟨TokKind.Ident, "b", 0, 1, 53⟩,
   ⟨TokKind.Eq, "", 0, 1, 55⟩,
   ⟨TokKind.LBracket, "", 0, 1, 57⟩,
   ⟨TokKind.Ident, "free", 0, 1, 58⟩,
   ⟨TokKind.LParen, "", 0, 1, 62⟩,
   ⟨TokKind.Ident, "malloc", 0, 1, 63⟩,
   ⟨TokKind.LParen, "", 0, 1, 69⟩,
   ⟨TokKind.IntLit, "8", 8, 1, 70⟩,
   ⟨TokKind.RParen, "", 0, 1, 71⟩,
   ⟨TokKind.RParen, "", 0, 1, 72⟩,
   ⟨TokKind.RBracket, "", 0, 1, 73⟩,
   ⟨TokKind.Semicolon, "", 0, 1, 74⟩,
   ⟨TokKind.KwReturn, "return", 0, 1, 76⟩,
   ⟨TokKind.IntLit, "0", 0, 1, 83⟩,
   ⟨TokKind.Semicolon, "", 0, 1, 84⟩,
   ⟨TokKind.RBrace, "", 0, 1, 86⟩,
   ⟨TokKind.Eof, "", 0, 1, 87⟩]

/-- A function with the compound assignment `x += 2 * 3`. -/
def compoundSrc : String :=
  "fn main() -> i64 \x7b let x = 1; x += 2 * 3; return x; \x7d"

/-- The tokens of `compoundSrc`. -/
def compoundToks : List Token :=
  [⟨TokKind.KwFn, "fn", 0, 1, 1⟩,
   ⟨TokKind.Ident, "main", 0, 1, 4⟩,
   ⟨TokKind.LParen, "", 0, 1, 8⟩,
   ⟨TokKind.RParen, "", 0, 1, 9⟩,
   ⟨TokKind.Arrow, "", 0, 1, 11⟩,
   ⟨TokKind.KwI64, "i64", 0, 1, 14⟩,
   ⟨TokKind.LBrace, "", 0, 1, 18⟩,
   ⟨TokKind.KwLet, "let", 0, 1, 20⟩,
   ⟨TokKind.Ident, "x", 0, 1, 24⟩,
   ⟨TokKind.Eq, "", 0, 1, 26⟩,
   ⟨TokKind.IntLit, "1", 1, 1, 28⟩,
   ⟨TokKind.Semicolon, "", 0, 1, 29⟩,
   ⟨TokKind.Ident, "x", 0, 1, 31⟩,
   ⟨TokKind.PlusEq, "", 0, 1, 33⟩,
   ⟨TokKind.IntLit, "2", 2, 1, 36⟩,
   ⟨TokKind.Star, "", 0, 1, 38⟩,
   ⟨TokKind.IntLit, "3", 3, 1, 40⟩,
   ⟨TokKind.Semicolon, "", 0, 1, 41⟩,
   ⟨TokKind.KwReturn, "return", 0, 1, 43⟩,
   ⟨TokKind.Ident, "x", 0, 1, 50⟩,
   ⟨TokKind.Semicolon, "", 0, 1, 51⟩,
   ⟨TokKind.RBrace, "", 0, 1, 53⟩,
   ⟨TokKind.Eof, "", 0, 1, 54⟩]

/-- The same function with the plain assignment `x = x + (2 * 3)`. -/
def plainSrc : String :=
  "fn main() -> i64 \x7b let x = 1; x = x + (2 * 3); return x; \x7d"

/-- The tokens of `plainSrc`. -/
def plainToks : List Token :=
  [⟨TokKind.KwFn, "fn", 0, 1, 1⟩,
   ⟨TokKind.Ident, "main", 0, 1, 4⟩,
   ⟨TokKind.LParen, "", 0, 1, 8⟩,
   ⟨TokKind.RParen, "", 0, 1, 9⟩,
   ⟨TokKind.Arrow, "", 0, 1, 11⟩,
   ⟨TokKind.KwI64, "i64", 0, 1, 14⟩,
   ⟨TokKind.LBrace, "", 0, 1, 18⟩,
   ⟨TokKind.KwLet, "let", 0, 1, 20⟩,
   ⟨TokKind.Ident, "x", 0, 1, 24⟩,
   ⟨TokKind.Eq, "", 0, 1, 26⟩,
   ⟨TokKind.IntLit, "1", 1, 1, 28⟩,
   ⟨TokKind.Semicolon, "", 0, 1, 29⟩,
   ⟨TokKind.Ident, "x", 0, 1, 31⟩,
   ⟨TokKind.Eq, "", 0, 1, 33⟩,
   ⟨TokKind.Ident, "x", 0, 1, 35⟩,
   ⟨TokKind.Plus, "", 0, 1, 37⟩,
   ⟨TokKind.LParen, "", 0, 1, 39⟩,
   ⟨TokKind.IntLit, "2", 2, 1, 40⟩,
   ⟨TokKind.Star, "", 0, 1, 42⟩,
   ⟨TokKind.IntLit, "3", 3, 1, 44⟩,
   ⟨TokKind.RParen, "", 0, 1, 45⟩,
   ⟨TokKind.Semicolon, "", 0, 1, 46⟩,
   ⟨TokKind.KwReturn, "return", 0, 1, 48⟩,
   ⟨TokKind.Ident, "x", 0, 1, 55⟩,
   ⟨TokKind.Semicolon, "", 0, 1, 56⟩,
   ⟨TokKind.RBrace, "", 0, 1, 58⟩,
   ⟨TokKind.Eof, "", 0, 1, 59⟩]


/-! ## Declared types of variables, stated independently of the checker -/

/-- The type a `let` gives its variable in the scope `sc`:
`sl->annType ? sl->annType->clone() : infer(*sl->init)`. -/
def declaredType (sc : Scope) (fns : FnTable) (annType : Option Ty) (init : Expr) :
    Except String Ty :=
  match annType with
  | some a => Except.ok a.clone
  | none => infer sc fns init

/-- The scope after a statement of a block: a `let` declares its variable in
the innermost frame, every other statement leaves the scope as it was. -/
def scopeAfter (fns : FnTable) (sc : Scope) : Stmt → Scope
  | Stmt.SLet name annType init isUnique =>
    match declaredType sc fns annType init with
    | Except.ok t => (sc.declare name t isUnique).2
    | Except.error _ => sc
  | _ => sc

mutual

/-- Every `let` of the statement, at any depth, gives its variable a type, and
that type is not `void`.  `sc` is the scope at the statement. -/
def stmtDeclsNonVoid (fns : FnTable) : Scope → Stmt → Bool
  | sc, Stmt.SLet _ annType init _ =>
    match declaredType sc fns annType init with
    | Except.ok t => t.k != TyKind.Void
    | Except.error _ => false
  | sc, Stmt.SIf _ thenStmts elseStmts =>
    stmtsDeclsNonVoid fns sc.push thenStmts && stmtsDeclsNonVoid fns sc.push elseStmts
  | sc, Stmt.SWhile _ body => stmtsDeclsNonVoid fns sc.push body
  | _, Stmt.SExpr _ => true
  | _, Stmt.SReturn _ => true
  | _, Stmt.SDefer _ => true
  | _, Stmt.SBreak => true
  | _, Stmt.SContinue => true

def stmtsDeclsNonVoid (fns : FnTable) : Scope → List Stmt → Bool
  | _, [] => true
  | sc, st :: rest =>
    stmtDeclsNonVoid fns sc st && stmtsDeclsNonVoid fns (scopeAfter fns sc st) rest

end

/-- The type is `void` or has `void` inside it, at any depth. -/
def Ty.hasVoid : Ty → Bool
  | Ty.mk k (some e) _ => k = TyKind.Void || Ty.hasVoid e
  | Ty.mk k none _ => k = TyKind.Void

/-! ## Operators of a syntax tree -/

mutual

/-- No operator of the expression, at any depth, is a compound assignment
operator. -/
def Expr.noCompound : Expr → Bool
  | Expr.EInt _ => true
  | Expr.EBool _ => true
  | Expr.EVar _ => true
  | Expr.EUnary op rhs => !isCompoundAssign op && rhs.noCompound
  | Expr.EBin lhs op rhs => !isCompoundAssign op && lhs.noCompound && rhs.noCompound
  | Expr.ECall _ args => noCompoundList args
  | Expr.EArrayLit elems => noCompoundList elems
  | Expr.EIndex arr idx => arr.noCompound && idx.noCompound

def noCompoundList : List Expr → Bool
  | [] => true
  | e :: rest => e.noCompound && noCompoundList rest

end

mutual

/-- No expression of the statement holds a compound assignment operator. -/
def Stmt.noCompound : Stmt → Bool
  | Stmt.SLet _ _ init _ => init.noCompound
  | Stmt.SExpr e => e.noCompound
  | Stmt.SReturn none => true
  | Stmt.SReturn (some e) => e.noCompound
  | Stmt.SIf cond thenStmts elseStmts =>
    cond.noCompound && stmtsNoCompound thenStmts && stmtsNoCompound elseStmts
  | Stmt.SWhile cond body => cond.noCompound && stmtsNoCompound body
  | Stmt.SDefer e => e.noCompound
  | Stmt.SBreak => true
  | Stmt.SContinue => true

def stmtsNoCompound : List Stmt → Bool
  | [] => true
  | st :: rest => st.noCompound && stmtsNoCompound rest

end

def Program.noCompound (p : Program) : Bool :=
  p.funcs.all (fun f => stmtsNoCompound f.body)

/-! ## Results of the checker that agree up to the function table -/

/-- Two results of `checkStmt` agree: both are the same diagnostic, or both are
states with the same scope stack, loop depth and deferred expressions. -/
def SameRes (r1 r2 : Except String (Sema × List Expr)) : Prop :=
  match r1, r2 with
  | Except.ok (s1, d1), Except.ok (s2, d2) =>
    s1.scope = s2.scope ∧ s1.loopDepth = s2.loopDepth ∧ d1 = d2
  | Except.error m1, Except.error m2 => m1 = m2
  | _, _ => False

/-- The signature that the signature pass records for a function. -/
def Func.sig (f : Func) : FnSig :=
  { params := f.params.map (fun pr => pr.ty.clone), ret := f.ret.clone }

/-- The check of one function body against the function table `fns`, as the
body pass of `Sema::analyze` runs it. -/
def bodyOk (fns : FnTable) (f : Func) : Bool :=
  (checkStmts (some f.ret)
    { scope := declareParams Scope.init.push f.params, fns := fns, loopDepth := 0 }
    [] f.body).isOk

/-! ## Types in the parser, stated independently of `parseType` -/

/-- The base type that a type keyword names. -/
def baseTy : TokKind → Option Ty
  | TokKind.KwI32 => some Ty.i32
  | TokKind.KwI64 => some Ty.i64
  | TokKind.KwBool => some Ty.boolean
  | TokKind.KwVoid => some Ty.voidty
  | _ => none

/-- The tokens of `i64[3];`. -/
def arrayTypeToks : List Token :=
  [⟨TokKind.KwI64, "i64", 0, 1, 1⟩, ⟨TokKind.LBracket, "", 0, 1, 4⟩,
   ⟨TokKind.IntLit, "3", 3, 1, 5⟩, ⟨TokKind.RBracket, "", 0, 1, 6⟩,
   ⟨TokKind.Semicolon, "", 0, 1, 7⟩]

/-- The tokens of `ptr<bool>[2];`. -/
def ptrArrayTypeToks : List Token :=
  [⟨TokKind.KwPtr, "ptr", 0, 1, 1⟩, ⟨TokKind.Lt, "", 0, 1, 4⟩,
   ⟨TokKind.KwBool, "bool", 0, 1, 5⟩, ⟨TokKind.Gt, "", 0, 1, 9⟩,
   ⟨TokKind.LBracket, "", 0, 1, 10⟩, ⟨TokKind.IntLit, "2", 2, 1, 11⟩,
   ⟨TokKind.RBracket, "", 0, 1, 12⟩, ⟨TokKind.Semicolon, "", 0, 1, 13⟩]

/-! ## The steps of `CodeGen::emit` for one function -/

/-- The implicit return of `CodeGen::emit`: "Add implicit return if the
current block has no terminator". -/
def implicitReturn (ret : Ty) : Gen Unit := do
  if !(← hasTerminator) then
    if ret.k = TyKind.I64 then emitVoid (Instr.ret (Value.const LType.i64 0))
    else if ret.k = TyKind.Bool then emitVoid (Instr.ret (Value.const LType.i1 0))
    else emitVoid Instr.retVoid

/-- The definition of one function up to, and without, the call of
`llvm::verifyFunction`: the entry block, the parameter slots, the body and the
implicit return.  `i` is the index of the function in the module and `f` its
declaration. -/
def buildFunc (fn : Func) (i : Nat) (f : LFunc) : Gen Unit := do
  modify (fun s => { s with curFn := i, namedValues := [], namedTypes := [] })
  let entry ← createBlock "entry" true
  setInsertPoint entry
  genParams f.params
  genStmts fn.body
  implicitReturn fn.ret

/-- The call `llvm::verifyFunction(*F)` for the function with index `i`. -/
def verifyStep (i : Nat) : Gen Unit := do
  let s2 ← get
  match s2.funcs[i]? with
  | none => Gen.fatal "function not declared"
  | some g =>
    if verifyFunction g.ret (s2.blocks.filter (fun b => g.layout.contains b.id)) then
      Gen.fatal "invalid function IR"
    else pure ()

/-- The instructions of the block with number `id`. -/
def CG.instrsOf (s : CG) (id : Nat) : List Instr :=
  match s.blocks.find? (fun b => b.id = id) with
  | some b => b.instrs
  | none => []

/-- The definition of one function as `defineFunc` does it, without the call
of `llvm::verifyFunction`. -/
def defineUnverified (fn : Func) : Gen Unit := do
  let s ← get
  match latestDecl s.funcs fn.name with
  | none => Gen.fatal "function not declared"
  | some i =>
    match s.funcs[i]? with
    | none => Gen.fatal "function not declared"
    | some f => buildFunc fn i f

/-- What `CodeGen::emit` has built when `llvm::verifyFunction` is left out:
the blocks that the verifier is asked about. -/
def emitUnverified (p : Program) : Except String CG :=
  match (do p.funcs.forM declareFunc; p.funcs.forM defineUnverified : Gen Unit) CG.init with
  | Except.error m => Except.error m
  | Except.ok (_, s) => Except.ok s

/-- `fn main() -> i64 { return 0; return 1; }`: a statement follows a `return`
in the same block. -/
def returnTwice : Program :=
  Program.mk [Func.mk "main" [] Ty.i64
    [Stmt.SReturn (some (Expr.EInt 0)), Stmt.SReturn (some (Expr.EInt 1))]]

/-- `fn main() -> i64 { while (true) { break; break; } return 0; }`: a
statement follows a `break` in the same block. -/
def breakTwice : Program :=
  Program.mk [Func.mk "main" [] Ty.i64
    [Stmt.SWhile (Expr.EBool true) [Stmt.SBreak, Stmt.SBreak],
     Stmt.SReturn (some (Expr.EInt 0))]]

/-- `fn f(x: i32) -> i32 { if (x) { return x; } }`: the body of a function
that returns `i32` falls off the end. -/
def i32Fall : Program :=
  Program.mk [Func.mk "f" [Param.mk "x" Ty.i32] Ty.i32
    [Stmt.SIf (Expr.EVar "x") [Stmt.SReturn (some (Expr.EVar "x"))] []]]

/-- `fn id(p: ptr<i64>) -> ptr<i64> { let q = p; return q; }`: the returned
variable comes from an un-annotated `let`. -/
def ptrLet : Program :=
  Program.mk [Func.mk "id" [Param.mk "p" (Ty.ptr Ty.i64)] (Ty.ptr Ty.i64)
    [Stmt.SLet "q" none (Expr.EVar "p") false,
     Stmt.SReturn (some (Expr.EVar "q"))]]

/-- `fn main() -> i64 { while (true) { while (true) { break; } continue; }
return 0; }`: a `break` in the inner loop and a `continue` in the outer. -/
def nestedLoops : Program :=
  Program.mk [Func.mk "main" [] Ty.i64
    [Stmt.SWhile (Expr.EBool true)
       [Stmt.SWhile (Expr.EBool true) [Stmt.SBreak],
        Stmt.SContinue],
     Stmt.SReturn (some (Expr.EInt 0))]]

/-- The unconditional branches of a block. -/
def Block.branches (b : Block) : List Instr :=
  b.instrs.filter (fun i =>
    match i with
    | Instr.br _ => true
    | _ => false)

/-! ## Properties of the emitter state that its steps keep -/

/-- Whenever the action `m` is started in a state with `P` and ends without
`fatal`, the state it ends in has `Q`. -/
def Goes {α : Type} (P Q : CG → Prop) (m : Gen α) : Prop :=
  ∀ (s : CG), P s → ∀ (a : α) (s2 : CG), m s = Except.ok (a, s2) → Q s2

/-- The property `P` of the emitter state is kept by the steps of the builder:
creating an instruction, creating a block, putting a block into the function,
moving the insertion point, recording a variable. -/
def Stable (P : CG → Prop) : Prop :=
  (∀ mk ty, Goes P P (emitVal mk ty)) ∧
  (∀ i, Goes P P (emitVoid i)) ∧
  (∀ label att, Goes P P (createBlock label att)) ∧
  (∀ bb, Goes P P (attachBlock bb)) ∧
  (∀ bb, Goes P P (setInsertPoint bb)) ∧
  (∀ name alloca ty, Goes P P (modify (fun s => s.bind name alloca ty) : Gen Unit))

/-- The two loop stacks of the emitter hold `E` and `C`. -/
def CG.loopsAre (E C : List Nat) (s : CG) : Prop :=
  s.loopExitStack = E ∧ s.loopContinueStack = C

/-- The module has a block with number `n` and label `label`. -/
def CG.hasBlock (n : Nat) (label : String) (s : CG) : Prop :=
  ∃ b, b ∈ s.blocks ∧ b.id = n ∧ b.label = label


/-! ## The parts of lowering `if` and `while` around their blocks -/

/-- The part of `genStmt` for `while` that precedes the body: the three blocks
are created, the loop targets are pushed, the condition is lowered in
`while.cond` and the insertion point moves to `while.body`.  The result holds
the numbers of `while.cond`, `while.body` and `while.end`. -/
def whileHead (cond : Expr) : Gen (Nat × Nat × Nat) := do
  let condBB ← createBlock "while.cond" true
  let bodyBB ← createBlock "while.body" false
  let endBB ← createBlock "while.end" false
  modify (fun s => s.pushLoop endBB condBB)
  emitVoid (Instr.br condBB)
  setInsertPoint condBB
  let c0 ← genExpr cond
  let zero ← constZero c0.type
  let c ← emitVal (fun d => Instr.op d "icmp ne" LType.i1 [c0, zero]) LType.i1
  emitVoid (Instr.condBr c bodyBB endBB)
  attachBlock bodyBB
  setInsertPoint bodyBB
  pure (condBB, bodyBB, endBB)

/-- The part of `genStmt` for `while` that follows the body. -/
def whileTail (condBB endBB : Nat) : Gen Unit := do
  if !(← hasTerminator) then emitVoid (Instr.br condBB)
  modify (fun s => s.popLoop)
  attachBlock endBB
  setInsertPoint endBB

/-- The part of `genStmt` for `if` that precedes the then-block.  The result
holds the numbers of `then`, `else` and `ifend`. -/
def ifHead (cond : Expr) : Gen (Nat × Nat × Nat) := do
  let c0 ← genExpr cond
  let zero ← constZero c0.type
  let c ← emitVal (fun d => Instr.op d "icmp ne" LType.i1 [c0, zero]) LType.i1
  let thenBB ← createBlock "then" true
  let elseBB ← createBlock "else" false
  let mergeBB ← createBlock "ifend" false
  emitVoid (Instr.condBr c thenBB elseBB)
  setInsertPoint thenBB
  pure (thenBB, elseBB, mergeBB)

/-- The part of `genStmt` for `if` between the then-block and the else-block. -/
def ifMid (elseBB mergeBB : Nat) : Gen Unit := do
  if !(← hasTerminator) then emitVoid (Instr.br mergeBB)
  attachBlock elseBB
  setInsertPoint elseBB

/-- The part of `genStmt` for `if` that follows the else-block. -/
def ifTail (mergeBB : Nat) : Gen Unit := do
  if !(← hasTerminator) then emitVoid (Instr.br mergeBB)
  attachBlock mergeBB
  setInsertPoint mergeBB

/-- The statement `st` is reached from the state `s` while `genStmts top` runs
from `s0`: it stands in `top` itself, or in a block of an `if` or in the body
of a `while` that is reached.  The last component holds the numbers of the
`while.cond` and `while.end` blocks of the innermost `while` of `top` around
`st`, and is `none` when no `while` of `top` is around it. -/
inductive Lowered (top : List Stmt) (s0 : CG) : Stmt → CG → Option (Nat × Nat) → Prop
  | top (pre : List Stmt) (st : Stmt) (post : List Stmt) (s : CG) :
      top = pre ++ st :: post → genStmts pre s0 = Except.ok ((), s) →
      Lowered top s0 st s none
  | thenBlock (cond : Expr) (thenStmts elseStmts : List Stmt) (s : CG)
      (encl : Option (Nat × Nat)) (ids : Nat × Nat × Nat) (s1 : CG)
      (pre : List Stmt) (st : Stmt) (post : List Stmt) (s2 : CG) :
      Lowered top s0 (Stmt.SIf cond thenStmts elseStmts) s encl →
      ifHead cond s = Except.ok (ids, s1) →
      thenStmts = pre ++ st :: post → genStmts pre s1 = Except.ok ((), s2) →
      Lowered top s0 st s2 encl
  | elseBlock (cond : Expr) (thenStmts elseStmts : List Stmt) (s : CG)
      (encl : Option (Nat × Nat)) (ids : Nat × Nat × Nat) (s1 s2 s3 : CG)
      (pre : List Stmt) (st : Stmt) (post : List Stmt) (s4 : CG) :
      Lowered top s0 (Stmt.SIf cond thenStmts elseStmts) s encl →
      ifHead cond s = Except.ok (ids, s1) →
      genStmts thenStmts s1 = Except.ok ((), s2) →
      ifMid ids.2.1 ids.2.2 s2 = Except.ok ((), s3) →
      elseStmts = pre ++ st :: post → genStmts pre s3 = Except.ok ((), s4) →
      Lowered top s0 st s4 encl
  | body (cond : Expr) (stmts : List Stmt) (s : CG)
      (encl : Option (Nat × Nat)) (ids : Nat × Nat × Nat) (s1 : CG)
      (pre : List Stmt) (st : Stmt) (post : List Stmt) (s2 : CG) :
      Lowered top s0 (Stmt.SWhile cond stmts) s encl →
      whileHead cond s = Except.ok (ids, s1) →
      stmts = pre ++ st :: post → genStmts pre s1 = Except.ok ((), s2) →
      Lowered top s0 st s2 (some (ids.1, ids.2.2))

/-- The state in which the action `m` started from `s` ends, and `s` itself
when the action ends with `fatal`. -/
def stateAfter {α : Type} (m : Gen α) (s : CG) : CG :=
  match m s with
  | Except.ok (_, s2) => s2
  | Except.error _ => s

/-- The statements of `main` of `nestedLoops`. -/
def nestedLoopsBody : List Stmt :=
  [Stmt.SWhile (Expr.EBool true)
     [Stmt.SWhile (Expr.EBool true) [Stmt.SBreak],
      Stmt.SContinue],
   Stmt.SReturn (some (Expr.EInt 0))]

/-- The state in which `emit` starts to lower the body of `main` of
`nestedLoops`: the function is declared and its `entry` block is open. -/
def nestedLoopsStart : CG :=
  stateAfter (do
    declareFunc (Func.mk "main" [] Ty.i64 [])
    modify (fun s => { s with curFn := 5, namedValues := [], namedTypes := [] })
    let entry ← createBlock "entry" true
    setInsertPoint entry : Gen Unit) CG.init

/-- The state in which the body of the outer `while` of `nestedLoops` starts. -/
def nestedLoopsOuter : CG := stateAfter (whileHead (Expr.EBool true)) nestedLoopsStart

/-- The state in which the body of the inner `while` of `nestedLoops` starts. -/
def nestedLoopsInner : CG := stateAfter (whileHead (Expr.EBool true)) nestedLoopsOuter

/-- The state in which the `continue` of `nestedLoops` is lowered. -/
def nestedLoopsAfterInner : CG :=
  stateAfter (genStmt (Stmt.SWhile (Expr.EBool true) [Stmt.SBreak])) nestedLoopsOuter


/-! ## Words, numbers and operators in the lexer -/

/-- The characters `[A-Za-z_]` that may start an identifier. -/
def isIdentStart (c : Char) : Bool :=
  ('A' ≤ c && c ≤ 'Z') || ('a' ≤ c && c ≤ 'z') || c = '_'

/-- The characters `[A-Za-z0-9_]` of an identifier. -/
def isIdentChar (c : Char) : Bool :=
  ('A' ≤ c && c ≤ 'Z') || ('a' ≤ c && c ≤ 'z') || ('0' ≤ c && c ≤ '9') || c = '_'

/-- The decimal digits `[0-9]`. -/
def isDecDigit (c : Char) : Bool := '0' ≤ c && c ≤ '9'

/-- The seventeen reserved words with their token kinds. -/
def reservedWords : List (String × TokKind) :=
  [("let", TokKind.KwLet), ("fn", TokKind.KwFn), ("if", TokKind.KwIf),
   ("else", TokKind.KwElse), ("while", TokKind.KwWhile), ("return", TokKind.KwReturn),
   ("defer", TokKind.KwDefer), ("break", TokKind.KwBreak), ("continue", TokKind.KwContinue),
   ("true", TokKind.True), ("false", TokKind.False), ("i32", TokKind.KwI32),
   ("i64", TokKind.KwI64), ("bool", TokKind.KwBool), ("void", TokKind.KwVoid),
   ("ptr", TokKind.KwPtr), ("unique", TokKind.KwUnique)]

/-- The two-character operators with their token kinds. -/
def twoCharOps : List (Char × Char × TokKind) :=
  [('=', '=', TokKind.EqEq), ('!', '=', TokKind.BangEq), ('<', '=', TokKind.Le),
   ('>', '=', TokKind.Ge), ('-', '>', TokKind.Arrow), ('&', '&', TokKind.AmpAmp),
   ('|', '|', TokKind.PipePipe), ('+', '=', TokKind.PlusEq), ('-', '=', TokKind.MinusEq),
   ('*', '=', TokKind.StarEq), ('/', '=', TokKind.SlashEq), ('%', '=', TokKind.PercentEq)]

/-- The kinds of the tokens of a result of the lexer. -/
def LexResult.kinds (r : LexResult) : Option (Except String (List TokKind)) :=
  r.map (fun e => e.map (fun ts => ts.map (fun t => t.kind)))

/-- The number that a string of decimal digits denotes in base ten, the first
digit being the most significant. -/
def decimalOf (ds : List Char) : Nat :=
  Nat.ofDigits 10 (ds.reverse.map (fun d => d.toNat - 48))

/-- The integer values of the tokens of a result of the lexer. -/
def LexResult.values (r : LexResult) : Option (Except String (List Int)) :=
  r.map (fun e => e.map (fun ts => ts.map (fun t => t.intValue)))


/-! ## Comments in the lexer -/

/-- One iteration of the loop of `Lexer::skipWS` that reads something: the
state at the next `continue`, and `none` when the loop ends with `break`. -/
def wsStep (s : LexState) : Option LexState :=
  let c := s.peek
  if isspace c then some s.get.2
  else if c = '/' && s.nextIs '/' then
    some (s.getWhile (fun t => t.peek != '\x00' && t.peek != '\n')).2
  else if c = '/' && s.nextIs '*' then
    let s1 := s.get.2.get.2
    let s2 := (s1.getWhile
      (fun t => t.peek != '\x00' && !(t.peek = '*' && t.nextIs '/'))).2
    some (if s2.peek != '\x00' then s2.get.2.get.2 else s2)
  else none

/-- One iteration of the loop of `Lexer::lex` after `skipWS` that pushes a
token and continues: the token and the state after it.  It is `none` when the
loop pushes `Eof` and ends, and when `std::stoll` throws. -/
def tokStep (s : LexState) : Option (Token × LexState) :=
  let c := s.peek
  if c = '\x00' then none
  else if c.isAlpha || c = '_' then some (identOrKw s)
  else if c.isDigit then
    match number s with
    | Except.error _ => none
    | Except.ok r => some r
  else
    some ({ kind := (punct s).1, lexeme := "", intValue := 0, line := s.line, col := s.col },
      if (punct s).2 then s.get.2.get.2 else s.get.2)

/-- The state in which the lexer next looks for white space, a comment or a
token: after one iteration of the loop of `skipWS`, or, when that loop has
ended, after the token. -/
def headStep (s : LexState) : Option LexState :=
  match wsStep s with
  | some s1 => some s1
  | none => (tokStep s).map (fun r => r.2)

/-- Within `n` steps from `s` the lexer looks for white space, a comment or a
token with exactly `r` unread. -/
def reachesHead : Nat → LexState → List Char → Bool
  | 0, s, r => s.rest = r
  | n + 1, s, r =>
    s.rest = r ||
      match headStep s with
      | some s1 => reachesHead n s1 r
      | none => false

/-- In the source `pre ++ rest` the text `rest` starts at a token boundary:
the lexer comes to look for white space, a comment or a token exactly there. -/
def tokenBoundary (pre rest : List Char) : Prop :=
  ∃ n, reachesHead n { rest := pre ++ rest, line := 1, col := 1 } rest = true

/-- The text holds the two characters `*/` next to each other. -/
def hasClose : List Char → Bool
  | [] => false
  | c :: rest => (c = '*' && rest.head? = some '/') || hasClose rest

/-- The text `comment`, followed by `post`, is a comment: `//` up to the next
newline or the end of the input, or `/*` up to the first `*/` that follows. -/
def IsComment (comment post : List Char) : Prop :=
  (∃ body, comment = '/' :: '/' :: body ∧ (∀ d ∈ body, d ≠ '\n') ∧
    (post = [] ∨ ∃ p, post = '\n' :: p)) ∨
  (∃ body, comment = '/' :: '*' :: (body ++ ['*', '/']) ∧ hasClose (body ++ ['*']) = false)

/-- What the comparison of two token sequences looks at: kind, lexeme and
integer value of a token, not its line and column. -/
def Token.content (t : Token) : TokKind × String × Int := (t.kind, t.lexeme, t.intValue)

/-- The kinds, lexemes and integer values of the tokens of a result of the
lexer. -/
def LexResult.contents (r : LexResult) : Option (Except String (List (TokKind × String × Int))) :=
  r.map (fun e => e.map (fun ts => ts.map Token.content))

/-- A line comment that holds the character `'\0'`, then a newline and `x`. -/
def nulComment : List Char := ['/', '/', '\x00']


/-! ## Types: well-formed and canonical values -/

/-- A type is well formed when every `ptr` and every `array` in it has an
element type (the pointer `elem` is not null). -/
def Ty.wellFormed : Ty → Bool
  | Ty.mk TyKind.Ptr (some e) _ => Ty.wellFormed e
  | Ty.mk TyKind.Ptr none _ => false
  | Ty.mk TyKind.Array (some e) _ => Ty.wellFormed e
  | Ty.mk TyKind.Array none _ => false
  | Ty.mk TyKind.I32 _ _ => true
  | Ty.mk TyKind.I64 _ _ => true
  | Ty.mk TyKind.Bool _ _ => true
  | Ty.mk TyKind.Void _ _ => true

/-- The values that the factory functions `Type::i32`, `i64`, `boolean`,
`voidty`, `ptr` and `array` build: a base type has no element type and size 0,
a `ptr` has size 0. -/
def Ty.canonical : Ty → Bool
  | Ty.mk TyKind.Ptr (some e) n => n == 0 && Ty.canonical e
  | Ty.mk TyKind.Ptr none _ => false
  | Ty.mk TyKind.Array (some e) _ => Ty.canonical e
  | Ty.mk TyKind.Array none _ => false
  | Ty.mk TyKind.I32 e n => e.isNone && n == 0
  | Ty.mk TyKind.I64 e n => e.isNone && n == 0
  | Ty.mk TyKind.Bool e n => e.isNone && n == 0
  | Ty.mk TyKind.Void e n => e.isNone && n == 0

/-- The names of the four builtins. -/
def builtinNames : List String := ["print_i64", "read_i64", "malloc", "free"]


/-! ## Programs for the checker -/

/-- `fn main() -> i64 { if (true) { let y = 1; } return y; }`: the name `y` is
declared in the block of the `if` and used after it. -/
def leakIf : Program :=
  Program.mk [Func.mk "main" [] Ty.i64
    [Stmt.SIf (Expr.EBool true) [Stmt.SLet "y" none (Expr.EInt 1) false] [],
     Stmt.SReturn (some (Expr.EVar "y"))]]

/-- `fn main() -> i64 { while (false) { let y = 1; } return y; }`. -/
def leakWhile : Program :=
  Program.mk [Func.mk "main" [] Ty.i64
    [Stmt.SWhile (Expr.EBool false) [Stmt.SLet "y" none (Expr.EInt 1) false],
     Stmt.SReturn (some (Expr.EVar "y"))]]

/-- `fn main() -> i64 { let y = 1; if (true) { let y = true; } return y; }`:
the inner `y` has type `bool`; after the block `y` is the outer one. -/
def shadowIf : Program :=
  Program.mk [Func.mk "main" [] Ty.i64
    [Stmt.SLet "y" none (Expr.EInt 1) false,
     Stmt.SIf (Expr.EBool true) [Stmt.SLet "y" none (Expr.EBool true) false] [],
     Stmt.SReturn (some (Expr.EVar "y"))]]


/-! ## An assignment to a literal -/

/-- `fn f() -> i64 { 1 = 2; return 0; }`: the target of the assignment is an
integer literal. -/
def assignLit : Program :=
  Program.mk [Func.mk "f" [] Ty.i64
    [Stmt.SExpr (Expr.EBin (Expr.EInt 1) TokKind.Eq (Expr.EInt 2)),
     Stmt.SReturn (some (Expr.EInt 0))]]

/-- The source text of `assignLit`. -/
def assignLitSrc : String :=
  "fn f() -> i64 \x7b 1 = 2; return 0; \x7d"

/-- The tokens of `assignLitSrc`. -/
def assignLitToks : List Token :=
  [⟨TokKind.KwFn, "fn", 0, 1, 1⟩,
   ⟨TokKind.Ident, "f", 0, 1, 4⟩,
   ⟨TokKind.LParen, "", 0, 1, 5⟩,
   ⟨TokKind.RParen, "", 0, 1, 6⟩,
   ⟨TokKind.Arrow, "", 0, 1, 8⟩,
   ⟨TokKind.KwI64, "i64", 0, 1, 11⟩,
   ⟨TokKind.LBrace, "", 0, 1, 15⟩,
   ⟨TokKind.IntLit, "1", 1, 1, 17⟩,
   ⟨TokKind.Eq, "", 0, 1, 19⟩,
   ⟨TokKind.IntLit, "2", 2, 1, 21⟩,
   ⟨TokKind.Semicolon, "", 0, 1, 22⟩,
   ⟨TokKind.KwReturn, "return", 0, 1, 24⟩,
   ⟨TokKind.IntLit, "0", 0, 1, 31⟩,
   ⟨TokKind.Semicolon, "", 0, 1, 32⟩,
   ⟨TokKind.RBrace, "", 0, 1, 34⟩,
   ⟨TokKind.Eof, "", 0, 1, 35⟩]

/-! ## Functions that share a name -/

/-- The last function of the list, in program order, that bears the name. -/
def lastNamed : List Func → String → Option Func
  | [], _ => none
  | f :: rest, n =>
    match lastNamed rest n with
    | some g => some g
    | none => if f.name = n then some f else none

/-- The function `fn f() -> i64 { return 0; }`. -/
def fNullary : Func := Func.mk "f" [] Ty.i64 [Stmt.SReturn (some (Expr.EInt 0))]

/-- The function `fn f(a: bool) -> bool { return a; }`. -/
def fOfBool : Func :=
  Func.mk "f" [⟨"a", Ty.boolean⟩] Ty.boolean [Stmt.SReturn (some (Expr.EVar "a"))]

/-- The function `fn main() -> i64 { if (f(true)) { return 1; } return 0; }`. -/
def mainCallsBool : Func :=
  Func.mk "main" [] Ty.i64
    [Stmt.SIf (Expr.ECall "f" [Expr.EBool true]) [Stmt.SReturn (some (Expr.EInt 1))] [],
     Stmt.SReturn (some (Expr.EInt 0))]

/-- The function `fn main() -> i64 { return f(); }`. -/
def mainCallsNullary : Func :=
  Func.mk "main" [] Ty.i64 [Stmt.SReturn (some (Expr.ECall "f" []))]

/-- Two functions named `f`; `main` calls `f` as the second one is declared. -/
def dupLast : Program := Program.mk [fNullary, fOfBool, mainCallsBool]

/-- Two functions named `f`; `main` calls `f` as the first one is declared. -/
def dupFirst : Program := Program.mk [fNullary, fOfBool, mainCallsNullary]

/-- Two functions named `f`, and a call of `f` between them that fits the
second. -/
def dupBetween : Program := Program.mk [fNullary, mainCallsBool, fOfBool]

/-- A user function named `print_i64` of another signature than the builtin:
`fn print_i64(b: bool) -> bool { return b; }` and
`fn main() -> i64 { if (print_i64(true)) { return 1; } return 0; }`. -/
def builtinRedefined : Program :=
  Program.mk
    [Func.mk "print_i64" [⟨"b", Ty.boolean⟩] Ty.boolean [Stmt.SReturn (some (Expr.EVar "b"))],
     Func.mk "main" [] Ty.i64
       [Stmt.SIf (Expr.ECall "print_i64" [Expr.EBool true])
          [Stmt.SReturn (some (Expr.EInt 1))] [],
        Stmt.SReturn (some (Expr.EInt 0))]]

/-- The program `builtinRedefined` with the call `print_i64(1)` of the builtin
signature: `fn main() -> i64 { return print_i64(1); }`. -/
def builtinRedefinedOld : Program :=
  Program.mk
    [Func.mk "print_i64" [⟨"b", Ty.boolean⟩] Ty.boolean [Stmt.SReturn (some (Expr.EVar "b"))],
     Func.mk "main" [] Ty.i64 [Stmt.SReturn (some (Expr.ECall "print_i64" [Expr.EInt 1]))]]

/-- The program `dupLast` with the two functions named `f` in the other order. -/
def dupSwapped : Program := Program.mk [fOfBool, fNullary, mainCallsBool]


/-! ## The type written in `unique<T>` -/

/-- `fn main() -> i64 { let x = 1; return x; }`. -/
def letPlain : Program :=
  Program.mk [Func.mk "main" [] Ty.i64
    [Stmt.SLet "x" none (Expr.EInt 1) false, Stmt.SReturn (some (Expr.EVar "x"))]]

/-- The program `letPlain` with the `let` marked `unique`. -/
def letUnique : Program :=
  Program.mk [Func.mk "main" [] Ty.i64
    [Stmt.SLet "x" none (Expr.EInt 1) true, Stmt.SReturn (some (Expr.EVar "x"))]]

/-- `fn main() -> i64 { let x: i64 = 1; return x; }`. -/
def letPlainAnn : Program :=
  Program.mk [Func.mk "main" [] Ty.i64
    [Stmt.SLet "x" (some Ty.i64) (Expr.EInt 1) false, Stmt.SReturn (some (Expr.EVar "x"))]]

/-- The program `letPlainAnn` with the `let` marked `unique`. -/
def letUniqueAnn : Program :=
  Program.mk [Func.mk "main" [] Ty.i64
    [Stmt.SLet "x" (some Ty.i64) (Expr.EInt 1) true, Stmt.SReturn (some (Expr.EVar "x"))]]

/-- The source text of `uniqueBool`. -/
def uniqueBoolSrc : String :=
  "fn main() -> i64 \x7b let unique<bool> x = 1; return x; \x7d"

/-- The tokens of `uniqueBoolSrc`. -/
def uniqueBoolToks : List Token :=
  [⟨TokKind.KwFn, "fn", 0, 1, 1⟩,
   ⟨TokKind.Ident, "main", 0, 1, 4⟩,
   ⟨TokKind.LParen, "", 0, 1, 8⟩,
   ⟨TokKind.RParen, "", 0, 1, 9⟩,
   ⟨TokKind.Arrow, "", 0, 1, 11⟩,
   ⟨TokKind.KwI64, "i64", 0, 1, 14⟩,
   ⟨TokKind.LBrace, "", 0, 1, 18⟩,
   ⟨TokKind.KwLet, "let", 0, 1, 20⟩,
   ⟨TokKind.KwUnique, "unique", 0, 1, 24⟩,
   ⟨TokKind.Lt, "", 0, 1, 30⟩,
   ⟨TokKind.KwBool, "bool", 0, 1, 31⟩,
   ⟨TokKind.Gt, "", 0, 1, 35⟩,
   ⟨TokKind.Ident, "x", 0, 1, 37⟩,
   ⟨TokKind.Eq, "", 0, 1, 39⟩,
   ⟨TokKind.IntLit, "1", 1, 1, 41⟩,
   ⟨TokKind.Semicolon, "", 0, 1, 42⟩,
   ⟨TokKind.KwReturn, "return", 0, 1, 44⟩,
   ⟨TokKind.Ident, "x", 0, 1, 51⟩,
   ⟨TokKind.Semicolon, "", 0, 1, 52⟩,
   ⟨TokKind.RBrace, "", 0, 1, 54⟩,
   ⟨TokKind.Eof, "", 0, 1, 55⟩]

/-- The source text of `uniqueArr`. -/
def uniqueArrSrc : String :=
  "fn main() -> i64 \x7b let unique<ptr<i32>[7]> x = 1; return x; \x7d"

/-- The tokens of `uniqueArrSrc`. -/
def uniqueArrToks : List Token :=
  [⟨TokKind.KwFn, "fn", 0, 1, 1⟩,
   ⟨TokKind.Ident, "main", 0, 1, 4⟩,
   ⟨TokKind.LParen, "", 0, 1, 8⟩,
   ⟨TokKind.RParen, "", 0, 1, 9⟩,
   ⟨TokKind.Arrow, "", 0, 1, 11⟩,
   ⟨TokKind.KwI64, "i64", 0, 1, 14⟩,
   ⟨TokKind.LBrace, "", 0, 1, 18⟩,
   ⟨TokKind.KwLet, "let", 0, 1, 20⟩,
   ⟨TokKind.KwUnique, "unique", 0, 1, 24⟩,
   ⟨TokKind.Lt, "", 0, 1, 30⟩,
   ⟨TokKind.KwPtr, "ptr", 0, 1, 31⟩,
   ⟨TokKind.Lt, "", 0, 1, 34⟩,
   ⟨TokKind.KwI32, "i32", 0, 1, 35⟩,
   ⟨TokKind.Gt, "", 0, 1, 38⟩,
   ⟨TokKind.LBracket, "", 0, 1, 39⟩,
   ⟨TokKind.IntLit, "7", 7, 1, 40⟩,
   ⟨TokKind.RBracket, "", 0, 1, 41⟩,
   ⟨TokKind.Gt, "", 0, 1, 42⟩,
   ⟨TokKind.Ident, "x", 0, 1, 44⟩,
   ⟨TokKind.Eq, "", 0, 1, 46⟩,
   ⟨TokKind.IntLit, "1", 1, 1, 48⟩,
   ⟨TokKind.Semicolon, "", 0, 1, 49⟩,
   ⟨TokKind.KwReturn, "return", 0, 1, 51⟩,
   ⟨TokKind.Ident, "x", 0, 1, 58⟩,
   ⟨TokKind.Semicolon, "", 0, 1, 59⟩,
   ⟨TokKind.RBrace, "", 0, 1, 61⟩,
   ⟨TokKind.Eof, "", 0, 1, 62⟩]

/-- The source text of `plainLet`. -/
def plainLetSrc : String :=
  "fn main() -> i64 \x7b let x = 1; return x; \x7d"

/-- The tokens of `plainLetSrc`. -/
def plainLetToks : List Token :=
  [⟨TokKind.KwFn, "fn", 0, 1, 1⟩,
   ⟨TokKind.Ident, "main", 0, 1, 4⟩,
   ⟨TokKind.LParen, "", 0, 1, 8⟩,
   ⟨TokKind.RParen, "", 0, 1, 9⟩,
   ⟨TokKind.Arrow, "", 0, 1, 11⟩,
   ⟨TokKind.KwI64, "i64", 0, 1, 14⟩,
   ⟨TokKind.LBrace, "", 0, 1, 18⟩,
   ⟨TokKind.KwLet, "let", 0, 1, 20⟩,
   ⟨TokKind.Ident, "x", 0, 1, 24⟩,
   ⟨TokKind.Eq, "", 0, 1, 26⟩,
   ⟨TokKind.IntLit, "1", 1, 1, 28⟩,
   ⟨TokKind.Semicolon, "", 0, 1, 29⟩,
   ⟨TokKind.KwReturn, "return", 0, 1, 31⟩,
   ⟨TokKind.Ident, "x", 0, 1, 38⟩,
   ⟨TokKind.Semicolon, "", 0, 1, 39⟩,
   ⟨TokKind.RBrace, "", 0, 1, 41⟩,
   ⟨TokKind.Eof, "", 0, 1, 42⟩]

/-- The source text of `uniqueBoolAnn`. -/
def uniqueBoolAnnSrc : String :=
  "fn main() -> i64 \x7b let unique<bool> x: i64 = 1; return x; \x7d"

/-- The tokens of `uniqueBoolAnnSrc`. -/
def uniqueBoolAnnToks : List Token :=
  [⟨TokKind.KwFn, "fn", 0, 1, 1⟩,
   ⟨TokKind.Ident, "main", 0, 1, 4⟩,
   ⟨TokKind.LParen, "", 0, 1, 8⟩,
   ⟨TokKind.RParen, "", 0, 1, 9⟩,
   ⟨TokKind.Arrow, "", 0, 1, 11⟩,
   ⟨TokKind.KwI64, "i64", 0, 1, 14⟩,
   ⟨TokKind.LBrace, "", 0, 1, 18⟩,
   ⟨TokKind.KwLet, "let", 0, 1, 20⟩,
   ⟨TokKind.KwUnique, "unique", 0, 1, 24⟩,
   ⟨TokKind.Lt, "", 0, 1, 30⟩,
   ⟨TokKind.KwBool, "bool", 0, 1, 31⟩,
   ⟨TokKind.Gt, "", 0, 1, 35⟩,
   ⟨TokKind.Ident, "x", 0, 1, 37⟩,
   ⟨TokKind.Colon, "", 0, 1, 38⟩,
   ⟨TokKind.KwI64, "i64", 0, 1, 40⟩,
   ⟨TokKind.Eq, "", 0, 1, 44⟩,
   ⟨TokKind.IntLit, "1", 1, 1, 46⟩,
   ⟨TokKind.Semicolon, "", 0, 1, 47⟩,
   ⟨TokKind.KwReturn, "return", 0, 1, 49⟩,
   ⟨TokKind.Ident, "x", 0, 1, 56⟩,
   ⟨TokKind.Semicolon, "", 0, 1, 57⟩,
   ⟨TokKind.RBrace, "", 0, 1, 59⟩,
   ⟨TokKind.Eof, "", 0, 1, 60⟩]

/-- The source text of `plainLetAnn`. -/
def plainLetAnnSrc : String :=
  "fn main() -> i64 \x7b let x: i64 = 1; return x; \x7d"

/-- The tokens of `plainLetAnnSrc`. -/
def plainLetAnnToks : List Token :=
  [⟨TokKind.KwFn, "fn", 0, 1, 1⟩,
   ⟨TokKind.Ident, "main", 0, 1, 4⟩,
   ⟨TokKind.LParen, "", 0, 1, 8⟩,
   ⟨TokKind.RParen, "", 0, 1, 9⟩,
   ⟨TokKind.Arrow, "", 0, 1, 11⟩,
   ⟨TokKind.KwI64, "i64", 0, 1, 14⟩,
   ⟨TokKind.LBrace, "", 0, 1, 18⟩,
   ⟨TokKind.KwLet, "let", 0, 1, 20⟩,
   ⟨TokKind.Ident, "x", 0, 1, 24⟩,
   ⟨TokKind.Colon, "", 0, 1, 25⟩,
   ⟨TokKind.KwI64, "i64", 0, 1, 27⟩,
   ⟨TokKind.Eq, "", 0, 1, 31⟩,
   ⟨TokKind.IntLit, "1", 1, 1, 33⟩,
   ⟨TokKind.Semicolon, "", 0, 1, 34⟩,
   ⟨TokKind.KwReturn, "return", 0, 1, 36⟩,
   ⟨TokKind.Ident, "x", 0, 1, 43⟩,
   ⟨TokKind.Semicolon, "", 0, 1, 44⟩,
   ⟨TokKind.RBrace, "", 0, 1, 46⟩,
   ⟨TokKind.Eof, "", 0, 1, 47⟩]
/-- No token of the list is the end-of-file token. -/
def NoEof (ts : List Token) : Prop := ∀ t ∈ ts, t.kind ≠ TokKind.Eof

/-- The unread tokens `rest` are reached from the unread tokens `toks` by
reading tokens none of which is the end-of-file token. -/
def Drops (toks rest : List Token) : Prop := ∃ pre, toks = pre ++ rest ∧ NoEof pre

/-- What a parsing function run on `cur` with the recursion bound `fuel` may
return: a value with unread tokens reached from `cur` past at least `g` tokens
and no end-of-file token; an access outside the token vector only when `cur`
holds no end-of-file token; the report that the bound was reached only when
`fuel` is below `16 * cur.length + a`. -/
def Fine {α : Type} (cur : List Token) (a fuel g : Nat) : PRes α → Prop
  | Except.ok (_, rest) => Drops cur rest ∧ rest.length + g ≤ cur.length
  | Except.error PErr.outOfBounds => NoEof cur
  | Except.error PErr.outOfFuel => fuel < 16 * cur.length + a
  | Except.error (PErr.fatal _) => True

structure ExprFine (fuel : Nat) : Prop where
  expr : ∀ toks, Fine toks 11 fuel 0 (parseExpr fuel toks)
  assign : ∀ toks, Fine toks 10 fuel 0 (parseAssign fuel toks)
  disj : ∀ toks, Fine toks 9 fuel 0 (parseOr fuel toks)
  disjLoop : ∀ e toks, Fine toks 1 fuel 0 (parseOrLoop fuel e toks)
  conj : ∀ toks, Fine toks 8 fuel 0 (parseAnd fuel toks)
  conjLoop : ∀ e toks, Fine toks 1 fuel 0 (parseAndLoop fuel e toks)
  eq : ∀ toks, Fine toks 7 fuel 0 (parseEq fuel toks)
  eqLoop : ∀ e toks, Fine toks 1 fuel 0 (parseEqLoop fuel e toks)
  rel : ∀ toks, Fine toks 6 fuel 0 (parseRel fuel toks)
  relLoop : ∀ e toks, Fine toks 1 fuel 0 (parseRelLoop fuel e toks)
  add : ∀ toks, Fine toks 5 fuel 0 (parseAdd fuel toks)
  addLoop : ∀ e toks, Fine toks 1 fuel 0 (parseAddLoop fuel e toks)
  mul : ∀ toks, Fine toks 4 fuel 0 (parseMul fuel toks)
  mulLoop : ∀ e toks, Fine toks 1 fuel 0 (parseMulLoop fuel e toks)
  unary : ∀ toks, Fine toks 3 fuel 0 (parseUnary fuel toks)
  exprList : ∀ toks, Fine toks 12 fuel 0 (parseExprList fuel toks)
  primary : ∀ toks, Fine toks 2 fuel 0 (parsePostfix fuel toks)
  indexLoop : ∀ e toks, Fine toks 1 fuel 0 (parseIndexLoop fuel e toks)


/-- The invariants of the statement parsers for the recursion bound `fuel`. -/
structure StmtFine (fuel : Nat) : Prop where
  block : ∀ toks, Fine toks 14 fuel 0 (parseBlock fuel toks)
  blockLoop : ∀ toks, Fine toks 13 fuel 0 (parseBlockLoop fuel toks)
  stmt : ∀ toks, Fine toks 12 fuel 1 (parseStmt fuel toks)

/-- What the loop of `parseProgram` run on `cur` with the recursion bound `fuel`
may return: an access outside the token vector only when `cur` holds no
end-of-file token, and the report that the bound was reached only when `fuel`
is below `16 * cur.length + 1`. -/
def FineTop {α : Type} (cur : List Token) (fuel : Nat) : Except PErr α → Prop
  | Except.ok _ => True
  | Except.error PErr.outOfBounds => NoEof cur
  | Except.error PErr.outOfFuel => fuel < 16 * cur.length + 1
  | Except.error (PErr.fatal _) => True

/-- A parsing function run on `toks` stayed inside the token vector and did
not read past the first end-of-file token: it did not read where no token is,
and the tokens it read, if it returned, are a prefix of `toks` without
end-of-file token, so that the unread tokens still hold one. -/
def InBounds {α : Type} (toks : List Token) (r : PRes α) : Prop :=
  r ≠ Except.error PErr.outOfBounds ∧
  ∀ v rest, r = Except.ok (v, rest) →
    (∃ pre, toks = pre ++ rest ∧ ∀ t ∈ pre, t.kind ≠ TokKind.Eof) ∧
    ∃ t ∈ rest, t.kind = TokKind.Eof

/-! ## Types in the range of the parser -/

/-- The types that `Parser::parseType` builds from tokens of the lexer: a base
type, `ptr` of such a type, or an array, of a size from 0 to 2^63 - 1, of such
a type that is no array itself. -/
def Ty.inParserRange : Ty → Bool
  | Ty.mk TyKind.Ptr (some e) n => n == 0 && Ty.inParserRange e
  | Ty.mk TyKind.Ptr none _ => false
  | Ty.mk TyKind.Array (some e) n =>
    decide (0 ≤ n) && decide (n ≤ 9223372036854775807) && e.k != TyKind.Array &&
      Ty.inParserRange e
  | Ty.mk TyKind.Array none _ => false
  | Ty.mk TyKind.I32 e n => e.isNone && n == 0
  | Ty.mk TyKind.I64 e n => e.isNone && n == 0
  | Ty.mk TyKind.Bool e n => e.isNone && n == 0
  | Ty.mk TyKind.Void e n => e.isNone && n == 0

/-- The tokens of the text `t.str` of a type in the range of the parser, when
the text starts at line `l`, column `c`. -/
def typeToks : Ty → Nat → Nat → List Token
  | Ty.mk TyKind.I32 _ _, l, c => [⟨TokKind.KwI32, "i32", 0, l, c⟩]
  | Ty.mk TyKind.I64 _ _, l, c => [⟨TokKind.KwI64, "i64", 0, l, c⟩]
  | Ty.mk TyKind.Bool _ _, l, c => [⟨TokKind.KwBool, "bool", 0, l, c⟩]
  | Ty.mk TyKind.Void _ _, l, c => [⟨TokKind.KwVoid, "void", 0, l, c⟩]
  | Ty.mk TyKind.Ptr (some e) _, l, c =>
    ⟨TokKind.KwPtr, "ptr", 0, l, c⟩ :: ⟨TokKind.Lt, "", 0, l, c + 3⟩ ::
      (typeToks e l (c + 4) ++ [⟨TokKind.Gt, "", 0, l, c + 4 + e.str.toList.length⟩])
  | Ty.mk TyKind.Ptr none _, _, _ => []
  | Ty.mk TyKind.Array (some e) n, l, c =>
    typeToks e l c ++
      [⟨TokKind.LBracket, "", 0, l, c + e.str.toList.length⟩,
       ⟨TokKind.IntLit, toString n, n, l, c + e.str.toList.length + 1⟩,
       ⟨TokKind.RBracket, "", 0, l,
         c + e.str.toList.length + 1 + (toString n).toList.length⟩]
  | Ty.mk TyKind.Array none _, _, _ => []
/-! # Theorems -/

/-! ## Types -/

theorem Ty.clone_eq : ∀ t : Ty, t.clone = t
  | Ty.mk k (some e) n => by
    simp only [Ty.clone]
    rw [Ty.clone_eq e]
  | Ty.mk k none n => by simp only [Ty.clone]

/-! ## Scope stack -/

theorem Scope.lookup_push (sc : Scope) (n : String) : sc.push.lookup n = sc.lookup n := by
  simp [Scope.lookup, Scope.push, Scope.lookupIn]


/-! ## Lexer: every step consumes input -/

theorem LexState.peek_of_rest_nil (s : LexState) (h : s.rest = []) : s.peek = '\x00' := by
  simp [LexState.peek, h]

theorem LexState.get_length_le (s : LexState) : s.get.2.rest.length ≤ s.rest.length := by
  unfold LexState.get
  simp only
  split
  · exact Nat.le_refl _
  · split <;> simp

theorem LexState.get_length_lt (s : LexState) (h : s.peek ≠ '\x00') :
    s.get.2.rest.length < s.rest.length := by
  have hne : s.rest ≠ [] := fun h0 => h (s.peek_of_rest_nil h0)
  have hpos : 0 < s.rest.length := List.length_pos.mpr hne
  unfold LexState.get
  simp only [h, if_false]
  split <;> simp <;> omega

theorem LexState.getWhileAux_length_le (cond : LexState → Bool) :
    ∀ (rest : List Char) (l c : Nat),
      (LexState.getWhileAux cond rest l c).2.rest.length ≤ rest.length
  | [], l, c => by simp [LexState.getWhileAux]
  | ch :: rest, l, c => by
    simp only [LexState.getWhileAux]
    split
    · have := LexState.getWhileAux_length_le cond rest
        (LexState.get { rest := ch :: rest, line := l, col := c }).2.line
        (LexState.get { rest := ch :: rest, line := l, col := c }).2.col
      simp only [List.length_cons]
      omega
    · simp

theorem LexState.getWhile_length_le (s : LexState) (cond : LexState → Bool) :
    (s.getWhile cond).2.rest.length ≤ s.rest.length :=
  LexState.getWhileAux_length_le cond s.rest s.line s.col

theorem LexState.getWhile_length_lt (s : LexState) (cond : LexState → Bool)
    (h : cond s = true) (h0 : s.peek ≠ '\x00') :
    (s.getWhile cond).2.rest.length < s.rest.length := by
  obtain ⟨rest, l, c⟩ := s
  cases rest with
  | nil => simp [LexState.peek] at h0
  | cons ch rest =>
    have hch : ch ≠ '\x00' := by simpa [LexState.peek] using h0
    have hc : (cond { rest := ch :: rest, line := l, col := c } && ch != '\x00') = true := by
      simp [h, hch]
    simp only [LexState.getWhile, LexState.getWhileAux, hc, if_true, List.length_cons]
    have := LexState.getWhileAux_length_le cond rest
      (LexState.get { rest := ch :: rest, line := l, col := c }).2.line
      (LexState.get { rest := ch :: rest, line := l, col := c }).2.col
    omega

theorem skipWSLoop_length_le : ∀ (fuel : Nat) (s : LexState),
    (skipWSLoop fuel s).rest.length ≤ s.rest.length
  | 0, s => by simp [skipWSLoop]
  | fuel + 1, s => by
    simp only [skipWSLoop]
    split
    · exact Nat.le_trans (skipWSLoop_length_le fuel _) s.get_length_le
    · split
      · exact Nat.le_trans (skipWSLoop_length_le fuel _) (s.getWhile_length_le _)
      · split
        · refine Nat.le_trans (skipWSLoop_length_le fuel _) ?_
          have h1 := s.get_length_le
          have h2 := s.get.2.get_length_le
          have h3 := s.get.2.get.2.getWhile_length_le
            (fun t => t.peek != '\x00' && !(t.peek = '*' && t.nextIs '/'))
          split
          · have h4 := (s.get.2.get.2.getWhile
              (fun t => t.peek != '\x00' && !(t.peek = '*' && t.nextIs '/'))).2.get_length_le
            have h5 := (s.get.2.get.2.getWhile
              (fun t => t.peek != '\x00' && !(t.peek = '*' && t.nextIs '/'))).2.get.2.get_length_le
            omega
          · omega
        · exact Nat.le_refl _

theorem skipWS_length_le (s : LexState) : (skipWS s).rest.length ≤ s.rest.length :=
  skipWSLoop_length_le _ s

/-- What `skipWS` leaves at the head of the input starts neither white space
nor a comment: the iteration bound of the model is never what ends the loop. -/
theorem skipWSLoop_done : ∀ (fuel : Nat) (s : LexState), s.rest.length < fuel →
    isspace (skipWSLoop fuel s).peek = false ∧
      ((skipWSLoop fuel s).peek = '/' →
        (skipWSLoop fuel s).nextIs '/' = false ∧ (skipWSLoop fuel s).nextIs '*' = false)
  | 0, s, h => absurd h (Nat.not_lt_zero _)
  | fuel + 1, s, h => by
    simp only [skipWSLoop]
    split
    · rename_i hsp
      have h0 : s.peek ≠ '\x00' := by
        intro hc
        rw [hc] at hsp
        exact absurd hsp (by decide)
      exact skipWSLoop_done fuel _ (by have := s.get_length_lt h0; omega)
    · rename_i hsp
      split
      · rename_i hc
        simp only [Bool.and_eq_true, decide_eq_true_eq] at hc
        have h0 : s.peek ≠ '\x00' := by rw [hc.1]; decide
        refine skipWSLoop_done fuel _ ?_
        have := s.getWhile_length_lt (fun t => t.peek != '\x00' && t.peek != '\n')
          (by simp [hc.1]) h0
        omega
      · rename_i hline
        split
        · rename_i hc
          simp only [Bool.and_eq_true, decide_eq_true_eq] at hc
          have h0 : s.peek ≠ '\x00' := by rw [hc.1]; decide
          refine skipWSLoop_done fuel _ ?_
          have h1 := s.get_length_lt h0
          have h2 := s.get.2.get_length_le
          have h3 := s.get.2.get.2.getWhile_length_le
            (fun t => t.peek != '\x00' && !(t.peek = '*' && t.nextIs '/'))
          split
          · have h4 := (s.get.2.get.2.getWhile
              (fun t => t.peek != '\x00' && !(t.peek = '*' && t.nextIs '/'))).2.get_length_le
            have h5 := (s.get.2.get.2.getWhile
              (fun t => t.peek != '\x00' && !(t.peek = '*' && t.nextIs '/'))).2.get.2.get_length_le
            omega
          · omega
        · rename_i hblock
          refine ⟨by simpa using hsp, ?_⟩
          intro hc
          simp only [hc, decide_True, Bool.true_and, Bool.not_eq_true] at hline hblock
          exact ⟨hline, hblock⟩

theorem skipWS_done (s : LexState) :
    isspace (skipWS s).peek = false ∧
      ((skipWS s).peek = '/' →
        (skipWS s).nextIs '/' = false ∧ (skipWS s).nextIs '*' = false) :=
  skipWSLoop_done _ s (Nat.lt_succ_self _)

theorem ite_ne_of {α : Type} {c : Prop} [Decidable c] {a b x : α} (ha : a ≠ x)
    (hb : b ≠ x) : (if c then a else b) ≠ x := by
  split <;> assumption

theorem keywordKind_ne_eof (s : String) : keywordKind s ≠ TokKind.Eof := by
  unfold keywordKind
  repeat (first | exact (by decide) | apply ite_ne_of (by decide))

/-! ## Lexer: the token vector ends with the only `Eof` -/

theorem ite_fst_ne_of {α β : Type} {c : Prop} [Decidable c] {a b : α × β} {x : α}
    (ha : a.1 ≠ x) (hb : b.1 ≠ x) : (if c then a else b).1 ≠ x := by
  split <;> assumption

theorem punct_ne_eof (s : LexState) : (punct s).1 ≠ TokKind.Eof := by
  unfold punct
  simp only
  repeat (first | exact (by decide) | apply ite_fst_ne_of)

theorem pushTok_wellEnded (t : Token) (r : LexResult) (ht : t.kind ≠ TokKind.Eof)
    (hr : r.wellEnded) : (pushTok t r).wellEnded := by
  obtain ⟨⟨x, hx⟩, hts⟩ := hr
  subst hx
  cases x with
  | error m =>
    refine ⟨⟨_, rfl⟩, ?_⟩
    intro ts h
    simp [pushTok] at h
  | ok ts0 =>
    refine ⟨⟨_, rfl⟩, ?_⟩
    intro ts h
    simp only [pushTok, Option.some.injEq, Except.ok.injEq] at h
    subst h
    obtain ⟨init, e, h1, h2, h3⟩ := hts ts0 rfl
    refine ⟨t :: init, e, by simp [h1], h2, ?_⟩
    intro t1 ht1
    simp only [List.mem_cons] at ht1
    rcases ht1 with rfl | ht1
    · exact ht
    · exact h3 t1 ht1

/-- One iteration of the lexer loop: it ends the token vector with `Eof`, or is
ended by an exception, or pushes a token that is not `Eof` and continues from
a state with less unread input. -/
theorem lexLoop_step (fuel : Nat) (s0 : LexState) :
    (∃ e, e.kind = TokKind.Eof ∧ lexLoop (fuel + 1) s0 = some (Except.ok [e])) ∨
      (∃ m, lexLoop (fuel + 1) s0 = some (Except.error m)) ∨
      (∃ t s1, t.kind ≠ TokKind.Eof ∧ s1.rest.length < s0.rest.length ∧
        lexLoop (fuel + 1) s0 = pushTok t (lexLoop fuel s1)) := by
  have hle := skipWS_length_le s0
  by_cases h0 : (skipWS s0).peek = '\x00'
  · left
    refine ⟨{ kind := TokKind.Eof, lexeme := "", intValue := 0, line := (skipWS s0).line,
              col := (skipWS s0).col }, rfl, ?_⟩
    rw [lexLoop]
    simp only [h0, if_true]
  · right
    have h1 : (skipWS s0).get.2.rest.length < s0.rest.length :=
      Nat.lt_of_lt_of_le ((skipWS s0).get_length_lt h0) hle
    have h2 : (skipWS s0).get.2.get.2.rest.length < s0.rest.length :=
      Nat.lt_of_le_of_lt (skipWS s0).get.2.get_length_le h1
    rw [lexLoop]
    simp only [h0, if_false]
    split
    · rename_i hid
      right
      refine ⟨_, _, keywordKind_ne_eof _, ?_, rfl⟩
      refine Nat.lt_of_lt_of_le ((skipWS s0).getWhile_length_lt _ ?_ h0) hle
      simp only [Bool.or_eq_true, decide_eq_true_eq] at hid ⊢
      rcases hid with hid | hid
      · left
        simp [Char.isAlphanum, hid]
      · exact Or.inr hid
    · split
      · rename_i hdig
        split
        · rename_i m hm
          exact Or.inl ⟨m, rfl⟩
        · rename_i r hr
          right
          unfold number at hr
          simp only at hr
          split at hr
          · simp at hr
          · simp only [Except.ok.injEq] at hr
            subst hr
            refine ⟨_, _, ?_, ?_, rfl⟩
            · simp
            · exact Nat.lt_of_lt_of_le ((skipWS s0).getWhile_length_lt _ hdig h0) hle
      · right
        refine ⟨_, _, punct_ne_eof _, ?_, rfl⟩
        split
        · exact h2
        · exact h1

theorem lexLoop_wellEnded : ∀ (fuel : Nat) (s : LexState), s.rest.length < fuel →
    (lexLoop fuel s).wellEnded
  | 0, s, h => absurd h (Nat.not_lt_zero _)
  | fuel + 1, s, h => by
    rcases lexLoop_step fuel s with ⟨e, he, hr⟩ | ⟨m, hr⟩ | ⟨t, s1, ht, hlt, hr⟩
    · rw [hr]
      refine ⟨⟨_, rfl⟩, ?_⟩
      intro ts hts
      simp only [Option.some.injEq, Except.ok.injEq] at hts
      exact ⟨[], e, by simp [hts], he, by simp⟩
    · rw [hr]
      refine ⟨⟨_, rfl⟩, ?_⟩
      intro ts hts
      simp at hts
    · rw [hr]
      exact pushTok_wellEnded t _ ht (lexLoop_wellEnded fuel s1 (by omega))

theorem lex_wellEnded (src : List Char) : (lex src).wellEnded :=
  lexLoop_wellEnded _ _ (Nat.lt_succ_self _)

/-! ## Lexer: the soft landing -/

theorem lexFrom_unknown (c : Char) (rest : List Char) (l k : Nat)
    (h : startsNoToken c rest = true) :
    lexFrom { rest := c :: rest, line := l, col := k } =
      pushTok { kind := TokKind.Semicolon, lexeme := "", intValue := 0, line := l, col := k }
        (lexFrom { rest := rest, line := l, col := k + 1 }) := by
  simp only [startsNoToken, Bool.and_eq_true, bne_iff_ne, ne_eq, Bool.not_eq_true',
    List.contains_cons, List.contains_nil, Bool.or_false, Bool.or_eq_false_iff,
    beq_eq_false_iff_ne, Bool.and_eq_false_iff, decide_eq_false_iff_not] at h
  obtain ⟨⟨⟨⟨⟨⟨⟨h0, hsp⟩, hal⟩, hus⟩, hdg⟩, hp⟩, hamp⟩, hbar⟩ := h
  obtain ⟨p1, p2, p3, p4, p5, p6, p7, p8, p9, p10, p11, p12, p13, p14, p15, p16, p17, p18⟩ := hp
  have hnl : c ≠ '\n' := by
    intro hc
    rw [hc] at hsp
    exact absurd hsp (by decide)
  have hskip : skipWS { rest := c :: rest, line := l, col := k }
      = { rest := c :: rest, line := l, col := k } := by
    unfold skipWS
    simp only [List.length_cons]
    rw [skipWSLoop]
    simp only [LexState.peek, hsp, p13, decide_False, Bool.false_and, Bool.false_eq_true,
      if_false]
  have hamp2 : (c = '&' ∧ LexState.nextIs { rest := c :: rest, line := l, col := k } '&' = true)
      = False := by
    cases rest with
    | nil => simp [LexState.nextIs]
    | cons d r =>
      simp only [LexState.nextIs, decide_eq_true_eq, eq_iff_iff, iff_false, not_and]
      intro hc hd
      rcases hamp with hamp | hamp
      · exact hamp hc
      · exact hamp (by simp [hd])
  have hbar2 : (c = '|' ∧ LexState.nextIs { rest := c :: rest, line := l, col := k } '|' = true)
      = False := by
    cases rest with
    | nil => simp [LexState.nextIs]
    | cons d r =>
      simp only [LexState.nextIs, decide_eq_true_eq, eq_iff_iff, iff_false, not_and]
      intro hc hd
      rcases hbar with hbar | hbar
      · exact hbar hc
      · exact hbar (by simp [hd])
  have hpunct : punct { rest := c :: rest, line := l, col := k } = (TokKind.Semicolon, false) := by
    simp [punct, LexState.peek, p1, p2, p3, p4, p5, p6, p7, p8, p9, p10, p11, p12, p13, p14,
      p15, p16, p17, p18, hamp2, hbar2]
  have hget : LexState.get { rest := c :: rest, line := l, col := k }
      = (c, { rest := rest, line := l, col := k + 1 }) := by
    simp [LexState.get, LexState.peek, h0, hnl]
  simp only [lexFrom, List.length_cons]
  rw [lexLoop]
  simp only [hskip, hpunct, hget]
  simp [LexState.peek, h0, hal, hus, hdg]

/-! ## Parser: the precedence ladder -/

theorem ParsesTo.weaken {p : Nat → List Token → PRes Expr} {n m : Nat} {toks : List Token}
    {e : Expr} {rest : List Token} (h : ParsesTo p n toks e rest) (hnm : n ≤ m) :
    ParsesTo p m toks e rest :=
  fun fuel hf => h fuel (Nat.le_trans hnm hf)

theorem LoopsTo.relax {p : Nat → Expr → List Token → PRes Expr} {n m : Nat} {e0 : Expr}
    {toks : List Token} {e : Expr} {rest : List Token} (h : LoopsTo p n e0 toks e rest)
    (hnm : n ≤ m) : LoopsTo p m e0 toks e rest :=
  fun fuel hf => h fuel (Nat.le_trans hnm hf)

/-- The function for level `r` parses an operand and enters its loop. -/
theorem parseAt_succ (r : Nat) (h1 : 1 ≤ r) (h6 : r ≤ 6) (fuel : Nat) (toks : List Token) :
    parseAt r (fuel + 1) toks =
      match parseAt (r + 1) fuel toks with
      | Except.error e => Except.error e
      | Except.ok (e, rest) => loopAt r fuel e rest := by
  interval_cases r
  · simp only [parseAt, loopAt, parseOr]
  · simp only [parseAt, loopAt, parseAnd]
  · simp only [parseAt, loopAt, parseEq]
  · simp only [parseAt, loopAt, parseRel]
  · simp only [parseAt, loopAt, parseAdd]
  · simp only [parseAt, loopAt, parseMul]

/-- The loop for level `r` at a token: an operator of level `r` is read with
its right operand and the loop goes on; any other token ends the loop. -/
theorem loopAt_cons (r : Nat) (h1 : 1 ≤ r) (h6 : r ≤ 6) (fuel : Nat) (e : Expr) (t : Token)
    (rest : List Token) :
    loopAt r (fuel + 1) e (t :: rest) =
      if binLevel t.kind = some r then
        match parseAt (r + 1) fuel rest with
        | Except.error err => Except.error err
        | Except.ok (x, rest2) => loopAt r fuel (Expr.EBin e t.kind x) rest2
      else Except.ok (e, t :: rest) := by
  interval_cases r
  · cases hk : t.kind <;> simp [loopAt, parseAt, parseOrLoop, binLevel, hk]
  · cases hk : t.kind <;> simp [loopAt, parseAt, parseAndLoop, binLevel, hk]
  · cases hk : t.kind <;> simp [loopAt, parseAt, parseEqLoop, binLevel, hk]
  · cases hk : t.kind <;> simp [loopAt, parseAt, parseRelLoop, binLevel, hk]
  · cases hk : t.kind <;> simp [loopAt, parseAt, parseAddLoop, binLevel, hk]
  · cases hk : t.kind <;> simp [loopAt, parseAt, parseMulLoop, binLevel, hk]

theorem loopAt_stop (r : Nat) (h1 : 1 ≤ r) (h6 : r ≤ 6) (e : Expr) (t : Token)
    (rest : List Token) (ht : binLevel t.kind ≠ some r) :
    LoopsTo (loopAt r) 1 e (t :: rest) e (t :: rest) := by
  intro fuel hf
  obtain ⟨f, rfl⟩ : ∃ f, fuel = f + 1 := ⟨fuel - 1, by omega⟩
  rw [loopAt_cons r h1 h6, if_neg ht]

theorem loopAt_step (r : Nat) (h1 : 1 ≤ r) (h6 : r ≤ 6) (n m : Nat) (e x e2 : Expr)
    (t : Token) (toks rest rest2 : List Token) (ht : binLevel t.kind = some r)
    (hx : ParsesTo (parseAt (r + 1)) n toks x rest)
    (hl : LoopsTo (loopAt r) m (Expr.EBin e t.kind x) rest e2 rest2) :
    LoopsTo (loopAt r) (max n m + 1) e (t :: toks) e2 rest2 := by
  intro fuel hf
  obtain ⟨f, rfl⟩ : ∃ f, fuel = f + 1 := ⟨fuel - 1, by omega⟩
  rw [loopAt_cons r h1 h6, if_pos ht, hx f (by omega)]
  exact hl f (by omega)

theorem parseAt_of_loop (r : Nat) (h1 : 1 ≤ r) (h6 : r ≤ 6) (n m : Nat) (e e2 : Expr)
    (toks rest rest2 : List Token) (he : ParsesTo (parseAt (r + 1)) n toks e rest)
    (hl : LoopsTo (loopAt r) m e rest e2 rest2) :
    ParsesTo (parseAt r) (max n m + 1) toks e2 rest2 := by
  intro fuel hf
  obtain ⟨f, rfl⟩ : ∃ f, fuel = f + 1 := ⟨fuel - 1, by omega⟩
  rw [parseAt_succ r h1 h6, he f (by omega)]
  exact hl f (by omega)

/-- An operand followed by a token that is no operator of level `r` is the
whole expression of level `r`. -/
theorem parseAt_climb (r : Nat) (h1 : 1 ≤ r) (h6 : r ≤ 6) (n : Nat) (e : Expr)
    (toks : List Token) (t : Token) (rest : List Token)
    (he : ParsesTo (parseAt (r + 1)) n toks e (t :: rest)) (ht : binLevel t.kind ≠ some r) :
    ParsesTo (parseAt r) (n + 2) toks e (t :: rest) :=
  (parseAt_of_loop r h1 h6 n 1 e e toks _ _ he (loopAt_stop r h1 h6 e t rest ht)).weaken
    (by omega)

/-- Climbing `k` levels of the ladder at once. -/
theorem parseAt_climb_many (n : Nat) (e : Expr) (toks : List Token) (t : Token)
    (rest : List Token) : ∀ (k r : Nat), 1 ≤ r → r + k ≤ 7 →
      ParsesTo (parseAt (r + k)) n toks e (t :: rest) →
      (∀ q, r ≤ q → q < r + k → binLevel t.kind ≠ some q) →
      ParsesTo (parseAt r) (n + 2 * k) toks e (t :: rest)
  | 0, r, _, _, he, _ => by simpa using he
  | k + 1, r, h1, h7, he, ht => by
    have h := parseAt_climb_many n e toks t rest k (r + 1) (by omega) (by omega)
      (by rw [Nat.add_assoc, Nat.add_comm 1 k]; exact he)
      (fun q hq1 hq2 => ht q (by omega) (by omega))
    exact (parseAt_climb r h1 (by omega) _ e toks t rest h (ht r (Nat.le_refl _) (by omega))).weaken
      (by omega)

/-- One binary operator of level `r` between two operands. -/
theorem parseAt_binary (r : Nat) (h1 : 1 ≤ r) (h6 : r ≤ 6) (n m : Nat) (a b : Expr)
    (top t : Token) (toks toks2 rest : List Token) (hop : binLevel top.kind = some r)
    (ha : ParsesTo (parseAt (r + 1)) n toks a (top :: toks2))
    (hb : ParsesTo (parseAt (r + 1)) m toks2 b (t :: rest))
    (ht : binLevel t.kind ≠ some r) :
    ParsesTo (parseAt r) (max n m + 3) toks (Expr.EBin a top.kind b) (t :: rest) :=
  (parseAt_of_loop r h1 h6 n (max m 1 + 1) a _ toks _ _ ha
    (loopAt_step r h1 h6 m 1 a b _ top toks2 _ _ hop hb
      (loopAt_stop r h1 h6 _ t rest ht))).weaken (by omega)

/-- Two binary operators of the same level `r` between three operands: the
loop folds them to the left. -/
theorem parseAt_binary2 (r : Nat) (h1 : 1 ≤ r) (h6 : r ≤ 6) (n m k : Nat) (a b c : Expr)
    (t1 t2 t : Token) (toks toks2 toks3 rest : List Token)
    (hop1 : binLevel t1.kind = some r) (hop2 : binLevel t2.kind = some r)
    (ha : ParsesTo (parseAt (r + 1)) n toks a (t1 :: toks2))
    (hb : ParsesTo (parseAt (r + 1)) m toks2 b (t2 :: toks3))
    (hc : ParsesTo (parseAt (r + 1)) k toks3 c (t :: rest))
    (ht : binLevel t.kind ≠ some r) :
    ParsesTo (parseAt r) (max n (max m k) + 4) toks
      (Expr.EBin (Expr.EBin a t1.kind b) t2.kind c) (t :: rest) :=
  (parseAt_of_loop r h1 h6 n (max m (max k 1 + 1) + 1) a _ toks _ _ ha
    (loopAt_step r h1 h6 m (max k 1 + 1) a b _ t1 toks2 _ _ hop1 hb
      (loopAt_step r h1 h6 k 1 _ c _ t2 toks3 _ _ hop2 hc
        (loopAt_stop r h1 h6 _ t rest ht)))).weaken (by omega)

/-- A variable reference: an identifier that is followed neither by `(` nor
by `[`. -/
theorem parseUnary_var (ta t : Token) (rest : List Token) (ha : ta.kind = TokKind.Ident)
    (h1 : t.kind ≠ TokKind.LParen) (h2 : t.kind ≠ TokKind.LBracket) :
    ParsesTo parseUnary 3 (ta :: t :: rest) (Expr.EVar ta.lexeme) (t :: rest) := by
  intro fuel hf
  obtain ⟨f, rfl⟩ : ∃ f, fuel = f + 3 := ⟨fuel - 3, by omega⟩
  simp [parseUnary, parsePostfix, parseIndexLoop, ha, h1, h2]

/-- A prefix operator applies to the unary expression that follows it. -/
theorem parseUnary_prefix (n : Nat) (tu : Token) (toks rest : List Token) (e : Expr)
    (hu : tu.kind = TokKind.Bang ∨ tu.kind = TokKind.Minus)
    (he : ParsesTo parseUnary n toks e rest) :
    ParsesTo parseUnary (n + 1) (tu :: toks) (Expr.EUnary tu.kind e) rest := by
  intro fuel hf
  obtain ⟨f, rfl⟩ : ∃ f, fuel = f + 1 := ⟨fuel - 1, by omega⟩
  rcases hu with hu | hu
  · simp [parseUnary, hu, he f (by omega)]
  · simp [parseUnary, hu, he f (by omega)]

/-- An expression of level 1 followed by a token that is no assignment
operator is the whole assignment expression. -/
theorem parseAssign_of_parseOr (n : Nat) (toks : List Token) (e : Expr) (t : Token)
    (rest : List Token) (he : ParsesTo parseOr n toks e (t :: rest))
    (h1 : t.kind ≠ TokKind.Eq) (h2 : isCompoundAssign t.kind = false) :
    ParsesTo parseAssign (n + 1) toks e (t :: rest) := by
  intro fuel hf
  obtain ⟨f, rfl⟩ : ∃ f, fuel = f + 1 := ⟨fuel - 1, by omega⟩
  simp [parseAssign, he f (by omega), h1, h2]

theorem parseExpr_of_parseAssign (n : Nat) (toks : List Token) (e : Expr)
    (rest : List Token) (he : ParsesTo parseAssign n toks e rest) :
    ParsesTo parseExpr (n + 1) toks e rest := by
  intro fuel hf
  obtain ⟨f, rfl⟩ : ∃ f, fuel = f + 1 := ⟨fuel - 1, by omega⟩
  simp [parseExpr, he f (by omega)]

theorem parseExpr_of_parseOr (n : Nat) (toks : List Token) (e : Expr) (t : Token)
    (rest : List Token) (he : ParsesTo parseOr n toks e (t :: rest))
    (h1 : t.kind ≠ TokKind.Eq) (h2 : isCompoundAssign t.kind = false) :
    ParsesTo parseExpr (n + 2) toks e (t :: rest) :=
  parseExpr_of_parseAssign _ _ _ _ (parseAssign_of_parseOr n toks e t rest he h1 h2)

theorem endsExpr_binLevel (k : TokKind) (h : endsExpr k = true) (q : Nat) :
    binLevel k ≠ some q := by
  cases k <;> simp [endsExpr, binLevel] at h ⊢

theorem binLevel_not_open (k : TokKind) (q : Nat) (h : binLevel k = some q) :
    k ≠ TokKind.LParen ∧ k ≠ TokKind.LBracket ∧ k ≠ TokKind.Eq ∧
      isCompoundAssign k = false := by
  cases k <;> simp [binLevel, isCompoundAssign] at h ⊢

theorem binLevel_range (k : TokKind) (q : Nat) (h : binLevel k = some q) : 1 ≤ q ∧ q ≤ 6 := by
  cases k <;> simp [binLevel] at h <;> omega

/-- From level `r2` down to a lower level `r` of the ladder. -/
theorem parseAt_lower (r r2 : Nat) (h1 : 1 ≤ r) (h12 : r ≤ r2) (h7 : r2 ≤ 7) (n : Nat)
    (e : Expr) (toks : List Token) (t : Token) (rest : List Token)
    (he : ParsesTo (parseAt r2) n toks e (t :: rest))
    (ht : ∀ q, r ≤ q → q < r2 → binLevel t.kind ≠ some q) :
    ParsesTo (parseAt r) (n + 12) toks e (t :: rest) := by
  have h := parseAt_climb_many n e toks t rest (r2 - r) r h1 (by omega)
    (by rw [show r + (r2 - r) = r2 by omega]; exact he)
    (fun q hq1 hq2 => ht q hq1 (by omega))
  exact h.weaken (by omega)

/-- A variable reference is an expression of every level that the following
token does not continue. -/
theorem parseAt_var (r : Nat) (h1 : 1 ≤ r) (h7 : r ≤ 7) (ta t : Token) (rest : List Token)
    (ha : ta.kind = TokKind.Ident) (hp : t.kind ≠ TokKind.LParen)
    (hb : t.kind ≠ TokKind.LBracket) (ht : ∀ q, r ≤ q → binLevel t.kind ≠ some q) :
    ParsesTo (parseAt r) 15 (ta :: t :: rest) (Expr.EVar ta.lexeme) (t :: rest) :=
  parseAt_lower r 7 h1 h7 (Nat.le_refl _) 3 _ _ t rest (parseUnary_var ta t rest ha hp hb)
    (fun q hq _ => ht q hq)

theorem endsExpr_not_open (k : TokKind) (h : endsExpr k = true) :
    k ≠ TokKind.LParen ∧ k ≠ TokKind.LBracket ∧ k ≠ TokKind.Eq ∧
      isCompoundAssign k = false := by
  cases k <;> simp [endsExpr, binLevel, isCompoundAssign] at h ⊢

/-- `a lo b hi c` with `lo` on a lower level than `hi`. -/
theorem parseExpr_low_high (ta tlo tb thi tc t : Token) (rest : List Token) (i j : Nat)
    (ha : ta.kind = TokKind.Ident) (hb : tb.kind = TokKind.Ident)
    (hc : tc.kind = TokKind.Ident) (hlo : binLevel tlo.kind = some i)
    (hhi : binLevel thi.kind = some j) (hij : i < j) (ht : endsExpr t.kind = true) :
    ParsesTo parseExpr 50 (ta :: tlo :: tb :: thi :: tc :: t :: rest)
      (Expr.EBin (Expr.EVar ta.lexeme) tlo.kind
        (Expr.EBin (Expr.EVar tb.lexeme) thi.kind (Expr.EVar tc.lexeme))) (t :: rest) := by
  obtain ⟨hi1, hi6⟩ := binLevel_range _ _ hlo
  obtain ⟨hj1, hj6⟩ := binLevel_range _ _ hhi
  obtain ⟨lo1, lo2, _, _⟩ := binLevel_not_open _ _ hlo
  obtain ⟨hi2, hi3, _, _⟩ := binLevel_not_open _ _ hhi
  obtain ⟨t1, t2, t3, t4⟩ := endsExpr_not_open _ ht
  have tq : ∀ q, binLevel t.kind ≠ some q := endsExpr_binLevel _ ht
  have a_at := parseAt_var (i + 1) (by omega) (by omega) ta tlo
    (tb :: thi :: tc :: t :: rest) ha lo1 lo2 (fun q hq => by rw [hlo]; simp; omega)
  have b_at := parseAt_var (j + 1) (by omega) (by omega) tb thi (tc :: t :: rest) hb hi2 hi3
    (fun q hq => by rw [hhi]; simp; omega)
  have c_at := parseAt_var (j + 1) (by omega) (by omega) tc t rest hc t1 t2 (fun q _ => tq q)
  have bc := parseAt_binary j hj1 hj6 15 15 _ _ thi t _ _ rest hhi b_at c_at (tq j)
  have bc_at := parseAt_lower (i + 1) j (by omega) (by omega) (by omega) _ _ _ t rest bc
    (fun q _ _ => tq q)
  have abc := parseAt_binary i hi1 hi6 _ _ _ _ tlo t _ _ rest hlo a_at bc_at (tq i)
  have abc1 := parseAt_lower 1 i (Nat.le_refl _) hi1 (by omega) _ _ _ t rest abc
    (fun q _ _ => tq q)
  exact (parseExpr_of_parseOr _ _ _ t rest abc1 t3 t4).weaken (by simp)

/-- `a hi b lo c` with `lo` on a lower level than `hi`. -/
theorem parseExpr_high_low (ta tlo tb thi tc t : Token) (rest : List Token) (i j : Nat)
    (ha : ta.kind = TokKind.Ident) (hb : tb.kind = TokKind.Ident)
    (hc : tc.kind = TokKind.Ident) (hlo : binLevel tlo.kind = some i)
    (hhi : binLevel thi.kind = some j) (hij : i < j) (ht : endsExpr t.kind = true) :
    ParsesTo parseExpr 50 (ta :: thi :: tb :: tlo :: tc :: t :: rest)
      (Expr.EBin (Expr.EBin (Expr.EVar ta.lexeme) thi.kind (Expr.EVar tb.lexeme)) tlo.kind
        (Expr.EVar tc.lexeme)) (t :: rest) := by
  obtain ⟨hi1, hi6⟩ := binLevel_range _ _ hlo
  obtain ⟨hj1, hj6⟩ := binLevel_range _ _ hhi
  obtain ⟨lo1, lo2, _, _⟩ := binLevel_not_open _ _ hlo
  obtain ⟨hi2, hi3, _, _⟩ := binLevel_not_open _ _ hhi
  obtain ⟨t1, t2, t3, t4⟩ := endsExpr_not_open _ ht
  have tq : ∀ q, binLevel t.kind ≠ some q := endsExpr_binLevel _ ht
  have loq : ∀ q, i < q → binLevel tlo.kind ≠ some q := fun q hq => by
    rw [hlo]; simp; omega
  have a_at := parseAt_var (j + 1) (by omega) (by omega) ta thi
    (tb :: tlo :: tc :: t :: rest) ha hi2 hi3 (fun q hq => by rw [hhi]; simp; omega)
  have b_at := parseAt_var (j + 1) (by omega) (by omega) tb tlo (tc :: t :: rest) hb lo1 lo2
    (fun q hq => loq q (by omega))
  have c_at := parseAt_var (i + 1) (by omega) (by omega) tc t rest hc t1 t2 (fun q _ => tq q)
  have ab := parseAt_binary j hj1 hj6 15 15 _ _ thi tlo _ _ _ hhi a_at b_at (loq j hij)
  have ab_at := parseAt_lower (i + 1) j (by omega) (by omega) (by omega) _ _ _ tlo _ ab
    (fun q hq _ => loq q (by omega))
  have abc := parseAt_binary i hi1 hi6 _ _ _ _ tlo t _ _ rest hlo ab_at c_at (tq i)
  have abc1 := parseAt_lower 1 i (Nat.le_refl _) hi1 (by omega) _ _ _ t rest abc
    (fun q _ _ => tq q)
  exact (parseExpr_of_parseOr _ _ _ t rest abc1 t3 t4).weaken (by simp)

/-- `a op1 b op2 c` with both operators on the same level. -/
theorem parseExpr_same_level (ta t1 tb t2 tc t : Token) (rest : List Token) (r : Nat)
    (ha : ta.kind = TokKind.Ident) (hb : tb.kind = TokKind.Ident)
    (hc : tc.kind = TokKind.Ident) (h1 : binLevel t1.kind = some r)
    (h2 : binLevel t2.kind = some r) (ht : endsExpr t.kind = true) :
    ParsesTo parseExpr 50 (ta :: t1 :: tb :: t2 :: tc :: t :: rest)
      (Expr.EBin (Expr.EBin (Expr.EVar ta.lexeme) t1.kind (Expr.EVar tb.lexeme)) t2.kind
        (Expr.EVar tc.lexeme)) (t :: rest) := by
  obtain ⟨hr1, hr6⟩ := binLevel_range _ _ h1
  obtain ⟨a1, a2, _, _⟩ := binLevel_not_open _ _ h1
  obtain ⟨b1, b2, _, _⟩ := binLevel_not_open _ _ h2
  obtain ⟨e1, e2, e3, e4⟩ := endsExpr_not_open _ ht
  have tq : ∀ q, binLevel t.kind ≠ some q := endsExpr_binLevel _ ht
  have a_at := parseAt_var (r + 1) (by omega) (by omega) ta t1
    (tb :: t2 :: tc :: t :: rest) ha a1 a2 (fun q hq => by rw [h1]; simp; omega)
  have b_at := parseAt_var (r + 1) (by omega) (by omega) tb t2 (tc :: t :: rest) hb b1 b2
    (fun q hq => by rw [h2]; simp; omega)
  have c_at := parseAt_var (r + 1) (by omega) (by omega) tc t rest hc e1 e2 (fun q _ => tq q)
  have abc := parseAt_binary2 r hr1 hr6 15 15 15 _ _ _ t1 t2 t _ _ _ rest h1 h2 a_at b_at c_at
    (tq r)
  have abc1 := parseAt_lower 1 r (Nat.le_refl _) hr1 (by omega) _ _ _ t rest abc
    (fun q _ _ => tq q)
  exact (parseExpr_of_parseOr _ _ _ t rest abc1 e3 e4).weaken (by simp)

/-- A prefix operator binds tighter than a binary operator: `-a op b`. -/
theorem parseExpr_prefix_binary (tu ta top tb t : Token) (rest : List Token) (r : Nat)
    (hu : tu.kind = TokKind.Bang ∨ tu.kind = TokKind.Minus)
    (ha : ta.kind = TokKind.Ident) (hb : tb.kind = TokKind.Ident)
    (hop : binLevel top.kind = some r) (ht : endsExpr t.kind = true) :
    ParsesTo parseExpr 50 (tu :: ta :: top :: tb :: t :: rest)
      (Expr.EBin (Expr.EUnary tu.kind (Expr.EVar ta.lexeme)) top.kind (Expr.EVar tb.lexeme))
      (t :: rest) := by
  obtain ⟨hr1, hr6⟩ := binLevel_range _ _ hop
  obtain ⟨a1, a2, _, _⟩ := binLevel_not_open _ _ hop
  obtain ⟨e1, e2, e3, e4⟩ := endsExpr_not_open _ ht
  have tq : ∀ q, binLevel t.kind ≠ some q := endsExpr_binLevel _ ht
  have ua := parseUnary_prefix 3 tu _ _ _ hu (parseUnary_var ta top (tb :: t :: rest) ha a1 a2)
  have ua_at := parseAt_lower (r + 1) 7 (by omega) (by omega) (Nat.le_refl _) _ _ _ top _ ua
    (fun q hq _ => by rw [hop]; simp; omega)
  have b_at := parseAt_var (r + 1) (by omega) (by omega) tb t rest hb e1 e2 (fun q _ => tq q)
  have uab := parseAt_binary r hr1 hr6 _ _ _ _ top t _ _ rest hop ua_at b_at (tq r)
  have uab1 := parseAt_lower 1 r (Nat.le_refl _) hr1 (by omega) _ _ _ t rest uab
    (fun q _ _ => tq q)
  exact (parseExpr_of_parseOr _ _ _ t rest uab1 e3 e4).weaken (by simp)

/-- The right operand of `=` is the whole assignment expression that follows. -/
theorem parseAssign_eq (n m : Nat) (toks toks2 rest : List Token) (teq : Token) (l r : Expr)
    (hl : ParsesTo parseOr n toks l (teq :: toks2)) (heq : teq.kind = TokKind.Eq)
    (hr : ParsesTo parseAssign m toks2 r rest) :
    ParsesTo parseAssign (max n m + 1) toks (Expr.EBin l TokKind.Eq r) rest := by
  intro fuel hf
  obtain ⟨f, rfl⟩ : ∃ f, fuel = f + 1 := ⟨fuel - 1, by omega⟩
  simp [parseAssign, hl f (by omega), heq, hr f (by omega)]

/-- `a = b = c`. -/
theorem parseExpr_assign_chain (ta t1 tb t2 tc t : Token) (rest : List Token)
    (ha : ta.kind = TokKind.Ident) (hb : tb.kind = TokKind.Ident)
    (hc : tc.kind = TokKind.Ident) (h1 : t1.kind = TokKind.Eq) (h2 : t2.kind = TokKind.Eq)
    (ht : endsExpr t.kind = true) :
    ParsesTo parseExpr 50 (ta :: t1 :: tb :: t2 :: tc :: t :: rest)
      (Expr.EBin (Expr.EVar ta.lexeme) TokKind.Eq
        (Expr.EBin (Expr.EVar tb.lexeme) TokKind.Eq (Expr.EVar tc.lexeme))) (t :: rest) := by
  obtain ⟨e1, e2, e3, e4⟩ := endsExpr_not_open _ ht
  have tq : ∀ q, binLevel t.kind ≠ some q := endsExpr_binLevel _ ht
  have a_or : ParsesTo parseOr 15 (ta :: t1 :: tb :: t2 :: tc :: t :: rest)
      (Expr.EVar ta.lexeme) (t1 :: tb :: t2 :: tc :: t :: rest) :=
    parseAt_var 1 (Nat.le_refl _) (by omega) ta t1 _ ha (by simp [h1]) (by simp [h1])
      (fun q _ => by simp [h1, binLevel])
  have b_or : ParsesTo parseOr 15 (tb :: t2 :: tc :: t :: rest)
      (Expr.EVar tb.lexeme) (t2 :: tc :: t :: rest) :=
    parseAt_var 1 (Nat.le_refl _) (by omega) tb t2 _ hb (by simp [h2]) (by simp [h2])
      (fun q _ => by simp [h2, binLevel])
  have c_or : ParsesTo parseOr 15 (tc :: t :: rest) (Expr.EVar tc.lexeme) (t :: rest) :=
    parseAt_var 1 (Nat.le_refl _) (by omega) tc t rest hc e1 e2 (fun q _ => tq q)
  have c_as := parseAssign_of_parseOr _ _ _ t rest c_or e3 e4
  have bc := parseAssign_eq _ _ _ _ _ t2 _ _ b_or h2 c_as
  have abc := parseAssign_eq _ _ _ _ _ t1 _ _ a_or h1 bc
  exact (parseExpr_of_parseAssign _ _ _ _ abc).weaken (by simp)

/-! ## Inference examines every variable reference of an expression -/

mutual

theorem infer_vars (scope : Scope) (fns : FnTable) :
    ∀ (e : Expr) (t : Ty), infer scope fns e = Except.ok t →
      ∀ n ∈ e.vars, (scope.lookup n).isSome = true
  | Expr.EInt _, _, _ => by simp [Expr.vars]
  | Expr.EBool _, _, _ => by simp [Expr.vars]
  | Expr.EVar name, t, h => by
    simp only [infer] at h
    split at h
    · simp at h
    · rename_i vi hvi
      simp [Expr.vars, hvi]
  | Expr.EUnary _ rhs, t, h => by
    simp only [infer] at h
    split at h
    · simp at h
    · rename_i t1 h1
      simpa [Expr.vars] using infer_vars scope fns rhs t1 h1
  | Expr.EBin lhs op rhs, t, h => by
    simp only [infer] at h
    have key : ∀ tl tr, infer scope fns lhs = Except.ok tl → infer scope fns rhs = Except.ok tr →
        ∀ n ∈ (Expr.EBin lhs op rhs).vars, (scope.lookup n).isSome = true := by
      intro tl tr hl hr n hn
      simp only [Expr.vars, List.mem_append] at hn
      rcases hn with hn | hn
      · exact infer_vars scope fns lhs tl hl n hn
      · exact infer_vars scope fns rhs tr hr n hn
    split at h
    · split at h
      · simp at h
      · rename_i tl hl
        split at h
        · simp at h
        · rename_i tr hr
          exact key tl tr hl hr
    · split at h
      · split at h
        · simp at h
        · rename_i tl hl
          split at h
          · simp at h
          · rename_i tr hr
            exact key tl tr hl hr
      · split at h
        · split at h
          · simp at h
          · rename_i tl hl
            split at h
            · simp at h
            · rename_i tr hr
              exact key tl tr hl hr
        · split at h
          · split at h
            · simp at h
            · rename_i tl hl
              split at h
              · simp at h
              · rename_i tr hr
                exact key tl tr hl hr
          · simp at h
  | Expr.ECall callee args, t, h => by
    simp only [infer] at h
    split at h
    · simp at h
    · rename_i sig hsig
      split at h
      · simp at h
      · split at h
        · simp at h
        · rename_i u hu
          simpa [Expr.vars] using inferArgs_vars scope fns callee args 0 sig.params hu
  | Expr.EArrayLit [], t, h => by simp [infer] at h
  | Expr.EArrayLit (e0 :: rest), t, h => by
    simp only [infer] at h
    split at h
    · simp at h
    · rename_i t0 h0
      split at h
      · simp at h
      · rename_i u hu
        intro n hn
        simp only [Expr.vars, varsOfList, List.mem_append] at hn
        rcases hn with hn | hn
        · exact infer_vars scope fns e0 t0 h0 n hn
        · exact inferElems_vars scope fns t0 rest hu n hn
  | Expr.EIndex arr idx, t, h => by
    simp only [infer] at h
    split at h
    · simp at h
    · rename_i ta ha
      split at h
      · simp at h
      · split at h
        · simp at h
        · rename_i ti hi
          intro n hn
          simp only [Expr.vars, List.mem_append] at hn
          rcases hn with hn | hn
          · exact infer_vars scope fns arr ta ha n hn
          · exact infer_vars scope fns idx ti hi n hn

theorem inferArgs_vars (scope : Scope) (fns : FnTable) (callee : String) :
    ∀ (args : List Expr) (k : Nat) (ps : List Ty),
      inferArgs scope fns callee k args ps = Except.ok () →
      ∀ n ∈ varsOfList args, (scope.lookup n).isSome = true
  | [], _, _, _ => by simp [varsOfList]
  | a :: rest, k, [], h => by simp [inferArgs] at h
  | a :: rest, k, p :: ps, h => by
    simp only [inferArgs] at h
    split at h
    · simp at h
    · rename_i ta ha
      split at h
      · simp at h
      · split at h
        · simp at h
        · intro n hn
          simp only [varsOfList, List.mem_append] at hn
          rcases hn with hn | hn
          · exact infer_vars scope fns a ta ha n hn
          · exact inferArgs_vars scope fns callee rest (k + 1) ps h n hn

theorem inferElems_vars (scope : Scope) (fns : FnTable) (elemType : Ty) :
    ∀ (es : List Expr), inferElems scope fns elemType es = Except.ok () →
      ∀ n ∈ varsOfList es, (scope.lookup n).isSome = true
  | [], _ => by simp [varsOfList]
  | e :: rest, h => by
    simp only [inferElems] at h
    split at h
    · simp at h
    · rename_i te he
      split at h
      · simp at h
      · intro n hn
        simp only [varsOfList, List.mem_append] at hn
        rcases hn with hn | hn
        · exact infer_vars scope fns e te he n hn
        · exact inferElems_vars scope fns elemType rest h n hn

end


/-! ## What `checkStmt` leaves unchanged -/

theorem Scope.declare_stack (sc sc2 : Scope) (n : String) (t : Ty) (u : Bool)
    (h : sc.declare n t u = (true, sc2)) :
    ∃ m rest, sc.stack = m :: rest ∧ (m.lookup n).isSome = false ∧
      sc2.stack = ((n, { ty := t, isUnique := u }) :: m) :: rest := by
  unfold Scope.declare at h
  split at h
  · simp at h
  · rename_i m rest hst
    split at h
    · simp at h
    · rename_i hm
      refine ⟨m, rest, hst, Bool.eq_false_iff.mpr hm, ?_⟩
      simp only [Prod.mk.injEq, true_and] at h
      rw [← h]

mutual

theorem checkStmt_frame (ret : Option Ty) :
    ∀ (st : Stmt) (s : Sema) (d : List Expr) (s2 : Sema) (d2 : List Expr),
      checkStmt ret s d st = Except.ok (s2, d2) →
      s2.fns = s.fns ∧ s2.loopDepth = s.loopDepth ∧
        ∀ m rest, s.scope.stack = m :: rest → ∃ m2, s2.scope.stack = m2 :: rest
  | Stmt.SLet name annType init isUnique, s, d, s2, d2, h => by
    simp only [checkStmt] at h
    split at h
    · simp at h
    · split at h
      · simp at h
      · split at h
        · simp at h
        · rename_i sc hdecl
          obtain ⟨m, rest, hst, _, hsc⟩ := Scope.declare_stack _ _ _ _ _ hdecl
          have hs2 : s2 = { s with scope := sc } := by
            split at h <;> simp at h <;> exact h.1.symm
          subst hs2
          refine ⟨rfl, rfl, ?_⟩
          intro m1 rest1 h1
          rw [hst] at h1
          simp only [List.cons.injEq] at h1
          exact ⟨_, by rw [hsc, h1.2]⟩
  | Stmt.SExpr e, s, d, s2, d2, h => by
    simp only [checkStmt] at h
    split at h
    · simp at h
    · simp at h
      obtain ⟨rfl, _⟩ := h
      exact ⟨rfl, rfl, fun m rest hm => ⟨m, hm⟩⟩
  | Stmt.SReturn e, s, d, s2, d2, h => by
    simp only [checkStmt] at h
    have : s2 = s := by
      repeat' split at h
      all_goals simp at h
      all_goals exact h.1.symm
    subst this
    exact ⟨rfl, rfl, fun m rest hm => ⟨m, hm⟩⟩
  | Stmt.SIf cond thenStmts elseStmts, s, d, s2, d2, h => by
    simp only [checkStmt] at h
    split at h
    · simp at h
    · split at h
      · simp at h
      · split at h
        · simp at h
        · rename_i s1 d1 h1
          split at h
          · simp at h
          · rename_i s3 d3 h3
            simp only [Except.ok.injEq, Prod.mk.injEq] at h
            obtain ⟨rfl, _⟩ := h
            have f1 := checkStmts_frame ret thenStmts _ _ _ _ h1
            have f3 := checkStmts_frame ret elseStmts _ _ _ _ h3
            obtain ⟨m1, hm1⟩ := f1.2.2 [] s.scope.stack rfl
            have hpop : s1.scope.pop = s.scope := by
              cases hs : s.scope
              simp [Scope.pop, hm1, hs]
            obtain ⟨m3, hm3⟩ := f3.2.2 [] s.scope.stack (by simp [Scope.push, hpop])
            refine ⟨?_, ?_, ?_⟩
            · simpa using f3.1.trans f1.1
            · simpa using f3.2.1.trans f1.2.1
            · intro m rest hm
              exact ⟨m, by simp [Scope.pop, hm3, hm]⟩
  | Stmt.SWhile cond body, s, d, s2, d2, h => by
    simp only [checkStmt] at h
    split at h
    · simp at h
    · split at h
      · simp at h
      · split at h
        · simp at h
        · rename_i s1 d1 h1
          simp only [Except.ok.injEq, Prod.mk.injEq] at h
          obtain ⟨rfl, _⟩ := h
          have f1 := checkStmts_frame ret body _ _ _ _ h1
          obtain ⟨m1, hm1⟩ := f1.2.2 [] s.scope.stack rfl
          refine ⟨?_, ?_, ?_⟩
          · simpa using f1.1
          · have := f1.2.1
            simp only at this ⊢
            omega
          · intro m rest hm
            exact ⟨m, by simp [Scope.pop, hm1, hm]⟩
  | Stmt.SDefer e, s, d, s2, d2, h => by
    simp only [checkStmt, Except.ok.injEq, Prod.mk.injEq] at h
    obtain ⟨rfl, _⟩ := h
    exact ⟨rfl, rfl, fun m rest hm => ⟨m, hm⟩⟩
  | Stmt.SBreak, s, d, s2, d2, h => by
    simp only [checkStmt] at h
    split at h
    · simp at h
    · simp only [Except.ok.injEq, Prod.mk.injEq] at h
      obtain ⟨rfl, _⟩ := h
      exact ⟨rfl, rfl, fun m rest hm => ⟨m, hm⟩⟩
  | Stmt.SContinue, s, d, s2, d2, h => by
    simp only [checkStmt] at h
    split at h
    · simp at h
    · simp only [Except.ok.injEq, Prod.mk.injEq] at h
      obtain ⟨rfl, _⟩ := h
      exact ⟨rfl, rfl, fun m rest hm => ⟨m, hm⟩⟩

theorem checkStmts_frame (ret : Option Ty) :
    ∀ (ss : List Stmt) (s : Sema) (d : List Expr) (s2 : Sema) (d2 : List Expr),
      checkStmts ret s d ss = Except.ok (s2, d2) →
      s2.fns = s.fns ∧ s2.loopDepth = s.loopDepth ∧
        ∀ m rest, s.scope.stack = m :: rest → ∃ m2, s2.scope.stack = m2 :: rest
  | [], s, d, s2, d2, h => by
    simp only [checkStmts, Except.ok.injEq, Prod.mk.injEq] at h
    obtain ⟨rfl, _⟩ := h
    exact ⟨rfl, rfl, fun m rest hm => ⟨m, hm⟩⟩
  | st :: rest, s, d, s2, d2, h => by
    simp only [checkStmts] at h
    split at h
    · simp at h
    · rename_i s1 d1 h1
      have f1 := checkStmt_frame ret st _ _ _ _ h1
      have f2 := checkStmts_frame ret rest _ _ _ _ h
      refine ⟨f2.1.trans f1.1, f2.2.1.trans f1.2.1, ?_⟩
      intro m rest0 hm
      obtain ⟨m1, hm1⟩ := f1.2.2 m rest0 hm
      exact f2.2.2 m1 rest0 hm1

end

/-- A block checked in a pushed frame leaves, after the pop, the scope it
started from. -/
theorem checkStmts_block (ret : Option Ty) (ss : List Stmt) (s : Sema) (x : Int)
    (s1 : Sema) (d1 : List Expr)
    (h : checkStmts ret { s with scope := s.scope.push, loopDepth := x } [] ss
          = Except.ok (s1, d1)) :
    s1.scope.pop = s.scope ∧ s1.fns = s.fns ∧ s1.loopDepth = x := by
  have f := checkStmts_frame ret ss _ _ _ _ h
  obtain ⟨m1, hm1⟩ := f.2.2 [] s.scope.stack rfl
  refine ⟨?_, f.1, f.2.1⟩
  cases hs : s.scope
  simp [Scope.pop, hm1, hs]


/-! ## Accepted statements only refer to visible names -/

theorem varsIn_of_infer (scope : Scope) (fns : FnTable) (e : Expr) (t : Ty)
    (vis : List String) (h : infer scope fns e = Except.ok t)
    (hvis : ∀ n, (scope.lookup n).isSome = true → n ∈ vis) :
    e.varsIn vis = true := by
  simp only [Expr.varsIn, List.all_eq_true]
  intro n hn
  exact List.elem_iff.mpr (hvis n (infer_vars scope fns e t h n hn))

theorem Scope.lookup_of_declare (sc sc2 : Scope) (name : String) (t : Ty) (u : Bool)
    (h : sc.declare name t u = (true, sc2)) (n : String)
    (hn : (sc2.lookup n).isSome = true) : n = name ∨ (sc.lookup n).isSome = true := by
  obtain ⟨m, rest, hst, _, hsc⟩ := Scope.declare_stack _ _ _ _ _ h
  simp only [Scope.lookup, hsc, hst, Scope.lookupIn, List.lookup] at hn ⊢
  by_cases hnn : n = name
  · exact Or.inl hnn
  · right
    have : (n == name) = false := by simpa using hnn
    simpa [this] using hn

mutual

theorem checkStmt_vars (ret : Option Ty) :
    ∀ (st : Stmt) (s : Sema) (d : List Expr) (s2 : Sema) (d2 : List Expr),
      checkStmt ret s d st = Except.ok (s2, d2) →
      ∀ vis : List String, (∀ n, (s.scope.lookup n).isSome = true → n ∈ vis) →
        stmtVarsOk false vis st = true ∧
          ∀ n, (s2.scope.lookup n).isSome = true → n ∈ visibleAfter st vis
  | Stmt.SLet name annType init isUnique, s, d, s2, d2, h => by
    intro vis hvis
    simp only [checkStmt] at h
    split at h
    · simp at h
    · rename_i t ht
      split at h
      · simp at h
      · split at h
        · simp at h
        · rename_i sc hdecl
          have hs2 : s2 = { s with scope := sc } := by
            split at h <;> simp at h <;> exact h.1.symm
          subst hs2
          constructor
          · cases annType with
            | some a => simp [stmtVarsOk]
            | none =>
              simp only [stmtVarsOk, Option.isSome_none, Bool.false_and, Bool.false_or]
              exact varsIn_of_infer _ _ _ _ _ ht hvis
          · intro n hn
            simp only [visibleAfter, List.mem_cons]
            rcases Scope.lookup_of_declare _ _ _ _ _ hdecl n hn with h1 | h1
            · exact Or.inl h1
            · exact Or.inr (hvis n h1)
  | Stmt.SExpr e, s, d, s2, d2, h => by
    intro vis hvis
    simp only [checkStmt] at h
    split at h
    · simp at h
    · rename_i t ht
      simp at h
      obtain ⟨rfl, _⟩ := h
      exact ⟨by simpa [stmtVarsOk] using varsIn_of_infer _ _ _ _ _ ht hvis, hvis⟩
  | Stmt.SReturn none, s, d, s2, d2, h => by
    intro vis hvis
    have f := checkStmt_frame ret _ _ _ _ _ h
    simp only [checkStmt] at h
    have : s2 = s := by
      repeat' split at h
      all_goals simp at h
      all_goals exact h.1.symm
    subst this
    exact ⟨by simp [stmtVarsOk], hvis⟩
  | Stmt.SReturn (some v), s, d, s2, d2, h => by
    intro vis hvis
    simp only [checkStmt] at h
    split at h
    · simp at h
    · split at h
      · simp at h
      · split at h
        · simp at h
        · rename_i t ht
          split at h
          · simp at h
          · simp at h
            obtain ⟨rfl, _⟩ := h
            exact ⟨by simpa [stmtVarsOk] using varsIn_of_infer _ _ _ _ _ ht hvis, hvis⟩
  | Stmt.SIf cond thenStmts elseStmts, s, d, s2, d2, h => by
    intro vis hvis
    simp only [checkStmt] at h
    split at h
    · simp at h
    · rename_i t ht
      split at h
      · simp at h
      · split at h
        · simp at h
        · rename_i s1 d1 h1
          split at h
          · simp at h
          · rename_i s3 d3 h3
            simp only [Except.ok.injEq, Prod.mk.injEq] at h
            obtain ⟨rfl, _⟩ := h
            have b1 := checkStmts_block ret thenStmts s s.loopDepth s1 d1 h1
            have h3b : checkStmts ret
                { s with scope := s.scope.push, loopDepth := s1.loopDepth, fns := s1.fns }
                [] elseStmts = Except.ok (s3, d3) := by
              rw [← h3]
              congr 1
              cases s1
              simp only [Sema.mk.injEq]
              exact ⟨by rw [← b1.1], trivial, trivial⟩
            have b3 := checkStmts_block ret elseStmts
              { s with fns := s1.fns } s1.loopDepth s3 d3 h3b
            have v1 := checkStmts_vars ret thenStmts _ _ _ _ h1 vis
              (by simpa [Scope.lookup_push] using hvis)
            have v3 := checkStmts_vars ret elseStmts _ _ _ _ h3b vis
              (by simpa [Scope.lookup_push] using hvis)
            refine ⟨?_, ?_⟩
            · simp only [stmtVarsOk, Bool.and_eq_true]
              exact ⟨⟨varsIn_of_infer _ _ _ _ _ ht hvis, v1⟩, v3⟩
            · simp only [visibleAfter]
              have : s3.scope.pop = s.scope := b3.1
              simpa [this] using hvis
  | Stmt.SWhile cond body, s, d, s2, d2, h => by
    intro vis hvis
    simp only [checkStmt] at h
    split at h
    · simp at h
    · rename_i t ht
      split at h
      · simp at h
      · split at h
        · simp at h
        · rename_i s1 d1 h1
          simp only [Except.ok.injEq, Prod.mk.injEq] at h
          obtain ⟨rfl, _⟩ := h
          have b1 := checkStmts_block ret body s (s.loopDepth + 1) s1 d1 h1
          have v1 := checkStmts_vars ret body _ _ _ _ h1 vis
            (by simpa [Scope.lookup_push] using hvis)
          refine ⟨?_, ?_⟩
          · simp only [stmtVarsOk, Bool.and_eq_true]
            exact ⟨varsIn_of_infer _ _ _ _ _ ht hvis, v1⟩
          · simp only [visibleAfter]
            have : s1.scope.pop = s.scope := b1.1
            simpa [this] using hvis
  | Stmt.SDefer e, s, d, s2, d2, h => by
    intro vis hvis
    simp only [checkStmt, Except.ok.injEq, Prod.mk.injEq] at h
    obtain ⟨rfl, _⟩ := h
    exact ⟨by simp [stmtVarsOk], hvis⟩
  | Stmt.SBreak, s, d, s2, d2, h => by
    intro vis hvis
    simp only [checkStmt] at h
    split at h
    · simp at h
    · simp only [Except.ok.injEq, Prod.mk.injEq] at h
      obtain ⟨rfl, _⟩ := h
      exact ⟨by simp [stmtVarsOk], hvis⟩
  | Stmt.SContinue, s, d, s2, d2, h => by
    intro vis hvis
    simp only [checkStmt] at h
    split at h
    · simp at h
    · simp only [Except.ok.injEq, Prod.mk.injEq] at h
      obtain ⟨rfl, _⟩ := h
      exact ⟨by simp [stmtVarsOk], hvis⟩

theorem checkStmts_vars (ret : Option Ty) :
    ∀ (ss : List Stmt) (s : Sema) (d : List Expr) (s2 : Sema) (d2 : List Expr),
      checkStmts ret s d ss = Except.ok (s2, d2) →
      ∀ vis : List String, (∀ n, (s.scope.lookup n).isSome = true → n ∈ vis) →
        stmtsVarsOk false vis ss = true
  | [], s, d, s2, d2, h => by
    intro vis _
    simp [stmtsVarsOk]
  | st :: rest, s, d, s2, d2, h => by
    intro vis hvis
    simp only [checkStmts] at h
    split at h
    · simp at h
    · rename_i s1 d1 h1
      have v1 := checkStmt_vars ret st _ _ _ _ h1 vis hvis
      have v2 := checkStmts_vars ret rest _ _ _ _ h (visibleAfter st vis) v1.2
      simp only [stmtsVarsOk, Bool.and_eq_true]
      exact ⟨v1.1, v2⟩

end


/-! ## Accepted statements keep `break` and `continue` inside loops -/

mutual

theorem checkStmt_loops (ret : Option Ty) (brk cont : Bool) :
    ∀ (st : Stmt) (s : Sema) (d : List Expr) (s2 : Sema) (d2 : List Expr),
      checkStmt ret s d st = Except.ok (s2, d2) → 0 ≤ s.loopDepth →
      stmtLoopsOk brk cont (decide (0 < s.loopDepth)) st = true
  | Stmt.SLet _ _ _ _, _, _, _, _, _ => by simp [stmtLoopsOk]
  | Stmt.SExpr _, _, _, _, _, _ => by simp [stmtLoopsOk]
  | Stmt.SReturn _, _, _, _, _, _ => by simp [stmtLoopsOk]
  | Stmt.SDefer _, _, _, _, _, _ => by simp [stmtLoopsOk]
  | Stmt.SBreak, s, d, s2, d2, h => by
    intro h0
    simp only [checkStmt] at h
    split at h
    · simp at h
    · rename_i hne
      have : 0 < s.loopDepth := by omega
      simp [stmtLoopsOk, this]
  | Stmt.SContinue, s, d, s2, d2, h => by
    intro h0
    simp only [checkStmt] at h
    split at h
    · simp at h
    · rename_i hne
      have : 0 < s.loopDepth := by omega
      simp [stmtLoopsOk, this]
  | Stmt.SIf cond thenStmts elseStmts, s, d, s2, d2, h => by
    intro h0
    simp only [checkStmt] at h
    split at h
    · simp at h
    · split at h
      · simp at h
      · split at h
        · simp at h
        · rename_i s1 d1 h1
          split at h
          · simp at h
          · rename_i s3 d3 h3
            have b1 := checkStmts_block ret thenStmts s s.loopDepth s1 d1 h1
            have l1 := checkStmts_loops ret brk cont thenStmts _ _ _ _ h1 h0
            have l3 := checkStmts_loops ret brk cont elseStmts _ _ _ _ h3
              (by simpa [b1.2.2] using h0)
            simp only [stmtLoopsOk, Bool.and_eq_true]
            exact ⟨l1, by simpa [b1.2.2] using l3⟩
  | Stmt.SWhile cond body, s, d, s2, d2, h => by
    intro h0
    simp only [checkStmt] at h
    split at h
    · simp at h
    · split at h
      · simp at h
      · split at h
        · simp at h
        · rename_i s1 d1 h1
          have l1 := checkStmts_loops ret brk cont body _ _ _ _ h1 (by simp only; omega)
          have hpos : decide (0 < s.loopDepth + 1) = true := by
            simp only [decide_eq_true_eq]; omega
          simp only [stmtLoopsOk]
          simpa [hpos] using l1

theorem checkStmts_loops (ret : Option Ty) (brk cont : Bool) :
    ∀ (ss : List Stmt) (s : Sema) (d : List Expr) (s2 : Sema) (d2 : List Expr),
      checkStmts ret s d ss = Except.ok (s2, d2) → 0 ≤ s.loopDepth →
      stmtsLoopsOk brk cont (decide (0 < s.loopDepth)) ss = true
  | [], _, _, _, _, _ => by simp [stmtsLoopsOk]
  | st :: rest, s, d, s2, d2, h => by
    intro h0
    simp only [checkStmts] at h
    split at h
    · simp at h
    · rename_i s1 d1 h1
      have f1 := checkStmt_frame ret st _ _ _ _ h1
      have l1 := checkStmt_loops ret brk cont st _ _ _ _ h1 h0
      have l2 := checkStmts_loops ret brk cont rest _ _ _ _ h (by rw [f1.2.1]; exact h0)
      simp only [stmtsLoopsOk, Bool.and_eq_true]
      exact ⟨l1, by simpa [f1.2.1] using l2⟩

end

/-! ## Diagnostics: only the loop check reports a misplaced `break` or `continue` -/

theorem isLoopMsg_false_of (m : String) (h1 : m.data.take 3 ≠ ['b', 'r', 'e'])
    (h2 : m.data.take 3 ≠ ['c', 'o', 'n']) : isLoopMsg m = false := by
  simp only [isLoopMsg, Bool.or_eq_false_iff, decide_eq_false_iff_not]
  constructor
  · intro h
    apply h1
    rw [h]
    decide
  · intro h
    apply h2
    rw [h]
    decide

mutual

theorem infer_error (scope : Scope) (fns : FnTable) :
    ∀ (e : Expr) (m : String), infer scope fns e = Except.error m → isLoopMsg m = false
  | Expr.EInt _, m, h => by simp [infer] at h
  | Expr.EBool _, m, h => by simp [infer] at h
  | Expr.EVar name, m, h => by
    simp only [infer] at h
    split at h
    · obtain rfl := Except.error.inj h
      apply isLoopMsg_false_of <;> simp
    · simp at h
  | Expr.EUnary _ rhs, m, h => by
    simp only [infer] at h
    split at h
    · rename_i m1 h1
      obtain rfl := Except.error.inj h
      exact infer_error scope fns rhs _ h1
    · split at h
      · obtain rfl := Except.error.inj h
        apply isLoopMsg_false_of <;> simp
      · simp at h
  | Expr.EBin lhs op rhs, m, h => by
    simp only [infer] at h
    repeat' split at h
    all_goals first
      | (simp at h; done)
      | (obtain rfl := Except.error.inj h
         first
           | exact infer_error scope fns lhs _ (by assumption)
           | exact infer_error scope fns rhs _ (by assumption)
           | (apply isLoopMsg_false_of <;> simp))
  | Expr.ECall callee args, m, h => by
    simp only [infer] at h
    repeat' split at h
    all_goals first
      | (simp at h; done)
      | (obtain rfl := Except.error.inj h
         first
           | exact inferArgs_error scope fns callee args _ _ _ (by assumption)
           | (apply isLoopMsg_false_of <;> simp))
  | Expr.EArrayLit [], m, h => by
    simp only [infer] at h
    obtain rfl := Except.error.inj h
    apply isLoopMsg_false_of <;> simp
  | Expr.EArrayLit (e0 :: rest), m, h => by
    simp only [infer] at h
    repeat' split at h
    all_goals first
      | (simp at h; done)
      | (obtain rfl := Except.error.inj h
         first
           | exact infer_error scope fns e0 _ (by assumption)
           | exact inferElems_error scope fns _ rest _ (by assumption))
  | Expr.EIndex arr idx, m, h => by
    simp only [infer] at h
    repeat' split at h
    all_goals first
      | (simp at h; done)
      | (obtain rfl := Except.error.inj h
         first
           | exact infer_error scope fns arr _ (by assumption)
           | exact infer_error scope fns idx _ (by assumption)
           | (apply isLoopMsg_false_of <;> simp))

theorem inferArgs_error (scope : Scope) (fns : FnTable) (callee : String) :
    ∀ (args : List Expr) (k : Nat) (ps : List Ty) (m : String),
      inferArgs scope fns callee k args ps = Except.error m → isLoopMsg m = false
  | [], _, _, m, h => by simp [inferArgs] at h
  | a :: rest, k, [], m, h => by
    simp only [inferArgs] at h
    obtain rfl := Except.error.inj h
    apply isLoopMsg_false_of <;> simp
  | a :: rest, k, p :: ps, m, h => by
    simp only [inferArgs] at h
    split at h
    · rename_i m1 h1
      obtain rfl := Except.error.inj h
      exact infer_error scope fns a _ h1
    · split at h
      · obtain rfl := Except.error.inj h
        apply isLoopMsg_false_of <;> simp
      · split at h
        · obtain rfl := Except.error.inj h
          apply isLoopMsg_false_of <;> simp
        · exact inferArgs_error scope fns callee rest _ _ _ h

theorem inferElems_error (scope : Scope) (fns : FnTable) (elemType : Ty) :
    ∀ (es : List Expr) (m : String),
      inferElems scope fns elemType es = Except.error m → isLoopMsg m = false
  | [], m, h => by simp [inferElems] at h
  | e :: rest, m, h => by
    simp only [inferElems] at h
    split at h
    · rename_i m1 h1
      obtain rfl := Except.error.inj h
      exact infer_error scope fns e _ h1
    · split at h
      · obtain rfl := Except.error.inj h
        apply isLoopMsg_false_of <;> simp
      · exact inferElems_error scope fns elemType rest _ h

end

theorem loopMsg_isLoopMsg (isBrk : Bool) : isLoopMsg (loopMsg isBrk) = true := by
  cases isBrk <;> decide

theorem ne_loopMsg_of (m : String) (isBrk : Bool) (h : isLoopMsg m = false) :
    m ≠ loopMsg isBrk := by
  intro hm
  rw [hm, loopMsg_isLoopMsg] at h
  exact Bool.noConfusion h

mutual

theorem checkStmt_error (ret : Option Ty) (isBrk : Bool) :
    ∀ (st : Stmt) (s : Sema) (d : List Expr),
      checkStmt ret s d st = Except.error (loopMsg isBrk) → 0 ≤ s.loopDepth →
      stmtLoopsOk isBrk (!isBrk) (decide (0 < s.loopDepth)) st = false
  | Stmt.SLet name annType init isUnique, s, d, h => by
    exfalso
    simp only [checkStmt] at h
    split at h
    · rename_i m1 hm
      have h2 := Except.error.inj h
      cases annType with
      | some a => simp at hm
      | none => exact ne_loopMsg_of _ isBrk (infer_error _ _ _ _ hm) h2
    · split at h
      · exact ne_loopMsg_of _ isBrk (by apply isLoopMsg_false_of <;> simp)
          (Except.error.inj h)
      · split at h
        · exact ne_loopMsg_of _ isBrk (by apply isLoopMsg_false_of <;> simp)
            (Except.error.inj h)
        · split at h <;> simp at h
  | Stmt.SExpr e, s, d, h => by
    exfalso
    simp only [checkStmt] at h
    split at h
    · rename_i m1 h1
      exact ne_loopMsg_of _ isBrk (infer_error _ _ _ _ h1) (Except.error.inj h)
    · simp at h
  | Stmt.SReturn e, s, d, h => by
    exfalso
    simp only [checkStmt] at h
    repeat' split at h
    all_goals first
      | (simp at h; done)
      | (have h2 := Except.error.inj h
         first
           | exact ne_loopMsg_of _ isBrk (infer_error _ _ _ _ (by assumption)) h2
           | exact ne_loopMsg_of _ isBrk (by apply isLoopMsg_false_of <;> simp) h2)
  | Stmt.SDefer e, s, d, h => by simp [checkStmt] at h
  | Stmt.SBreak, s, d, h => by
    intro h0
    simp only [checkStmt] at h
    split at h
    · rename_i hd
      have h2 := Except.error.inj h
      cases isBrk
      · simp [loopMsg] at h2
      · simp [stmtLoopsOk, hd]
    · simp at h
  | Stmt.SContinue, s, d, h => by
    intro h0
    simp only [checkStmt] at h
    split at h
    · rename_i hd
      have h2 := Except.error.inj h
      cases isBrk
      · simp [stmtLoopsOk, hd]
      · simp [loopMsg] at h2
    · simp at h
  | Stmt.SIf cond thenStmts elseStmts, s, d, h => by
    intro h0
    simp only [checkStmt] at h
    split at h
    · rename_i m1 h1
      exact absurd (Except.error.inj h) (ne_loopMsg_of _ isBrk (infer_error _ _ _ _ h1))
    · split at h
      · exact absurd (Except.error.inj h)
          (ne_loopMsg_of _ isBrk (by apply isLoopMsg_false_of <;> simp))
      · split at h
        · rename_i m1 h1
          obtain rfl := Except.error.inj h
          have l1 := checkStmts_error ret isBrk thenStmts _ _ h1 h0
          simp only [stmtLoopsOk, Bool.and_eq_false_iff]
          exact Or.inl l1
        · rename_i s1 d1 h1
          split at h
          · rename_i m3 h3
            obtain rfl := Except.error.inj h
            have b1 := checkStmts_block ret thenStmts s s.loopDepth s1 d1 h1
            have l3 := checkStmts_error ret isBrk elseStmts _ _ h3
              (by simpa [b1.2.2] using h0)
            simp only [stmtLoopsOk, Bool.and_eq_false_iff]
            exact Or.inr (by simpa [b1.2.2] using l3)
          · simp at h
  | Stmt.SWhile cond body, s, d, h => by
    intro h0
    simp only [checkStmt] at h
    split at h
    · rename_i m1 h1
      exact absurd (Except.error.inj h) (ne_loopMsg_of _ isBrk (infer_error _ _ _ _ h1))
    · split at h
      · exact absurd (Except.error.inj h)
          (ne_loopMsg_of _ isBrk (by apply isLoopMsg_false_of <;> simp))
      · split at h
        · rename_i m1 h1
          obtain rfl := Except.error.inj h
          have l1 := checkStmts_error ret isBrk body _ _ h1 (by simp only; omega)
          have hpos : decide (0 < s.loopDepth + 1) = true := by
            simp only [decide_eq_true_eq]; omega
          simp only [stmtLoopsOk]
          simpa [hpos] using l1
        · simp at h

theorem checkStmts_error (ret : Option Ty) (isBrk : Bool) :
    ∀ (ss : List Stmt) (s : Sema) (d : List Expr),
      checkStmts ret s d ss = Except.error (loopMsg isBrk) → 0 ≤ s.loopDepth →
      stmtsLoopsOk isBrk (!isBrk) (decide (0 < s.loopDepth)) ss = false
  | [], _, _, h => by simp [checkStmts] at h
  | st :: rest, s, d, h => by
    intro h0
    simp only [checkStmts] at h
    simp only [stmtsLoopsOk, Bool.and_eq_false_iff]
    split at h
    · rename_i m1 h1
      obtain rfl := Except.error.inj h
      exact Or.inl (checkStmt_error ret isBrk st _ _ h1 h0)
    · rename_i s1 d1 h1
      have f1 := checkStmt_frame ret st _ _ _ _ h1
      have l2 := checkStmts_error ret isBrk rest _ _ h (by rw [f1.2.1]; exact h0)
      exact Or.inr (by simpa [f1.2.1] using l2)

end

/-! ## The body pass -/

theorem declareParams_stack : ∀ (ps : List Param) (sc : Scope) (m : Frame) (rest : List Frame),
    sc.stack = m :: rest → ∃ m2, (declareParams sc ps).stack = m2 :: rest
  | [], sc, m, rest, h => ⟨m, by simpa [declareParams] using h⟩
  | pr :: ps, sc, m, rest, h => by
    simp only [declareParams]
    apply declareParams_stack ps _ (if (m.lookup pr.name).isSome then m
      else (pr.name, { ty := pr.ty.clone, isUnique := false }) :: m) rest
    simp only [Scope.declare, h]
    split <;> simp [h]

theorem declareParams_lookup : ∀ (ps : List Param) (sc : Scope) (n : String),
    ((declareParams sc ps).lookup n).isSome = true →
      n ∈ ps.map (fun pr => pr.name) ∨ (sc.lookup n).isSome = true
  | [], sc, n, h => Or.inr (by simpa [declareParams] using h)
  | pr :: ps, sc, n, h => by
    simp only [declareParams] at h
    rcases declareParams_lookup ps _ n h with h1 | h1
    · exact Or.inl (by simp [h1])
    · cases hd : sc.declare pr.name pr.ty.clone false with
      | mk b sc2 =>
        rw [hd] at h1
        cases b with
        | true =>
          rcases Scope.lookup_of_declare _ _ _ _ _ hd n h1 with h2 | h2
          · exact Or.inl (by simp [h2])
          · exact Or.inr h2
        | false =>
          have : sc2 = sc := by
            unfold Scope.declare at hd
            split at hd
            · simp at hd; exact hd.symm
            · split at hd
              · simp at hd; exact hd.symm
              · simp at hd
          rw [this] at h1
          exact Or.inr h1

theorem checkBodies_sound : ∀ (fs : List Func) (s s2 : Sema),
    s.scope.stack = [[]] → s.loopDepth = 0 → checkBodies s fs = Except.ok s2 →
      ∀ f ∈ fs, f.varsOk false = true ∧ stmtsLoopsOk true true false f.body = true
  | [], _, _, _, _, _ => by simp
  | fn :: rest, s, s2, hst, hld, h => by
    simp only [checkBodies] at h
    split at h
    · simp at h
    · rename_i s1 d1 h1
      have f1 := checkStmts_frame _ _ _ _ _ _ h1
      obtain ⟨mp, hmp⟩ := declareParams_stack fn.params s.scope.push [] s.scope.stack rfl
      obtain ⟨m1, hm1⟩ := f1.2.2 mp s.scope.stack hmp
      have hcov : ∀ n, ((declareParams s.scope.push fn.params).lookup n).isSome = true →
          n ∈ fn.params.map (fun pr => pr.name) := by
        intro n hn
        rcases declareParams_lookup _ _ n hn with h2 | h2
        · exact h2
        · simp [Scope.lookup, Scope.push, hst, Scope.lookupIn] at h2
      have v1 := checkStmts_vars _ _ _ _ _ _ h1 _ hcov
      have l1 := checkStmts_loops _ true true _ _ _ _ _ h1 (by simp [hld])
      have ih := checkBodies_sound rest _ s2 (by simp [Scope.pop, hm1, hst])
        (by simpa [hld] using f1.2.1) h
      intro f hf
      simp only [List.mem_cons] at hf
      rcases hf with rfl | hf
      · exact ⟨v1, by simpa [hld] using l1⟩
      · exact ih f hf

theorem analyze_sound (p : Program) (s : Sema) (h : analyze p = Except.ok s) :
    p.varsOk false = true ∧ p.loopsOk true true = true := by
  simp only [analyze] at h
  split at h
  · simp at h
  · rename_i fns hf
    have := checkBodies_sound p.funcs _ s rfl rfl h
    simp only [Program.varsOk, Program.loopsOk, List.all_eq_true]
    exact ⟨fun f hf => (this f hf).1, fun f hf => (this f hf).2⟩


theorem checkBodies_error (isBrk : Bool) : ∀ (fs : List Func) (s : Sema),
    s.loopDepth = 0 → checkBodies s fs = Except.error (loopMsg isBrk) →
      ∃ f ∈ fs, stmtsLoopsOk isBrk (!isBrk) false f.body = false
  | [], _, _, h => by simp [checkBodies] at h
  | fn :: rest, s, hld, h => by
    simp only [checkBodies] at h
    split at h
    · rename_i m1 h1
      obtain rfl := Except.error.inj h
      have l1 := checkStmts_error _ isBrk _ _ _ h1 (by simp [hld])
      exact ⟨fn, by simp, by simpa [hld] using l1⟩
    · rename_i s1 d1 h1
      have f1 := checkStmts_frame _ _ _ _ _ _ h1
      obtain ⟨f, hf, hl⟩ := checkBodies_error isBrk rest _ (by simpa [hld] using f1.2.1) h
      exact ⟨f, by simp [hf], hl⟩

theorem gatherParams_error : ∀ (ps : List Param) (m : String),
    gatherParams ps = Except.error m → isLoopMsg m = false
  | [], m, h => by simp [gatherParams] at h
  | pr :: rest, m, h => by
    simp only [gatherParams] at h
    split at h
    · obtain rfl := Except.error.inj h
      apply isLoopMsg_false_of <;> simp
    · split at h
      · rename_i m1 h1
        obtain rfl := Except.error.inj h
        exact gatherParams_error rest _ h1
      · simp at h

theorem gatherSigs_error : ∀ (fs : List Func) (fns : FnTable) (m : String),
    gatherSigs fns fs = Except.error m → isLoopMsg m = false
  | [], fns, m, h => by simp [gatherSigs] at h
  | fn :: rest, fns, m, h => by
    simp only [gatherSigs] at h
    split at h
    · rename_i m1 h1
      obtain rfl := Except.error.inj h
      exact gatherParams_error _ _ h1
    · exact gatherSigs_error rest _ _ h

theorem analyze_error (p : Program) (isBrk : Bool)
    (h : analyze p = Except.error (loopMsg isBrk)) : p.loopsOk isBrk (!isBrk) = false := by
  simp only [analyze] at h
  split at h
  · rename_i m1 h1
    exact absurd (Except.error.inj h) (ne_loopMsg_of _ isBrk (gatherSigs_error _ _ _ h1))
  · obtain ⟨f, hf, hl⟩ := checkBodies_error isBrk p.funcs _ rfl h
    simp only [Program.loopsOk]
    rw [Bool.eq_false_iff]
    intro hall
    rw [List.all_eq_true] at hall
    rw [hall f hf] at hl
    exact Bool.noConfusion hl

theorem isOk_iff {ε α : Type} (x : Except ε α) : x.isOk = true ↔ ∃ a, x = Except.ok a := by
  cases x <;> simp [Except.isOk, Except.toBool]

/-! ## Calls -/

theorem inferArgs_ok (scope : Scope) (fns : FnTable) (callee : String) :
    ∀ (args : List Expr) (k : Nat) (ps : List Ty), args.length = ps.length →
      (inferArgs scope fns callee k args ps = Except.ok () ↔
        ∀ (i : Nat) (a : Expr) (p : Ty), args[i]? = some a → ps[i]? = some p →
          ∃ ta, infer scope fns a = Except.ok ta ∧ isVoid ta = false ∧ ta.equals p = true)
  | [], k, ps, _ => by simp [inferArgs]
  | a :: rest, k, [], h => by simp at h
  | a :: rest, k, p :: ps, h => by
    have ih := inferArgs_ok scope fns callee rest (k + 1) ps (by simpa using h)
    simp only [inferArgs]
    constructor
    · intro hok
      split at hok
      · simp at hok
      · rename_i ta hta
        split at hok
        · simp at hok
        · rename_i hv
          split at hok
          · simp at hok
          · rename_i he
            intro i a1 p1 ha hp
            cases i with
            | zero =>
              simp only [List.getElem?_cons_zero, Option.some.injEq] at ha hp
              subst ha hp
              exact ⟨ta, hta, by simpa using hv, by simpa using he⟩
            | succ j =>
              simp only [List.getElem?_cons_succ] at ha hp
              exact ih.mp hok j a1 p1 ha hp
    · intro hall
      obtain ⟨ta, hta, hv, he⟩ := hall 0 a p (by simp) (by simp)
      simp only [hta, hv, he]
      simp only [Bool.false_eq_true, if_false, Bool.not_true]
      apply ih.mpr
      intro i a1 p1 ha hp
      exact hall (i + 1) a1 p1 (by simpa using ha) (by simpa using hp)


/-! ## The syntax trees of the scenarios are what the front end produces -/

theorem scenario5_lexes : lexString scenario5Src = some (Except.ok scenario5Toks) := by decide!

set_option maxRecDepth 100000 in
theorem scenario5_parses : parseSource scenario5Src = some (Except.ok scenario5) := by
  simp only [parseSource, scenario5_lexes]
  rfl

theorem scenario2_lexes : lexString scenario2Src = some (Except.ok scenario2Toks) := by decide!

set_option maxRecDepth 100000 in
theorem scenario2_parses : parseSource scenario2Src = some (Except.ok scenario2) := by
  simp only [parseSource, scenario2_lexes]
  rfl

theorem scenario6_lexes : lexString scenario6Src = some (Except.ok scenario6Toks) := by decide!

set_option maxRecDepth 100000 in
theorem scenario6_parses : parseSource scenario6Src = some (Except.ok scenario6) := by
  simp only [parseSource, scenario6_lexes]
  rfl

theorem continueOutside_lexes : lexString continueOutsideSrc = some (Except.ok continueOutsideToks) := by decide!

set_option maxRecDepth 100000 in
theorem continueOutside_parses : parseSource continueOutsideSrc = some (Except.ok continueOutside) := by
  simp only [parseSource, continueOutside_lexes]
  rfl

theorem unboundInit_lexes : lexString unboundInitSrc = some (Except.ok unboundInitToks) := by decide!

set_option maxRecDepth 100000 in
theorem unboundInit_parses : parseSource unboundInitSrc = some (Except.ok unboundInit) := by
  simp only [parseSource, unboundInit_lexes]
  rfl

theorem scenario4_lexes : lexString scenario4Src = some (Except.ok scenario4Toks) := by decide!

set_option maxRecDepth 100000 in
theorem scenario4_parses : parseSource scenario4Src = some (Except.ok scenario4) := by
  simp only [parseSource, scenario4_lexes]
  rfl

theorem uniqueOnly_lexes : lexString uniqueOnlySrc = some (Except.ok uniqueOnlyToks) := by decide!

set_option maxRecDepth 100000 in
theorem uniqueOnly_parses : parseSource uniqueOnlySrc = some (Except.ok uniqueOnly) := by
  simp only [parseSource, uniqueOnly_lexes]
  rfl

/-! ## Claims about the semantic analyser -/

theorem scenario2_accepted : (analyze scenario2).isOk = true := by
  simp [analyze, scenario2, Sema.fresh, Sema.primaries, FnTable.set, gatherSigs, gatherParams,
    checkBodies, declareParams, checkStmts, checkStmt, infer, inferArgs, inferElems,
    Scope.init, Scope.push, Scope.pop, Scope.declare, Scope.lookup, Scope.lookupIn,
    List.lookup, isVoid, Ty.k, Ty.i64, Ty.boolean, Ty.clone, Ty.equals, isArithOp, isCompareOp,
    isLogicOp, Except.isOk, Except.toBool]

/-- C1.  The front end turns the text of scenario 5,
`fn main() -> i64 { let x: bool = 1; return 0; }`, into the tree `scenario5`;
in its `let x: bool = 1` the initializer has inferred type `i64`, which is not
structurally equal to the annotation `bool`, and `Sema::analyze` accepts the
program instead of rejecting it.  The checker rejects the same mismatch in an
assignment (`boolAssign`) and in a `return` (`boolReturn`). -/
theorem scenario5_accepted :
    parseSource scenario5Src = some (Except.ok scenario5) ∧
      infer Scope.init Sema.fresh.primaries.fns (Expr.EInt 1) = Except.ok Ty.i64 ∧
      Ty.i64.equals Ty.boolean = false ∧ (analyze scenario5).isOk = true ∧
      analyze boolAssign = Except.error "type mismatch in assignment: bool vs i64" ∧
      analyze boolReturn = Except.error "return type mismatch, expected bool got i64" :=
  ⟨scenario5_parses, rfl, rfl, rfl, rfl, rfl⟩

/-- The extent of the defect of the annotated `let`: at a `let` with annotation
`T` the checker does not infer the initializer.  The statement is rejected with
"cannot have type void" when `T` is void, with "redeclaration" when the name
is already declared in the innermost frame, and passes otherwise, so that two
annotated lets that differ only in the initializer get the same verdict. -/
theorem checkStmt_annotated_let :
    (∀ (ret : Option Ty) (s : Sema) (d : List Expr) (name : String) (T : Ty) (init : Expr)
        (u : Bool),
        checkStmt ret s d (Stmt.SLet name (some T) init u) =
          if T.k = TyKind.Void then
            Except.error ("variable '" ++ name ++ "' cannot have type void")
          else if (s.scope.declare name T u).1 = false then
            Except.error ("redeclaration: " ++ name)
          else
            Except.ok ({ s with scope := (s.scope.declare name T u).2 },
              if u then d ++ [freeCall name] else d)) ∧
      (∀ (ret : Option Ty) (s : Sema) (d : List Expr) (name : String) (T : Ty)
          (init1 init2 : Expr) (u : Bool),
        checkStmt ret s d (Stmt.SLet name (some T) init1 u) =
          checkStmt ret s d (Stmt.SLet name (some T) init2 u)) ∧
      (analyze scenario5).isOk = true := by
  refine ⟨?_, ?_, rfl⟩
  · intro ret s d name T init u
    simp only [checkStmt, Ty.clone_eq]
    split
    · rfl
    · cases hd : s.scope.declare name T u with
      | mk b sc =>
        cases b <;> cases u <;> simp
  · intro ret s d name T init1 init2 u
    simp only [checkStmt]

/-- C2.  `fn main() -> i64 { let x: i64 = y; return 0; }` is accepted by
`Sema::analyze` although the variable reference `y` in the let initializer
names no parameter and no let-binding.  Without the annotation the checker
rejects the same `let` with "unknown variable: y" (`unboundPlain`), and on the
accepted program the emitter stops with "unknown var: y". -/
theorem unboundInit_accepted :
    parseSource unboundInitSrc = some (Except.ok unboundInit) ∧
      (analyze unboundInit).isOk = true ∧ unboundInit.varsOk true = false ∧
      analyze unboundPlain = Except.error "unknown variable: y" ∧
      emit unboundInit = Except.error "unknown var: y" :=
  ⟨unboundInit_parses, rfl, rfl, rfl, by decide!⟩

/-- Where the checker does infer an expression, the variables resolve: in every
program that `Sema::analyze` accepts, every variable reference in the
initializer of an un-annotated `let`, in an `if` or `while` condition, in a
returned value and in an expression statement names a parameter or a
let-binding visible at that position. -/
theorem analyze_vars_resolve (p : Program) (h : (analyze p).isOk = true) :
    p.varsOk false = true := by
  obtain ⟨s, hs⟩ := (isOk_iff _).mp h
  exact (analyze_sound p s hs).1

/-- Scenario 2 is accepted and its variable references resolve. -/
theorem analyze_vars_resolve_witness :
    (analyze scenario2).isOk = true ∧ scenario2.varsOk false = true :=
  ⟨scenario2_accepted, analyze_vars_resolve scenario2 scenario2_accepted⟩

/-- C3.  Inference of a call `f(a1..an)` succeeds with type `t` exactly when `f`
is in the function table with a signature of `n` parameters, every argument
has an inferred type that is not void and is structurally equal to the
corresponding parameter type, and `t` is the return type of the signature; in
every other case it fails. -/
theorem infer_call (scope : Scope) (fns : FnTable) (callee : String) (args : List Expr)
    (t : Ty) :
    infer scope fns (Expr.ECall callee args) = Except.ok t ↔
      ∃ sig, fns.find callee = some sig ∧ args.length = sig.params.length ∧
        (∀ (i : Nat) (a : Expr) (p : Ty), args[i]? = some a → sig.params[i]? = some p →
          ∃ ta, infer scope fns a = Except.ok ta ∧ isVoid ta = false ∧
            ta.equals p = true) ∧
        t = sig.ret := by
  simp only [infer]
  constructor
  · intro h
    split at h
    · simp at h
    · rename_i sig hsig
      split at h
      · simp at h
      · rename_i hlen
        have hlen2 : args.length = sig.params.length := by simpa using hlen
        split at h
        · simp at h
        · rename_i u hu
          simp only [Ty.clone_eq, Except.ok.injEq] at h
          exact ⟨sig, hsig, hlen2, (inferArgs_ok scope fns callee args 0 _ hlen2).mp hu, h.symm⟩
  · rintro ⟨sig, hsig, hlen, hall, rfl⟩
    have := (inferArgs_ok scope fns callee args 0 _ hlen).mpr hall
    simp [hsig, hlen, this, Ty.clone_eq]

/-- C4.  The loop check of `Sema::checkStmt` passes a `break` (`continue`)
exactly when `loopDepth` is not zero and otherwise fails with "break statement
outside of loop" ("continue statement outside of loop"); a program that
`Sema::analyze` accepts has every `break` and `continue` inside a `while` body;
a program rejected with one of the two messages has a `break` (`continue`)
outside every `while` body; scenario 6, as the front end parses it, is rejected
with the `break` message and scenario 2 is accepted. -/
theorem break_continue_checked :
    (∀ (ret : Option Ty) (s : Sema) (d : List Expr),
        checkStmt ret s d Stmt.SBreak =
          if s.loopDepth = 0 then Except.error "break statement outside of loop"
          else Except.ok (s, d)) ∧
      (∀ (ret : Option Ty) (s : Sema) (d : List Expr),
        checkStmt ret s d Stmt.SContinue =
          if s.loopDepth = 0 then Except.error "continue statement outside of loop"
          else Except.ok (s, d)) ∧
      (∀ p : Program, (analyze p).isOk = true → p.loopsOk true true = true) ∧
      (∀ p : Program, analyze p = Except.error "break statement outside of loop" →
        p.loopsOk true false = false) ∧
      (∀ p : Program, analyze p = Except.error "continue statement outside of loop" →
        p.loopsOk false true = false) ∧
      parseSource scenario6Src = some (Except.ok scenario6) ∧
      analyze scenario6 = Except.error "break statement outside of loop" ∧
      analyze continueOutside = Except.error "continue statement outside of loop" ∧
      parseSource scenario2Src = some (Except.ok scenario2) ∧
      (analyze scenario2).isOk = true := by
  refine ⟨?_, ?_, ?_, ?_, ?_, scenario6_parses, rfl, rfl, scenario2_parses,
    scenario2_accepted⟩
  · intro ret s d
    simp only [checkStmt]
  · intro ret s d
    simp only [checkStmt]
  · intro p h
    obtain ⟨s, hs⟩ := (isOk_iff _).mp h
    exact (analyze_sound p s hs).2
  · intro p h
    exact analyze_error p true h
  · intro p h
    exact analyze_error p false h

/-- C4 (witness): the parts of `break_continue_checked` with a hypothesis, at
scenario 2, scenario 6 and its `continue` twin. -/
theorem break_continue_checked_witness :
    scenario2.loopsOk true true = true ∧ scenario6.loopsOk true false = false ∧
      continueOutside.loopsOk false true = false :=
  ⟨break_continue_checked.2.2.1 scenario2 scenario2_accepted,
   break_continue_checked.2.2.2.1 scenario6 rfl,
   break_continue_checked.2.2.2.2.1 continueOutside rfl⟩


/-! ## Claims about the lexer -/

/-- C6 (counterexample).  The inputs `@`, `#`, `&` and `|` hold a character that
can start no token, and `Lexer::lex` returns a token vector for each of them:
a `Semicolon` token followed by `Eof`. -/
theorem unknown_char_lexed :
    lexString "@" = some (Except.ok [⟨TokKind.Semicolon, "", 0, 1, 1⟩, ⟨TokKind.Eof, "", 0, 1, 2⟩]) ∧
      lexString "#" =
        some (Except.ok [⟨TokKind.Semicolon, "", 0, 1, 1⟩, ⟨TokKind.Eof, "", 0, 1, 2⟩]) ∧
      lexString "&" =
        some (Except.ok [⟨TokKind.Semicolon, "", 0, 1, 1⟩, ⟨TokKind.Eof, "", 0, 1, 2⟩]) ∧
      lexString "|" =
        some (Except.ok [⟨TokKind.Semicolon, "", 0, 1, 1⟩, ⟨TokKind.Eof, "", 0, 1, 2⟩]) :=
  ⟨rfl, rfl, rfl, rfl⟩

/-- C6 (amended).  When the lexer loop is at a character that can start no
token, it reports no error: it pushes one `Semicolon` token carrying the
position of that character and goes on lexing at the next character. -/
theorem lex_soft_landing (c : Char) (rest : List Char) (l k : Nat)
    (h : startsNoToken c rest = true) :
    lexFrom { rest := c :: rest, line := l, col := k } =
      pushTok { kind := TokKind.Semicolon, lexeme := "", intValue := 0, line := l, col := k }
        (lexFrom { rest := rest, line := l, col := k + 1 }) :=
  lexFrom_unknown c rest l k h

/-- C6 (witness): the soft landing at the input `@x`. -/
theorem lex_soft_landing_witness :
    startsNoToken '@' ['x'] = true ∧
      lexFrom { rest := ['@', 'x'], line := 1, col := 1 } =
        pushTok { kind := TokKind.Semicolon, lexeme := "", intValue := 0, line := 1, col := 1 }
          (lexFrom { rest := ['x'], line := 1, col := 2 }) :=
  ⟨by decide, lex_soft_landing '@' ['x'] 1 1 (by decide)⟩

/-- C7.  On the input `9223372036854775808` the lexer returns no token vector:
`std::stoll` throws `std::out_of_range`, which nothing catches.  On every input
the lexer loop terminates, and whenever it returns a token vector, the last
token of the vector has kind `Eof` and no earlier token has. -/
theorem lex_ends_with_eof :
    lexString "9223372036854775808" = some (Except.error "std::out_of_range") ∧
      (∀ src : List Char, ∃ r, lex src = some r) ∧
      (∀ (src : List Char) (ts : List Token), lex src = some (Except.ok ts) →
        ∃ init e, ts = init ++ [e] ∧ e.kind = TokKind.Eof ∧
          ∀ t ∈ init, t.kind ≠ TokKind.Eof) :=
  ⟨rfl, fun src => (lex_wellEnded src).1, fun src => (lex_wellEnded src).2⟩

/-- C7 (witness): the vector returned for the input `@` ends with its only
`Eof` token. -/
theorem lex_ends_with_eof_witness :
    ∃ init e, [(⟨TokKind.Semicolon, "", 0, 1, 1⟩ : Token), ⟨TokKind.Eof, "", 0, 1, 2⟩]
        = init ++ [e] ∧ e.kind = TokKind.Eof ∧ ∀ t ∈ init, t.kind ≠ TokKind.Eof :=
  lex_ends_with_eof.2.2 ['@'] _ rfl


/-! ## Claims about the expression parser -/

/-- C8.  The expression parser respects the precedence ladder.  For identifier
tokens `a`, `b`, `c`, binary operator tokens `lo` and `hi` with `lo` on a
strictly lower level than `hi`, and a following token `t` that cannot continue
an expression, `a lo b hi c` parses to `EBin(a, lo, EBin(b, hi, c))` and
`a hi b lo c` parses to `EBin(EBin(a, hi, b), lo, c)`; and for a prefix
operator `u` (`-` or `!`) and any binary operator `op`, `u a op b` parses to
`EBin(EUnary(u, a), op, b)`.  Each result holds for every recursion bound of at
least 50 and leaves the tokens from `t` on unread. -/
theorem precedence_ladder :
    (∀ (ta tlo tb thi tc t : Token) (rest : List Token) (i j : Nat),
        ta.kind = TokKind.Ident → tb.kind = TokKind.Ident → tc.kind = TokKind.Ident →
        binLevel tlo.kind = some i → binLevel thi.kind = some j → i < j →
        endsExpr t.kind = true →
        ParsesTo parseExpr 50 (ta :: tlo :: tb :: thi :: tc :: t :: rest)
          (Expr.EBin (Expr.EVar ta.lexeme) tlo.kind
            (Expr.EBin (Expr.EVar tb.lexeme) thi.kind (Expr.EVar tc.lexeme))) (t :: rest) ∧
        ParsesTo parseExpr 50 (ta :: thi :: tb :: tlo :: tc :: t :: rest)
          (Expr.EBin (Expr.EBin (Expr.EVar ta.lexeme) thi.kind (Expr.EVar tb.lexeme))
            tlo.kind (Expr.EVar tc.lexeme)) (t :: rest)) ∧
      (∀ (tu ta top tb t : Token) (rest : List Token) (r : Nat),
        (tu.kind = TokKind.Bang ∨ tu.kind = TokKind.Minus) →
        ta.kind = TokKind.Ident → tb.kind = TokKind.Ident →
        binLevel top.kind = some r → endsExpr t.kind = true →
        ParsesTo parseExpr 50 (tu :: ta :: top :: tb :: t :: rest)
          (Expr.EBin (Expr.EUnary tu.kind (Expr.EVar ta.lexeme)) top.kind
            (Expr.EVar tb.lexeme)) (t :: rest)) :=
  ⟨fun ta tlo tb thi tc t rest i j ha hb hc hlo hhi hij ht =>
      ⟨parseExpr_low_high ta tlo tb thi tc t rest i j ha hb hc hlo hhi hij ht,
       parseExpr_high_low ta tlo tb thi tc t rest i j ha hb hc hlo hhi hij ht⟩,
   fun tu ta top tb t rest r hu ha hb hop ht =>
      parseExpr_prefix_binary tu ta top tb t rest r hu ha hb hop ht⟩

/-- C8 (witness): the tokens of `a + b * c` parse to `a + (b * c)` and the
tokens of `-a * b` to `(-a) * b`. -/
theorem precedence_ladder_witness :
    lexString "a + b * c" =
        some (Except.ok [⟨TokKind.Ident, "a", 0, 1, 1⟩, ⟨TokKind.Plus, "", 0, 1, 3⟩,
          ⟨TokKind.Ident, "b", 0, 1, 5⟩, ⟨TokKind.Star, "", 0, 1, 7⟩,
          ⟨TokKind.Ident, "c", 0, 1, 9⟩, ⟨TokKind.Eof, "", 0, 1, 10⟩]) ∧
      parseExpr 50 [⟨TokKind.Ident, "a", 0, 1, 1⟩, ⟨TokKind.Plus, "", 0, 1, 3⟩,
          ⟨TokKind.Ident, "b", 0, 1, 5⟩, ⟨TokKind.Star, "", 0, 1, 7⟩,
          ⟨TokKind.Ident, "c", 0, 1, 9⟩, ⟨TokKind.Eof, "", 0, 1, 10⟩] =
        Except.ok (Expr.EBin (Expr.EVar "a") TokKind.Plus
          (Expr.EBin (Expr.EVar "b") TokKind.Star (Expr.EVar "c")),
          [⟨TokKind.Eof, "", 0, 1, 10⟩]) ∧
      lexString "-a * b" =
        some (Except.ok [⟨TokKind.Minus, "", 0, 1, 1⟩, ⟨TokKind.Ident, "a", 0, 1, 2⟩,
          ⟨TokKind.Star, "", 0, 1, 4⟩, ⟨TokKind.Ident, "b", 0, 1, 6⟩,
          ⟨TokKind.Eof, "", 0, 1, 7⟩]) ∧
      parseExpr 50 [⟨TokKind.Minus, "", 0, 1, 1⟩, ⟨TokKind.Ident, "a", 0, 1, 2⟩,
          ⟨TokKind.Star, "", 0, 1, 4⟩, ⟨TokKind.Ident, "b", 0, 1, 6⟩,
          ⟨TokKind.Eof, "", 0, 1, 7⟩] =
        Except.ok (Expr.EBin (Expr.EUnary TokKind.Minus (Expr.EVar "a")) TokKind.Star
          (Expr.EVar "b"), [⟨TokKind.Eof, "", 0, 1, 7⟩]) :=
  ⟨rfl,
   (precedence_ladder.1 ⟨TokKind.Ident, "a", 0, 1, 1⟩ ⟨TokKind.Plus, "", 0, 1, 3⟩
      ⟨TokKind.Ident, "b", 0, 1, 5⟩ ⟨TokKind.Star, "", 0, 1, 7⟩ ⟨TokKind.Ident, "c", 0, 1, 9⟩
      ⟨TokKind.Eof, "", 0, 1, 10⟩ [] 5 6 rfl rfl rfl rfl rfl (by decide) rfl).1 50
      (Nat.le_refl _),
   rfl,
   precedence_ladder.2 ⟨TokKind.Minus, "", 0, 1, 1⟩ ⟨TokKind.Ident, "a", 0, 1, 2⟩
      ⟨TokKind.Star, "", 0, 1, 4⟩ ⟨TokKind.Ident, "b", 0, 1, 6⟩ ⟨TokKind.Eof, "", 0, 1, 7⟩ []
      6 (Or.inr rfl) rfl rfl rfl rfl 50 (Nat.le_refl _)⟩

/-- C9.  Assignment is right-associative.  For identifier tokens `a`, `b`, `c`
and a following token `t` that cannot continue an expression, `a = b = c`
parses to `EBin(EVar a, Eq, EBin(EVar b, Eq, EVar c))`; and in general, when
`parseOr` reads `l` up to an `=` token and `parseAssign` reads `r` from the
tokens after it, `parseAssign` returns `EBin(l, Eq, r)`: the right operand is
the whole assignment expression that follows. -/
theorem assignment_right_assoc :
    (∀ (ta t1 tb t2 tc t : Token) (rest : List Token),
        ta.kind = TokKind.Ident → tb.kind = TokKind.Ident → tc.kind = TokKind.Ident →
        t1.kind = TokKind.Eq → t2.kind = TokKind.Eq → endsExpr t.kind = true →
        ParsesTo parseExpr 50 (ta :: t1 :: tb :: t2 :: tc :: t :: rest)
          (Expr.EBin (Expr.EVar ta.lexeme) TokKind.Eq
            (Expr.EBin (Expr.EVar tb.lexeme) TokKind.Eq (Expr.EVar tc.lexeme))) (t :: rest)) ∧
      (∀ (n m : Nat) (toks toks2 rest : List Token) (teq : Token) (l r : Expr),
        ParsesTo parseOr n toks l (teq :: toks2) → teq.kind = TokKind.Eq →
        ParsesTo parseAssign m toks2 r rest →
        ParsesTo parseAssign (max n m + 1) toks (Expr.EBin l TokKind.Eq r) rest) :=
  ⟨fun ta t1 tb t2 tc t rest ha hb hc h1 h2 ht =>
      parseExpr_assign_chain ta t1 tb t2 tc t rest ha hb hc h1 h2 ht,
   fun n m toks toks2 rest teq l r hl heq hr => parseAssign_eq n m toks toks2 rest teq l r hl heq hr⟩

/-- C9 (witness): the tokens of `a = b = c` parse to `a = (b = c)`. -/
theorem assignment_right_assoc_witness :
    lexString "a = b = c" =
        some (Except.ok [⟨TokKind.Ident, "a", 0, 1, 1⟩, ⟨TokKind.Eq, "", 0, 1, 3⟩,
          ⟨TokKind.Ident, "b", 0, 1, 5⟩, ⟨TokKind.Eq, "", 0, 1, 7⟩,
          ⟨TokKind.Ident, "c", 0, 1, 9⟩, ⟨TokKind.Eof, "", 0, 1, 10⟩]) ∧
      parseExpr 50 [⟨TokKind.Ident, "a", 0, 1, 1⟩, ⟨TokKind.Eq, "", 0, 1, 3⟩,
          ⟨TokKind.Ident, "b", 0, 1, 5⟩, ⟨TokKind.Eq, "", 0, 1, 7⟩,
          ⟨TokKind.Ident, "c", 0, 1, 9⟩, ⟨TokKind.Eof, "", 0, 1, 10⟩] =
        Except.ok (Expr.EBin (Expr.EVar "a") TokKind.Eq
          (Expr.EBin (Expr.EVar "b") TokKind.Eq (Expr.EVar "c")),
          [⟨TokKind.Eof, "", 0, 1, 10⟩]) :=
  ⟨rfl,
   assignment_right_assoc.1 ⟨TokKind.Ident, "a", 0, 1, 1⟩ ⟨TokKind.Eq, "", 0, 1, 3⟩
      ⟨TokKind.Ident, "b", 0, 1, 5⟩ ⟨TokKind.Eq, "", 0, 1, 7⟩ ⟨TokKind.Ident, "c", 0, 1, 9⟩
      ⟨TokKind.Eof, "", 0, 1, 10⟩ [] rfl rfl rfl rfl rfl rfl 50 (Nat.le_refl _)⟩

/-- C10.  Binary operators are left-associative.  For identifier tokens `a`,
`b`, `c`, two binary operator tokens `op1`, `op2` of the same level of the
ladder (logical, equality, relational, additive or multiplicative) and a
following token `t` that cannot continue an expression, `a op1 b op2 c` parses
to `EBin(EBin(a, op1, b), op2, c)`, for every recursion bound of at least 50. -/
theorem binary_left_assoc (ta t1 tb t2 tc t : Token) (rest : List Token) (r : Nat)
    (ha : ta.kind = TokKind.Ident) (hb : tb.kind = TokKind.Ident)
    (hc : tc.kind = TokKind.Ident) (h1 : binLevel t1.kind = some r)
    (h2 : binLevel t2.kind = some r) (ht : endsExpr t.kind = true) :
    ParsesTo parseExpr 50 (ta :: t1 :: tb :: t2 :: tc :: t :: rest)
      (Expr.EBin (Expr.EBin (Expr.EVar ta.lexeme) t1.kind (Expr.EVar tb.lexeme)) t2.kind
        (Expr.EVar tc.lexeme)) (t :: rest) :=
  parseExpr_same_level ta t1 tb t2 tc t rest r ha hb hc h1 h2 ht

/-- C10 (witness): the tokens of `a - b - c` parse to `(a - b) - c` and those of
`a / b * c` to `(a / b) * c`. -/
theorem binary_left_assoc_witness :
    lexString "a - b - c" =
        some (Except.ok [⟨TokKind.Ident, "a", 0, 1, 1⟩, ⟨TokKind.Minus, "", 0, 1, 3⟩,
          ⟨TokKind.Ident, "b", 0, 1, 5⟩, ⟨TokKind.Minus, "", 0, 1, 7⟩,
          ⟨TokKind.Ident, "c", 0, 1, 9⟩, ⟨TokKind.Eof, "", 0, 1, 10⟩]) ∧
      parseExpr 50 [⟨TokKind.Ident, "a", 0, 1, 1⟩, ⟨TokKind.Minus, "", 0, 1, 3⟩,
          ⟨TokKind.Ident, "b", 0, 1, 5⟩, ⟨TokKind.Minus, "", 0, 1, 7⟩,
          ⟨TokKind.Ident, "c", 0, 1, 9⟩, ⟨TokKind.Eof, "", 0, 1, 10⟩] =
        Except.ok (Expr.EBin (Expr.EBin (Expr.EVar "a") TokKind.Minus (Expr.EVar "b"))
          TokKind.Minus (Expr.EVar "c"), [⟨TokKind.Eof, "", 0, 1, 10⟩]) ∧
      parseExpr 50 [⟨TokKind.Ident, "a", 0, 1, 1⟩, ⟨TokKind.Slash, "", 0, 1, 3⟩,
          ⟨TokKind.Ident, "b", 0, 1, 5⟩, ⟨TokKind.Star, "", 0, 1, 7⟩,
          ⟨TokKind.Ident, "c", 0, 1, 9⟩, ⟨TokKind.Eof, "", 0, 1, 10⟩] =
        Except.ok (Expr.EBin (Expr.EBin (Expr.EVar "a") TokKind.Slash (Expr.EVar "b"))
          TokKind.Star (Expr.EVar "c"), [⟨TokKind.Eof, "", 0, 1, 10⟩]) :=
  ⟨rfl,
   binary_left_assoc ⟨TokKind.Ident, "a", 0, 1, 1⟩ ⟨TokKind.Minus, "", 0, 1, 3⟩
      ⟨TokKind.Ident, "b", 0, 1, 5⟩ ⟨TokKind.Minus, "", 0, 1, 7⟩ ⟨TokKind.Ident, "c", 0, 1, 9⟩
      ⟨TokKind.Eof, "", 0, 1, 10⟩ [] 5 rfl rfl rfl rfl rfl rfl 50 (Nat.le_refl _),
   binary_left_assoc ⟨TokKind.Ident, "a", 0, 1, 1⟩ ⟨TokKind.Slash, "", 0, 1, 3⟩
      ⟨TokKind.Ident, "b", 0, 1, 5⟩ ⟨TokKind.Star, "", 0, 1, 7⟩ ⟨TokKind.Ident, "c", 0, 1, 9⟩
      ⟨TokKind.Eof, "", 0, 1, 10⟩ [] 6 rfl rfl rfl rfl rfl rfl 50 (Nat.le_refl _)⟩


/-! ## Claims about the emitter -/

/-- C5.  The emitter does not lower `unique`.  Scenario 4 is accepted by the
checker, but the emitter stops with "array/pointer expression must be a
pointer": the slot of `p` gets the type `i64`, so `p[0]` in the `return` is
refused.  For `fn main() -> i64 { let unique<i64> p = malloc(8); return 0; }`
the emitter succeeds and the module holds no call of `free`: the one block is
alloca, call of `malloc`, store, `ret`.  In general `genStmt` emits for a
`unique` let what it emits for the same let without `unique`, and nothing for
a `defer`. -/
theorem unique_free_not_emitted :
    parseSource scenario4Src = some (Except.ok scenario4) ∧
      (analyze scenario4).isOk = true ∧
      emit scenario4 = Except.error "array/pointer expression must be a pointer" ∧
      parseSource uniqueOnlySrc = some (Except.ok uniqueOnly) ∧
      (analyze uniqueOnly).isOk = true ∧
      (emit uniqueOnly).map CG.blocks =
        Except.ok [{ id := 0, label := "entry", instrs :=
          [Instr.alloca 1 LType.i64 "p",
           Instr.call 2 "malloc" LType.ptr [Value.const LType.i64 8],
           Instr.store (Value.reg 2 LType.ptr) (Value.reg 1 LType.ptr),
           Instr.ret (Value.const LType.i64 0)] }] ∧
      (emit uniqueOnly).map CG.freeCalls = Except.ok 0 ∧
      (emit scenario4Annotated).map CG.freeCalls = Except.ok 0 ∧
      (∀ (name : String) (annType : Option Ty) (init : Expr) (u : Bool),
        genStmt (Stmt.SLet name annType init u) = genStmt (Stmt.SLet name annType init false)) ∧
      (∀ e : Expr, genStmt (Stmt.SDefer e) = pure ()) := by
  refine ⟨scenario4_parses, by decide!, by decide!, uniqueOnly_parses, by decide!, by decide!,
    by decide!, by decide!, ?_, ?_⟩
  · intro name annType init u
    simp only [genStmt]
  · intro e
    simp only [genStmt]

/-! ## Assignment, array literals, indexing, `return` -/

theorem inferElems_ok (scope : Scope) (fns : FnTable) (elemType : Ty) :
    ∀ (rest : List Expr), inferElems scope fns elemType rest = Except.ok () ↔
      ∀ e, e ∈ rest → ∃ te, infer scope fns e = Except.ok te ∧ te.equals elemType = true := by
  intro rest
  induction rest with
  | nil => simp [inferElems]
  | cons e rest ih =>
    simp only [inferElems, List.mem_cons, forall_eq_or_imp]
    cases h : infer scope fns e with
    | error m => simp
    | ok t =>
      cases hq : t.equals elemType <;> simp [ih, hq]

/-- C17.  With the declared return type `ret` of the enclosing function,
`checkStmt` accepts `return e` exactly when `ret` is void and there is no
value, or `ret` is not void, there is a value `v`, and the inferred type of
`v` is structurally equal to `ret`; an accepted `return` leaves the analyser
state and the deferred expressions as they were. -/
theorem return_accepted (ret : Ty) (s : Sema) (defers : List Expr) (e : Option Expr)
    (r : Sema × List Expr) :
    checkStmt (some ret) s defers (Stmt.SReturn e) = Except.ok r ↔
      r = (s, defers) ∧
        ((ret.k = TyKind.Void ∧ e = none) ∨
          (ret.k ≠ TyKind.Void ∧ ∃ v t, e = some v ∧
            infer s.scope s.fns v = Except.ok t ∧ t.equals ret = true)) := by
  have hc : ∀ a : Sema × List Expr, (Except.ok a : Except String _) = Except.ok r ↔ r = a :=
    fun a => ⟨fun h => (Except.ok.inj h).symm, fun h => by rw [h]⟩
  simp only [checkStmt]
  by_cases hv : ret.k = TyKind.Void
  · cases e with
    | none => simp [hv, hc]
    | some v => simp [hv]
  · cases e with
    | none => simp [hv]
    | some v =>
      cases h : infer s.scope s.fns v with
      | error m => simp [hv, h]
      | ok t => cases hq : t.equals ret <;> simp [hv, hc, h, hq]

/-- C18.  Inference of `l = r` returns the type `t` exactly when `l` has an
inferred type `tl`, `r` has an inferred type `tr`, `tr` is not void, `tl` is
structurally equal to `tr`, and `t` is `tl`. -/
theorem infer_assign (scope : Scope) (fns : FnTable) (l r : Expr) (t : Ty) :
    infer scope fns (Expr.EBin l TokKind.Eq r) = Except.ok t ↔
      ∃ tl tr, infer scope fns l = Except.ok tl ∧ infer scope fns r = Except.ok tr ∧
        isVoid tr = false ∧ tl.equals tr = true ∧ t = tl := by
  simp only [infer, if_true]
  cases hl : infer scope fns l with
  | error m => simp
  | ok tl =>
    cases hr : infer scope fns r with
    | error m => simp
    | ok tr =>
      have hc : (Except.ok tl : Except String Ty) = Except.ok t ↔ t = tl :=
        ⟨fun h => (Except.ok.inj h).symm, fun h => by rw [h]⟩
      cases hvd : isVoid tr <;> cases hq : tl.equals tr <;> simp [hc, hvd, hq]

/-- C19.  Inference of an array literal with first element `e0` and further
elements `rest` returns `t` exactly when `e0` has an inferred type `T`, every
further element has an inferred type structurally equal to `T`, and `t` is the
array of `T` whose size is the number of elements; the empty array literal is
rejected. -/
theorem infer_array_literal (scope : Scope) (fns : FnTable) (e0 : Expr) (rest : List Expr)
    (t : Ty) :
    (infer scope fns (Expr.EArrayLit (e0 :: rest)) = Except.ok t ↔
      ∃ T, infer scope fns e0 = Except.ok T ∧
        (∀ e, e ∈ rest → ∃ te, infer scope fns e = Except.ok te ∧ te.equals T = true) ∧
        t = Ty.array T (Int.ofNat (rest.length + 1))) ∧
    infer scope fns (Expr.EArrayLit []) =
      Except.error "cannot infer type of empty array literal" := by
  refine ⟨?_, by simp [infer]⟩
  constructor
  · intro h
    simp only [infer] at h
    split at h
    · cases h
    · rename_i T h0
      split at h
      · cases h
      · rename_i u hr
        cases u
        refine ⟨T, h0, (inferElems_ok scope fns T rest).mp hr, ?_⟩
        simpa using (Except.ok.inj h).symm
  · rintro ⟨T, h0, hall, rfl⟩
    simp only [infer, h0, (inferElems_ok scope fns T rest).mpr hall, List.length_cons]

/-- C20.  Inference of `e[i]` returns `t` exactly when `e` has an inferred type
of kind array or pointer whose element type is `t` and `i` has an inferred type
of kind `i64` or `i32`; a base of kind `i32`, `i64`, `bool` or `void`, and an
index of kind `bool`, `void`, pointer or array, is rejected. -/
theorem infer_index (scope : Scope) (fns : FnTable) (e i : Expr) :
    (∀ t, infer scope fns (Expr.EIndex e i) = Except.ok t ↔
      ∃ ta ti, infer scope fns e = Except.ok ta ∧
        (ta.k = TyKind.Array ∨ ta.k = TyKind.Ptr) ∧ ta.elem = some t ∧
        infer scope fns i = Except.ok ti ∧ (ti.k = TyKind.I64 ∨ ti.k = TyKind.I32)) ∧
    (∀ ta, infer scope fns e = Except.ok ta →
      (ta.k = TyKind.I32 ∨ ta.k = TyKind.I64 ∨ ta.k = TyKind.Bool ∨ ta.k = TyKind.Void) →
      infer scope fns (Expr.EIndex e i) =
        Except.error ("indexing requires array or pointer type, got: " ++ ta.str)) ∧
    (∀ ta ti, infer scope fns e = Except.ok ta →
      (ta.k = TyKind.Array ∨ ta.k = TyKind.Ptr) → infer scope fns i = Except.ok ti →
      (ti.k = TyKind.Bool ∨ ti.k = TyKind.Void ∨ ti.k = TyKind.Ptr ∨ ti.k = TyKind.Array) →
      infer scope fns (Expr.EIndex e i) = Except.error "array index must be integer") := by
  refine ⟨?_, ?_, ?_⟩
  · intro t
    constructor
    · intro h
      simp only [infer] at h
      split at h
      · cases h
      · rename_i ta he
        split at h
        · cases h
        · rename_i hk
          split at h
          · cases h
          · rename_i ti hi
            split at h
            · cases h
            · rename_i hx
              split at h
              · rename_i T hel
                rw [Ty.clone_eq] at h
                cases h
                refine ⟨ta, ti, he, ?_, hel, hi, ?_⟩
                · by_contra hc
                  exact hk ⟨fun h => hc (Or.inl h), fun h => hc (Or.inr h)⟩
                · by_contra hc
                  exact hx ⟨fun h => hc (Or.inl h), fun h => hc (Or.inr h)⟩
              · cases h
    · rintro ⟨ta, ti, he, hk, hel, hi, hx⟩
      have h1 : ¬ (ta.k ≠ TyKind.Array ∧ ta.k ≠ TyKind.Ptr) := by
        rcases hk with h | h <;> simp [h]
      have h2 : ¬ (ti.k ≠ TyKind.I64 ∧ ti.k ≠ TyKind.I32) := by
        rcases hx with h | h <;> simp [h]
      simp only [infer, he, hi, hel, if_neg h1, if_neg h2, Ty.clone_eq]
  · intro ta he hk
    simp only [infer, he]
    have : ta.k ≠ TyKind.Array ∧ ta.k ≠ TyKind.Ptr := by
      rcases hk with h | h | h | h <;> simp [h]
    rw [if_pos this]
  · intro ta ti he hk hi hx
    simp only [infer, he, hi]
    have h1 : ¬ (ta.k ≠ TyKind.Array ∧ ta.k ≠ TyKind.Ptr) := by
      rcases hk with h | h <;> simp [h]
    have h2 : ti.k ≠ TyKind.I64 ∧ ti.k ≠ TyKind.I32 := by
      rcases hx with h | h | h | h <;> simp [h]
    rw [if_neg h1, if_pos h2]

/-! ## Declarations -/

theorem checkStmt_let (ret : Option Ty) (s : Sema) (d : List Expr) (name : String)
    (annType : Option Ty) (init : Expr) (u : Bool) :
    checkStmt ret s d (Stmt.SLet name annType init u) =
      match declaredType s.scope s.fns annType init with
      | Except.error m => Except.error m
      | Except.ok t =>
        if t.k = TyKind.Void then
          Except.error ("variable '" ++ name ++ "' cannot have type void")
        else
          match s.scope.declare name t u with
          | (false, _) => Except.error ("redeclaration: " ++ name)
          | (true, sc) =>
            if u then Except.ok ({ s with scope := sc }, d ++ [freeCall name])
            else Except.ok ({ s with scope := sc }, d) := by
  cases annType <;> simp only [checkStmt, declaredType]

theorem Scope.declare_bound (m : Frame) (outer : List Frame) (n : String) (t : Ty) (u : Bool)
    (h : (m.lookup n).isSome = true) :
    Scope.declare ⟨m :: outer⟩ n t u = (false, ⟨m :: outer⟩) := by
  simp [Scope.declare, h]

theorem Scope.declare_fresh (m : Frame) (outer : List Frame) (n : String) (t : Ty) (u : Bool)
    (h : (m.lookup n).isSome = false) :
    Scope.declare ⟨m :: outer⟩ n t u = (true, ⟨((n, ⟨t, u⟩) :: m) :: outer⟩) := by
  simp [Scope.declare, h]

/-- A block that consists of one `let` is accepted in a pushed frame whatever
the enclosing frames bind, and the pop restores the scope. -/
theorem checkStmts_single_let (ret : Option Ty) (s : Sema) (x : Int) (name : String)
    (annType : Option Ty) (init : Expr) (u : Bool) (t : Ty)
    (ht : declaredType s.scope.push s.fns annType init = Except.ok t)
    (hv : t.k ≠ TyKind.Void) :
    ∃ s1 d1, checkStmts ret { s with scope := s.scope.push, loopDepth := x } []
        [Stmt.SLet name annType init u] = Except.ok (s1, d1) ∧
      s1.scope.pop = s.scope ∧ s1.fns = s.fns ∧ s1.loopDepth = x := by
  have hd : s.scope.push.declare name t u =
      (true, ⟨((name, ⟨t, u⟩) :: []) :: s.scope.stack⟩) :=
    Scope.declare_fresh [] s.scope.stack name t u rfl
  simp only [checkStmts, checkStmt_let, ht, if_neg hv, hd]
  cases u <;> simp [Scope.pop]

/-- C13.  `Scope::declare` on a stack with innermost frame `m` and outer frames
`outer`: when `n` is bound in `m` it returns false and the stack is unchanged;
otherwise it returns true and the new stack has the binding of `n` to `t` put
in front of `m`, over the same outer frames, whatever these bind.  The checker
answers a `let` of a name bound in the innermost frame, whose variable type is
found and not void, with the redeclaration error; a `let` alone in the block of
an `if` or the body of a `while` is accepted whatever the enclosing frames
bind.  `redeclSame` is rejected and `shadowNested` is accepted. -/
theorem declare_innermost_frame (m : Frame) (outer : List Frame) (n : String) (t : Ty)
    (u : Bool) :
    ((m.lookup n).isSome = true →
      Scope.declare ⟨m :: outer⟩ n t u = (false, ⟨m :: outer⟩)) ∧
    ((m.lookup n).isSome = false →
      Scope.declare ⟨m :: outer⟩ n t u = (true, ⟨((n, ⟨t, u⟩) :: m) :: outer⟩) ∧
      (Scope.declare ⟨m :: outer⟩ n t u).2.lookup n = some ⟨t, u⟩) ∧
    (∀ (ret : Option Ty) (fns : FnTable) (ld : Int) (d : List Expr) (annType : Option Ty)
        (init : Expr),
      (m.lookup n).isSome = true →
      declaredType ⟨m :: outer⟩ fns annType init = Except.ok t → t.k ≠ TyKind.Void →
      checkStmt ret ⟨⟨m :: outer⟩, fns, ld⟩ d (Stmt.SLet n annType init u) =
        Except.error ("redeclaration: " ++ n)) ∧
    (∀ (ret : Option Ty) (s : Sema) (d : List Expr) (cond : Expr) (tc : Ty)
        (annType : Option Ty) (init : Expr),
      infer s.scope s.fns cond = Except.ok tc → isVoid tc = false →
      declaredType s.scope.push s.fns annType init = Except.ok t → t.k ≠ TyKind.Void →
      checkStmt ret s d (Stmt.SIf cond [Stmt.SLet n annType init u] []) = Except.ok (s, d) ∧
      checkStmt ret s d (Stmt.SWhile cond [Stmt.SLet n annType init u]) = Except.ok (s, d)) ∧
    analyze redeclSame = Except.error "redeclaration: x" ∧
    (analyze shadowNested).isOk = true := by
  refine ⟨Scope.declare_bound m outer n t u, ?_, ?_, ?_, ?_, ?_⟩
  · intro h
    rw [Scope.declare_fresh m outer n t u h]
    exact ⟨rfl, by simp [Scope.lookup, Scope.lookupIn, List.lookup]⟩
  · intro ret fns ld d annType init hb ht hv
    rw [checkStmt_let]
    simp only [ht, if_neg hv, Scope.declare_bound m outer n t u hb]
  · intro ret s d cond tc annType init hc hcv ht hv
    constructor
    · obtain ⟨s1, d1, h1, hp, hf, hl⟩ :=
        checkStmts_single_let ret s s.loopDepth n annType init u t ht hv
      have h1' : checkStmts ret { s with scope := s.scope.push } []
          [Stmt.SLet n annType init u] = Except.ok (s1, d1) := h1
      simp only [checkStmt, hc, hcv, Bool.false_eq_true, if_false]
      simp only [h1']
      simp only [checkStmts]
      cases s; cases s1
      simp only [Scope.pop, Scope.push, List.tail_cons] at hp hf hl ⊢
      simp [hp, hf, hl]
    · obtain ⟨s1, d1, h1, hp, hf, hl⟩ :=
        checkStmts_single_let ret s (s.loopDepth + 1) n annType init u t ht hv
      simp only [checkStmt, hc, hcv, Bool.false_eq_true, if_false]
      simp only [h1]
      cases s; cases s1
      simp only at hp hf hl ⊢
      simp [hp, hf, hl]
  · simp [analyze, redeclSame, Sema.fresh, Sema.primaries, FnTable.set, gatherSigs,
      gatherParams, checkBodies, declareParams, checkStmts, checkStmt, infer,
      Scope.init, Scope.push, Scope.pop, Scope.declare, Scope.lookup, Scope.lookupIn,
      List.lookup, isVoid, Ty.k, Ty.i64, Ty.boolean, Ty.clone, Ty.equals]
  · simp [analyze, shadowNested, Sema.fresh, Sema.primaries, FnTable.set, gatherSigs,
      gatherParams, checkBodies, declareParams, checkStmts, checkStmt, infer, inferArgs,
      inferElems, Scope.init, Scope.push, Scope.pop, Scope.declare, Scope.lookup,
      Scope.lookupIn, List.lookup, isVoid, Ty.k, Ty.i64, Ty.boolean, Ty.clone, Ty.equals,
      isArithOp, isCompareOp, isLogicOp, Except.isOk, Except.toBool]

/-! ## No variable of type `void` -/

mutual

theorem checkStmt_decls (ret : Option Ty) :
    ∀ (st : Stmt) (s : Sema) (d : List Expr) (s2 : Sema) (d2 : List Expr),
      checkStmt ret s d st = Except.ok (s2, d2) →
      stmtDeclsNonVoid s.fns s.scope st = true ∧ s2.scope = scopeAfter s.fns s.scope st
  | Stmt.SLet name annType init u, s, d, s2, d2, h => by
    rw [checkStmt_let] at h
    simp only [stmtDeclsNonVoid, scopeAfter]
    split at h
    · simp at h
    · rename_i t ht
      simp only [ht]
      split at h
      · simp at h
      · rename_i hv
        split at h
        · simp at h
        · rename_i sc hdecl
          have hs2 : s2 = { s with scope := sc } := by
            split at h <;> simp at h <;> exact h.1.symm
          subst hs2
          simp [hv, hdecl]
  | Stmt.SExpr e, s, d, s2, d2, h => by
    simp only [checkStmt] at h
    split at h
    · simp at h
    · simp at h
      obtain ⟨rfl, _⟩ := h
      simp [stmtDeclsNonVoid, scopeAfter]
  | Stmt.SReturn e, s, d, s2, d2, h => by
    simp only [checkStmt] at h
    have : s2 = s := by
      repeat' split at h
      all_goals simp at h
      all_goals exact h.1.symm
    subst this
    simp [stmtDeclsNonVoid, scopeAfter]
  | Stmt.SIf cond thenStmts elseStmts, s, d, s2, d2, h => by
    simp only [checkStmt] at h
    split at h
    · simp at h
    · split at h
      · simp at h
      · split at h
        · simp at h
        · rename_i s1 d1 h1
          split at h
          · simp at h
          · rename_i s3 d3 h3
            simp only [Except.ok.injEq, Prod.mk.injEq] at h
            obtain ⟨rfl, _⟩ := h
            have b1 := checkStmts_block ret thenStmts s s.loopDepth s1 d1 h1
            have b3 := checkStmts_block ret elseStmts
              { s1 with scope := s1.scope.pop } s1.loopDepth s3 d3 h3
            have i1 := checkStmts_decls ret thenStmts _ _ _ _ h1
            have i3 := checkStmts_decls ret elseStmts _ _ _ _ h3
            simp only [b1.1, b1.2.1] at i3 b3
            simp only at i1
            simp only [stmtDeclsNonVoid, scopeAfter, i1, i3, Bool.and_self, true_and]
            exact b3.1
  | Stmt.SWhile cond body, s, d, s2, d2, h => by
    simp only [checkStmt] at h
    split at h
    · simp at h
    · split at h
      · simp at h
      · split at h
        · simp at h
        · rename_i s1 d1 h1
          simp only [Except.ok.injEq, Prod.mk.injEq] at h
          obtain ⟨rfl, _⟩ := h
          have b1 := checkStmts_block ret body s (s.loopDepth + 1) s1 d1 h1
          have i1 := checkStmts_decls ret body _ _ _ _ h1
          simp only at i1
          simp only [stmtDeclsNonVoid, scopeAfter, i1, true_and]
          exact b1.1
  | Stmt.SDefer e, s, d, s2, d2, h => by
    simp only [checkStmt, Except.ok.injEq, Prod.mk.injEq] at h
    obtain ⟨rfl, _⟩ := h
    simp [stmtDeclsNonVoid, scopeAfter]
  | Stmt.SBreak, s, d, s2, d2, h => by
    simp only [checkStmt] at h
    split at h
    · simp at h
    · simp only [Except.ok.injEq, Prod.mk.injEq] at h
      obtain ⟨rfl, _⟩ := h
      simp [stmtDeclsNonVoid, scopeAfter]
  | Stmt.SContinue, s, d, s2, d2, h => by
    simp only [checkStmt] at h
    split at h
    · simp at h
    · simp only [Except.ok.injEq, Prod.mk.injEq] at h
      obtain ⟨rfl, _⟩ := h
      simp [stmtDeclsNonVoid, scopeAfter]

theorem checkStmts_decls (ret : Option Ty) :
    ∀ (ss : List Stmt) (s : Sema) (d : List Expr) (s2 : Sema) (d2 : List Expr),
      checkStmts ret s d ss = Except.ok (s2, d2) →
      stmtsDeclsNonVoid s.fns s.scope ss = true
  | [], s, d, s2, d2, h => by simp [stmtsDeclsNonVoid]
  | st :: rest, s, d, s2, d2, h => by
    simp only [checkStmts] at h
    split at h
    · simp at h
    · rename_i s1 d1 h1
      have i1 := checkStmt_decls ret st _ _ _ _ h1
      have f1 := checkStmt_frame ret st _ _ _ _ h1
      have ir := checkStmts_decls ret rest _ _ _ _ h
      rw [f1.1, i1.2] at ir
      simp [stmtsDeclsNonVoid, i1.1, ir]

end

theorem gatherParams_nonvoid : ∀ (ps : List Param) (ts : List Ty),
    gatherParams ps = Except.ok ts → ∀ pr ∈ ps, pr.ty.k ≠ TyKind.Void
  | [], _, _ => by simp
  | pr :: rest, ts, h => by
    simp only [gatherParams] at h
    split at h
    · simp at h
    · rename_i hv
      split at h
      · simp at h
      · rename_i ps hps
        intro q hq
        simp only [List.mem_cons] at hq
        rcases hq with rfl | hq
        · exact hv
        · exact gatherParams_nonvoid rest ps hps q hq

theorem gatherParams_void : ∀ (ps : List Param), (∃ pr ∈ ps, pr.ty.k = TyKind.Void) →
    ∃ m, gatherParams ps = Except.error m := by
  intro ps ⟨pr, hpr, hv⟩
  cases h : gatherParams ps with
  | error m => exact ⟨m, rfl⟩
  | ok ts => exact absurd hv (gatherParams_nonvoid ps ts h pr hpr)

theorem gatherSigs_nonvoid : ∀ (fs : List Func) (fns fns2 : FnTable),
    gatherSigs fns fs = Except.ok fns2 → ∀ f ∈ fs, ∀ pr ∈ f.params, pr.ty.k ≠ TyKind.Void
  | [], _, _, _ => by simp
  | fn :: rest, fns, fns2, h => by
    simp only [gatherSigs] at h
    split at h
    · simp at h
    · rename_i ps hps
      intro f hf
      simp only [List.mem_cons] at hf
      rcases hf with rfl | hf
      · exact gatherParams_nonvoid _ ps hps
      · exact gatherSigs_nonvoid rest _ fns2 h f hf

theorem checkBodies_decls : ∀ (fs : List Func) (s s2 : Sema),
    s.scope.stack = [[]] → checkBodies s fs = Except.ok s2 →
      s2.fns = s.fns ∧
      ∀ f ∈ fs, stmtsDeclsNonVoid s.fns (declareParams Scope.init.push f.params) f.body = true
  | [], s, s2, _, h => by
    simp only [checkBodies, Except.ok.injEq] at h
    simp [h]
  | fn :: rest, s, s2, hst, h => by
    simp only [checkBodies] at h
    split at h
    · simp at h
    · rename_i s1 d1 h1
      have f1 := checkStmts_frame _ _ _ _ _ _ h1
      obtain ⟨mp, hmp⟩ := declareParams_stack fn.params s.scope.push [] s.scope.stack rfl
      obtain ⟨m1, hm1⟩ := f1.2.2 mp s.scope.stack hmp
      have hsc : s.scope = Scope.init := by
        cases hs : s.scope
        simp [Scope.init, hs] at hst ⊢
        exact hst
      have i1 := checkStmts_decls _ _ _ _ _ _ h1
      have ih := checkBodies_decls rest _ s2 (by simp [Scope.pop, hm1, hst]) h
      simp only [f1.1] at ih
      simp only [hsc] at i1
      refine ⟨ih.1, ?_⟩
      intro f hf
      simp only [List.mem_cons] at hf
      rcases hf with rfl | hf
      · exact i1
      · exact ih.2 f hf

theorem forwardCall_accepted : (analyze forwardCall).isOk = true := by
  simp [analyze, forwardCall, mainCallsTwice, twice, Sema.fresh, Sema.primaries, FnTable.set,
    FnTable.find, gatherSigs, gatherParams,
    checkBodies, declareParams, checkStmts, checkStmt, infer, inferArgs, inferElems,
    Scope.init, Scope.push, Scope.pop, Scope.declare, Scope.lookup, Scope.lookupIn,
    List.lookup, isVoid, Ty.k, Ty.i64, Ty.boolean, Ty.clone, Ty.equals, isArithOp, isCompareOp,
    isLogicOp, Except.isOk, Except.toBool]

/-- C15.  In every program that `Sema::analyze` accepts, every parameter has a
type other than `void`, and every `let` of every function body, at any depth,
gives its variable a type other than `void` (the annotation, or without one the
type inferred for the initializer in the scope at the `let`).  The signature
pass rejects a program with a parameter of type `void`, and `checkStmt` rejects
a `let` whose annotation, or without one the inferred type of the initializer,
is `void`. -/
theorem no_void_variable (p : Program) (h : (analyze p).isOk = true) :
    (∃ s, analyze p = Except.ok s ∧
      (∀ f ∈ p.funcs, ∀ pr ∈ f.params, pr.ty.k ≠ TyKind.Void) ∧
      (∀ f ∈ p.funcs,
        stmtsDeclsNonVoid s.fns (declareParams Scope.init.push f.params) f.body = true)) ∧
    (∀ (fns : FnTable) (fs : List Func) (f : Func) (pr : Param), f ∈ fs → pr ∈ f.params →
      pr.ty.k = TyKind.Void → ∃ m, gatherSigs fns fs = Except.error m) ∧
    (∀ (ret : Option Ty) (s : Sema) (d : List Expr) (name : String) (annType : Option Ty)
        (init : Expr) (u : Bool) (t : Ty),
      declaredType s.scope s.fns annType init = Except.ok t → t.k = TyKind.Void →
      checkStmt ret s d (Stmt.SLet name annType init u) =
        Except.error ("variable '" ++ name ++ "' cannot have type void")) := by
  refine ⟨?_, ?_, ?_⟩
  · obtain ⟨s, hs⟩ := (isOk_iff _).mp h
    refine ⟨s, hs, ?_⟩
    simp only [analyze] at hs
    split at hs
    · simp at hs
    · rename_i fns hf
      have hb := checkBodies_decls p.funcs _ s rfl hs
      refine ⟨gatherSigs_nonvoid _ _ _ hf, ?_⟩
      rw [hb.1]
      exact hb.2
  · intro fns fs f pr hf hpr hv
    cases hg : gatherSigs fns fs with
    | error m => exact ⟨m, rfl⟩
    | ok fns2 => exact absurd hv (gatherSigs_nonvoid fs fns fns2 hg f hf pr hpr)
  · intro ret s d name annType init u t ht hv
    rw [checkStmt_let]
    simp only [ht, if_pos hv]

/-- C15 (witness): the program `forwardCall` is accepted, so none of its
parameters and none of its `let`s has type `void`. -/
theorem no_void_variable_witness :
    (analyze forwardCall).isOk = true ∧
    ∃ s, analyze forwardCall = Except.ok s ∧
      (∀ f ∈ forwardCall.funcs, ∀ pr ∈ f.params, pr.ty.k ≠ TyKind.Void) ∧
      (∀ f ∈ forwardCall.funcs,
        stmtsDeclsNonVoid s.fns (declareParams Scope.init.push f.params) f.body = true) :=
  ⟨forwardCall_accepted, (no_void_variable forwardCall forwardCall_accepted).1⟩

/-! ## `void` inside a type -/

theorem nestedVoid_lexes : lexString nestedVoidSrc = some (Except.ok nestedVoidToks) := by
  decide!

set_option maxRecDepth 100000 in
theorem nestedVoid_parses : parseSource nestedVoidSrc = some (Except.ok nestedVoid) := by
  simp only [parseSource, nestedVoid_lexes]
  rfl

/-- C16.  The text `fn f(p: ptr<void>) -> i64 { let a: void[2] = 0;
let b = [free(malloc(8))]; return 0; }` is accepted by the parser and by the
checker, and `void` occurs in it inside the type of the parameter `p`, inside
the annotation of `a`, and inside the type that inference gives the variable
`b`. -/
theorem void_inside_types_accepted :
    parseSource nestedVoidSrc = some (Except.ok nestedVoid) ∧
    (analyze nestedVoid).isOk = true ∧
    nestedVoid.funcs.map (fun f => f.params.map (fun pr => (pr.name, pr.ty.hasVoid))) =
      [[("p", true)]] ∧
    (Ty.array Ty.voidty 2).hasVoid = true ∧
    infer (declareParams Scope.init.push [Param.mk "p" (Ty.ptr Ty.voidty)])
        Sema.fresh.primaries.fns
        (Expr.EArrayLit [Expr.ECall "free" [Expr.ECall "malloc" [Expr.EInt 8]]]) =
      Except.ok (Ty.array Ty.voidty 1) ∧
    (Ty.array Ty.voidty 1).hasVoid = true := by
  refine ⟨nestedVoid_parses, ?_, by decide, by decide, ?_, by decide⟩
  · simp [analyze, nestedVoid, Sema.fresh, Sema.primaries, FnTable.set, FnTable.find,
      gatherSigs, gatherParams, checkBodies, declareParams, checkStmts, checkStmt, infer,
      inferArgs, inferElems, Scope.init, Scope.push, Scope.pop, Scope.declare, Scope.lookup,
      Scope.lookupIn, List.lookup, isVoid, Ty.k, Ty.i64, Ty.boolean, Ty.voidty, Ty.ptr,
      Ty.array, Ty.clone, Ty.equals, isArithOp, isCompareOp, isLogicOp, Except.isOk,
      Except.toBool]
  · simp [Sema.fresh, Sema.primaries, FnTable.set, FnTable.find, infer,
      inferArgs, inferElems, List.lookup, isVoid, Ty.k, Ty.i64, Ty.boolean, Ty.voidty, Ty.ptr,
      Ty.array, Ty.clone, Ty.equals]

/-! ## The parser builds no compound assignment operator into a tree -/

mutual

theorem parseExpr_noCompound : ∀ (fuel : Nat) (toks : List Token) (e : Expr)
    (rest : List Token), parseExpr fuel toks = Except.ok (e, rest) → e.noCompound = true
  | 0, _, _, _, h => by simp [parseExpr] at h
  | fuel + 1, toks, e, rest, h => by
    simp only [parseExpr] at h
    exact parseAssign_noCompound fuel toks e rest h

theorem parseAssign_noCompound : ∀ (fuel : Nat) (toks : List Token) (e : Expr)
    (rest : List Token), parseAssign fuel toks = Except.ok (e, rest) → e.noCompound = true
  | 0, _, _, _, h => by simp [parseAssign] at h
  | fuel + 1, toks, e, rest, h => by
    simp only [parseAssign] at h
    split at h
    · simp at h
    · simp at h
    · rename_i lhs t ts hl
      have il := parseOr_noCompound fuel toks lhs _ hl
      split at h
      · split at h
        · simp at h
        · rename_i rhs rest2 hr
          have ir := parseAssign_noCompound fuel ts rhs rest2 hr
          simp only [Except.ok.injEq, Prod.mk.injEq] at h
          obtain ⟨rfl, _⟩ := h
          simp [Expr.noCompound, il, ir, isCompoundAssign]
      · split at h
        · rename_i hc
          split at h
          · rename_i varName
            split at h
            · simp at h
            · rename_i rhs rest2 hr
              have ir := parseAssign_noCompound fuel ts rhs rest2 hr
              simp only [Except.ok.injEq, Prod.mk.injEq] at h
              obtain ⟨rfl, _⟩ := h
              have hb : isCompoundAssign (compoundBinOp t.kind) = false := by
                simp only [compoundBinOp]
                repeat' split
                all_goals simp [isCompoundAssign]
              have he : isCompoundAssign TokKind.Eq = false := by decide
              simp [Expr.noCompound, ir, he, hb]
          · simp at h
        · simp only [Except.ok.injEq, Prod.mk.injEq] at h
          obtain ⟨rfl, _⟩ := h
          exact il

theorem parseOr_noCompound : ∀ (fuel : Nat) (toks : List Token) (e : Expr)
    (rest : List Token), parseOr fuel toks = Except.ok (e, rest) → e.noCompound = true
  | 0, _, _, _, h => by simp [parseOr] at h
  | fuel + 1, toks, e, rest, h => by
    simp only [parseOr] at h
    split at h
    · simp at h
    · rename_i e1 r1 h1
      exact parseOrLoop_noCompound fuel e1 r1 e rest (parseAnd_noCompound fuel toks e1 r1 h1) h

theorem parseOrLoop_noCompound : ∀ (fuel : Nat) (e0 : Expr) (toks : List Token) (e : Expr)
    (rest : List Token), e0.noCompound = true →
      parseOrLoop fuel e0 toks = Except.ok (e, rest) → e.noCompound = true
  | 0, _, _, _, _, _, h => by simp [parseOrLoop] at h
  | _ + 1, _, [], _, _, _, h => by simp [parseOrLoop] at h
  | fuel + 1, e0, t :: ts, e, rest, h0, h => by
    simp only [parseOrLoop] at h
    split at h
    · rename_i hk
      split at h
      · simp at h
      · rename_i r rest2 hr
        have ir := parseAnd_noCompound fuel ts r rest2 hr
        refine parseOrLoop_noCompound fuel _ rest2 e rest ?_ h
        have hc : isCompoundAssign TokKind.PipePipe = false := by decide
        simp [Expr.noCompound, h0, ir, hc]
    · simp only [Except.ok.injEq, Prod.mk.injEq] at h
      obtain ⟨rfl, _⟩ := h
      exact h0

theorem parseAnd_noCompound : ∀ (fuel : Nat) (toks : List Token) (e : Expr)
    (rest : List Token), parseAnd fuel toks = Except.ok (e, rest) → e.noCompound = true
  | 0, _, _, _, h => by simp [parseAnd] at h
  | fuel + 1, toks, e, rest, h => by
    simp only [parseAnd] at h
    split at h
    · simp at h
    · rename_i e1 r1 h1
      exact parseAndLoop_noCompound fuel e1 r1 e rest (parseEq_noCompound fuel toks e1 r1 h1) h

theorem parseAndLoop_noCompound : ∀ (fuel : Nat) (e0 : Expr) (toks : List Token) (e : Expr)
    (rest : List Token), e0.noCompound = true →
      parseAndLoop fuel e0 toks = Except.ok (e, rest) → e.noCompound = true
  | 0, _, _, _, _, _, h => by simp [parseAndLoop] at h
  | _ + 1, _, [], _, _, _, h => by simp [parseAndLoop] at h
  | fuel + 1, e0, t :: ts, e, rest, h0, h => by
    simp only [parseAndLoop] at h
    split at h
    · rename_i hk
      split at h
      · simp at h
      · rename_i r rest2 hr
        have ir := parseEq_noCompound fuel ts r rest2 hr
        refine parseAndLoop_noCompound fuel _ rest2 e rest ?_ h
        have hc : isCompoundAssign TokKind.AmpAmp = false := by decide
        simp [Expr.noCompound, h0, ir, hc]
    · simp only [Except.ok.injEq, Prod.mk.injEq] at h
      obtain ⟨rfl, _⟩ := h
      exact h0

theorem parseEq_noCompound : ∀ (fuel : Nat) (toks : List Token) (e : Expr)
    (rest : List Token), parseEq fuel toks = Except.ok (e, rest) → e.noCompound = true
  | 0, _, _, _, h => by simp [parseEq] at h
  | fuel + 1, toks, e, rest, h => by
    simp only [parseEq] at h
    split at h
    · simp at h
    · rename_i e1 r1 h1
      exact parseEqLoop_noCompound fuel e1 r1 e rest (parseRel_noCompound fuel toks e1 r1 h1) h

theorem parseEqLoop_noCompound : ∀ (fuel : Nat) (e0 : Expr) (toks : List Token) (e : Expr)
    (rest : List Token), e0.noCompound = true →
      parseEqLoop fuel e0 toks = Except.ok (e, rest) → e.noCompound = true
  | 0, _, _, _, _, _, h => by simp [parseEqLoop] at h
  | _ + 1, _, [], _, _, _, h => by simp [parseEqLoop] at h
  | fuel + 1, e0, t :: ts, e, rest, h0, h => by
    simp only [parseEqLoop] at h
    split at h
    · rename_i hk
      split at h
      · simp at h
      · rename_i r rest2 hr
        have ir := parseRel_noCompound fuel ts r rest2 hr
        refine parseEqLoop_noCompound fuel _ rest2 e rest ?_ h
        have hc : isCompoundAssign t.kind = false := by
          revert hk
          cases t.kind <;> simp [isCompoundAssign]
        simp [Expr.noCompound, h0, ir, hc]
    · simp only [Except.ok.injEq, Prod.mk.injEq] at h
      obtain ⟨rfl, _⟩ := h
      exact h0

theorem parseRel_noCompound : ∀ (fuel : Nat) (toks : List Token) (e : Expr)
    (rest : List Token), parseRel fuel toks = Except.ok (e, rest) → e.noCompound = true
  | 0, _, _, _, h => by simp [parseRel] at h
  | fuel + 1, toks, e, rest, h => by
    simp only [parseRel] at h
    split at h
    · simp at h
    · rename_i e1 r1 h1
      exact parseRelLoop_noCompound fuel e1 r1 e rest (parseAdd_noCompound fuel toks e1 r1 h1) h

theorem parseRelLoop_noCompound : ∀ (fuel : Nat) (e0 : Expr) (toks : List Token) (e : Expr)
    (rest : List Token), e0.noCompound = true →
      parseRelLoop fuel e0 toks = Except.ok (e, rest) → e.noCompound = true
  | 0, _, _, _, _, _, h => by simp [parseRelLoop] at h
  | _ + 1, _, [], _, _, _, h => by simp [parseRelLoop] at h
  | fuel + 1, e0, t :: ts, e, rest, h0, h => by
    simp only [parseRelLoop] at h
    split at h
    · rename_i hk
      split at h
      · simp at h
      · rename_i r rest2 hr
        have ir := parseAdd_noCompound fuel ts r rest2 hr
        refine parseRelLoop_noCompound fuel _ rest2 e rest ?_ h
        have hc : isCompoundAssign t.kind = false := by
          revert hk
          cases t.kind <;> simp [isCompoundAssign]
        simp [Expr.noCompound, h0, ir, hc]
    · simp only [Except.ok.injEq, Prod.mk.injEq] at h
      obtain ⟨rfl, _⟩ := h
      exact h0

theorem parseAdd_noCompound : ∀ (fuel : Nat) (toks : List Token) (e : Expr)
    (rest : List Token), parseAdd fuel toks = Except.ok (e, rest) → e.noCompound = true
  | 0, _, _, _, h => by simp [parseAdd] at h
  | fuel + 1, toks, e, rest, h => by
    simp only [parseAdd] at h
    split at h
    · simp at h
    · rename_i e1 r1 h1
      exact parseAddLoop_noCompound fuel e1 r1 e rest (parseMul_noCompound fuel toks e1 r1 h1) h

theorem parseAddLoop_noCompound : ∀ (fuel : Nat) (e0 : Expr) (toks : List Token) (e : Expr)
    (rest : List Token), e0.noCompound = true →
      parseAddLoop fuel e0 toks = Except.ok (e, rest) → e.noCompound = true
  | 0, _, _, _, _, _, h => by simp [parseAddLoop] at h
  | _ + 1, _, [], _, _, _, h => by simp [parseAddLoop] at h
  | fuel + 1, e0, t :: ts, e, rest, h0, h => by
    simp only [parseAddLoop] at h
    split at h
    · rename_i hk
      split at h
      · simp at h
      · rename_i r rest2 hr
        have ir := parseMul_noCompound fuel ts r rest2 hr
        refine parseAddLoop_noCompound fuel _ rest2 e rest ?_ h
        have hc : isCompoundAssign t.kind = false := by
          revert hk
          cases t.kind <;> simp [isCompoundAssign]
        simp [Expr.noCompound, h0, ir, hc]
    · simp only [Except.ok.injEq, Prod.mk.injEq] at h
      obtain ⟨rfl, _⟩ := h
      exact h0

theorem parseMul_noCompound : ∀ (fuel : Nat) (toks : List Token) (e : Expr)
    (rest : List Token), parseMul fuel toks = Except.ok (e, rest) → e.noCompound = true
  | 0, _, _, _, h => by simp [parseMul] at h
  | fuel + 1, toks, e, rest, h => by
    simp only [parseMul] at h
    split at h
    · simp at h
    · rename_i e1 r1 h1
      exact parseMulLoop_noCompound fuel e1 r1 e rest (parseUnary_noCompound fuel toks e1 r1 h1) h

theorem parseMulLoop_noCompound : ∀ (fuel : Nat) (e0 : Expr) (toks : List Token) (e : Expr)
    (rest : List Token), e0.noCompound = true →
      parseMulLoop fuel e0 toks = Except.ok (e, rest) → e.noCompound = true
  | 0, _, _, _, _, _, h => by simp [parseMulLoop] at h
  | _ + 1, _, [], _, _, _, h => by simp [parseMulLoop] at h
  | fuel + 1, e0, t :: ts, e, rest, h0, h => by
    simp only [parseMulLoop] at h
    split at h
    · rename_i hk
      split at h
      · simp at h
      · rename_i r rest2 hr
        have ir := parseUnary_noCompound fuel ts r rest2 hr
        refine parseMulLoop_noCompound fuel _ rest2 e rest ?_ h
        have hc : isCompoundAssign t.kind = false := by
          revert hk
          cases t.kind <;> simp [isCompoundAssign]
        simp [Expr.noCompound, h0, ir, hc]
    · simp only [Except.ok.injEq, Prod.mk.injEq] at h
      obtain ⟨rfl, _⟩ := h
      exact h0

theorem parseUnary_noCompound : ∀ (fuel : Nat) (toks : List Token) (e : Expr)
    (rest : List Token), parseUnary fuel toks = Except.ok (e, rest) → e.noCompound = true
  | 0, _, _, _, h => by simp [parseUnary] at h
  | _ + 1, [], _, _, h => by simp [parseUnary] at h
  | fuel + 1, t :: ts, e, rest, h => by
    simp only [parseUnary] at h
    split at h
    · split at h
      · simp at h
      · rename_i r rest2 hr
        have ir := parseUnary_noCompound fuel ts r rest2 hr
        simp only [Except.ok.injEq, Prod.mk.injEq] at h
        obtain ⟨rfl, _⟩ := h
        simp [Expr.noCompound, ir, isCompoundAssign]
    · split at h
      · split at h
        · simp at h
        · rename_i r rest2 hr
          have ir := parseUnary_noCompound fuel ts r rest2 hr
          simp only [Except.ok.injEq, Prod.mk.injEq] at h
          obtain ⟨rfl, _⟩ := h
          simp [Expr.noCompound, ir, isCompoundAssign]
      · exact parsePostfix_noCompound fuel (t :: ts) e rest h

theorem parseExprList_noCompound : ∀ (fuel : Nat) (toks : List Token) (es : List Expr)
    (rest : List Token), parseExprList fuel toks = Except.ok (es, rest) →
      noCompoundList es = true
  | 0, _, _, _, h => by simp [parseExprList] at h
  | fuel + 1, toks, es, rest, h => by
    simp only [parseExprList] at h
    split at h
    · simp at h
    · simp at h
    · rename_i e1 t ts h1
      have i1 := parseExpr_noCompound fuel toks e1 _ h1
      split at h
      · split at h
        · simp at h
        · rename_i es2 rest2 h2
          have i2 := parseExprList_noCompound fuel ts es2 rest2 h2
          simp only [Except.ok.injEq, Prod.mk.injEq] at h
          obtain ⟨rfl, _⟩ := h
          simp [noCompoundList, i1, i2]
      · simp only [Except.ok.injEq, Prod.mk.injEq] at h
        obtain ⟨rfl, _⟩ := h
        simp [noCompoundList, i1]

theorem parsePostfix_noCompound : ∀ (fuel : Nat) (toks : List Token) (e : Expr)
    (rest : List Token), parsePostfix fuel toks = Except.ok (e, rest) → e.noCompound = true
  | 0, _, _, _, h => by simp [parsePostfix] at h
  | _ + 1, [], _, _, h => by simp [parsePostfix] at h
  | fuel + 1, t :: ts, e, rest, h => by
    simp only [parsePostfix] at h
    split at h
    · simp at h
    · rename_i e1 rest5 hp
      refine parseIndexLoop_noCompound fuel e1 rest5 e rest ?_ h
      split at hp
      · split at hp
        · simp at hp
        · split at hp
          · split at hp
            · simp at hp
            · split at hp
              · split at hp
                · simp at hp
                · rename_i args rest3 ha
                  have ia := parseExprList_noCompound fuel _ args rest3 ha
                  split at hp
                  · simp at hp
                  · simp only [Except.ok.injEq, Prod.mk.injEq] at hp
                    obtain ⟨rfl, _⟩ := hp
                    simpa [Expr.noCompound] using ia
              · simp only [Except.ok.injEq, Prod.mk.injEq] at hp
                obtain ⟨rfl, _⟩ := hp
                simp [Expr.noCompound, noCompoundList]
          · simp only [Except.ok.injEq, Prod.mk.injEq] at hp
            obtain ⟨rfl, _⟩ := hp
            simp [Expr.noCompound]
      · split at hp
        · simp only [Except.ok.injEq, Prod.mk.injEq] at hp
          obtain ⟨rfl, _⟩ := hp
          simp [Expr.noCompound]
        · split at hp
          · simp only [Except.ok.injEq, Prod.mk.injEq] at hp
            obtain ⟨rfl, _⟩ := hp
            simp [Expr.noCompound]
          · split at hp
            · simp only [Except.ok.injEq, Prod.mk.injEq] at hp
              obtain ⟨rfl, _⟩ := hp
              simp [Expr.noCompound]
            · split at hp
              · split at hp
                · simp at hp
                · split at hp
                  · split at hp
                    · simp at hp
                    · rename_i elems rest2 he
                      have ie := parseExprList_noCompound fuel _ elems rest2 he
                      split at hp
                      · simp at hp
                      · simp only [Except.ok.injEq, Prod.mk.injEq] at hp
                        obtain ⟨rfl, _⟩ := hp
                        simpa [Expr.noCompound] using ie
                  · simp only [Except.ok.injEq, Prod.mk.injEq] at hp
                    obtain ⟨rfl, _⟩ := hp
                    simp [Expr.noCompound, noCompoundList]
              · split at hp
                · split at hp
                  · simp at hp
                  · rename_i e2 rest1 he
                    have ie := parseExpr_noCompound fuel ts e2 rest1 he
                    split at hp
                    · simp at hp
                    · simp only [Except.ok.injEq, Prod.mk.injEq] at hp
                      obtain ⟨rfl, _⟩ := hp
                      exact ie
                · simp at hp

theorem parseIndexLoop_noCompound : ∀ (fuel : Nat) (e0 : Expr) (toks : List Token)
    (e : Expr) (rest : List Token), e0.noCompound = true →
      parseIndexLoop fuel e0 toks = Except.ok (e, rest) → e.noCompound = true
  | 0, _, _, _, _, _, h => by simp [parseIndexLoop] at h
  | _ + 1, _, [], _, _, _, h => by simp [parseIndexLoop] at h
  | fuel + 1, e0, t :: ts, e, rest, h0, h => by
    simp only [parseIndexLoop] at h
    split at h
    · split at h
      · simp at h
      · rename_i idx rest1 hi
        have ii := parseExpr_noCompound fuel ts idx rest1 hi
        split at h
        · simp at h
        · rename_i rest2 _
          refine parseIndexLoop_noCompound fuel _ rest2 e rest ?_ h
          simp [Expr.noCompound, h0, ii]
    · simp only [Except.ok.injEq, Prod.mk.injEq] at h
      obtain ⟨rfl, _⟩ := h
      exact h0

end

mutual

theorem parseBlock_noCompound : ∀ (fuel : Nat) (toks : List Token) (ss : List Stmt)
    (rest : List Token), parseBlock fuel toks = Except.ok (ss, rest) →
      stmtsNoCompound ss = true
  | 0, _, _, _, h => by simp [parseBlock] at h
  | fuel + 1, toks, ss, rest, h => by
    simp only [parseBlock] at h
    split at h
    · simp at h
    · split at h
      · simp at h
      · rename_i ss1 rest1 h1
        split at h
        · simp at h
        · simp only [Except.ok.injEq, Prod.mk.injEq] at h
          obtain ⟨rfl, _⟩ := h
          exact parseBlockLoop_noCompound fuel _ ss1 rest1 h1

theorem parseBlockLoop_noCompound : ∀ (fuel : Nat) (toks : List Token) (ss : List Stmt)
    (rest : List Token), parseBlockLoop fuel toks = Except.ok (ss, rest) →
      stmtsNoCompound ss = true
  | 0, _, _, _, h => by simp [parseBlockLoop] at h
  | _ + 1, [], _, _, h => by simp [parseBlockLoop] at h
  | fuel + 1, t :: ts, ss, rest, h => by
    simp only [parseBlockLoop] at h
    split at h
    · split at h
      · simp at h
      · rename_i st rest1 h1
        split at h
        · simp at h
        · rename_i ss2 rest2 h2
          simp only [Except.ok.injEq, Prod.mk.injEq] at h
          obtain ⟨rfl, _⟩ := h
          simp [stmtsNoCompound, parseStmt_noCompound fuel _ st rest1 h1,
            parseBlockLoop_noCompound fuel _ ss2 rest2 h2]
    · simp only [Except.ok.injEq, Prod.mk.injEq] at h
      obtain ⟨rfl, _⟩ := h
      simp [stmtsNoCompound]

theorem parseStmt_noCompound : ∀ (fuel : Nat) (toks : List Token) (st : Stmt)
    (rest : List Token), parseStmt fuel toks = Except.ok (st, rest) → st.noCompound = true
  | 0, _, _, _, h => by simp [parseStmt] at h
  | _ + 1, [], _, _, h => by simp [parseStmt] at h
  | fuel + 1, t :: ts, st, rest, h => by
    simp only [parseStmt] at h
    split at h
    · -- let
      split at h
      · simp at h
      · simp at h
      · split at h
        · simp at h
        · split at h
          · simp at h
          · split at h
            · simp at h
            · split at h
              · simp at h
              · rename_i init rest10 hi
                split at h
                · simp at h
                · simp only [Except.ok.injEq, Prod.mk.injEq] at h
                  obtain ⟨rfl, _⟩ := h
                  simpa [Stmt.noCompound] using parseExpr_noCompound fuel _ init rest10 hi
    · split at h
      · -- return
        split at h
        · simp at h
        · split at h
          · simp only [Except.ok.injEq, Prod.mk.injEq] at h
            obtain ⟨rfl, _⟩ := h
            simp [Stmt.noCompound]
          · split at h
            · simp at h
            · rename_i e rest2 he
              split at h
              · simp at h
              · simp only [Except.ok.injEq, Prod.mk.injEq] at h
                obtain ⟨rfl, _⟩ := h
                simpa [Stmt.noCompound] using parseExpr_noCompound fuel _ e rest2 he
      · split at h
        · -- if
          split at h
          · simp at h
          · split at h
            · simp at h
            · rename_i cond rest2 hc
              have ic := parseExpr_noCompound fuel _ cond rest2 hc
              split at h
              · simp at h
              · split at h
                · simp at h
                · simp at h
                · rename_i thenStmts t4 rest4 hth
                  have ith := parseBlock_noCompound fuel _ thenStmts _ hth
                  split at h
                  · split at h
                    · simp at h
                    · rename_i elseStmts rest5 hel
                      have iel := parseBlock_noCompound fuel _ elseStmts rest5 hel
                      simp only [Except.ok.injEq, Prod.mk.injEq] at h
                      obtain ⟨rfl, _⟩ := h
                      simp [Stmt.noCompound, ic, ith, iel]
                  · simp only [Except.ok.injEq, Prod.mk.injEq] at h
                    obtain ⟨rfl, _⟩ := h
                    simp [Stmt.noCompound, ic, ith, stmtsNoCompound]
        · split at h
          · -- while
            split at h
            · simp at h
            · split at h
              · simp at h
              · rename_i cond rest2 hc
                have ic := parseExpr_noCompound fuel _ cond rest2 hc
                split at h
                · simp at h
                · split at h
                  · simp at h
                  · rename_i body rest4 hb
                    have ib := parseBlock_noCompound fuel _ body rest4 hb
                    simp only [Except.ok.injEq, Prod.mk.injEq] at h
                    obtain ⟨rfl, _⟩ := h
                    simp [Stmt.noCompound, ic, ib]
          · split at h
            · -- defer
              split at h
              · simp at h
              · rename_i e rest1 he
                split at h
                · simp at h
                · simp only [Except.ok.injEq, Prod.mk.injEq] at h
                  obtain ⟨rfl, _⟩ := h
                  simpa [Stmt.noCompound] using parseExpr_noCompound fuel _ e rest1 he
            · split at h
              · split at h
                · simp at h
                · simp only [Except.ok.injEq, Prod.mk.injEq] at h
                  obtain ⟨rfl, _⟩ := h
                  simp [Stmt.noCompound]
              · split at h
                · split at h
                  · simp at h
                  · simp only [Except.ok.injEq, Prod.mk.injEq] at h
                    obtain ⟨rfl, _⟩ := h
                    simp [Stmt.noCompound]
                · split at h
                  · simp at h
                  · rename_i e rest1 he
                    split at h
                    · simp at h
                    · simp only [Except.ok.injEq, Prod.mk.injEq] at h
                      obtain ⟨rfl, _⟩ := h
                      simpa [Stmt.noCompound] using parseExpr_noCompound fuel _ e rest1 he

end

theorem parseFunc_noCompound (fuel : Nat) (toks : List Token) (f : Func) (rest : List Token)
    (h : parseFunc fuel toks = Except.ok (f, rest)) : stmtsNoCompound f.body = true := by
  simp only [parseFunc] at h
  repeat' split at h
  all_goals try (simp at h; done)
  all_goals
    rename_i body rest6 hb
    simp only [Except.ok.injEq, Prod.mk.injEq] at h
    obtain ⟨rfl, _⟩ := h
    exact parseBlock_noCompound fuel _ body rest6 hb

theorem parseFuncs_noCompound : ∀ (fuel : Nat) (toks : List Token) (fs : List Func),
    parseFuncs fuel toks = Except.ok fs → ∀ f ∈ fs, stmtsNoCompound f.body = true
  | 0, _, _, h => by simp [parseFuncs] at h
  | _ + 1, [], _, h => by simp [parseFuncs] at h
  | fuel + 1, t :: ts, fs, h => by
    simp only [parseFuncs] at h
    split at h
    · split at h
      · simp at h
      · rename_i fn rest1 h1
        split at h
        · simp at h
        · rename_i fs2 h2
          simp only [Except.ok.injEq] at h
          subst h
          intro f hf
          simp only [List.mem_cons] at hf
          rcases hf with rfl | hf
          · exact parseFunc_noCompound fuel _ _ rest1 h1
          · exact parseFuncs_noCompound fuel rest1 fs2 h2 f hf
    · simp only [Except.ok.injEq] at h
      subst h
      simp

theorem parseProgram_noCompound (fuel : Nat) (toks : List Token) (p : Program)
    (h : parseProgram fuel toks = Except.ok p) : p.noCompound = true := by
  simp only [parseProgram] at h
  split at h
  · simp at h
  · rename_i fs hfs
    simp only [Except.ok.injEq] at h
    subst h
    simp only [Program.noCompound, List.all_eq_true]
    exact parseFuncs_noCompound fuel toks fs hfs

/-! ## Compound assignment -/

theorem compound_not_open (k : TokKind) (h : isCompoundAssign k = true) :
    k ≠ TokKind.LParen ∧ k ≠ TokKind.LBracket ∧ k ≠ TokKind.Eq ∧ binLevel k = none := by
  cases k <;> simp [isCompoundAssign, binLevel] at h ⊢

theorem compoundBinOp_level (k : TokKind) :
    binLevel (compoundBinOp k) = some 5 ∨ binLevel (compoundBinOp k) = some 6 := by
  cases k <;> simp [compoundBinOp, binLevel]

/-- The parenthesised expression `( e )`: the parentheses leave no node. -/
theorem parseUnary_paren (m : Nat) (tlp trp t : Token) (toks rest : List Token) (e : Expr)
    (hlp : tlp.kind = TokKind.LParen) (hrp : trp.kind = TokKind.RParen)
    (ht : t.kind ≠ TokKind.LBracket)
    (he : ParsesTo parseExpr m toks e (trp :: t :: rest)) :
    ParsesTo parseUnary (m + 3) (tlp :: toks) e (t :: rest) := by
  intro fuel hf
  obtain ⟨f, rfl⟩ : ∃ f, fuel = f + 3 := ⟨fuel - 3, by omega⟩
  simp [parseUnary, parsePostfix, parseIndexLoop, hlp, he (f + 1) (by omega), expect, hrp, ht]

/-- The compound assignment `x op= e`. -/
theorem parseAssign_compound (n : Nat) (tx top : Token) (toks rest : List Token) (r : Expr)
    (hx : tx.kind = TokKind.Ident) (hop : isCompoundAssign top.kind = true)
    (hr : ParsesTo parseAssign n toks r rest) :
    ParsesTo parseAssign (max 15 n + 1) (tx :: top :: toks)
      (Expr.EBin (Expr.EVar tx.lexeme) TokKind.Eq
        (Expr.EBin (Expr.EVar tx.lexeme) (compoundBinOp top.kind) r)) rest := by
  obtain ⟨c1, c2, c3, c4⟩ := compound_not_open _ hop
  have a_or : ParsesTo parseOr 15 (tx :: top :: toks) (Expr.EVar tx.lexeme) (top :: toks) :=
    parseAt_var 1 (Nat.le_refl _) (by omega) tx top _ hx c1 c2 (fun q _ => by simp [c4])
  intro fuel hf
  obtain ⟨f, rfl⟩ : ∃ f, fuel = f + 1 := ⟨fuel - 1, by omega⟩
  simp [parseAssign, a_or f (by omega), c3, hop, hr f (by omega)]

/-- The plain assignment `x = x op ( e )`. -/
theorem parseAssign_plain (m : Nat) (tx teq tx2 tb tlp trp t : Token)
    (toks rest : List Token) (r : Expr)
    (hx : tx.kind = TokKind.Ident) (heq : teq.kind = TokKind.Eq)
    (hx2 : tx2.kind = TokKind.Ident) (q : Nat) (hb : binLevel tb.kind = some q)
    (hlp : tlp.kind = TokKind.LParen) (hrp : trp.kind = TokKind.RParen)
    (ht : endsExpr t.kind = true)
    (hr : ParsesTo parseExpr m toks r (trp :: t :: rest)) :
    ParsesTo parseAssign (m + 60) (tx :: teq :: tx2 :: tb :: tlp :: toks)
      (Expr.EBin (Expr.EVar tx.lexeme) TokKind.Eq
        (Expr.EBin (Expr.EVar tx2.lexeme) tb.kind r)) (t :: rest) := by
  obtain ⟨e1, e2, e3, e4⟩ := endsExpr_not_open _ ht
  have tq : ∀ q, binLevel t.kind ≠ some q := endsExpr_binLevel _ ht
  obtain ⟨q1, q6⟩ := binLevel_range _ _ hb
  obtain ⟨b1, b2, _, _⟩ := binLevel_not_open _ _ hb
  have a_or : ParsesTo parseOr 15 (tx :: teq :: tx2 :: tb :: tlp :: toks)
      (Expr.EVar tx.lexeme) (teq :: tx2 :: tb :: tlp :: toks) :=
    parseAt_var 1 (Nat.le_refl _) (by omega) tx teq _ hx (by simp [heq]) (by simp [heq])
      (fun q _ => by simp [heq, binLevel])
  have l_op : ParsesTo (parseAt (q + 1)) 15 (tx2 :: tb :: tlp :: toks)
      (Expr.EVar tx2.lexeme) (tb :: tlp :: toks) :=
    parseAt_var (q + 1) (by omega) (by omega) tx2 tb _ hx2 b1 b2
      (fun q2 hq2 => by rw [hb]; intro h; cases h; omega)
  have r_un : ParsesTo (parseAt 7) (m + 3) (tlp :: toks) r (t :: rest) :=
    parseUnary_paren m tlp trp t toks rest r hlp hrp e2 hr
  have r_op : ParsesTo (parseAt (q + 1)) (m + 3 + 12) (tlp :: toks) r (t :: rest) :=
    parseAt_lower (q + 1) 7 (by omega) (by omega) (Nat.le_refl _) _ _ _ t rest r_un
      (fun q2 _ _ => tq q2)
  have bin := parseAt_binary q q1 q6 _ _ _ _ tb t _ _ rest hb l_op r_op (tq q)
  have bin1 := parseAt_lower 1 q (Nat.le_refl _) q1 (by omega) _ _ _ t rest bin
    (fun q2 _ _ => tq q2)
  have rhs := parseAssign_of_parseOr _ _ _ t rest bin1 e3 e4
  exact (parseAssign_eq _ _ _ _ _ teq _ _ a_or heq rhs).weaken (by omega)

/-! ### The two texts of one assignment -/

theorem compound_lexes : lexString compoundSrc = some (Except.ok compoundToks) := by decide!

set_option maxRecDepth 100000 in
theorem compound_parses : parseSource compoundSrc = some (Except.ok compoundTree) := by
  simp only [parseSource, compound_lexes]
  rfl

theorem plain_lexes : lexString plainSrc = some (Except.ok plainToks) := by decide!

set_option maxRecDepth 100000 in
theorem plain_parses : parseSource plainSrc = some (Except.ok compoundTree) := by
  simp only [parseSource, plain_lexes]
  rfl


/-- C11.  For an identifier token `x`, a compound assignment operator `op=` and
tokens `es` that parse, as an assignment expression, to the tree `R`, the
tokens `x op= es` parse to `EBin (EVar x) Eq (EBin (EVar x) op R)`, where `op`
is `+` for `+=`, `-` for `-=`, `*` for `*=`, `/` for `/=` and `%` for `%=`.
The tokens `x = x op ( es2 )` of the plain assignment, with tokens `es2` that
parse to `R` between the parentheses, parse to the same tree.  No expression and no program
that the parser returns holds a compound assignment operator.  The texts
`compoundSrc`, with `x += 2 * 3`, and `plainSrc`, with `x = x + (2 * 3)`, give
the same program. -/
theorem compound_assign_desugars (tx top : Token) (es rest : List Token) (R : Expr) (n : Nat)
    (hx : tx.kind = TokKind.Ident) (hop : isCompoundAssign top.kind = true)
    (hR : ParsesTo parseAssign n es R rest) :
    ParsesTo parseAssign (max 15 n + 1) (tx :: top :: es)
      (Expr.EBin (Expr.EVar tx.lexeme) TokKind.Eq
        (Expr.EBin (Expr.EVar tx.lexeme) (compoundBinOp top.kind) R)) rest ∧
    (∀ (teq tx2 tb tlp trp t : Token) (es2 rest2 : List Token) (m : Nat),
      teq.kind = TokKind.Eq → tx2.kind = TokKind.Ident → tx2.lexeme = tx.lexeme →
      tb.kind = compoundBinOp top.kind → tlp.kind = TokKind.LParen →
      trp.kind = TokKind.RParen → endsExpr t.kind = true →
      ParsesTo parseExpr m es2 R (trp :: t :: rest2) →
      ParsesTo parseAssign (m + 60) (tx :: teq :: tx2 :: tb :: tlp :: es2)
        (Expr.EBin (Expr.EVar tx.lexeme) TokKind.Eq
          (Expr.EBin (Expr.EVar tx.lexeme) (compoundBinOp top.kind) R)) (t :: rest2)) ∧
    (compoundBinOp TokKind.PlusEq = TokKind.Plus ∧ compoundBinOp TokKind.MinusEq = TokKind.Minus ∧
      compoundBinOp TokKind.StarEq = TokKind.Star ∧
      compoundBinOp TokKind.SlashEq = TokKind.Slash ∧
      compoundBinOp TokKind.PercentEq = TokKind.Percent) ∧
    (∀ (fuel : Nat) (toks : List Token) (e : Expr) (r : List Token),
      parseExpr fuel toks = Except.ok (e, r) → e.noCompound = true) ∧
    (∀ (fuel : Nat) (toks : List Token) (p : Program),
      parseProgram fuel toks = Except.ok p → p.noCompound = true) ∧
    parseSource compoundSrc = some (Except.ok compoundTree) ∧
    parseSource plainSrc = some (Except.ok compoundTree) := by
  refine ⟨parseAssign_compound n tx top _ rest R hx hop hR, ?_, by decide,
    parseExpr_noCompound, parseProgram_noCompound, compound_parses, plain_parses⟩
  intro teq tx2 tb tlp trp t es2 rest2 m heq hx2 hlex hb hlp hrp ht hR2
  have hq : ∃ q, binLevel tb.kind = some q := by
    rcases compoundBinOp_level top.kind with h | h
    · exact ⟨5, by rw [hb, h]⟩
    · exact ⟨6, by rw [hb, h]⟩
  obtain ⟨q, hq⟩ := hq
  have := parseAssign_plain m tx teq tx2 tb tlp trp t _ rest2 R hx heq hx2 q hq hlp hrp ht hR2
  rw [hlex, hb] at this
  exact this

/-- C11 (witness): the tokens of `x += y ;` parse to `x = x + y`, and so do the
tokens of `x = x + ( y ) ;`. -/
theorem compound_assign_desugars_witness :
    ParsesTo parseAssign 17
      [⟨TokKind.Ident, "x", 0, 1, 1⟩, ⟨TokKind.PlusEq, "", 0, 1, 3⟩,
       ⟨TokKind.Ident, "y", 0, 1, 6⟩, ⟨TokKind.Semicolon, "", 0, 1, 7⟩]
      (Expr.EBin (Expr.EVar "x") TokKind.Eq
        (Expr.EBin (Expr.EVar "x") TokKind.Plus (Expr.EVar "y")))
      [⟨TokKind.Semicolon, "", 0, 1, 7⟩] ∧
    ParsesTo parseAssign 77
      [⟨TokKind.Ident, "x", 0, 1, 1⟩, ⟨TokKind.Eq, "", 0, 1, 3⟩,
       ⟨TokKind.Ident, "x", 0, 1, 5⟩, ⟨TokKind.Plus, "", 0, 1, 7⟩,
       ⟨TokKind.LParen, "", 0, 1, 9⟩, ⟨TokKind.Ident, "y", 0, 1, 10⟩,
       ⟨TokKind.RParen, "", 0, 1, 11⟩, ⟨TokKind.Semicolon, "", 0, 1, 12⟩]
      (Expr.EBin (Expr.EVar "x") TokKind.Eq
        (Expr.EBin (Expr.EVar "x") TokKind.Plus (Expr.EVar "y")))
      [⟨TokKind.Semicolon, "", 0, 1, 12⟩] := by
  have hy : ParsesTo parseAssign 16
      [⟨TokKind.Ident, "y", 0, 1, 6⟩, ⟨TokKind.Semicolon, "", 0, 1, 7⟩]
      (Expr.EVar "y") [⟨TokKind.Semicolon, "", 0, 1, 7⟩] :=
    parseAssign_of_parseOr 15 _ _ _ _
      (parseAt_var 1 (Nat.le_refl _) (by omega) ⟨TokKind.Ident, "y", 0, 1, 6⟩
        ⟨TokKind.Semicolon, "", 0, 1, 7⟩ [] rfl (by decide) (by decide)
        (fun q _ => by simp [binLevel])) (by decide) (by decide)
  have hy2 : ParsesTo parseExpr 17
      [⟨TokKind.Ident, "y", 0, 1, 10⟩, ⟨TokKind.RParen, "", 0, 1, 11⟩,
        ⟨TokKind.Semicolon, "", 0, 1, 12⟩]
      (Expr.EVar "y") (⟨TokKind.RParen, "", 0, 1, 11⟩ :: ⟨TokKind.Semicolon, "", 0, 1, 12⟩ :: []) :=
    parseExpr_of_parseOr 15 _ _ _ _
      (parseAt_var 1 (Nat.le_refl _) (by omega) ⟨TokKind.Ident, "y", 0, 1, 10⟩
        ⟨TokKind.RParen, "", 0, 1, 11⟩ _ rfl (by decide) (by decide)
        (fun q _ => by simp [binLevel])) (by decide) (by decide)
  have h := compound_assign_desugars ⟨TokKind.Ident, "x", 0, 1, 1⟩ ⟨TokKind.PlusEq, "", 0, 1, 3⟩
    [⟨TokKind.Ident, "y", 0, 1, 6⟩, ⟨TokKind.Semicolon, "", 0, 1, 7⟩]
    [⟨TokKind.Semicolon, "", 0, 1, 7⟩] (Expr.EVar "y") 16 rfl (by decide) hy
  exact ⟨h.1, h.2.1 ⟨TokKind.Eq, "", 0, 1, 3⟩ ⟨TokKind.Ident, "x", 0, 1, 5⟩
    ⟨TokKind.Plus, "", 0, 1, 7⟩ ⟨TokKind.LParen, "", 0, 1, 9⟩ ⟨TokKind.RParen, "", 0, 1, 11⟩
    ⟨TokKind.Semicolon, "", 0, 1, 12⟩
    [⟨TokKind.Ident, "y", 0, 1, 10⟩, ⟨TokKind.RParen, "", 0, 1, 11⟩,
      ⟨TokKind.Semicolon, "", 0, 1, 12⟩] [] 17
    rfl rfl rfl rfl rfl rfl (by decide) hy2⟩

/-- C12.  Let the expression left of a compound assignment operator be `lhs`:
`parseOr` returns it and stops at the operator.  When `lhs` is no variable
reference, `parseAssign` and `parseExpr` stop with the parser's diagnostic
`compound assignment requires simple variable on left side`.  When `lhs` is a
variable reference, `parseAssign` goes on to the right side and returns the
assignment whenever the right side parses.  The five texts of `compoundLhsSrcs`,
with an index expression, a call, a literal, a unary and a binary expression on
the left, are rejected with that diagnostic. -/
theorem compound_needs_variable (fuel : Nat) (toks rest : List Token) (lhs : Expr)
    (top : Token) (hl : parseOr fuel toks = Except.ok (lhs, top :: rest))
    (hop : isCompoundAssign top.kind = true) :
    ((∀ x, lhs ≠ Expr.EVar x) →
      parseAssign (fuel + 1) toks = Except.error
        (PErr.fatal "compound assignment requires simple variable on left side") ∧
      parseExpr (fuel + 2) toks = Except.error
        (PErr.fatal "compound assignment requires simple variable on left side")) ∧
    (∀ (x : String) (rhs : Expr) (rest2 : List Token), lhs = Expr.EVar x →
      parseAssign fuel rest = Except.ok (rhs, rest2) →
      parseAssign (fuel + 1) toks = Except.ok
        (Expr.EBin (Expr.EVar x) TokKind.Eq
          (Expr.EBin (Expr.EVar x) (compoundBinOp top.kind) rhs), rest2)) ∧
    compoundLhsSrcs.all (fun s => failsWith (parseSource s)
      "compound assignment requires simple variable on left side") = true := by
  obtain ⟨_, _, c3, _⟩ := compound_not_open _ hop
  refine ⟨?_, ?_, by decide!⟩
  · intro hx
    have h1 : parseAssign (fuel + 1) toks = Except.error
        (PErr.fatal "compound assignment requires simple variable on left side") := by
      cases lhs with
      | EVar x => exact absurd rfl (hx x)
      | _ => simp only [parseAssign, hl, c3, hop, if_false, if_true]
    exact ⟨h1, by simp only [parseExpr, h1]⟩
  · intro x rhs rest2 hlhs hr
    subst hlhs
    simp only [parseAssign, hl, c3, hop, hr, if_false, if_true]

/-- C12 (witness): in the tokens of `a[0] += 1;` the left side is the index
expression `a[0]`, and the parser stops with the diagnostic. -/
theorem compound_needs_variable_witness :
    parseAssign 21
      [⟨TokKind.Ident, "a", 0, 1, 1⟩, ⟨TokKind.LBracket, "", 0, 1, 2⟩,
       ⟨TokKind.IntLit, "0", 0, 1, 3⟩, ⟨TokKind.RBracket, "", 0, 1, 4⟩,
       ⟨TokKind.PlusEq, "", 0, 1, 6⟩, ⟨TokKind.IntLit, "1", 1, 1, 9⟩,
       ⟨TokKind.Semicolon, "", 0, 1, 10⟩] = Except.error
        (PErr.fatal "compound assignment requires simple variable on left side") :=
  ((compound_needs_variable 20
    [⟨TokKind.Ident, "a", 0, 1, 1⟩, ⟨TokKind.LBracket, "", 0, 1, 2⟩,
     ⟨TokKind.IntLit, "0", 0, 1, 3⟩, ⟨TokKind.RBracket, "", 0, 1, 4⟩,
     ⟨TokKind.PlusEq, "", 0, 1, 6⟩, ⟨TokKind.IntLit, "1", 1, 1, 9⟩,
     ⟨TokKind.Semicolon, "", 0, 1, 10⟩]
    [⟨TokKind.IntLit, "1", 1, 1, 9⟩, ⟨TokKind.Semicolon, "", 0, 1, 10⟩]
    (Expr.EIndex (Expr.EVar "a") (Expr.EInt 0)) ⟨TokKind.PlusEq, "", 0, 1, 6⟩
    rfl (by decide)).1 (fun x h => by cases h)).1

/-! ## The function table -/

theorem lookup_filter_ne (t : FnTable) (n m : String) (h : m ≠ n) :
    List.lookup m (t.filter (fun p => p.1 != n)) = List.lookup m t := by
  induction t with
  | nil => rfl
  | cons a t ih =>
    obtain ⟨k, v⟩ := a
    by_cases hk : k = n
    · subst hk
      have hmk : (m == k) = false := by simpa using h
      simp [List.filter, List.lookup, hmk, ih]
    · have : (k != n) = true := by simpa using hk
      simp only [List.filter, this, List.lookup]
      rw [ih]

theorem FnTable.find_set (t : FnTable) (n m : String) (s : FnSig) :
    (t.set n s).find m = if m = n then some s else t.find m := by
  simp only [FnTable.set, FnTable.find, List.lookup]
  by_cases h : m = n
  · subst h
    simp
  · have hb : (m == n) = false := by simpa using h
    simp only [hb, h, if_false]
    exact lookup_filter_ne t n m h

/-! ## Inference and checking use the function table only through its lookups -/

mutual

theorem infer_congr (scope : Scope) (fns fns2 : FnTable)
    (hf : ∀ n, fns.find n = fns2.find n) :
    ∀ (e : Expr), infer scope fns e = infer scope fns2 e
  | Expr.EInt _ => by simp only [infer]
  | Expr.EBool _ => by simp only [infer]
  | Expr.EVar _ => by simp only [infer]
  | Expr.EUnary _ rhs => by
    simp only [infer, infer_congr scope fns fns2 hf rhs]
  | Expr.EBin lhs _ rhs => by
    simp only [infer, infer_congr scope fns fns2 hf lhs, infer_congr scope fns fns2 hf rhs]
  | Expr.ECall callee args => by
    simp only [infer, hf callee]
    cases fns2.find callee with
    | none => rfl
    | some sig =>
      simp only [inferArgs_congr scope fns fns2 hf callee args]
  | Expr.EArrayLit [] => by simp only [infer]
  | Expr.EArrayLit (e0 :: rest) => by
    simp only [infer, infer_congr scope fns fns2 hf e0]
    cases infer scope fns2 e0 with
    | error m => rfl
    | ok t => simp only [inferElems_congr scope fns fns2 hf rest]
  | Expr.EIndex arr idx => by
    simp only [infer, infer_congr scope fns fns2 hf arr, infer_congr scope fns fns2 hf idx]

theorem inferArgs_congr (scope : Scope) (fns fns2 : FnTable)
    (hf : ∀ n, fns.find n = fns2.find n) (callee : String) :
    ∀ (args : List Expr) (k : Nat) (ps : List Ty),
      inferArgs scope fns callee k args ps = inferArgs scope fns2 callee k args ps
  | [], _, _ => by simp only [inferArgs]
  | a :: rest, k, [] => by simp only [inferArgs]
  | a :: rest, k, p :: ps => by
    simp only [inferArgs, infer_congr scope fns fns2 hf a]
    cases infer scope fns2 a with
    | error m => rfl
    | ok t => simp only [inferArgs_congr scope fns fns2 hf callee rest]

theorem inferElems_congr (scope : Scope) (fns fns2 : FnTable)
    (hf : ∀ n, fns.find n = fns2.find n) :
    ∀ (es : List Expr) (t : Ty), inferElems scope fns t es = inferElems scope fns2 t es
  | [], _ => by simp only [inferElems]
  | e :: rest, t => by
    simp only [inferElems, infer_congr scope fns fns2 hf e]
    cases infer scope fns2 e with
    | error m => rfl
    | ok t2 => simp only [inferElems_congr scope fns fns2 hf rest]

end

theorem sameRes_error (m : String) (r : Except String (Sema × List Expr))
    (h : SameRes (Except.error m) r) : r = Except.error m := by
  cases r with
  | error m2 => simp only [SameRes] at h; rw [h]
  | ok a => obtain ⟨s, d⟩ := a; simp [SameRes] at h

theorem sameRes_ok (s1 : Sema) (d1 : List Expr) (r : Except String (Sema × List Expr))
    (h : SameRes (Except.ok (s1, d1)) r) :
    ∃ s2, r = Except.ok (s2, d1) ∧ s1.scope = s2.scope ∧ s1.loopDepth = s2.loopDepth := by
  cases r with
  | error m2 => simp [SameRes] at h
  | ok a =>
    obtain ⟨s, d⟩ := a
    simp only [SameRes] at h
    exact ⟨s, by rw [h.2.2], h.1, h.2.1⟩

theorem sameRes_isOk (r1 r2 : Except String (Sema × List Expr)) (h : SameRes r1 r2) :
    r1.isOk = r2.isOk := by
  cases r1 with
  | error m => rw [sameRes_error m r2 h]
  | ok a =>
    obtain ⟨s, d⟩ := a
    obtain ⟨s2, h2, _⟩ := sameRes_ok s d r2 h
    rw [h2]
    rfl

theorem declaredType_congr (scope : Scope) (fns fns2 : FnTable)
    (hf : ∀ n, fns.find n = fns2.find n) (annType : Option Ty) (init : Expr) :
    declaredType scope fns annType init = declaredType scope fns2 annType init := by
  cases annType with
  | none => simp only [declaredType, infer_congr scope fns fns2 hf init]
  | some a => rfl

mutual

theorem checkStmt_congr (ret : Option Ty) :
    ∀ (st : Stmt) (s s2 : Sema) (d : List Expr),
      s.scope = s2.scope → s.loopDepth = s2.loopDepth →
      (∀ n, s.fns.find n = s2.fns.find n) →
      SameRes (checkStmt ret s d st) (checkStmt ret s2 d st)
  | Stmt.SLet name annType init u, ⟨scope, fns, ld⟩, ⟨_, fns2, _⟩, d, rfl, rfl, hf => by
    rw [checkStmt_let, checkStmt_let]
    simp only [declaredType_congr scope fns fns2 hf annType init]
    cases declaredType scope fns2 annType init with
    | error m => simp [SameRes]
    | ok t =>
      simp only
      by_cases hv : t.k = TyKind.Void
      · simp [hv, SameRes]
      · simp only [hv, if_false]
        cases hdecl : scope.declare name t u with
        | mk b sc =>
          cases b with
          | false => simp [SameRes]
          | true => cases u <;> simp [SameRes]
  | Stmt.SExpr e, ⟨scope, fns, ld⟩, ⟨_, fns2, _⟩, d, rfl, rfl, hf => by
    simp only [checkStmt, infer_congr scope fns fns2 hf e]
    cases infer scope fns2 e <;> simp [SameRes]
  | Stmt.SReturn e, ⟨scope, fns, ld⟩, ⟨_, fns2, _⟩, d, rfl, rfl, hf => by
    cases ret with
    | none => simp [checkStmt, SameRes]
    | some r =>
      cases e with
      | none => by_cases hv : r.k = TyKind.Void <;> simp [checkStmt, hv, SameRes]
      | some v =>
        simp only [checkStmt, infer_congr scope fns fns2 hf v]
        by_cases hv : r.k = TyKind.Void
        · simp [hv, SameRes]
        · simp only [hv, if_false]
          cases infer scope fns2 v with
          | error m => simp [SameRes]
          | ok t => cases hq : t.equals r <;> simp [SameRes, hq]
  | Stmt.SIf cond thenStmts elseStmts, ⟨scope, fns, ld⟩, ⟨_, fns2, _⟩, d, rfl, rfl, hf => by
    simp only [checkStmt, infer_congr scope fns fns2 hf cond]
    cases infer scope fns2 cond with
    | error m => simp [SameRes]
    | ok t =>
      simp only
      by_cases hv : isVoid t = true
      · simp [hv, SameRes]
      · simp only [hv, if_false]
        have i1 := checkStmts_congr ret thenStmts ⟨scope.push, fns, ld⟩ ⟨scope.push, fns2, ld⟩
          [] rfl rfl hf
        cases h1 : checkStmts ret ⟨scope.push, fns, ld⟩ [] thenStmts with
        | error m =>
          rw [h1] at i1
          rw [sameRes_error m _ i1]
          simp [SameRes]
        | ok a =>
          obtain ⟨s1, d1⟩ := a
          rw [h1] at i1
          obtain ⟨s1b, h1b, hsc, hld⟩ := sameRes_ok s1 d1 _ i1
          rw [h1b]
          simp only
          have f1 := checkStmts_frame ret thenStmts _ _ _ _ h1
          have f1b := checkStmts_frame ret thenStmts _ _ _ _ h1b
          have i2 := checkStmts_congr ret elseStmts
            ⟨s1.scope.pop.push, s1.fns, s1.loopDepth⟩ ⟨s1b.scope.pop.push, s1b.fns, s1b.loopDepth⟩
            [] (by rw [hsc]) hld (by intro n; rw [f1.1, f1b.1]; exact hf n)
          cases h2 : checkStmts ret ⟨s1.scope.pop.push, s1.fns, s1.loopDepth⟩ [] elseStmts with
          | error m =>
            rw [h2] at i2
            rw [sameRes_error m _ i2]
            simp [SameRes]
          | ok a =>
            obtain ⟨s3, d3⟩ := a
            rw [h2] at i2
            obtain ⟨s3b, h3b, hsc3, hld3⟩ := sameRes_ok s3 d3 _ i2
            rw [h3b]
            simp [SameRes, hsc3, hld3]
  | Stmt.SWhile cond body, ⟨scope, fns, ld⟩, ⟨_, fns2, _⟩, d, rfl, rfl, hf => by
    simp only [checkStmt, infer_congr scope fns fns2 hf cond]
    cases infer scope fns2 cond with
    | error m => simp [SameRes]
    | ok t =>
      simp only
      by_cases hv : isVoid t = true
      · simp [hv, SameRes]
      · simp only [hv, if_false]
        have i1 := checkStmts_congr ret body ⟨scope.push, fns, ld + 1⟩ ⟨scope.push, fns2, ld + 1⟩
          [] rfl rfl hf
        cases h1 : checkStmts ret ⟨scope.push, fns, ld + 1⟩ [] body with
        | error m =>
          rw [h1] at i1
          rw [sameRes_error m _ i1]
          simp [SameRes]
        | ok a =>
          obtain ⟨s1, d1⟩ := a
          rw [h1] at i1
          obtain ⟨s1b, h1b, hsc, hld⟩ := sameRes_ok s1 d1 _ i1
          rw [h1b]
          simp [SameRes, hsc, hld]
  | Stmt.SDefer e, ⟨scope, fns, ld⟩, ⟨_, fns2, _⟩, d, rfl, rfl, hf => by
    simp [checkStmt, SameRes]
  | Stmt.SBreak, ⟨scope, fns, ld⟩, ⟨_, fns2, _⟩, d, rfl, rfl, hf => by
    by_cases h : ld = 0 <;> simp [checkStmt, SameRes, h]
  | Stmt.SContinue, ⟨scope, fns, ld⟩, ⟨_, fns2, _⟩, d, rfl, rfl, hf => by
    by_cases h : ld = 0 <;> simp [checkStmt, SameRes, h]

theorem checkStmts_congr (ret : Option Ty) :
    ∀ (ss : List Stmt) (s s2 : Sema) (d : List Expr),
      s.scope = s2.scope → s.loopDepth = s2.loopDepth →
      (∀ n, s.fns.find n = s2.fns.find n) →
      SameRes (checkStmts ret s d ss) (checkStmts ret s2 d ss)
  | [], s, s2, d, hs, hl, hf => by simp [checkStmts, SameRes, hs, hl]
  | st :: rest, s, s2, d, hs, hl, hf => by
    simp only [checkStmts]
    have i1 := checkStmt_congr ret st s s2 d hs hl hf
    cases h1 : checkStmt ret s d st with
    | error m =>
      rw [h1] at i1
      rw [sameRes_error m _ i1]
      simp [SameRes]
    | ok a =>
      obtain ⟨s1, d1⟩ := a
      rw [h1] at i1
      obtain ⟨s1b, h1b, hsc, hld⟩ := sameRes_ok s1 d1 _ i1
      rw [h1b]
      simp only
      have f1 := checkStmt_frame ret st _ _ _ _ h1
      have f1b := checkStmt_frame ret st _ _ _ _ h1b
      exact checkStmts_congr ret rest s1 s1b d1 hsc hld
        (by intro n; rw [f1.1, f1b.1]; exact hf n)

end

/-! ## The two passes of `Sema::analyze` -/

theorem gatherParams_ok : ∀ (ps : List Param) (ts : List Ty),
    gatherParams ps = Except.ok ts → ts = ps.map (fun pr => pr.ty.clone)
  | [], ts, h => by
    simp only [gatherParams, Except.ok.injEq] at h
    simp [← h]
  | pr :: rest, ts, h => by
    simp only [gatherParams] at h
    split at h
    · simp at h
    · split at h
      · simp at h
      · rename_i ps hps
        simp only [Except.ok.injEq] at h
        rw [← h, gatherParams_ok rest ps hps]
        rfl

theorem gatherParams_of_nonvoid : ∀ (ps : List Param),
    (∀ pr ∈ ps, pr.ty.k ≠ TyKind.Void) →
      gatherParams ps = Except.ok (ps.map (fun pr => pr.ty.clone))
  | [], _ => rfl
  | pr :: rest, h => by
    have h1 : pr.ty.k ≠ TyKind.Void := h pr (List.mem_cons_self _ _)
    have h2 := gatherParams_of_nonvoid rest (fun q hq => h q (List.mem_cons_of_mem _ hq))
    simp [gatherParams, h1, h2]

/-- The signature pass succeeds exactly when no parameter has type `void`. -/
theorem gatherSigs_isOk : ∀ (fs : List Func) (fns : FnTable),
    (gatherSigs fns fs).isOk = true ↔ ∀ f ∈ fs, ∀ pr ∈ f.params, pr.ty.k ≠ TyKind.Void
  | [], fns => by simp [gatherSigs, Except.isOk, Except.toBool]
  | fn :: rest, fns => by
    constructor
    · intro h
      obtain ⟨T, hT⟩ := (isOk_iff _).mp h
      exact gatherSigs_nonvoid _ _ _ hT
    · intro h
      have h1 := gatherParams_of_nonvoid fn.params (h fn (List.mem_cons_self _ _))
      simp only [gatherSigs, h1]
      exact (gatherSigs_isOk rest _).mpr (fun f hf => h f (List.mem_cons_of_mem _ hf))

/-- After the signature pass the table maps a name that no function of the
program bears to what it mapped it to before. -/
theorem gatherSigs_find_other : ∀ (fs : List Func) (fns T : FnTable),
    gatherSigs fns fs = Except.ok T → ∀ n, (∀ f ∈ fs, f.name ≠ n) → T.find n = fns.find n
  | [], fns, T, h, n, _ => by
    simp only [gatherSigs, Except.ok.injEq] at h
    rw [h]
  | fn :: rest, fns, T, h, n, hn => by
    simp only [gatherSigs] at h
    split at h
    · simp at h
    · rename_i ps hps
      rw [gatherSigs_find_other rest _ T h n (fun f hf => hn f (List.mem_cons_of_mem _ hf)),
        FnTable.find_set]
      have : n ≠ fn.name := fun e => hn fn (List.mem_cons_self _ _) e.symm
      simp [this]

/-- After the signature pass the table holds the signature of every function
of the program, the names being pairwise distinct. -/
theorem gatherSigs_find_mem : ∀ (fs : List Func) (fns T : FnTable),
    (fs.map (fun f => f.name)).Nodup → gatherSigs fns fs = Except.ok T →
      ∀ f ∈ fs, T.find f.name = some f.sig
  | [], _, _, _, _, f, hf => by simp at hf
  | fn :: rest, fns, T, hnd, h, f, hf => by
    have h0 := h
    simp only [gatherSigs] at h
    split at h
    · simp at h
    · rename_i ps hps
      simp only [List.map_cons, List.nodup_cons, List.mem_map, not_exists, not_and] at hnd
      simp only [List.mem_cons] at hf
      rcases hf with rfl | hf
      · rw [gatherSigs_find_other rest _ T h f.name (fun g hg => hnd.1 g hg), FnTable.find_set]
        simp [Func.sig, gatherParams_ok _ _ hps]
      · exact gatherSigs_find_mem rest _ T hnd.2 h f hf

/-- The body pass checks every body from the same state. -/
theorem checkBodies_isOk : ∀ (fs : List Func) (fns : FnTable),
    (checkBodies ⟨Scope.init, fns, 0⟩ fs).isOk = true ↔ ∀ f ∈ fs, bodyOk fns f = true
  | [], fns => by simp [checkBodies, Except.isOk, Except.toBool]
  | fn :: rest, fns => by
    simp only [checkBodies, List.mem_cons, forall_eq_or_imp, bodyOk]
    cases h1 : checkStmts (some fn.ret)
        ⟨declareParams Scope.init.push fn.params, fns, 0⟩ [] fn.body with
    | error m => simp [Except.isOk, Except.toBool]
    | ok a =>
      obtain ⟨s2, d2⟩ := a
      have f1 := checkStmts_frame _ _ _ _ _ _ h1
      obtain ⟨mp, hmp⟩ := declareParams_stack fn.params Scope.init.push [] [[]] rfl
      obtain ⟨m1, hm1⟩ := f1.2.2 mp [[]] hmp
      have hs : ({ s2 with scope := s2.scope.pop } : Sema) = ⟨Scope.init, fns, 0⟩ := by
        obtain ⟨sc, fn2, l2⟩ := s2
        simp only at f1 hm1
        simp only [Scope.pop, hm1, List.tail_cons, f1.1, f1.2.1, Scope.init]
      simp only [hs]
      rw [checkBodies_isOk rest fns]
      simp [Except.isOk, Except.toBool, bodyOk]

/-- What `Sema::analyze` accepts: the signature pass succeeds with a table,
and every body passes the check against that table. -/
theorem analyze_isOk (p : Program) :
    (analyze p).isOk = true ↔
      ∃ T, gatherSigs Sema.fresh.primaries.fns p.funcs = Except.ok T ∧
        ∀ f ∈ p.funcs, bodyOk T f = true := by
  simp only [analyze]
  cases h : gatherSigs Sema.fresh.primaries.fns p.funcs with
  | error m => simp [Except.isOk, Except.toBool]
  | ok T =>
    simp only [Except.ok.injEq, exists_eq_left']
    exact checkBodies_isOk p.funcs T

theorem bodyOk_congr (fns fns2 : FnTable) (hf : ∀ n, fns.find n = fns2.find n) (f : Func) :
    bodyOk fns f = bodyOk fns2 f :=
  sameRes_isOk _ _ (checkStmts_congr (some f.ret) f.body _ _ [] rfl rfl hf)

theorem gatherSigs_perm (fs gs : List Func) (fns T U : FnTable) (hp : fs.Perm gs)
    (hnd : (fs.map (fun f => f.name)).Nodup)
    (hT : gatherSigs fns fs = Except.ok T) (hU : gatherSigs fns gs = Except.ok U) :
    ∀ n, T.find n = U.find n := by
  intro n
  have hnd2 : (gs.map (fun f => f.name)).Nodup := (hp.map _).nodup_iff.mp hnd
  by_cases hex : ∃ f ∈ fs, f.name = n
  · obtain ⟨f, hf, rfl⟩ := hex
    rw [gatherSigs_find_mem fs fns T hnd hT f hf,
      gatherSigs_find_mem gs fns U hnd2 hU f (hp.mem_iff.mp hf)]
  · have h1 : ∀ f ∈ fs, f.name ≠ n := fun f hf e => hex ⟨f, hf, e⟩
    have h2 : ∀ f ∈ gs, f.name ≠ n := fun f hf e => hex ⟨f, hp.mem_iff.mpr hf, e⟩
    rw [gatherSigs_find_other fs fns T hT n h1, gatherSigs_find_other gs fns U hU n h2]

theorem analyze_perm_imp (p q : Program) (hp : p.funcs.Perm q.funcs)
    (hnd : (p.funcs.map (fun f => f.name)).Nodup) (h : (analyze p).isOk = true) :
    (analyze q).isOk = true := by
  obtain ⟨T, hT, hb⟩ := (analyze_isOk p).mp h
  have hq : (gatherSigs Sema.fresh.primaries.fns q.funcs).isOk = true :=
    (gatherSigs_isOk _ _).mpr (fun f hf =>
      (gatherSigs_isOk _ _).mp ((isOk_iff _).mpr ⟨T, hT⟩) f (hp.mem_iff.mpr hf))
  obtain ⟨U, hU⟩ := (isOk_iff _).mp hq
  refine (analyze_isOk q).mpr ⟨U, hU, ?_⟩
  intro f hf
  rw [← bodyOk_congr T U (gatherSigs_perm _ _ _ T U hp hnd hT hU) f]
  exact hb f (hp.mem_iff.mpr hf)

theorem backwardCall_accepted : (analyze backwardCall).isOk = true := by
  simp [analyze, backwardCall, mainCallsTwice, twice, Sema.fresh, Sema.primaries, FnTable.set,
    FnTable.find, gatherSigs, gatherParams,
    checkBodies, declareParams, checkStmts, checkStmt, infer, inferArgs, inferElems,
    Scope.init, Scope.push, Scope.pop, Scope.declare, Scope.lookup, Scope.lookupIn,
    List.lookup, isVoid, Ty.k, Ty.i64, Ty.boolean, Ty.clone, Ty.equals, isArithOp, isCompareOp,
    isLogicOp, Except.isOk, Except.toBool]

theorem mutualRec_accepted : (analyze mutualRec).isOk = true := by
  simp [analyze, mutualRec, Sema.fresh, Sema.primaries, FnTable.set,
    FnTable.find, gatherSigs, gatherParams,
    checkBodies, declareParams, checkStmts, checkStmt, infer, inferArgs, inferElems,
    Scope.init, Scope.push, Scope.pop, Scope.declare, Scope.lookup, Scope.lookupIn,
    List.lookup, isVoid, Ty.k, Ty.i64, Ty.boolean, Ty.clone, Ty.equals, isArithOp, isCompareOp,
    isLogicOp, Except.isOk, Except.toBool]

/-- C14.  Let the functions of `q` be those of `p` in another order, the names
pairwise distinct.  `Sema::analyze` accepts `p` exactly when the signature pass
yields a table `T` and every body of `p` passes the check against `T`; `T`
holds the signature of every function of `p`; and `Sema::analyze` accepts `p`
exactly when it accepts `q`.  The program `forwardCall`, whose `main` calls a
function defined after it, and the mutually recursive `mutualRec` are
accepted. -/
theorem analyze_order_independent (p q : Program) (hp : p.funcs.Perm q.funcs)
    (hnd : (p.funcs.map (fun f => f.name)).Nodup) :
    ((analyze p).isOk = true ↔
      ∃ T, gatherSigs Sema.fresh.primaries.fns p.funcs = Except.ok T ∧
        (∀ f ∈ p.funcs, T.find f.name = some f.sig) ∧
        ∀ f ∈ p.funcs, bodyOk T f = true) ∧
    (analyze p).isOk = (analyze q).isOk ∧
    (analyze forwardCall).isOk = true ∧ (analyze mutualRec).isOk = true := by
  refine ⟨?_, ?_, forwardCall_accepted, mutualRec_accepted⟩
  · rw [analyze_isOk]
    constructor
    · rintro ⟨T, hT, hb⟩
      exact ⟨T, hT, gatherSigs_find_mem _ _ T hnd hT, hb⟩
    · rintro ⟨T, hT, _, hb⟩
      exact ⟨T, hT, hb⟩
  · have hnd2 : (q.funcs.map (fun f => f.name)).Nodup := (hp.map _).nodup_iff.mp hnd
    rw [Bool.eq_iff_iff]
    exact ⟨analyze_perm_imp p q hp hnd, analyze_perm_imp q p hp.symm hnd2⟩

/-- C14 (witness): `forwardCall` and `backwardCall` hold the same two functions
in the two orders, and both are accepted. -/
theorem analyze_order_independent_witness :
    (analyze forwardCall).isOk = (analyze backwardCall).isOk ∧
    (analyze backwardCall).isOk = true :=
  ⟨(analyze_order_independent forwardCall backwardCall (List.Perm.swap _ _ _)
    (by decide)).2.1, backwardCall_accepted⟩

/-! ## The emitter's monad -/

theorem gen_bind {α β : Type} (m : Gen α) (f : α → Gen β) (s : CG) :
    (m >>= f) s =
      match m s with
      | Except.ok (a, s1) => f a s1
      | Except.error e => Except.error e := by
  show (m s >>= fun p => f p.1 p.2) = _
  cases m s with
  | error e => rfl
  | ok p => rfl

theorem gen_bind_ok {α β : Type} (m : Gen α) (f : α → Gen β) (s : CG) (r : β × CG) :
    (m >>= f) s = Except.ok r ↔ ∃ a s1, m s = Except.ok (a, s1) ∧ f a s1 = Except.ok r := by
  rw [gen_bind]
  cases h : m s with
  | error e => simp
  | ok p =>
    obtain ⟨a, s1⟩ := p
    constructor
    · intro hf
      exact ⟨a, s1, rfl, hf⟩
    · rintro ⟨a2, s2, h2, hf⟩
      simp only [Except.ok.injEq, Prod.mk.injEq] at h2
      obtain ⟨rfl, rfl⟩ := h2
      exact hf

theorem gen_pure {α : Type} (a : α) (s : CG) : (pure a : Gen α) s = Except.ok (a, s) := rfl

theorem gen_get (s : CG) : (get : Gen CG) s = Except.ok (s, s) := rfl

theorem gen_modify (f : CG → CG) (s : CG) : (modify f : Gen Unit) s = Except.ok ((), f s) := rfl

theorem gen_ite_bind {α β : Type} (c : Prop) [Decidable c] (a b : Gen α) (k : α → Gen β) :
    (if c then a else b) >>= k = if c then a >>= k else b >>= k := by
  split <;> rfl

theorem defineFunc_eq (fn : Func) :
    defineFunc fn = (do
      let s ← get
      match latestDecl s.funcs fn.name with
      | none => Gen.fatal "function not declared"
      | some i =>
        match s.funcs[i]? with
        | none => Gen.fatal "function not declared"
        | some f => do
          buildFunc fn i f
          verifyStep i) := by
  funext s
  simp only [defineFunc, buildFunc, verifyStep, implicitReturn, gen_bind, gen_get, bind_assoc]
  cases latestDecl s.funcs fn.name with
  | none => rfl
  | some i =>
    simp only
    cases s.funcs[i]? with
    | none => rfl
    | some f =>
      simp only [bind_assoc, gen_ite_bind, pure_bind]

/-! ## Types in the parser -/

theorem baseTy_kind (k : TokKind) (b : Ty) (h : baseTy k = some b) :
    (k = TokKind.KwI32 ∧ b = Ty.i32) ∨ (k = TokKind.KwI64 ∧ b = Ty.i64) ∨
      (k = TokKind.KwBool ∧ b = Ty.boolean) ∨ (k = TokKind.KwVoid ∧ b = Ty.voidty) := by
  cases k <;> simp [baseTy] at h <;> simp [h]

/-- C30.  `parseType` on a type keyword (`i32`, `i64`, `bool`, `void`) returns
that base type, on `ptr < T >` the pointer to the type parsed for `T`, and on
either of them followed by `[ N ]`, with `N` an integer literal, the array of
that type with `arraySize` the value of `N`.  After the type, a `[` that is not
followed by an integer literal, or an integer literal that is not followed by
`]`, is a parse error, and so is a first token that is neither a type keyword
nor `ptr`.  The tokens of `i64[3]` parse to the array of `i64` of size 3, and
those of `ptr<bool>[2]` to the array of size 2 of pointers to `bool`. -/
theorem parseType_cases (fuel : Nat) (t t2 : Token) (rest : List Token) :
    (∀ b, baseTy t.kind = some b → t2.kind ≠ TokKind.LBracket →
      parseType (fuel + 1) (t :: t2 :: rest) = Except.ok (b, t2 :: rest)) ∧
    (∀ (tl tg : Token) (inner : List Token) (T : Ty), t.kind = TokKind.KwPtr →
      tl.kind = TokKind.Lt → parseType fuel inner = Except.ok (T, tg :: t2 :: rest) →
      tg.kind = TokKind.Gt → t2.kind ≠ TokKind.LBracket →
      parseType (fuel + 1) (t :: tl :: inner) = Except.ok (Ty.ptr T, t2 :: rest)) ∧
    (∀ (b : Ty) (tn tr : Token), baseTy t.kind = some b → t2.kind = TokKind.LBracket →
      tn.kind = TokKind.IntLit → tr.kind = TokKind.RBracket →
      parseType (fuel + 1) (t :: t2 :: tn :: tr :: rest) =
        Except.ok (Ty.array b tn.intValue, rest)) ∧
    (∀ (tl tg tn tr : Token) (inner : List Token) (T : Ty), t.kind = TokKind.KwPtr →
      tl.kind = TokKind.Lt →
      parseType fuel inner = Except.ok (T, tg :: t2 :: tn :: tr :: rest) →
      tg.kind = TokKind.Gt → t2.kind = TokKind.LBracket →
      tn.kind = TokKind.IntLit → tr.kind = TokKind.RBracket →
      parseType (fuel + 1) (t :: tl :: inner) =
        Except.ok (Ty.array (Ty.ptr T) tn.intValue, rest)) ∧
    (∀ (b : Ty) (tn : Token) (rest2 : List Token), baseTy t.kind = some b →
      t2.kind = TokKind.LBracket → tn.kind ≠ TokKind.IntLit →
      parseType (fuel + 1) (t :: t2 :: tn :: rest2) =
        Except.error (PErr.fatal "expected integer size for array")) ∧
    (∀ (b : Ty) (tn tr : Token) (rest2 : List Token), baseTy t.kind = some b →
      t2.kind = TokKind.LBracket → tn.kind = TokKind.IntLit → tr.kind ≠ TokKind.RBracket →
      parseType (fuel + 1) (t :: t2 :: tn :: tr :: rest2) =
        Except.error (PErr.fatal "expected ']'")) ∧
    (baseTy t.kind = none → t.kind ≠ TokKind.KwPtr →
      parseType (fuel + 1) (t :: rest) = Except.error (PErr.fatal "unknown type")) ∧
    parseType 1 arrayTypeToks =
      Except.ok (Ty.array Ty.i64 3, [⟨TokKind.Semicolon, "", 0, 1, 7⟩]) ∧
    lexString "i64[3];" = some (Except.ok (arrayTypeToks ++ [⟨TokKind.Eof, "", 0, 1, 8⟩])) ∧
    parseType 2 ptrArrayTypeToks =
      Except.ok (Ty.array (Ty.ptr Ty.boolean) 2, [⟨TokKind.Semicolon, "", 0, 1, 13⟩]) ∧
    lexString "ptr<bool>[2];" =
      some (Except.ok (ptrArrayTypeToks ++ [⟨TokKind.Eof, "", 0, 1, 14⟩])) := by
  refine ⟨?_, ?_, ?_, ?_, ?_, ?_, ?_, by rfl, by decide, by rfl, by decide⟩
  · intro b hb h2
    rcases baseTy_kind _ _ hb with ⟨hk, rfl⟩ | ⟨hk, rfl⟩ | ⟨hk, rfl⟩ | ⟨hk, rfl⟩ <;>
      simp [parseType, hk, h2]
  · intro tl tg inner T hk hl hin hg h2
    simp [parseType, hk, hl, hin, hg, h2, expect]
  · intro b tn tr hb h2 hn hr
    rcases baseTy_kind _ _ hb with ⟨hk, rfl⟩ | ⟨hk, rfl⟩ | ⟨hk, rfl⟩ | ⟨hk, rfl⟩ <;>
      simp [parseType, hk, h2, hn, hr, expect]
  · intro tl tg tn tr inner T hk hl hin hg h2 hn hr
    simp [parseType, hk, hl, hin, hg, h2, hn, hr, expect]
  · intro b tn rest2 hb h2 hn
    rcases baseTy_kind _ _ hb with ⟨hk, rfl⟩ | ⟨hk, rfl⟩ | ⟨hk, rfl⟩ | ⟨hk, rfl⟩ <;>
      simp [parseType, hk, h2, hn]
  · intro b tn tr rest2 hb h2 hn hr
    rcases baseTy_kind _ _ hb with ⟨hk, rfl⟩ | ⟨hk, rfl⟩ | ⟨hk, rfl⟩ | ⟨hk, rfl⟩ <;>
      simp [parseType, hk, h2, hn, hr, expect]
  · intro hb hp
    have h1 : t.kind ≠ TokKind.KwI32 := fun h => by simp [h, baseTy] at hb
    have h2 : t.kind ≠ TokKind.KwI64 := fun h => by simp [h, baseTy] at hb
    have h3 : t.kind ≠ TokKind.KwBool := fun h => by simp [h, baseTy] at hb
    have h4 : t.kind ≠ TokKind.KwVoid := fun h => by simp [h, baseTy] at hb
    simp [parseType, h1, h2, h3, h4, hp]

/-! ## The implicit return -/

theorem returnTwice_accepted : (analyze returnTwice).isOk = true := by
  simp [analyze, returnTwice, Sema.fresh, Sema.primaries, FnTable.set, gatherSigs, gatherParams,
    checkBodies, declareParams, checkStmts, checkStmt, infer,
    Scope.init, Scope.push, Scope.pop, Scope.declare, Scope.lookup, Scope.lookupIn,
    List.lookup, isVoid, Ty.k, Ty.i64, Ty.boolean, Ty.clone, Ty.equals, Except.isOk,
    Except.toBool]

theorem breakTwice_accepted : (analyze breakTwice).isOk = true := by
  simp [analyze, breakTwice, Sema.fresh, Sema.primaries, FnTable.set, gatherSigs, gatherParams,
    checkBodies, declareParams, checkStmts, checkStmt, infer,
    Scope.init, Scope.push, Scope.pop, Scope.declare, Scope.lookup, Scope.lookupIn,
    List.lookup, isVoid, Ty.k, Ty.i64, Ty.boolean, Ty.clone, Ty.equals, Except.isOk,
    Except.toBool]

theorem i32Fall_accepted : (analyze i32Fall).isOk = true := by
  simp [analyze, i32Fall, Sema.fresh, Sema.primaries, FnTable.set, gatherSigs, gatherParams,
    checkBodies, declareParams, checkStmts, checkStmt, infer,
    Scope.init, Scope.push, Scope.pop, Scope.declare, Scope.lookup, Scope.lookupIn,
    List.lookup, isVoid, Ty.k, Ty.i32, Ty.i64, Ty.boolean, Ty.clone, Ty.equals, Except.isOk,
    Except.toBool]

theorem ptrLet_accepted : (analyze ptrLet).isOk = true := by
  simp [analyze, ptrLet, Sema.fresh, Sema.primaries, FnTable.set, gatherSigs, gatherParams,
    checkBodies, declareParams, checkStmts, checkStmt, infer,
    Scope.init, Scope.push, Scope.pop, Scope.declare, Scope.lookup, Scope.lookupIn,
    List.lookup, isVoid, Ty.k, Ty.i32, Ty.i64, Ty.ptr, Ty.boolean, Ty.clone, Ty.equals,
    Except.isOk, Except.toBool]

/-- C21.  The checker accepts `fn main() -> i64 { return 0; return 1; }`.  The
emitter puts the `ret` of the second `return` into the entry block after the
`ret` of the first, so that the block holds two terminators, and then stops
with `invalid function IR`.  After a `break`, in `breakTwice`, the emitter
starts a new block `after.break` for what follows, and succeeds. -/
theorem return_adds_to_terminated_block :
    (analyze returnTwice).isOk = true ∧
    (emitUnverified returnTwice).map (fun s => s.blocks) = Except.ok
      [⟨0, "entry", [Instr.ret (Value.const LType.i64 0), Instr.ret (Value.const LType.i64 1)]⟩] ∧
    emit returnTwice = Except.error "invalid function IR" ∧
    (analyze breakTwice).isOk = true ∧
    (emit breakTwice).map (fun s => s.blocks) = Except.ok
      [⟨0, "entry", [Instr.br 1]⟩,
       ⟨1, "while.cond",
         [Instr.op 4 "icmp ne" LType.i1 [Value.const LType.i1 1, Value.const LType.i1 0],
          Instr.condBr (Value.reg 4 LType.i1) 2 3]⟩,
       ⟨2, "while.body", [Instr.br 3]⟩,
       ⟨3, "while.end", [Instr.ret (Value.const LType.i64 0)]⟩,
       ⟨5, "after.break", [Instr.br 3]⟩,
       ⟨6, "after.break", [Instr.br 1]⟩] :=
  ⟨returnTwice_accepted, by decide!, by decide!, breakTwice_accepted, by decide!⟩

/-- C22.  The checker accepts `fn f(x: i32) -> i32 { if (x) { return x; } }`
and `fn id(p: ptr<i64>) -> ptr<i64> { let q = p; return q; }`.  For the first
the emitter's implicit return is `ret void` in a function declared to return
`i32`; for the second the `ret` has a value of type `i64` in a function
declared to return `ptr`.  On both the emitter stops with
`invalid function IR`. -/
theorem ret_type_differs :
    (analyze i32Fall).isOk = true ∧
    (emitUnverified i32Fall).map
        (fun s => (s.instrsOf 6, s.funcs.map (fun f => (f.name, f.ret, f.layout)))) =
      Except.ok ([Instr.retVoid],
        [("printf", LType.i32, []), ("malloc", LType.ptr, []), ("free", LType.void, []),
         ("print_i64", LType.i64, []), ("read_i64", LType.i64, []),
         ("f", LType.i32, [0, 4, 5, 6])]) ∧
    emit i32Fall = Except.error "invalid function IR" ∧
    (analyze ptrLet).isOk = true ∧
    (emitUnverified ptrLet).map
        (fun s => (s.instrsOf 0, s.funcs.map (fun f => (f.name, f.ret, f.layout)))) =
      Except.ok
        ([Instr.alloca 1 LType.ptr "p",
          Instr.store (Value.arg "p" LType.ptr) (Value.reg 1 LType.ptr),
          Instr.alloca 2 LType.i64 "q",
          Instr.load 3 LType.ptr (Value.reg 1 LType.ptr),
          Instr.store (Value.reg 3 LType.ptr) (Value.reg 2 LType.ptr),
          Instr.load 4 LType.i64 (Value.reg 2 LType.ptr),
          Instr.ret (Value.reg 4 LType.i64)],
        [("printf", LType.i32, []), ("malloc", LType.ptr, []), ("free", LType.void, []),
         ("print_i64", LType.i64, []), ("read_i64", LType.i64, []),
         ("id", LType.ptr, [0])]) ∧
    emit ptrLet = Except.error "invalid function IR" :=
  ⟨i32Fall_accepted, by decide!, by decide!, ptrLet_accepted, by decide!, by decide!⟩

/-! ## Properties kept by the lowering of expressions -/

theorem goes_pure {α : Type} (P : CG → Prop) (a : α) : Goes P P (pure a : Gen α) := by
  intro s hs b s2 h
  cases h
  exact hs

theorem goes_fatal {α : Type} (P Q : CG → Prop) (msg : String) :
    Goes P Q (Gen.fatal msg : Gen α) := by
  intro s hs b s2 h
  cases h

theorem goes_bind {α β : Type} (P Q R : CG → Prop) (m : Gen α) (f : α → Gen β)
    (hm : Goes P Q m) (hf : ∀ a, Goes Q R (f a)) : Goes P R (m >>= f) := by
  intro s hs b s2 h
  obtain ⟨a, s1, h1, h2⟩ := (gen_bind_ok m f s (b, s2)).mp h
  exact hf a s1 (hm s hs a s1 h1) b s2 h2

theorem goes_get (P : CG → Prop) : Goes P P (get : Gen CG) := by
  intro s hs b s2 h
  cases h
  exact hs

theorem goes_hasTerminator (P : CG → Prop) : Goes P P hasTerminator := by
  intro s hs b s2 h
  simp only [hasTerminator] at h
  split at h <;>
  · simp only [Except.ok.injEq, Prod.mk.injEq] at h
    obtain ⟨_, rfl⟩ := h
    exact hs

theorem goes_constZero (P : CG → Prop) (ty : LType) : Goes P P (constZero ty) := by
  simp only [constZero]
  split
  · exact goes_pure P _
  · exact goes_fatal P P _

theorem goes_genType (P : CG → Prop) (t : Ty) : Goes P P (genType t) := by
  simp only [genType]
  split
  · exact goes_pure P _
  · exact goes_fatal P P _

theorem goes_emitVal {P : CG → Prop} (hP : Stable P) (mk : Nat → Instr) (ty : LType) :
    Goes P P (emitVal mk ty) := hP.1 mk ty

theorem goes_emitVoid {P : CG → Prop} (hP : Stable P) (i : Instr) : Goes P P (emitVoid i) :=
  hP.2.1 i

theorem goes_createBlock {P : CG → Prop} (hP : Stable P) (label : String) (att : Bool) :
    Goes P P (createBlock label att) := hP.2.2.1 label att

theorem goes_attachBlock {P : CG → Prop} (hP : Stable P) (bb : Nat) :
    Goes P P (attachBlock bb) := hP.2.2.2.1 bb

theorem goes_setInsertPoint {P : CG → Prop} (hP : Stable P) (bb : Nat) :
    Goes P P (setInsertPoint bb) := hP.2.2.2.2.1 bb

theorem goes_bindVar {P : CG → Prop} (hP : Stable P) (name : String) (alloca : Value)
    (ty : LType) : Goes P P (modify (fun s => s.bind name alloca ty) : Gen Unit) :=
  hP.2.2.2.2.2 name alloca ty

mutual

theorem genExpr_goes (P : CG → Prop) (hP : Stable P) : ∀ (e : Expr), Goes P P (genExpr e)
  | Expr.EInt _ => by
    simp only [genExpr]
    exact goes_pure P _
  | Expr.EBool _ => by
    simp only [genExpr]
    exact goes_pure P _
  | Expr.EVar name => by
    simp only [genExpr]
    with_reducible repeat' first
      | exact goes_pure P _
      | exact goes_fatal P P _
      | exact goes_get P
      | exact goes_emitVal hP _ _
      | apply goes_bind
      | intro _
      | split
  | Expr.EUnary op rhs => by
    simp only [genExpr]
    with_reducible repeat' first
      | exact goes_pure P _
      | exact goes_fatal P P _
      | exact goes_emitVal hP _ _
      | exact genExpr_goes P hP rhs
      | apply goes_bind
      | intro _
      | split
  | Expr.EBin (Expr.EIndex arr idx) op rhs => by
    unfold genExpr
    dsimp only
    with_reducible repeat' first
      | exact goes_pure P _
      | exact goes_fatal P P _
      | exact goes_get P
      | exact goes_emitVal hP _ _
      | exact goes_emitVoid hP _
      | exact genExpr_goes P hP idx
      | exact genExpr_goes P hP (Expr.EIndex arr idx)
      | exact genExpr_goes P hP rhs
      | apply goes_bind
      | intro _
      | split
  | Expr.EBin (Expr.EInt v) op rhs => by
    unfold genExpr
    dsimp only
    with_reducible repeat' first
      | exact goes_pure P _
      | exact goes_fatal P P _
      | exact goes_get P
      | exact goes_emitVal hP _ _
      | exact goes_emitVoid hP _
      | exact genExpr_goes P hP (Expr.EInt v)
      | exact genExpr_goes P hP rhs
      | apply goes_bind
      | intro _
      | split
  | Expr.EBin (Expr.EBool v) op rhs => by
    unfold genExpr
    dsimp only
    with_reducible repeat' first
      | exact goes_pure P _
      | exact goes_fatal P P _
      | exact goes_get P
      | exact goes_emitVal hP _ _
      | exact goes_emitVoid hP _
      | exact genExpr_goes P hP (Expr.EBool v)
      | exact genExpr_goes P hP rhs
      | apply goes_bind
      | intro _
      | split
  | Expr.EBin (Expr.EVar v) op rhs => by
    unfold genExpr
    dsimp only
    with_reducible repeat' first
      | exact goes_pure P _
      | exact goes_fatal P P _
      | exact goes_get P
      | exact goes_emitVal hP _ _
      | exact goes_emitVoid hP _
      | exact genExpr_goes P hP (Expr.EVar v)
      | exact genExpr_goes P hP rhs
      | apply goes_bind
      | intro _
      | split
  | Expr.EBin (Expr.EUnary o r) op rhs => by
    unfold genExpr
    dsimp only
    with_reducible repeat' first
      | exact goes_pure P _
      | exact goes_fatal P P _
      | exact goes_get P
      | exact goes_emitVal hP _ _
      | exact goes_emitVoid hP _
      | exact genExpr_goes P hP (Expr.EUnary o r)
      | exact genExpr_goes P hP rhs
      | apply goes_bind
      | intro _
      | split
  | Expr.EBin (Expr.EBin l o r) op rhs => by
    unfold genExpr
    dsimp only
    with_reducible repeat' first
      | exact goes_pure P _
      | exact goes_fatal P P _
      | exact goes_get P
      | exact goes_emitVal hP _ _
      | exact goes_emitVoid hP _
      | exact genExpr_goes P hP (Expr.EBin l o r)
      | exact genExpr_goes P hP rhs
      | apply goes_bind
      | intro _
      | split
  | Expr.EBin (Expr.ECall c as) op rhs => by
    unfold genExpr
    dsimp only
    with_reducible repeat' first
      | exact goes_pure P _
      | exact goes_fatal P P _
      | exact goes_get P
      | exact goes_emitVal hP _ _
      | exact goes_emitVoid hP _
      | exact genExpr_goes P hP (Expr.ECall c as)
      | exact genExpr_goes P hP rhs
      | apply goes_bind
      | intro _
      | split
  | Expr.EBin (Expr.EArrayLit es) op rhs => by
    unfold genExpr
    dsimp only
    with_reducible repeat' first
      | exact goes_pure P _
      | exact goes_fatal P P _
      | exact goes_get P
      | exact goes_emitVal hP _ _
      | exact goes_emitVoid hP _
      | exact genExpr_goes P hP (Expr.EArrayLit es)
      | exact genExpr_goes P hP rhs
      | apply goes_bind
      | intro _
      | split
  | Expr.ECall callee args => by
    simp only [genExpr]
    with_reducible repeat' first
      | exact goes_pure P _
      | exact goes_fatal P P _
      | exact goes_get P
      | exact goes_emitVal hP _ _
      | exact genArgs_goes P hP args
      | apply goes_bind
      | intro _
      | split
  | Expr.EArrayLit [] => by
    simp only [genExpr]
    exact goes_fatal P P _
  | Expr.EArrayLit (e0 :: rest) => by
    simp only [genExpr]
    with_reducible repeat' first
      | exact goes_pure P _
      | exact goes_emitVal hP _ _
      | exact genExpr_goes P hP e0
      | exact genElems_goes P hP _ _ _ (e0 :: rest)
      | apply goes_bind
      | intro _
  | Expr.EIndex arr idx => by
    unfold genExpr
    with_reducible repeat' first
      | exact goes_pure P _
      | exact goes_fatal P P _
      | exact goes_get P
      | exact goes_emitVal hP _ _
      | exact genExpr_goes P hP arr
      | exact genExpr_goes P hP idx
      | apply goes_bind
      | intro _
      | split

theorem genArgs_goes (P : CG → Prop) (hP : Stable P) :
    ∀ (args : List Expr), Goes P P (genArgs args)
  | [] => by
    simp only [genArgs]
    exact goes_pure P _
  | a :: rest => by
    simp only [genArgs]
    with_reducible repeat' first
      | exact goes_pure P _
      | exact genExpr_goes P hP a
      | exact genArgs_goes P hP rest
      | apply goes_bind
      | intro _

theorem genElems_goes (P : CG → Prop) (hP : Stable P) (arrayType : LType) (alloca : Value) :
    ∀ (i : Nat) (es : List Expr), Goes P P (genElems arrayType alloca i es)
  | _, [] => by
    simp only [genElems]
    exact goes_pure P _
  | i, e :: rest => by
    simp only [genElems]
    with_reducible repeat' first
      | exact goes_pure P _
      | exact goes_emitVal hP _ _
      | exact goes_emitVoid hP _
      | exact genExpr_goes P hP e
      | exact genElems_goes P hP arrayType alloca (i + 1) rest
      | apply goes_bind
      | intro _

end

/-! ## The loop stacks -/

theorem CG.attach_loops (s : CG) (bb : Nat) :
    (s.attach bb).loopExitStack = s.loopExitStack ∧
      (s.attach bb).loopContinueStack = s.loopContinueStack := by
  simp only [CG.attach]
  split <;> exact ⟨rfl, rfl⟩

theorem CG.attach_blocks (s : CG) (bb : Nat) : (s.attach bb).blocks = s.blocks := by
  simp only [CG.attach]
  split <;> rfl

theorem stable_of_fields (P : CG → Prop)
    (h1 : ∀ (s : CG) (i : Instr), P s → P (s.insert i))
    (h2 : ∀ (s : CG) (n : Nat), P s → P { s with next := n })
    (h3 : ∀ (s : CG) (b : Block), P s → P { s with blocks := s.blocks ++ [b] })
    (h4 : ∀ (s : CG) (bb : Nat), P s → P (s.attach bb))
    (h5 : ∀ (s : CG) (bb : Nat), P s → P { s with cur := bb })
    (h6 : ∀ (s : CG) (name : String) (a : Value) (ty : LType), P s → P (s.bind name a ty)) :
    Stable P := by
  refine ⟨?_, ?_, ?_, ?_, ?_, ?_⟩
  · intro mk ty s hs a s2 h
    simp only [emitVal, Except.ok.injEq, Prod.mk.injEq] at h
    obtain ⟨_, rfl⟩ := h
    exact h2 _ _ (h1 _ _ hs)
  · intro i s hs a s2 h
    simp only [emitVoid, Except.ok.injEq, Prod.mk.injEq] at h
    obtain ⟨_, rfl⟩ := h
    exact h1 _ _ hs
  · intro label att s hs a s2 h
    simp only [createBlock] at h
    split at h
    · simp only [Except.ok.injEq, Prod.mk.injEq] at h
      obtain ⟨_, rfl⟩ := h
      exact h4 _ _ (h2 _ _ (h3 _ _ hs))
    · simp only [Except.ok.injEq, Prod.mk.injEq] at h
      obtain ⟨_, rfl⟩ := h
      exact h2 _ _ (h3 _ _ hs)
  · intro bb s hs a s2 h
    simp only [attachBlock, Except.ok.injEq, Prod.mk.injEq] at h
    obtain ⟨_, rfl⟩ := h
    exact h4 _ _ hs
  · intro bb s hs a s2 h
    simp only [setInsertPoint, Except.ok.injEq, Prod.mk.injEq] at h
    obtain ⟨_, rfl⟩ := h
    exact h5 _ _ hs
  · intro name a ty s hs u s2 h
    simp only [gen_modify, Except.ok.injEq, Prod.mk.injEq] at h
    obtain ⟨_, rfl⟩ := h
    exact h6 _ _ _ _ hs

theorem loopsAre_stable (E C : List Nat) : Stable (CG.loopsAre E C) :=
  stable_of_fields _ (fun _ _ h => h) (fun _ _ h => h) (fun _ _ h => h)
    (fun s bb h => ⟨(s.attach_loops bb).1.trans h.1, (s.attach_loops bb).2.trans h.2⟩)
    (fun _ _ h => h) (fun _ _ _ _ h => h)

theorem hasBlock_stable (n : Nat) (label : String) : Stable (CG.hasBlock n label) := by
  refine stable_of_fields _ ?_ (fun _ _ h => h) ?_ ?_ (fun _ _ h => h) (fun _ _ _ _ h => h)
  · rintro s i ⟨b, hb, h1, h2⟩
    by_cases hc : b.id = s.cur
    · exact ⟨{ b with instrs := b.instrs ++ [i] },
        List.mem_map.mpr ⟨b, hb, by simp [hc]⟩, h1, h2⟩
    · exact ⟨b, List.mem_map.mpr ⟨b, hb, by simp [hc]⟩, h1, h2⟩
  · rintro s b2 ⟨b, hb, h1, h2⟩
    exact ⟨b, List.mem_append_left _ hb, h1, h2⟩
  · rintro s bb ⟨b, hb, h1, h2⟩
    exact ⟨b, by rw [CG.attach_blocks]; exact hb, h1, h2⟩

theorem stable_and (P Q : CG → Prop) (hP : Stable P) (hQ : Stable Q) :
    Stable (fun s => P s ∧ Q s) :=
  ⟨fun mk ty s hs a s2 h => ⟨hP.1 mk ty s hs.1 a s2 h, hQ.1 mk ty s hs.2 a s2 h⟩,
   fun i s hs a s2 h => ⟨hP.2.1 i s hs.1 a s2 h, hQ.2.1 i s hs.2 a s2 h⟩,
   fun l t s hs a s2 h => ⟨hP.2.2.1 l t s hs.1 a s2 h, hQ.2.2.1 l t s hs.2 a s2 h⟩,
   fun bb s hs a s2 h => ⟨hP.2.2.2.1 bb s hs.1 a s2 h, hQ.2.2.2.1 bb s hs.2 a s2 h⟩,
   fun bb s hs a s2 h => ⟨hP.2.2.2.2.1 bb s hs.1 a s2 h, hQ.2.2.2.2.1 bb s hs.2 a s2 h⟩,
   fun n v t s hs a s2 h =>
     ⟨hP.2.2.2.2.2 n v t s hs.1 a s2 h, hQ.2.2.2.2.2 n v t s hs.2 a s2 h⟩⟩

theorem goes_push (E C : List Nat) (endBB condBB : Nat) :
    Goes (CG.loopsAre E C) (CG.loopsAre (endBB :: E) (condBB :: C))
      (modify (fun s => s.pushLoop endBB condBB) : Gen Unit) := by
  intro s hs a s2 h
  simp only [gen_modify, Except.ok.injEq, Prod.mk.injEq] at h
  obtain ⟨_, rfl⟩ := h
  exact ⟨by simp [CG.pushLoop, hs.1], by simp [CG.pushLoop, hs.2]⟩

theorem goes_pop (E C : List Nat) (e c : Nat) :
    Goes (CG.loopsAre (e :: E) (c :: C)) (CG.loopsAre E C)
      (modify (fun s => s.popLoop) : Gen Unit) := by
  intro s hs a s2 h
  simp only [gen_modify, Except.ok.injEq, Prod.mk.injEq] at h
  obtain ⟨_, rfl⟩ := h
  exact ⟨by simp [CG.popLoop, hs.1], by simp [CG.popLoop, hs.2]⟩

theorem letType_goes (P : CG → Prop) (hP : Stable P) (annType : Option Ty) (init : Expr) :
    Goes P P (letType annType init) := by
  unfold letType
  with_reducible repeat' first
    | exact goes_pure P _
    | exact goes_genType P _
    | exact genExpr_goes P hP _
    | apply goes_bind
    | intro _
    | split

mutual

theorem genStmt_frame (P : List Nat → List Nat → CG → Prop) (hS : ∀ E C, Stable (P E C))
    (hpush : ∀ E C e c, Goes (P E C) (P (e :: E) (c :: C))
      (modify (fun s => s.pushLoop e c) : Gen Unit))
    (hpop : ∀ E C e c, Goes (P (e :: E) (c :: C)) (P E C)
      (modify (fun s => s.popLoop) : Gen Unit)) :
    ∀ (st : Stmt) (E C : List Nat), Goes (P E C) (P E C) (genStmt st)
  | Stmt.SLet name annType init u, E, C => by
    unfold genStmt
    with_reducible repeat' first
      | exact goes_pure _ _
      | exact letType_goes _ (hS E C) _ _
      | exact goes_emitVal (hS E C) _ _
      | exact goes_emitVoid (hS E C) _
      | exact goes_bindVar (hS E C) _ _ _
      | exact genExpr_goes _ (hS E C) _
      | exact genElems_goes _ (hS E C) _ _ _ _
      | apply goes_bind
      | intro _
      | split
  | Stmt.SExpr e, E, C => by
    unfold genStmt
    with_reducible repeat' first
      | exact goes_pure _ _
      | exact genExpr_goes _ (hS E C) _
      | apply goes_bind
      | intro _
  | Stmt.SReturn (some e), E, C => by
    unfold genStmt
    with_reducible repeat' first
      | exact goes_emitVoid (hS E C) _
      | exact genExpr_goes _ (hS E C) _
      | apply goes_bind
      | intro _
  | Stmt.SReturn none, E, C => by
    unfold genStmt
    exact goes_emitVoid (hS E C) _
  | Stmt.SIf cond thenStmts elseStmts, E, C => by
    unfold genStmt
    with_reducible repeat' first
      | exact goes_pure _ _
      | exact goes_emitVal (hS E C) _ _
      | exact goes_emitVoid (hS E C) _
      | exact goes_createBlock (hS E C) _ _
      | exact goes_attachBlock (hS E C) _
      | exact goes_setInsertPoint (hS E C) _
      | exact goes_hasTerminator _
      | exact goes_constZero _ _
      | exact genExpr_goes _ (hS E C) _
      | exact genStmts_frame P hS hpush hpop thenStmts E C
      | exact genStmts_frame P hS hpush hpop elseStmts E C
      | apply goes_bind
      | intro _
      | split
  | Stmt.SWhile cond body, E, C => by
    unfold genStmt
    with_reducible repeat' first
      | exact goes_pure _ _
      | exact hpush _ _ _ _
      | exact hpop _ _ _ _
      | exact goes_emitVal (hS _ _) _ _
      | exact goes_emitVoid (hS _ _) _
      | exact goes_createBlock (hS _ _) _ _
      | exact goes_attachBlock (hS _ _) _
      | exact goes_setInsertPoint (hS _ _) _
      | exact goes_hasTerminator _
      | exact goes_constZero _ _
      | exact genExpr_goes _ (hS _ _) _
      | exact genStmts_frame P hS hpush hpop body _ _
      | apply goes_bind
      | intro _
      | split
  | Stmt.SDefer _, E, C => by
    unfold genStmt
    exact goes_pure _ _
  | Stmt.SBreak, E, C => by
    unfold genStmt
    with_reducible repeat' first
      | exact goes_fatal _ _ _
      | exact goes_get _
      | exact goes_emitVoid (hS E C) _
      | exact goes_createBlock (hS E C) _ _
      | exact goes_setInsertPoint (hS E C) _
      | apply goes_bind
      | intro _
      | split
  | Stmt.SContinue, E, C => by
    unfold genStmt
    with_reducible repeat' first
      | exact goes_fatal _ _ _
      | exact goes_get _
      | exact goes_emitVoid (hS E C) _
      | exact goes_createBlock (hS E C) _ _
      | exact goes_setInsertPoint (hS E C) _
      | apply goes_bind
      | intro _
      | split

theorem genStmts_frame (P : List Nat → List Nat → CG → Prop) (hS : ∀ E C, Stable (P E C))
    (hpush : ∀ E C e c, Goes (P E C) (P (e :: E) (c :: C))
      (modify (fun s => s.pushLoop e c) : Gen Unit))
    (hpop : ∀ E C e c, Goes (P (e :: E) (c :: C)) (P E C)
      (modify (fun s => s.popLoop) : Gen Unit)) :
    ∀ (ss : List Stmt) (E C : List Nat), Goes (P E C) (P E C) (genStmts ss)
  | [], E, C => by
    unfold genStmts
    exact goes_pure _ _
  | st :: rest, E, C => by
    unfold genStmts
    with_reducible repeat' first
      | exact genStmt_frame P hS hpush hpop st E C
      | exact genStmts_frame P hS hpush hpop rest E C
      | apply goes_bind
      | intro _

end

theorem genStmt_loops (st : Stmt) (E C : List Nat) :
    Goes (CG.loopsAre E C) (CG.loopsAre E C) (genStmt st) :=
  genStmt_frame CG.loopsAre loopsAre_stable goes_push goes_pop st E C

theorem genStmts_loops (ss : List Stmt) (E C : List Nat) :
    Goes (CG.loopsAre E C) (CG.loopsAre E C) (genStmts ss) :=
  genStmts_frame CG.loopsAre loopsAre_stable goes_push goes_pop ss E C

/-! ## Where `break` and `continue` branch to -/

theorem createBlock_spec (label : String) (att : Bool) (s : CG) (a : Nat) (s1 : CG)
    (h : createBlock label att s = Except.ok (a, s1)) :
    a = s.next ∧ s1.next = s.next + 1 ∧ s1.hasBlock s.next label := by
  simp only [createBlock] at h
  split at h
  · simp only [Except.ok.injEq, Prod.mk.injEq] at h
    obtain ⟨rfl, rfl⟩ := h
    refine ⟨rfl, ?_, ⟨⟨s.next, label, []⟩, ?_, rfl, rfl⟩⟩
    · simp only [CG.attach]
      split <;> rfl
    · rw [CG.attach_blocks]
      simp
  · simp only [Except.ok.injEq, Prod.mk.injEq] at h
    obtain ⟨rfl, rfl⟩ := h
    exact ⟨rfl, rfl, ⟨⟨s.next, label, []⟩, by simp, rfl, rfl⟩⟩

theorem genStmt_while_eq (cond : Expr) (body : List Stmt) :
    genStmt (Stmt.SWhile cond body) = (do
      let ids ← whileHead cond
      genStmts body
      whileTail ids.1 ids.2.2) := by
  unfold genStmt
  simp only [whileHead, whileTail, bind_assoc, pure_bind]

theorem genStmt_if_eq (cond : Expr) (thenStmts elseStmts : List Stmt) :
    genStmt (Stmt.SIf cond thenStmts elseStmts) = (do
      let ids ← ifHead cond
      genStmts thenStmts
      ifMid ids.2.1 ids.2.2
      genStmts elseStmts
      ifTail ids.2.2) := by
  unfold genStmt
  simp only [ifHead, ifMid, ifTail, bind_assoc, pure_bind, gen_ite_bind]

theorem genStmts_nil : genStmts [] = pure () := by
  unfold genStmts
  rfl

theorem genStmts_cons (st : Stmt) (rest : List Stmt) :
    genStmts (st :: rest) = (do
      genStmt st
      genStmts rest) := by
  conv => lhs; unfold genStmts

theorem genStmts_append (pre : List Stmt) (st : Stmt) (post : List Stmt) :
    genStmts (pre ++ st :: post) = (do
      genStmts pre
      genStmt st
      genStmts post) := by
  induction pre with
  | nil => simp only [List.nil_append, genStmts_nil, genStmts_cons, pure_bind]
  | cons p pre ih => simp only [List.cons_append, genStmts_cons, bind_assoc, ih]

/-- The loop stacks hold `E` and `C`, and the blocks `c` and `e` are the
`while.cond` and `while.end` blocks of the module. -/
theorem framed_stable (c e : Nat) (E C : List Nat) :
    Stable (fun s => CG.loopsAre E C s ∧ CG.hasBlock c "while.cond" s ∧
      CG.hasBlock e "while.end" s) :=
  stable_and _ _ (loopsAre_stable E C)
    (stable_and _ _ (hasBlock_stable c "while.cond") (hasBlock_stable e "while.end"))

theorem framed_push (c e : Nat) (E C : List Nat) (e2 c2 : Nat) :
    Goes (fun s => CG.loopsAre E C s ∧ CG.hasBlock c "while.cond" s ∧
        CG.hasBlock e "while.end" s)
      (fun s => CG.loopsAre (e2 :: E) (c2 :: C) s ∧ CG.hasBlock c "while.cond" s ∧
        CG.hasBlock e "while.end" s)
      (modify (fun s => s.pushLoop e2 c2) : Gen Unit) := by
  intro s hs a s2 h
  refine ⟨goes_push E C e2 c2 s hs.1 a s2 h, ?_⟩
  simp only [gen_modify, Except.ok.injEq, Prod.mk.injEq] at h
  obtain ⟨_, rfl⟩ := h
  exact hs.2

theorem framed_pop (c e : Nat) (E C : List Nat) (e2 c2 : Nat) :
    Goes (fun s => CG.loopsAre (e2 :: E) (c2 :: C) s ∧ CG.hasBlock c "while.cond" s ∧
        CG.hasBlock e "while.end" s)
      (fun s => CG.loopsAre E C s ∧ CG.hasBlock c "while.cond" s ∧
        CG.hasBlock e "while.end" s)
      (modify (fun s => s.popLoop) : Gen Unit) := by
  intro s hs a s2 h
  refine ⟨goes_pop E C e2 c2 s hs.1 a s2 h, ?_⟩
  simp only [gen_modify, Except.ok.injEq, Prod.mk.injEq] at h
  obtain ⟨_, rfl⟩ := h
  exact hs.2

theorem genStmts_framed (c e : Nat) (ss : List Stmt) (E C : List Nat) :
    Goes (fun s => CG.loopsAre E C s ∧ CG.hasBlock c "while.cond" s ∧
        CG.hasBlock e "while.end" s)
      (fun s => CG.loopsAre E C s ∧ CG.hasBlock c "while.cond" s ∧
        CG.hasBlock e "while.end" s) (genStmts ss) :=
  genStmts_frame (fun E C s => CG.loopsAre E C s ∧ CG.hasBlock c "while.cond" s ∧
      CG.hasBlock e "while.end" s) (framed_stable c e) (framed_push c e) (framed_pop c e)
    ss E C

theorem ifHead_goes (P : CG → Prop) (hP : Stable P) (cond : Expr) :
    Goes P P (ifHead cond) := by
  unfold ifHead
  with_reducible repeat' first
    | exact goes_pure _ _
    | exact goes_emitVal hP _ _
    | exact goes_emitVoid hP _
    | exact goes_createBlock hP _ _
    | exact goes_setInsertPoint hP _
    | exact goes_constZero _ _
    | exact genExpr_goes _ hP _
    | apply goes_bind
    | intro _

theorem ifMid_goes (P : CG → Prop) (hP : Stable P) (elseBB mergeBB : Nat) :
    Goes P P (ifMid elseBB mergeBB) := by
  unfold ifMid
  with_reducible repeat' first
    | exact goes_pure _ _
    | exact goes_emitVoid hP _
    | exact goes_attachBlock hP _
    | exact goes_setInsertPoint hP _
    | exact goes_hasTerminator _
    | apply goes_bind
    | intro _
    | split

/-- The state in which the body of a `while` starts: the new `while.end` and
`while.cond` blocks are on top of the stacks the `while` started with. -/
theorem whileHead_spec (cond : Expr) (s : CG) (ids : Nat × Nat × Nat) (s1 : CG)
    (h : whileHead cond s = Except.ok (ids, s1)) :
    ids = (s.next, s.next + 1, s.next + 2) ∧
      s1.loopsAre ((s.next + 2) :: s.loopExitStack) (s.next :: s.loopContinueStack) ∧
      s1.hasBlock s.next "while.cond" ∧ s1.hasBlock (s.next + 2) "while.end" := by
  unfold whileHead at h
  simp only [gen_bind_ok] at h
  obtain ⟨condBB, sA, hA, bodyBB, sB, hB, endBB, sC, hC, u1, sD, hD, u2, sE, hE, u3, sF, hF,
    c0, sG, hG, zero, sH, hH, c, sI, hI, u4, sJ, hJ, u5, sK, hK, u6, sL, hL, hpure⟩ := h
  obtain ⟨rfl, nA, bA⟩ := createBlock_spec _ _ _ _ _ hA
  obtain ⟨rfl, nB, bB⟩ := createBlock_spec _ _ _ _ _ hB
  obtain ⟨rfl, nC, bC⟩ := createBlock_spec _ _ _ _ _ hC
  have hbody : sA.next = s.next + 1 := nA
  have hend : sB.next = s.next + 2 := by omega
  rw [hend] at bC hD hJ
  rw [hbody] at hJ hK hL
  simp only [gen_pure, Except.ok.injEq, Prod.mk.injEq] at hpure
  obtain ⟨hids, rfl⟩ := hpure
  rw [hend, hbody] at hids
  have l0 : s.loopsAre s.loopExitStack s.loopContinueStack := ⟨rfl, rfl⟩
  have lS := loopsAre_stable s.loopExitStack s.loopContinueStack
  have lC := goes_createBlock lS _ _ _
    (goes_createBlock lS _ _ _ (goes_createBlock lS _ _ _ l0 _ _ hA) _ _ hB) _ _ hC
  have cC := goes_createBlock (hasBlock_stable s.next "while.cond") _ _ _
    (goes_createBlock (hasBlock_stable s.next "while.cond") _ _ _ bA _ _ hB) _ _ hC
  have pD := framed_push s.next (s.next + 2) _ _ (s.next + 2) s.next sC ⟨lC, cC, bC⟩ _ _ hD
  have hP := framed_stable s.next (s.next + 2) ((s.next + 2) :: s.loopExitStack)
    (s.next :: s.loopContinueStack)
  have pE := goes_emitVoid hP _ _ pD _ _ hE
  have pF := goes_setInsertPoint hP _ _ pE _ _ hF
  have pG := genExpr_goes _ hP cond _ pF _ _ hG
  have pH := goes_constZero (fun t => CG.loopsAre ((s.next + 2) :: s.loopExitStack)
      (s.next :: s.loopContinueStack) t ∧ CG.hasBlock s.next "while.cond" t ∧
      CG.hasBlock (s.next + 2) "while.end" t) _ _ pG _ _ hH
  have pI := goes_emitVal hP _ _ _ pH _ _ hI
  have pJ := goes_emitVoid hP _ _ pI _ _ hJ
  have pK := goes_attachBlock hP _ _ pJ _ _ hK
  have pL := goes_setInsertPoint hP _ _ pK _ _ hL
  exact ⟨hids.symm, pL.1, pL.2.1, pL.2.2⟩

/-- A statement reached inside a `while` is lowered with the `while.end` and
`while.cond` blocks of the innermost `while` around it on top of the loop
stacks. -/
theorem lowered_inv (top : List Stmt) (s0 : CG) (st : Stmt) (s : CG)
    (encl : Option (Nat × Nat)) (h : Lowered top s0 st s encl) :
    ∀ c e, encl = some (c, e) →
      ∃ E C, s.loopsAre (e :: E) (c :: C) ∧ s.hasBlock c "while.cond" ∧
        s.hasBlock e "while.end" := by
  induction h with
  | top pre st post s _ _ =>
    intro c e hce
    cases hce
  | thenBlock cond thenStmts elseStmts s encl ids s1 pre st post s2 _ hhead _ hpre ih =>
    intro c e hce
    obtain ⟨E, C, hinv⟩ := ih c e hce
    exact ⟨E, C, genStmts_framed c e pre _ _ s1
      (ifHead_goes _ (framed_stable c e _ _) cond s hinv _ _ hhead) _ _ hpre⟩
  | elseBlock cond thenStmts elseStmts s encl ids s1 s2 s3 pre st post s4 _ hhead hthen hmid _
      hpre ih =>
    intro c e hce
    obtain ⟨E, C, hinv⟩ := ih c e hce
    exact ⟨E, C, genStmts_framed c e pre _ _ s3
      (ifMid_goes _ (framed_stable c e _ _) _ _ s2
        (genStmts_framed c e thenStmts _ _ s1
          (ifHead_goes _ (framed_stable c e _ _) cond s hinv _ _ hhead) _ _ hthen)
        _ _ hmid) _ _ hpre⟩
  | body cond stmts s encl ids s1 pre st post s2 _ hhead _ hpre _ =>
    intro c e hce
    obtain ⟨hids, hl, hc, he⟩ := whileHead_spec cond s ids s1 hhead
    simp only [Option.some.injEq, Prod.mk.injEq] at hce
    obtain ⟨rfl, rfl⟩ := hce
    rw [hids]
    exact ⟨_, _, genStmts_framed _ _ pre _ _ s1 ⟨hl, hc, he⟩ _ _ hpre⟩

/-- C24: a statement reached inside `while` loops is lowered in a state whose
loop stacks have the `while.end` and `while.cond` blocks of the innermost
enclosing `while` on top; there a `break` appends an unconditional branch to
that `while.end` and a `continue` one to that `while.cond`; lowering a `while`
from any state leaves both loop stacks exactly as they were.  The equations
say that `genStmt` runs the blocks of `if`, `while` and a statement list at
the states the reachability relation names.  In `nestedLoops` the inner
`break` branches to the inner `while.end` (7) and the `continue` after the
inner loop to the outer `while.cond` (1). -/
theorem loop_branch_targets (top : List Stmt) (s0 : CG) (st : Stmt) (s : CG) (c e : Nat)
    (h : Lowered top s0 st s (some (c, e))) :
    s.hasBlock c "while.cond" ∧ s.hasBlock e "while.end" ∧
    (st = Stmt.SBreak → genStmt st s = (do
        emitVoid (Instr.br e)
        let after ← createBlock "after.break" true
        setInsertPoint after : Gen Unit) s) ∧
    (st = Stmt.SContinue → genStmt st s = (do
        emitVoid (Instr.br c)
        let after ← createBlock "after.continue" true
        setInsertPoint after : Gen Unit) s) ∧
    (∀ (cond : Expr) (body : List Stmt) (sW sW2 : CG),
      genStmt (Stmt.SWhile cond body) sW = Except.ok ((), sW2) →
      sW2.loopExitStack = sW.loopExitStack ∧
        sW2.loopContinueStack = sW.loopContinueStack) ∧
    (∀ (cond : Expr) (body : List Stmt), genStmt (Stmt.SWhile cond body) = (do
        let ids ← whileHead cond
        genStmts body
        whileTail ids.1 ids.2.2)) ∧
    (∀ (cond : Expr) (thenStmts elseStmts : List Stmt),
      genStmt (Stmt.SIf cond thenStmts elseStmts) = (do
        let ids ← ifHead cond
        genStmts thenStmts
        ifMid ids.2.1 ids.2.2
        genStmts elseStmts
        ifTail ids.2.2)) ∧
    (∀ (pre : List Stmt) (st2 : Stmt) (post : List Stmt),
      genStmts (pre ++ st2 :: post) = (do
        genStmts pre
        genStmt st2
        genStmts post)) ∧
    (∀ (cond : Expr) (sW : CG) (ids : Nat × Nat × Nat) (s1 : CG),
      whileHead cond sW = Except.ok (ids, s1) →
      ids = (sW.next, sW.next + 1, sW.next + 2) ∧
        s1.loopsAre ((sW.next + 2) :: sW.loopExitStack) (sW.next :: sW.loopContinueStack) ∧
        s1.hasBlock sW.next "while.cond" ∧ s1.hasBlock (sW.next + 2) "while.end") ∧
    (emit nestedLoops).map (fun r => r.blocks.map (fun b => (b.id, b.label, b.branches))) =
      Except.ok [(0, "entry", [Instr.br 1]), (1, "while.cond", []),
        (2, "while.body", [Instr.br 5]), (3, "while.end", []), (5, "while.cond", []),
        (6, "while.body", [Instr.br 7]), (7, "while.end", [Instr.br 1]),
        (9, "after.break", [Instr.br 5]), (10, "after.continue", [Instr.br 1])] := by
  obtain ⟨E, C, hl, hc, he⟩ := lowered_inv top s0 st s _ h c e rfl
  refine ⟨hc, he, ?_, ?_, ?_, genStmt_while_eq, genStmt_if_eq, genStmts_append,
    whileHead_spec, by decide!⟩
  · rintro rfl
    unfold genStmt
    simp only [gen_bind, gen_get, hl.1]
  · rintro rfl
    unfold genStmt
    simp only [gen_bind, gen_get, hl.2]
  · intro cond body sW sW2 hW
    exact genStmt_loops _ _ _ sW ⟨rfl, rfl⟩ _ _ hW

/-- C24 (witness): the `break` of the inner loop of `nestedLoops` is reached
with the blocks 5 and 7 of the inner loop as the innermost loop targets, and
lowering it appends `br 7`. -/
theorem loop_branch_targets_witness :
    Lowered nestedLoopsBody nestedLoopsStart Stmt.SBreak nestedLoopsInner (some (5, 7)) ∧
    genStmt Stmt.SBreak nestedLoopsInner = (do
        emitVoid (Instr.br 7)
        let after ← createBlock "after.break" true
        setInsertPoint after : Gen Unit) nestedLoopsInner :=
  have h : Lowered nestedLoopsBody nestedLoopsStart Stmt.SBreak nestedLoopsInner
      (some (5, 7)) :=
    Lowered.body (Expr.EBool true) [Stmt.SBreak] nestedLoopsOuter (some (1, 3)) (5, 6, 7)
      nestedLoopsInner [] Stmt.SBreak [] nestedLoopsInner
      (Lowered.body (Expr.EBool true)
        [Stmt.SWhile (Expr.EBool true) [Stmt.SBreak], Stmt.SContinue] nestedLoopsStart none
        (1, 2, 3) nestedLoopsOuter [] (Stmt.SWhile (Expr.EBool true) [Stmt.SBreak])
        [Stmt.SContinue] nestedLoopsOuter
        (Lowered.top [] _ [Stmt.SReturn (some (Expr.EInt 0))] nestedLoopsStart rfl rfl)
        (by decide!) rfl rfl)
      (by decide!) rfl rfl
  ⟨h, (loop_branch_targets nestedLoopsBody nestedLoopsStart Stmt.SBreak nestedLoopsInner 5 7
    h).2.2.1 rfl⟩

/-! ## Lexer: words, numbers and two-character operators -/

theorem isAlpha_range (c : Char) (h : c.isAlpha = true) : 65 ≤ c.toNat ∧ c.toNat ≤ 122 := by
  simp only [Char.isAlpha, Char.isUpper, Char.isLower, Bool.or_eq_true, Bool.and_eq_true,
    decide_eq_true_eq, ge_iff_le, UInt32.le_def, Fin.le_def] at h
  simp only [Char.toNat]
  rcases h with h | h
  · have h1 := h.1
    have h2 := h.2
    change 65 ≤ c.val.toNat at h1
    change c.val.toNat ≤ 90 at h2
    omega
  · have h1 := h.1
    have h2 := h.2
    change 97 ≤ c.val.toNat at h1
    change c.val.toNat ≤ 122 at h2
    omega

theorem isDigit_range (c : Char) (h : c.isDigit = true) : 48 ≤ c.toNat ∧ c.toNat ≤ 57 := by
  simp only [Char.isDigit, Bool.and_eq_true, decide_eq_true_eq, ge_iff_le, UInt32.le_def,
    Fin.le_def] at h
  simp only [Char.toNat]
  have h1 := h.1
  have h2 := h.2
  change 48 ≤ c.val.toNat at h1
  change c.val.toNat ≤ 57 at h2
  omega

theorem isIdentStart_eq (c : Char) : isIdentStart c = (c.isAlpha || c = '_') := by
  simp only [isIdentStart, Char.isAlpha, Char.isUpper, Char.isLower, Char.le_def]
  rfl

theorem isIdentChar_eq (c : Char) : isIdentChar c = (c.isAlphanum || c = '_') := by
  simp only [isIdentChar, Char.isAlphanum, Char.isAlpha, Char.isUpper, Char.isLower,
    Char.isDigit, Char.le_def]
  rfl

theorem isDecDigit_eq (c : Char) : isDecDigit c = c.isDigit := by
  simp only [isDecDigit, Char.isDigit, Char.le_def]
  rfl

theorem isspace_false_of (c : Char) (h : 33 ≤ c.toNat) : isspace c = false := by
  have hne : c ≠ ' ' := by
    intro hc
    rw [hc] at h
    exact absurd h (by decide)
  simp only [isspace, hne, decide_False, Bool.false_or, Bool.and_eq_false_imp,
    decide_eq_true_eq, decide_eq_false_iff_not]
  omega

theorem ne_of_toNat_ne (c d : Char) (h : c.toNat ≠ d.toNat) : c ≠ d := by
  intro hc
  exact h (by rw [hc])

/-- `skipWS` reads nothing at a character that is neither white space nor the
start of a comment. -/
theorem skipWS_noop (s : LexState) (h1 : isspace s.peek = false)
    (h2 : s.peek = '/' → s.nextIs '/' = false ∧ s.nextIs '*' = false) : skipWS s = s := by
  unfold skipWS
  rw [skipWSLoop]
  simp only [h1, Bool.false_eq_true, if_false]
  by_cases hc : s.peek = '/'
  · simp [hc, (h2 hc).1, (h2 hc).2]
  · simp [hc]

theorem LexState.get_cons (ch : Char) (rest : List Char) (l c : Nat) (h2 : ch ≠ '\x00')
    (h3 : ch ≠ '\n') :
    LexState.get { rest := ch :: rest, line := l, col := c } =
      (ch, { rest := rest, line := l, col := c + 1 }) := by
  simp [LexState.get, LexState.peek, h2, h3]

theorem LexState.getWhileAux_cons (cond : LexState → Bool) (ch : Char) (rest : List Char)
    (l c : Nat) (hc : cond { rest := ch :: rest, line := l, col := c } = true)
    (h2 : ch ≠ '\x00') (h3 : ch ≠ '\n') :
    LexState.getWhileAux cond (ch :: rest) l c =
      (ch :: (LexState.getWhileAux cond rest l (c + 1)).1,
        (LexState.getWhileAux cond rest l (c + 1)).2) := by
  have hb : (cond { rest := ch :: rest, line := l, col := c } && ch != '\x00') = true := by
    simp [hc, h2]
  rw [LexState.getWhileAux]
  simp only [hb, if_true, LexState.get_cons ch rest l c h2 h3]

theorem LexState.getWhileAux_stop (cond : LexState → Bool) (ch : Char) (rest : List Char)
    (l c : Nat) (hc : (cond { rest := ch :: rest, line := l, col := c } && ch != '\x00') = false) :
    LexState.getWhileAux cond (ch :: rest) l c =
      ([], { rest := ch :: rest, line := l, col := c }) := by
  rw [LexState.getWhileAux]
  simp only [hc, Bool.false_eq_true, if_false]

/-- The loop `while (p(peek())) get();` reads a run of characters that all
have `p` and are neither `'\0'` nor a newline, when what follows does not have
`p`: the column advances by the length of the run. -/
theorem getWhileAux_span (p : Char → Bool) (post : List Char)
    (hpost : ∀ d ∈ post.head?, (p d && d != '\x00') = false) :
    ∀ (cs : List Char) (l c : Nat),
      (∀ d ∈ cs, p d = true ∧ d ≠ '\x00' ∧ d ≠ '\n') →
      LexState.getWhileAux (fun t => p t.peek) (cs ++ post) l c =
        (cs, { rest := post, line := l, col := c + cs.length })
  | [], l, c, _ => by
    cases post with
    | nil => simp [LexState.getWhileAux]
    | cons d post =>
      rw [List.nil_append, LexState.getWhileAux_stop _ _ _ _ _ (hpost d (by simp))]
      rfl
  | ch :: cs, l, c, h => by
    obtain ⟨h1, h2, h3⟩ := h ch (List.mem_cons_self _ _)
    have ih := getWhileAux_span p post hpost cs l (c + 1)
      (fun d hd => h d (List.mem_cons_of_mem _ hd))
    rw [List.cons_append, LexState.getWhileAux_cons _ _ _ _ _ h1 h2 h3, ih]
    simp only [List.length_cons, Prod.mk.injEq, LexState.mk.injEq, true_and]
    omega

theorem lexLoop_end (fuel : Nat) (l c : Nat) :
    lexLoop (fuel + 1) { rest := [], line := l, col := c } =
      some (Except.ok [{ kind := TokKind.Eof, lexeme := "", intValue := 0,
                         line := l, col := c }]) := by
  have hs : skipWS { rest := [], line := l, col := c } = { rest := [], line := l, col := c } :=
    skipWS_noop _ rfl (fun h => absurd h (by simp [LexState.peek]))
  rw [lexLoop]
  simp only [hs, LexState.peek, if_true]

theorem getD_lookup_cons {β : Type} (s k : String) (v d : β) (rest : List (String × β)) :
    (List.lookup s ((k, v) :: rest)).getD d = if s = k then v else (List.lookup s rest).getD d := by
  by_cases h : s = k
  · simp [List.lookup, h]
  · have hb : (s == k) = false := by simpa using h
    simp [List.lookup, h, hb]

theorem keywordKind_table (s : String) :
    keywordKind s = (reservedWords.lookup s).getD TokKind.Ident := by
  unfold keywordKind
  simp only [reservedWords, getD_lookup_cons, List.lookup_nil, Option.getD_none]

theorem isIdentChar_range (d : Char) (h : isIdentChar d = true) :
    48 ≤ d.toNat ∧ d.toNat ≤ 122 := by
  rw [isIdentChar_eq, Char.isAlphanum] at h
  simp only [Bool.or_eq_true, decide_eq_true_eq] at h
  rcases h with (h | h) | h
  · have := isAlpha_range d h
    omega
  · have := isDigit_range d h
    omega
  · rw [h]
    decide

theorem isIdentStart_range (d : Char) (h : isIdentStart d = true) :
    65 ≤ d.toNat ∧ d.toNat ≤ 122 := by
  rw [isIdentStart_eq] at h
  simp only [Bool.or_eq_true, decide_eq_true_eq] at h
  rcases h with h | h
  · exact isAlpha_range d h
  · rw [h]
    decide

theorem isIdentChar_of_start (d : Char) (h : isIdentStart d = true) : isIdentChar d = true := by
  rw [isIdentStart_eq] at h
  rw [isIdentChar_eq, Char.isAlphanum]
  simp only [Bool.or_eq_true, decide_eq_true_eq] at h ⊢
  rcases h with h | h
  · exact Or.inl (Or.inl h)
  · exact Or.inr h

/-- What the lexer does at a character that is neither white space, nor `/`,
nor `'\0'`: `skipWS` reads nothing. -/
theorem skipWS_at (ch : Char) (rest : List Char) (l c : Nat) (h : 33 ≤ ch.toNat)
    (hs : ch ≠ '/') :
    skipWS { rest := ch :: rest, line := l, col := c } =
      { rest := ch :: rest, line := l, col := c } :=
  skipWS_noop _ (isspace_false_of ch h) (fun hc => absurd hc hs)

/-- C26: for every word `w` of the form `[A-Za-z_][A-Za-z0-9_]*` the lexer
yields exactly two tokens: one with lexeme `w` whose kind is the keyword kind
when `w` is one of the seventeen reserved words and `Ident` otherwise, and
`Eof`.  `let1` and `iffy` are identifiers. -/
theorem lex_word (c : Char) (cs : List Char) (h1 : isIdentStart c = true)
    (h2 : ∀ d ∈ cs, isIdentChar d = true) :
    lex (c :: cs) = some (Except.ok
      [{ kind := (reservedWords.lookup (String.mk (c :: cs))).getD TokKind.Ident,
         lexeme := String.mk (c :: cs), intValue := 0, line := 1, col := 1 },
       { kind := TokKind.Eof, lexeme := "", intValue := 0, line := 1,
         col := cs.length + 2 }]) ∧
    (lexString "let1").kinds = some (Except.ok [TokKind.Ident, TokKind.Eof]) ∧
    (lexString "iffy").kinds = some (Except.ok [TokKind.Ident, TokKind.Eof]) ∧
    (lexString "let").kinds = some (Except.ok [TokKind.KwLet, TokKind.Eof]) ∧
    (lexString "if").kinds = some (Except.ok [TokKind.KwIf, TokKind.Eof]) := by
  refine ⟨?_, by decide, by decide, by decide, by decide⟩
  have hr := isIdentStart_range c h1
  have hc0 : c ≠ '\x00' := ne_of_toNat_ne _ _ (by simp only [Char.reduceToNat]; omega)
  have hcs : c ≠ '/' := ne_of_toNat_ne _ _ (by simp only [Char.reduceToNat]; omega)
  have hstart : (c.isAlpha || decide (c = '_')) = true := by rw [← isIdentStart_eq]; exact h1
  have hall : ∀ d ∈ c :: cs, (d.isAlphanum || decide (d = '_')) = true ∧ d ≠ '\x00' ∧
      d ≠ '\n' := by
    intro d hd
    have hd2 : isIdentChar d = true := by
      rcases List.mem_cons.mp hd with rfl | hd
      · exact isIdentChar_of_start _ h1
      · exact h2 d hd
    have hrd := isIdentChar_range d hd2
    refine ⟨by rw [← isIdentChar_eq]; exact hd2, ?_, ?_⟩
    · exact ne_of_toNat_ne _ _ (by simp only [Char.reduceToNat]; omega)
    · exact ne_of_toNat_ne _ _ (by simp only [Char.reduceToNat]; omega)
  have hspan := getWhileAux_span (fun d => d.isAlphanum || decide (d = '_')) []
    (by simp) (c :: cs) 1 1 hall
  rw [List.append_nil] at hspan
  have hid : identOrKw { rest := c :: cs, line := 1, col := 1 } =
      ({ kind := keywordKind (String.mk (c :: cs)), lexeme := String.mk (c :: cs),
         intValue := 0, line := 1, col := 1 },
       { rest := [], line := 1, col := 1 + (c :: cs).length }) := by
    simp only [identOrKw, LexState.getWhile, hspan]
  have hpeek : ({ rest := c :: cs, line := 1, col := 1 } : LexState).peek = c := rfl
  unfold lex lexFrom
  simp only [List.length_cons]
  rw [lexLoop]
  simp only [skipWS_at c cs 1 1 (by omega) hcs, hpeek, hc0, if_false, hstart, if_true, hid,
    lexLoop_end, pushTok, keywordKind_table]
  simp only [List.length_cons, Option.some.injEq, Except.ok.injEq, List.cons.injEq,
    Token.mk.injEq, true_and, and_true]
  omega

theorem decimalValue_append (ds : List Char) (d : Char) :
    decimalValue (ds ++ [d]) = decimalValue ds * 10 + (d.toNat - 48) := by
  simp [decimalValue, List.foldl_append]

/-- The value that `std::stoll` computes is the base-ten value of the digits. -/
theorem decimalValue_eq (ds : List Char) : decimalValue ds = decimalOf ds := by
  induction ds using List.reverseRecOn with
  | nil => simp [decimalValue, decimalOf]
  | append_singleton ds d ih =>
    rw [decimalValue_append, ih]
    simp only [decimalOf, List.reverse_append, List.reverse_cons, List.reverse_nil,
      List.nil_append, List.singleton_append, List.map_cons, Nat.ofDigits_cons]
    omega

/-- C27: for every non-empty string `d` of decimal digits whose value is at
most 2^63 - 1 the lexer yields exactly two tokens: an `IntLit` with lexeme `d`
whose `intValue` is the base-ten value of `d`, and `Eof`.  Leading zeros do not
change the value and do not select another base. -/
theorem lex_number (c : Char) (cs : List Char) (h : ∀ d ∈ c :: cs, isDecDigit d = true)
    (hv : decimalOf (c :: cs) ≤ 2 ^ 63 - 1) :
    lex (c :: cs) = some (Except.ok
      [{ kind := TokKind.IntLit, lexeme := String.mk (c :: cs),
         intValue := Int.ofNat (decimalOf (c :: cs)), line := 1, col := 1 },
       { kind := TokKind.Eof, lexeme := "", intValue := 0, line := 1,
         col := cs.length + 2 }]) ∧
    (lexString "007").values = some (Except.ok [7, 0]) ∧
    (lexString "010").values = some (Except.ok [10, 0]) ∧
    (lexString "9223372036854775807").values = some (Except.ok [9223372036854775807, 0]) := by
  refine ⟨?_, by decide, by decide, by decide⟩
  have hc := h c (List.mem_cons_self _ _)
  rw [isDecDigit_eq] at hc
  have hr := isDigit_range c hc
  have hc0 : c ≠ '\x00' := ne_of_toNat_ne _ _ (by simp only [Char.reduceToNat]; omega)
  have hcs : c ≠ '/' := ne_of_toNat_ne _ _ (by simp only [Char.reduceToNat]; omega)
  have hnot : (c.isAlpha || decide (c = '_')) = false := by
    simp only [Bool.or_eq_false_iff, decide_eq_false_iff_not]
    constructor
    · cases ha : c.isAlpha with
      | false => rfl
      | true =>
        have := isAlpha_range c ha
        omega
    · exact ne_of_toNat_ne _ _ (by simp only [Char.reduceToNat]; omega)
  have hall : ∀ d ∈ c :: cs, d.isDigit = true ∧ d ≠ '\x00' ∧ d ≠ '\n' := by
    intro d hd
    have hd2 := h d hd
    rw [isDecDigit_eq] at hd2
    have hrd := isDigit_range d hd2
    refine ⟨hd2, ?_, ?_⟩
    · exact ne_of_toNat_ne _ _ (by simp only [Char.reduceToNat]; omega)
    · exact ne_of_toNat_ne _ _ (by simp only [Char.reduceToNat]; omega)
  have hspan := getWhileAux_span (fun d => d.isDigit) [] (by simp) (c :: cs) 1 1 hall
  rw [List.append_nil] at hspan
  have hst : stoll (c :: cs) = Except.ok (Int.ofNat (decimalOf (c :: cs))) := by
    have hv2 : decimalValue (c :: cs) ≤ 9223372036854775807 := by
      rw [decimalValue_eq]
      exact hv
    rw [stoll, if_pos hv2, decimalValue_eq]
  have hnum : number { rest := c :: cs, line := 1, col := 1 } =
      Except.ok (⟨TokKind.IntLit, String.mk (c :: cs), Int.ofNat (decimalOf (c :: cs)), 1, 1⟩,
        ⟨[], 1, 1 + (c :: cs).length⟩) := by
    simp only [number, LexState.getWhile, hspan, hst]
  have hpeek : ({ rest := c :: cs, line := 1, col := 1 } : LexState).peek = c := rfl
  unfold lex lexFrom
  simp only [List.length_cons]
  rw [lexLoop]
  simp only [skipWS_at c cs 1 1 (by omega) hcs, hpeek, hc0, if_false, hnot, hc, if_true, hnum,
    lexLoop_end, pushTok, Bool.false_eq_true]
  simp only [List.length_cons, Option.some.injEq, Except.ok.injEq, List.cons.injEq,
    Token.mk.injEq, true_and, and_true]
  omega

/-- C26 (witness): the word `x1`. -/
theorem lex_word_witness :
    lex ['x', '1'] = some (Except.ok
      [{ kind := (reservedWords.lookup (String.mk ['x', '1'])).getD TokKind.Ident,
         lexeme := String.mk ['x', '1'], intValue := 0, line := 1, col := 1 },
       { kind := TokKind.Eof, lexeme := "", intValue := 0, line := 1, col := 3 }]) :=
  (lex_word 'x' ['1'] (by decide) (by decide)).1

/-- C27 (witness): the digits `042`. -/
theorem lex_number_witness :
    lex ['0', '4', '2'] = some (Except.ok
      [{ kind := TokKind.IntLit, lexeme := String.mk ['0', '4', '2'],
         intValue := Int.ofNat (decimalOf ['0', '4', '2']), line := 1, col := 1 },
       { kind := TokKind.Eof, lexeme := "", intValue := 0, line := 1, col := 4 }]) :=
  (lex_number '0' ['4', '2'] (by decide) (by decide)).1

/-- The iteration bound of the model does not matter once it exceeds the
length of the unread input. -/
theorem lexLoop_fuel : ∀ (fuel fuel2 : Nat) (s : LexState), s.rest.length < fuel →
    s.rest.length < fuel2 → lexLoop fuel s = lexLoop fuel2 s
  | 0, _, s, h, _ => absurd h (Nat.not_lt_zero _)
  | _ + 1, 0, s, _, h => absurd h (Nat.not_lt_zero _)
  | fuel + 1, fuel2 + 1, s, h, h2 => by
    have hle := skipWS_length_le s
    rw [lexLoop, lexLoop]
    by_cases h0 : (skipWS s).peek = '\x00'
    · simp only [h0, if_true]
    · have h3 : (skipWS s).get.2.rest.length < s.rest.length :=
        Nat.lt_of_lt_of_le ((skipWS s).get_length_lt h0) hle
      have h4 : (skipWS s).get.2.get.2.rest.length < s.rest.length :=
        Nat.lt_of_le_of_lt (skipWS s).get.2.get_length_le h3
      simp only [h0, if_false]
      split
      · rename_i hid
        have hlt : (identOrKw (skipWS s)).2.rest.length < s.rest.length := by
          refine Nat.lt_of_lt_of_le ((skipWS s).getWhile_length_lt _ ?_ h0) hle
          simp only [Bool.or_eq_true, decide_eq_true_eq] at hid ⊢
          rcases hid with hid | hid
          · left
            simp [Char.isAlphanum, hid]
          · exact Or.inr hid
        rw [lexLoop_fuel fuel fuel2 _ (by omega) (by omega)]
      · split
        · rename_i hdig
          split
          · rfl
          · rename_i r hr
            have hlt : r.2.rest.length < s.rest.length := by
              unfold number at hr
              simp only at hr
              split at hr
              · simp at hr
              · simp only [Except.ok.injEq] at hr
                subst hr
                exact Nat.lt_of_lt_of_le ((skipWS s).getWhile_length_lt _ hdig h0) hle
            rw [lexLoop_fuel fuel fuel2 _ (by omega) (by omega)]
        · split
          · rw [lexLoop_fuel fuel fuel2 _ (by omega) (by omega)]
          · rw [lexLoop_fuel fuel fuel2 _ (by omega) (by omega)]

theorem lexLoop_eq_lexFrom (fuel : Nat) (s : LexState) (h : s.rest.length < fuel) :
    lexLoop fuel s = lexFrom s :=
  lexLoop_fuel fuel _ s h (Nat.lt_succ_self _)

/-- One iteration of `lexFrom` at a punctuation character that `skipWS` does
not read. -/
theorem lexFrom_punct (s : LexState) (hskip : skipWS s = s) (h0 : s.peek ≠ '\x00')
    (hid : (s.peek.isAlpha || decide (s.peek = '_')) = false) (hdig : s.peek.isDigit = false) :
    lexFrom s =
      pushTok { kind := (punct s).1, lexeme := "", intValue := 0, line := s.line, col := s.col }
        (lexFrom (if (punct s).2 then s.get.2.get.2 else s.get.2)) := by
  have h3 : s.get.2.rest.length < s.rest.length := s.get_length_lt h0
  have h4 : s.get.2.get.2.rest.length < s.rest.length :=
    Nat.lt_of_le_of_lt s.get.2.get_length_le h3
  unfold lexFrom
  rw [lexLoop]
  simp only [hskip, h0, if_false, hid, hdig, Bool.false_eq_true]
  congr 1
  split
  · exact lexLoop_fuel _ _ _ h4 (Nat.lt_succ_self _)
  · exact lexLoop_fuel _ _ _ h3 (Nat.lt_succ_self _)

/-- One iteration of `lexFrom` at two characters that `punct` reads as one
token. -/
theorem lexFrom_two (c1 c2 : Char) (k : TokKind) (post : List Char) (l c : Nat)
    (hsp : isspace c1 = false) (hcm : c1 = '/' → c2 ≠ '/' ∧ c2 ≠ '*')
    (h0 : c1 ≠ '\x00') (hnl : c1 ≠ '\n') (hid : (c1.isAlpha || decide (c1 = '_')) = false)
    (hdig : c1.isDigit = false) (h2 : c2 ≠ '\x00') (hnl2 : c2 ≠ '\n')
    (hp : punct { rest := c1 :: c2 :: post, line := l, col := c } = (k, true)) :
    lexFrom { rest := c1 :: c2 :: post, line := l, col := c } =
      pushTok { kind := k, lexeme := "", intValue := 0, line := l, col := c }
        (lexFrom { rest := post, line := l, col := c + 2 }) := by
  have hskip : skipWS { rest := c1 :: c2 :: post, line := l, col := c } =
      { rest := c1 :: c2 :: post, line := l, col := c } := by
    refine skipWS_noop _ hsp ?_
    intro hc
    have := hcm hc
    simp [LexState.nextIs, this.1, this.2]
  rw [lexFrom_punct _ hskip h0 hid hdig, hp]
  simp only [if_true, LexState.get_cons c1 (c2 :: post) l c h0 hnl,
    LexState.get_cons c2 post l (c + 1) h2 hnl2]

/-- C28: when the two characters of one of the twelve two-character
operators stand at a token start, the lexer pushes the single token of that
operator, reads both characters and goes on with what follows them: the
one-character prefix is never a token of its own there. -/
theorem lex_two_char_operator (c1 c2 : Char) (k : TokKind) (post : List Char) (l c : Nat)
    (h : (c1, c2, k) ∈ twoCharOps) :
    lexFrom { rest := c1 :: c2 :: post, line := l, col := c } =
      pushTok { kind := k, lexeme := "", intValue := 0, line := l, col := c }
        (lexFrom { rest := post, line := l, col := c + 2 }) ∧
    (∀ ts, lexFrom { rest := c1 :: c2 :: post, line := l, col := c } = some (Except.ok ts) →
      ∃ rest, ts = { kind := k, lexeme := "", intValue := 0, line := l, col := c } :: rest ∧
        lexFrom { rest := post, line := l, col := c + 2 } = some (Except.ok rest)) ∧
    (lexString "a<=b").kinds =
      some (Except.ok [TokKind.Ident, TokKind.Le, TokKind.Ident, TokKind.Eof]) ∧
    (lexString "x-=-1").kinds =
      some (Except.ok [TokKind.Ident, TokKind.MinusEq, TokKind.Minus, TokKind.IntLit,
        TokKind.Eof]) := by
  have key : lexFrom { rest := c1 :: c2 :: post, line := l, col := c } =
      pushTok { kind := k, lexeme := "", intValue := 0, line := l, col := c }
        (lexFrom { rest := post, line := l, col := c + 2 }) := by
    simp only [twoCharOps, List.mem_cons, Prod.mk.injEq, List.mem_nil_iff, or_false] at h
    rcases h with h | h | h | h | h | h | h | h | h | h | h | h <;>
    · obtain ⟨rfl, rfl, rfl⟩ := h
      exact lexFrom_two _ _ _ post l c (by decide) (by decide) (by decide) (by decide)
        (by decide) (by decide) (by decide) (by decide) rfl
  refine ⟨key, ?_, by decide, by decide⟩
  intro ts hts
  rw [key] at hts
  cases hr : lexFrom { rest := post, line := l, col := c + 2 } with
  | none => simp [hr, pushTok] at hts
  | some r =>
    cases r with
    | error m => simp [hr, pushTok] at hts
    | ok rest =>
      simp only [hr, pushTok, Option.some.injEq, Except.ok.injEq] at hts
      exact ⟨rest, hts.symm, rfl⟩

/-! ## Lexer: comments -/

theorem skipWSLoop_succ (fuel : Nat) (s : LexState) :
    skipWSLoop (fuel + 1) s =
      match wsStep s with
      | some s1 => skipWSLoop fuel s1
      | none => s := by
  rw [skipWSLoop]
  unfold wsStep
  dsimp only
  split
  · rfl
  · split
    · rfl
    · split <;> rfl

theorem wsStep_length_lt (s s1 : LexState) (h : wsStep s = some s1) :
    s1.rest.length < s.rest.length := by
  unfold wsStep at h
  dsimp only at h
  split at h
  · rename_i hsp
    have h0 : s.peek ≠ '\x00' := by
      intro hc
      rw [hc] at hsp
      exact absurd hsp (by decide)
    simp only [Option.some.injEq] at h
    subst h
    exact s.get_length_lt h0
  · split at h
    · rename_i hc
      simp only [Bool.and_eq_true, decide_eq_true_eq] at hc
      have h0 : s.peek ≠ '\x00' := by rw [hc.1]; decide
      simp only [Option.some.injEq] at h
      subst h
      exact s.getWhile_length_lt (fun t => t.peek != '\x00' && t.peek != '\n')
        (by simp [hc.1]) h0
    · split at h
      · rename_i hc
        simp only [Bool.and_eq_true, decide_eq_true_eq] at hc
        have h0 : s.peek ≠ '\x00' := by rw [hc.1]; decide
        simp only [Option.some.injEq] at h
        subst h
        have h1 := s.get_length_lt h0
        have h2 := s.get.2.get_length_le
        have h3 := s.get.2.get.2.getWhile_length_le
          (fun t => t.peek != '\x00' && !(t.peek = '*' && t.nextIs '/'))
        split
        · have h4 := (s.get.2.get.2.getWhile
            (fun t => t.peek != '\x00' && !(t.peek = '*' && t.nextIs '/'))).2.get_length_le
          have h5 := (s.get.2.get.2.getWhile
            (fun t => t.peek != '\x00' && !(t.peek = '*' && t.nextIs '/'))).2.get.2.get_length_le
          omega
        · omega
      · simp at h

theorem skipWSLoop_fuel : ∀ (fuel fuel2 : Nat) (s : LexState), s.rest.length < fuel →
    s.rest.length < fuel2 → skipWSLoop fuel s = skipWSLoop fuel2 s
  | 0, _, s, h, _ => absurd h (Nat.not_lt_zero _)
  | _ + 1, 0, s, _, h => absurd h (Nat.not_lt_zero _)
  | fuel + 1, fuel2 + 1, s, h, h2 => by
    rw [skipWSLoop_succ, skipWSLoop_succ]
    cases hw : wsStep s with
    | none => rfl
    | some s1 =>
      have := wsStep_length_lt s s1 hw
      exact skipWSLoop_fuel fuel fuel2 s1 (by omega) (by omega)

theorem skipWS_wsStep (s s1 : LexState) (h : wsStep s = some s1) : skipWS s = skipWS s1 := by
  have hlt := wsStep_length_lt s s1 h
  unfold skipWS
  rw [skipWSLoop_succ, h]
  exact skipWSLoop_fuel _ _ s1 (by omega) (by omega)

theorem skipWS_of_wsStep_none (s : LexState) (h : wsStep s = none) : skipWS s = s := by
  unfold skipWS
  rw [skipWSLoop_succ, h]

/-- The lexer run depends on the state only through what `skipWS` makes of
it. -/
theorem lexFrom_congr (s s1 : LexState) (h : skipWS s = skipWS s1) : lexFrom s = lexFrom s1 := by
  have e1 : lexFrom s = lexLoop (s.rest.length + s1.rest.length + 1) s :=
    lexLoop_fuel _ _ s (Nat.lt_succ_self _) (by omega)
  have e2 : lexFrom s1 = lexLoop (s.rest.length + s1.rest.length + 1) s1 :=
    lexLoop_fuel _ _ s1 (Nat.lt_succ_self _) (by omega)
  rw [e1, e2, lexLoop, lexLoop, h]

theorem lexFrom_wsStep (s s1 : LexState) (h : wsStep s = some s1) : lexFrom s = lexFrom s1 :=
  lexFrom_congr s s1 (by
    rw [skipWS_wsStep s s1 h])

theorem tokStep_length_lt (s : LexState) (t : Token) (s1 : LexState)
    (h : tokStep s = some (t, s1)) : s1.rest.length < s.rest.length := by
  unfold tokStep at h
  dsimp only at h
  split at h
  · simp at h
  · rename_i h0
    split at h
    · rename_i hid
      simp only [Option.some.injEq] at h
      have hs : s1 = (identOrKw s).2 := by rw [h]
      rw [hs]
      refine s.getWhile_length_lt _ ?_ h0
      simp only [Bool.or_eq_true, decide_eq_true_eq] at hid ⊢
      rcases hid with hid | hid
      · left
        simp [Char.isAlphanum, hid]
      · exact Or.inr hid
    · split at h
      · rename_i hdig
        split at h
        · simp at h
        · rename_i r hr
          simp only [Option.some.injEq] at h
          subst h
          unfold number at hr
          simp only at hr
          split at hr
          · simp at hr
          · simp only [Except.ok.injEq, Prod.mk.injEq] at hr
            rw [← hr.2]
            exact s.getWhile_length_lt _ hdig h0
      · simp only [Option.some.injEq, Prod.mk.injEq] at h
        rw [← h.2]
        have h3 : s.get.2.rest.length < s.rest.length := s.get_length_lt h0
        have h4 : s.get.2.get.2.rest.length < s.rest.length :=
          Nat.lt_of_le_of_lt s.get.2.get_length_le h3
        split
        · exact h4
        · exact h3

/-- One iteration of the lexer loop at a token. -/
theorem lexFrom_tokStep (s : LexState) (t : Token) (s1 : LexState) (hw : wsStep s = none)
    (h : tokStep s = some (t, s1)) : lexFrom s = pushTok t (lexFrom s1) := by
  have hlt := tokStep_length_lt s t s1 h
  have hf : lexLoop s.rest.length s1 = lexFrom s1 :=
    lexLoop_fuel _ _ s1 hlt (Nat.lt_succ_self _)
  unfold tokStep at h
  dsimp only at h
  unfold lexFrom
  rw [lexLoop, skipWS_of_wsStep_none s hw]
  split at h
  · simp at h
  · rename_i h0
    simp only [h0, if_false]
    split at h
    · rename_i hid
      simp only [Option.some.injEq] at h
      simp only [hid, if_true, h, hf]
      rfl
    · rename_i hid
      simp only [hid, if_false]
      split at h
      · rename_i hdig
        simp only [hdig, if_true]
        split at h
        · simp at h
        · rename_i r hr
          simp only [Option.some.injEq] at h
          subst h
          simp only [hr, hf]
          rfl
      · rename_i hdig
        simp only [Option.some.injEq, Prod.mk.injEq] at h
        simp only [hdig, if_false, h.1, h.2, hf]
        rfl

/-! ### The tokens do not depend on the position -/

theorem LexState.peek_congr (s t : LexState) (h : s.rest = t.rest) : s.peek = t.peek := by
  simp only [LexState.peek, h]

theorem LexState.nextIs_congr (s t : LexState) (h : s.rest = t.rest) (a : Char) :
    s.nextIs a = t.nextIs a := by
  simp only [LexState.nextIs, h]

theorem LexState.get_congr (s t : LexState) (h : s.rest = t.rest) :
    s.get.2.rest = t.get.2.rest := by
  simp only [LexState.get, LexState.peek_congr s t h]
  split
  · exact h
  · split <;> simp only [h]

theorem LexState.getWhileAux_congr (cond : LexState → Bool)
    (hcond : ∀ s t : LexState, s.rest = t.rest → cond s = cond t) :
    ∀ (r : List Char) (l c l2 c2 : Nat),
      (LexState.getWhileAux cond r l c).1 = (LexState.getWhileAux cond r l2 c2).1 ∧
        (LexState.getWhileAux cond r l c).2.rest = (LexState.getWhileAux cond r l2 c2).2.rest
  | [], l, c, l2, c2 => by simp [LexState.getWhileAux]
  | ch :: r, l, c, l2, c2 => by
    have hc : cond { rest := ch :: r, line := l, col := c } =
        cond { rest := ch :: r, line := l2, col := c2 } := hcond _ _ rfl
    rw [LexState.getWhileAux, LexState.getWhileAux, hc]
    dsimp only
    split
    · have ih := LexState.getWhileAux_congr cond hcond r
        (LexState.get { rest := ch :: r, line := l, col := c }).2.line
        (LexState.get { rest := ch :: r, line := l, col := c }).2.col
        (LexState.get { rest := ch :: r, line := l2, col := c2 }).2.line
        (LexState.get { rest := ch :: r, line := l2, col := c2 }).2.col
      exact ⟨by rw [ih.1], ih.2⟩
    · exact ⟨rfl, rfl⟩

theorem LexState.getWhile_congr (cond : LexState → Bool)
    (hcond : ∀ s t : LexState, s.rest = t.rest → cond s = cond t) (s t : LexState)
    (h : s.rest = t.rest) :
    (s.getWhile cond).1 = (t.getWhile cond).1 ∧
      (s.getWhile cond).2.rest = (t.getWhile cond).2.rest := by
  unfold LexState.getWhile
  rw [h]
  exact LexState.getWhileAux_congr cond hcond t.rest s.line s.col t.line t.col

theorem wsStep_congr (s t : LexState) (h : s.rest = t.rest) :
    (wsStep s).map (fun x => x.rest) = (wsStep t).map (fun x => x.rest) := by
  have hn := LexState.nextIs_congr s t h
  have hg := LexState.get_congr s t h
  unfold wsStep
  simp only [LexState.peek_congr s t h, hn]
  split
  · simp only [Option.map_some', hg]
  · split
    · simp only [Option.map_some', Option.some.injEq]
      exact (LexState.getWhile_congr _ (fun a b hab => by
        simp only [LexState.peek_congr a b hab]) s t h).2
    · split
      · have h2 := LexState.get_congr _ _ hg
        have h3 := (LexState.getWhile_congr
          (fun t => t.peek != '\x00' && !(decide (t.peek = '*') && t.nextIs '/'))
          (fun a b hab => by
            simp only [LexState.peek_congr a b hab, LexState.nextIs_congr a b hab])
          _ _ h2).2
        simp only [Option.map_some', Option.some.injEq, LexState.peek_congr _ _ h3]
        split
        · exact LexState.get_congr _ _ (LexState.get_congr _ _ h3)
        · exact h3
      · rfl

theorem skipWSLoop_congr : ∀ (fuel : Nat) (s t : LexState), s.rest = t.rest →
    (skipWSLoop fuel s).rest = (skipWSLoop fuel t).rest
  | 0, s, t, h => by simpa [skipWSLoop] using h
  | fuel + 1, s, t, h => by
    have hw := wsStep_congr s t h
    rw [skipWSLoop_succ, skipWSLoop_succ]
    cases h1 : wsStep s with
    | none =>
      cases h2 : wsStep t with
      | none => exact h
      | some t1 => simp [h1, h2] at hw
    | some s1 =>
      cases h2 : wsStep t with
      | none => simp [h1, h2] at hw
      | some t1 =>
        simp only [h1, h2, Option.map_some', Option.some.injEq] at hw
        exact skipWSLoop_congr fuel s1 t1 hw

theorem skipWS_congr (s t : LexState) (h : s.rest = t.rest) :
    (skipWS s).rest = (skipWS t).rest := by
  unfold skipWS
  rw [h]
  exact skipWSLoop_congr _ s t h

theorem contents_pushTok (t t2 : Token) (r r2 : LexResult) (ht : t.content = t2.content)
    (hr : r.contents = r2.contents) : (pushTok t r).contents = (pushTok t2 r2).contents := by
  cases r with
  | none =>
    cases r2 with
    | none => rfl
    | some e2 => simp [LexResult.contents] at hr
  | some e =>
    cases r2 with
    | none => simp [LexResult.contents] at hr
    | some e2 =>
      cases e with
      | error m =>
        cases e2 with
        | error m2 => simpa [LexResult.contents, pushTok, Except.map] using hr
        | ok ts2 => simp [LexResult.contents, Except.map] at hr
      | ok ts =>
        cases e2 with
        | error m2 => simp [LexResult.contents, Except.map] at hr
        | ok ts2 =>
          simp only [LexResult.contents, Option.map_some', Except.map, Option.some.injEq,
            Except.ok.injEq] at hr
          simp only [LexResult.contents, pushTok, Option.map_some', Except.map, List.map_cons,
            ht, hr]

theorem punct_congr (s t : LexState) (h : s.rest = t.rest) : punct s = punct t := by
  have hn := LexState.nextIs_congr s t h
  unfold punct
  simp only [LexState.peek_congr s t h, hn]

/-- The kinds, lexemes and integer values of the tokens depend on the unread
input only, not on the line and column at which the lexer stands. -/
theorem lexLoop_congr : ∀ (fuel : Nat) (s t : LexState), s.rest = t.rest →
    (lexLoop fuel s).contents = (lexLoop fuel t).contents
  | 0, s, t, h => rfl
  | fuel + 1, s, t, h => by
    have hs := skipWS_congr s t h
    have hp := LexState.peek_congr _ _ hs
    have hg := LexState.get_congr _ _ hs
    rw [lexLoop, lexLoop]
    simp only [hp]
    split
    · rfl
    · split
      · have hw := LexState.getWhile_congr (fun t => t.peek.isAlphanum || decide (t.peek = '_'))
          (fun a b hab => by simp only [LexState.peek_congr a b hab]) _ _ hs
        refine contents_pushTok _ _ _ _ ?_ (lexLoop_congr fuel _ _ ?_)
        · simp only [identOrKw, Token.content, hw.1]
        · simp only [identOrKw, hw.2]
      · split
        · have hw := LexState.getWhile_congr (fun t => t.peek.isDigit)
            (fun a b hab => by simp only [LexState.peek_congr a b hab]) _ _ hs
          unfold number
          simp only [hw.1]
          cases stoll ((skipWS t).getWhile fun t => t.peek.isDigit).1 with
          | error m => rfl
          | ok v =>
            refine contents_pushTok _ _ _ _ ?_ (lexLoop_congr fuel _ _ ?_)
            · simp only [Token.content, hw.1]
            · exact hw.2
        · refine contents_pushTok _ _ _ _ ?_ (lexLoop_congr fuel _ _ ?_)
          · simp only [Token.content, punct_congr _ _ hs]
          · rw [punct_congr _ _ hs]
            split
            · exact LexState.get_congr _ _ hg
            · exact hg

theorem lexFrom_congr_rest (s t : LexState) (h : s.rest = t.rest) :
    (lexFrom s).contents = (lexFrom t).contents := by
  unfold lexFrom
  rw [h]
  exact lexLoop_congr _ s t h

/-! ### What `skipWS` reads at a comment -/

theorem LexState.getWhileAux_cons2 (cond : LexState → Bool) (ch : Char) (rest : List Char)
    (l c : Nat) (hc : (cond { rest := ch :: rest, line := l, col := c } && ch != '\x00') = true) :
    LexState.getWhileAux cond (ch :: rest) l c =
      (ch :: (LexState.getWhileAux cond rest
          (LexState.get { rest := ch :: rest, line := l, col := c }).2.line
          (LexState.get { rest := ch :: rest, line := l, col := c }).2.col).1,
        (LexState.getWhileAux cond rest
          (LexState.get { rest := ch :: rest, line := l, col := c }).2.line
          (LexState.get { rest := ch :: rest, line := l, col := c }).2.col).2) := by
  rw [LexState.getWhileAux]
  simp only [hc, if_true]

theorem hasClose_cons (ch : Char) (rest : List Char) (h : hasClose (ch :: rest) = false) :
    (ch = '*' → rest.head? ≠ some '/') ∧ hasClose rest = false := by
  simp only [hasClose, Bool.or_eq_false_iff, Bool.and_eq_false_imp, decide_eq_true_eq,
    decide_eq_false_iff_not] at h
  exact h

/-- The loop that looks for the end of a block comment stops at the first
`*/` when no `'\0'` stands before it. -/
theorem blockScan (post : List Char) : ∀ (body : List Char) (l c : Nat),
    (∀ d ∈ body, d ≠ '\x00') → hasClose (body ++ ['*']) = false →
    (LexState.getWhileAux (fun t => t.peek != '\x00' && !(t.peek = '*' && t.nextIs '/'))
      (body ++ '*' :: '/' :: post) l c).2.rest = '*' :: '/' :: post
  | [], l, c, _, _ => by
    rw [List.nil_append, LexState.getWhileAux_stop _ _ _ _ _ (by
      simp [LexState.peek, LexState.nextIs])]
  | ch :: body, l, c, hn, hcl => by
    have hch := hn ch (List.mem_cons_self _ _)
    have h2 := hasClose_cons ch (body ++ ['*']) hcl
    have hnx : (ch = '*' ∧ LexState.nextIs
        { rest := ch :: (body ++ '*' :: '/' :: post), line := l, col := c } '/' = true) →
        False := by
      rintro ⟨hs, hx⟩
      have h3 := h2.1 hs
      cases body with
      | nil => simp [LexState.nextIs] at hx
      | cons d body2 =>
        simp only [List.cons_append, LexState.nextIs, decide_eq_true_eq] at hx
        simp [hx] at h3
    have hc : ((fun t : LexState => t.peek != '\x00' && !(t.peek = '*' && t.nextIs '/'))
        { rest := ch :: (body ++ '*' :: '/' :: post), line := l, col := c } &&
        ch != '\x00') = true := by
      have hpk : ({ rest := ch :: (body ++ '*' :: '/' :: post), line := l, col := c } :
          LexState).peek = ch := rfl
      have hb0 : (ch != '\x00') = true := by simp [hch]
      simp only [hpk, hb0, Bool.true_and, Bool.and_true, Bool.not_eq_true',
        Bool.and_eq_false_imp, decide_eq_true_eq]
      intro hs
      cases hx : LexState.nextIs
        { rest := ch :: (body ++ '*' :: '/' :: post), line := l, col := c } '/' with
      | false => rfl
      | true => exact absurd ⟨hs, hx⟩ hnx
    rw [List.cons_append, LexState.getWhileAux_cons2 _ _ _ _ _ hc]
    exact blockScan post body _ _ (fun d hd => hn d (List.mem_cons_of_mem _ hd)) h2.2

/-- At a comment that holds no `'\0'` one iteration of the loop of `skipWS`
reads exactly the comment. -/
theorem wsStep_comment (comment post : List Char) (l c : Nat) (hc : IsComment comment post)
    (hn : ∀ d ∈ comment, d ≠ '\x00') :
    ∃ s1, wsStep { rest := comment ++ post, line := l, col := c } = some s1 ∧
      s1.rest = post := by
  rcases hc with ⟨body, rfl, hbody, hpost⟩ | ⟨body, rfl, hclose⟩
  · have hall : ∀ d ∈ '/' :: '/' :: body,
        (fun d : Char => d != '\x00' && d != '\n') d = true ∧ d ≠ '\x00' ∧ d ≠ '\n' := by
      intro d hd
      have h0 := hn d hd
      have h1 : d ≠ '\n' := by
        rcases List.mem_cons.mp hd with rfl | hd
        · decide
        · rcases List.mem_cons.mp hd with rfl | hd
          · decide
          · exact hbody d hd
      exact ⟨by simp [h0, h1], h0, h1⟩
    have hp : ∀ d ∈ post.head?, ((fun d : Char => d != '\x00' && d != '\n') d &&
        d != '\x00') = false := by
      intro d hd
      rcases hpost with rfl | ⟨p, rfl⟩
      · simp at hd
      · simp only [List.head?_cons, Option.mem_def, Option.some.injEq] at hd
        subst hd
        decide
    have hspan := getWhileAux_span (fun d => d != '\x00' && d != '\n') post hp
      ('/' :: '/' :: body) l c hall
    exact ⟨(LexState.getWhile { rest := '/' :: '/' :: body ++ post, line := l, col := c }
      (fun t => t.peek != '\x00' && t.peek != '\n')).2, rfl,
      congrArg (fun r => r.2.rest) hspan⟩
  · have hb : ∀ d ∈ body, d ≠ '\x00' := by
      intro d hd
      exact hn d (by simp [hd])
    have hscan := fun l c => blockScan post body l c hb hclose
    have h2 := blockScan post body l (c + 1 + 1) hb hclose
    have hw : wsStep { rest := '/' :: '*' :: (body ++ ['*', '/']) ++ post, line := l, col := c } =
        some (if ((LexState.getWhile { rest := body ++ '*' :: '/' :: post, line := l, col := c + 1 + 1 }
            (fun t => t.peek != '\x00' && !(t.peek = '*' && t.nextIs '/'))).2.peek != '\x00') = true
          then (LexState.getWhile { rest := body ++ '*' :: '/' :: post, line := l, col := c + 1 + 1 }
            (fun t => t.peek != '\x00' && !(t.peek = '*' && t.nextIs '/'))).2.get.2.get.2
          else (LexState.getWhile { rest := body ++ '*' :: '/' :: post, line := l, col := c + 1 + 1 }
            (fun t => t.peek != '\x00' && !(t.peek = '*' && t.nextIs '/'))).2) := by
      have hr : '/' :: '*' :: (body ++ ['*', '/']) ++ post =
          '/' :: '*' :: (body ++ '*' :: '/' :: post) := by simp
      rw [hr]
      rfl
    refine ⟨_, hw, ?_⟩
    unfold LexState.getWhile
    dsimp only
    generalize (LexState.getWhileAux
      (fun t => t.peek != '\x00' && !(decide (t.peek = '*') && t.nextIs '/'))
      (body ++ '*' :: '/' :: post) l (c + 1 + 1)).2 = s2 at h2 ⊢
    obtain ⟨r2, l2, c2⟩ := s2
    simp only at h2
    subst h2
    simp [LexState.peek, LexState.get]

theorem wsStep_space (post : List Char) (l c : Nat) :
    wsStep { rest := ' ' :: post, line := l, col := c } =
      some { rest := post, line := l, col := c + 1 } := by
  unfold wsStep
  simp [LexState.peek, isspace, LexState.get]

/-- At the head of the lexer loop a comment that holds no `'\0'` and a single
space in its place give the same kinds, lexemes and integer values. -/
theorem lexFrom_comment (comment post : List Char) (l c l2 c2 : Nat)
    (hc : IsComment comment post) (hn : ∀ d ∈ comment, d ≠ '\x00') :
    (lexFrom { rest := comment ++ post, line := l, col := c }).contents =
      (lexFrom { rest := ' ' :: post, line := l2, col := c2 }).contents := by
  obtain ⟨s1, h1, hr⟩ := wsStep_comment comment post l c hc hn
  rw [lexFrom_wsStep _ _ h1, lexFrom_wsStep _ _ (wsStep_space post l2 c2)]
  exact lexFrom_congr_rest _ _ hr

/-! ### The lexer reads the text before a comment as it reads it before a space -/

theorem LexState.get_suffix (s : LexState) : s.get.2.rest <:+ s.rest := by
  unfold LexState.get
  dsimp only
  split
  · exact List.suffix_refl _
  · split <;> exact List.tail_suffix _

theorem LexState.getWhileAux_suffix (cond : LexState → Bool) :
    ∀ (r : List Char) (l c : Nat), (LexState.getWhileAux cond r l c).2.rest <:+ r
  | [], l, c => by simp [LexState.getWhileAux]
  | ch :: r, l, c => by
    rw [LexState.getWhileAux]
    dsimp only
    split
    · exact (LexState.getWhileAux_suffix cond r _ _).trans (List.suffix_cons _ _)
    · exact List.suffix_refl _

theorem LexState.getWhile_suffix (s : LexState) (cond : LexState → Bool) :
    (s.getWhile cond).2.rest <:+ s.rest :=
  LexState.getWhileAux_suffix cond s.rest s.line s.col

theorem wsStep_suffix (s s1 : LexState) (h : wsStep s = some s1) : s1.rest <:+ s.rest := by
  unfold wsStep at h
  dsimp only at h
  split at h
  · simp only [Option.some.injEq] at h
    subst h
    exact s.get_suffix
  · split at h
    · simp only [Option.some.injEq] at h
      subst h
      exact s.getWhile_suffix _
    · split at h
      · simp only [Option.some.injEq] at h
        subst h
        have h1 := s.get_suffix
        have h2 := s.get.2.get_suffix
        have h3 := s.get.2.get.2.getWhile_suffix
          (fun t => t.peek != '\x00' && !(t.peek = '*' && t.nextIs '/'))
        split
        · exact (((LexState.get_suffix _).trans (LexState.get_suffix _)).trans h3).trans
            (h2.trans h1)
        · exact h3.trans (h2.trans h1)
      · simp at h

theorem tokStep_suffix (s : LexState) (t : Token) (s1 : LexState)
    (h : tokStep s = some (t, s1)) : s1.rest <:+ s.rest := by
  unfold tokStep at h
  dsimp only at h
  split at h
  · simp at h
  · split at h
    · simp only [Option.some.injEq] at h
      have hs : s1 = (identOrKw s).2 := by rw [h]
      rw [hs]
      exact s.getWhile_suffix _
    · split at h
      · split at h
        · simp at h
        · rename_i r hr
          simp only [Option.some.injEq] at h
          subst h
          unfold number at hr
          simp only at hr
          split at hr
          · simp at hr
          · simp only [Except.ok.injEq, Prod.mk.injEq] at hr
            rw [← hr.2]
            exact s.getWhile_suffix _
      · simp only [Option.some.injEq, Prod.mk.injEq] at h
        rw [← h.2]
        split
        · exact (LexState.get_suffix _).trans s.get_suffix
        · exact s.get_suffix

theorem headStep_suffix (s s1 : LexState) (h : headStep s = some s1) : s1.rest <:+ s.rest := by
  unfold headStep at h
  cases hw : wsStep s with
  | some s2 =>
    simp only [hw, Option.some.injEq] at h
    subst h
    exact wsStep_suffix s s2 hw
  | none =>
    simp only [hw] at h
    cases ht : tokStep s with
    | none => simp [ht] at h
    | some r =>
      simp only [ht, Option.map_some', Option.some.injEq] at h
      subst h
      exact tokStep_suffix s r.1 r.2 ht

theorem reachesHead_suffix : ∀ (n : Nat) (s : LexState) (r : List Char),
    reachesHead n s r = true → r <:+ s.rest
  | 0, s, r, h => by
    simp only [reachesHead, decide_eq_true_eq] at h
    rw [h]
  | n + 1, s, r, h => by
    simp only [reachesHead, Bool.or_eq_true, decide_eq_true_eq] at h
    rcases h with h | h
    · rw [h]
    · cases hs : headStep s with
      | none => simp [hs] at h
      | some s1 =>
        simp only [hs] at h
        exact (reachesHead_suffix n s1 r h).trans (headStep_suffix s s1 hs)

theorem suffix_split (X a tail : List Char) (h1 : X <:+ a ++ tail) (h2 : tail <:+ X) :
    ∃ a1, X = a1 ++ tail ∧ a1 <:+ a := by
  obtain ⟨a1, rfl⟩ := h2
  obtain ⟨p, hp⟩ := h1
  refine ⟨a1, rfl, p, ?_⟩
  rw [← List.append_assoc] at hp
  exact List.append_cancel_right hp

/-- `Lexer::get` at a text that is followed by more text. -/
theorem LexState.get_append (x tail : List Char) (l c : Nat) (hx : x ≠ []) :
    LexState.get { rest := x ++ tail, line := l, col := c } =
      ((LexState.get { rest := x, line := l, col := c }).1,
        { rest := (LexState.get { rest := x, line := l, col := c }).2.rest ++ tail,
          line := (LexState.get { rest := x, line := l, col := c }).2.line,
          col := (LexState.get { rest := x, line := l, col := c }).2.col }) := by
  cases x with
  | nil => exact absurd rfl hx
  | cons ch x =>
    simp only [LexState.get, LexState.peek, List.cons_append, List.tail_cons]
    split
    · rfl
    · split <;> rfl

/-- A loop `while (cond) get();` that stops before the comment, with `a1` still
unread before it, does the same when a space stands in place of the comment,
if the loop condition does not tell the two texts apart up to there. -/
theorem getWhileAux_mirror (cond : LexState → Bool) (t1 t2 a1 : List Char)
    (hagree : ∀ (x : List Char) (l c : Nat), a1 <:+ x →
      cond { rest := x ++ '/' :: t1, line := l, col := c } =
        cond { rest := x ++ ' ' :: t2, line := l, col := c }) :
    ∀ (a : List Char) (l c : Nat) (cs : List Char) (s1 : LexState), a1 <:+ a →
      LexState.getWhileAux cond (a ++ '/' :: t1) l c = (cs, s1) →
      s1.rest = a1 ++ '/' :: t1 →
      LexState.getWhileAux cond (a ++ ' ' :: t2) l c =
        (cs, { rest := a1 ++ ' ' :: t2, line := s1.line, col := s1.col })
  | [], l, c, cs, s1, hsuf, h, hr => by
    have ha1 : a1 = [] := List.eq_nil_of_suffix_nil hsuf
    subst ha1
    have hag := hagree [] l c (List.suffix_refl _)
    simp only [List.nil_append] at h hr hag ⊢
    cases hb : (cond { rest := '/' :: t1, line := l, col := c } && '/' != '\x00') with
    | true =>
      rw [LexState.getWhileAux_cons2 _ _ _ _ _ hb] at h
      have hle := LexState.getWhileAux_length_le cond t1
        (LexState.get { rest := '/' :: t1, line := l, col := c }).2.line
        (LexState.get { rest := '/' :: t1, line := l, col := c }).2.col
      simp only [Prod.mk.injEq] at h
      rw [h.2, hr] at hle
      simp at hle
    | false =>
      rw [LexState.getWhileAux_stop _ _ _ _ _ hb] at h
      simp only [Prod.mk.injEq] at h
      obtain ⟨rfl, rfl⟩ := h
      have hb2 : (cond { rest := ' ' :: t2, line := l, col := c } && ' ' != '\x00') = false := by
        rw [← hag]
        simpa using hb
      rw [LexState.getWhileAux_stop _ _ _ _ _ hb2]
  | ch :: a, l, c, cs, s1, hsuf, h, hr => by
    have hag := hagree (ch :: a) l c hsuf
    simp only [List.cons_append] at h hag ⊢
    have hget := LexState.get_append (ch :: a) ('/' :: t1) l c (by simp)
    have hget2 := LexState.get_append (ch :: a) (' ' :: t2) l c (by simp)
    simp only [List.cons_append] at hget hget2
    cases hb : (cond { rest := ch :: (a ++ '/' :: t1), line := l, col := c } &&
        ch != '\x00') with
    | true =>
      have hb2 : (cond { rest := ch :: (a ++ ' ' :: t2), line := l, col := c } &&
          ch != '\x00') = true := by
        rw [← hag]
        exact hb
      rw [LexState.getWhileAux_cons2 _ _ _ _ _ hb] at h
      rw [LexState.getWhileAux_cons2 _ _ _ _ _ hb2]
      rw [hget] at h
      rw [hget2]
      dsimp only at h ⊢
      simp only [Prod.mk.injEq] at h
      have hle := LexState.getWhileAux_length_le cond (a ++ '/' :: t1)
        (LexState.get { rest := ch :: a, line := l, col := c }).2.line
        (LexState.get { rest := ch :: a, line := l, col := c }).2.col
      rw [h.2, hr] at hle
      have hsuf2 : a1 <:+ a := by
        rcases List.suffix_cons_iff.mp hsuf with rfl | hs
        · simp at hle
        · exact hs
      have ih := getWhileAux_mirror cond t1 t2 a1 hagree a
        (LexState.get { rest := ch :: a, line := l, col := c }).2.line
        (LexState.get { rest := ch :: a, line := l, col := c }).2.col
        (LexState.getWhileAux cond (a ++ '/' :: t1)
          (LexState.get { rest := ch :: a, line := l, col := c }).2.line
          (LexState.get { rest := ch :: a, line := l, col := c }).2.col).1
        s1 hsuf2 (by rw [← h.2]) hr
      rw [ih, ← h.1]
    | false =>
      have hb2 : (cond { rest := ch :: (a ++ ' ' :: t2), line := l, col := c } &&
          ch != '\x00') = false := by
        rw [← hag]
        exact hb
      rw [LexState.getWhileAux_stop _ _ _ _ _ hb] at h
      rw [LexState.getWhileAux_stop _ _ _ _ _ hb2]
      simp only [Prod.mk.injEq] at h
      obtain ⟨rfl, rfl⟩ := h
      simp only at hr
      have ha : ch :: a = a1 := by
        have : (ch :: a) ++ '/' :: t1 = a1 ++ '/' :: t1 := by simpa using hr
        exact List.append_cancel_right this
      rw [← ha]
      rfl

theorem LexState.get_mirror (t1 t2 x a1 : List Char) (l c : Nat) (s1 : LexState) (hx : x ≠ [])
    (h : (LexState.get { rest := x ++ '/' :: t1, line := l, col := c }).2 = s1)
    (hr : s1.rest = a1 ++ '/' :: t1) :
    (LexState.get { rest := x ++ ' ' :: t2, line := l, col := c }).2 =
      { rest := a1 ++ ' ' :: t2, line := s1.line, col := s1.col } := by
  rw [LexState.get_append x _ l c hx] at h
  rw [LexState.get_append x _ l c hx]
  subst h
  simp only at hr ⊢
  rw [List.append_cancel_right hr]

theorem LexState.get2_mirror (t1 t2 x a1 : List Char) (l c : Nat) (s1 : LexState) (hx : x ≠ [])
    (h : (LexState.get { rest := x ++ '/' :: t1, line := l, col := c }).2.get.2 = s1)
    (hr : s1.rest = a1 ++ '/' :: t1) :
    (LexState.get { rest := x ++ ' ' :: t2, line := l, col := c }).2.get.2 =
      { rest := a1 ++ ' ' :: t2, line := s1.line, col := s1.col } := by
  rw [LexState.get_append x _ l c hx] at h
  rw [LexState.get_append x _ l c hx]
  dsimp only at h ⊢
  by_cases hy : (LexState.get { rest := x, line := l, col := c }).2.rest = []
  · rw [hy, List.nil_append, LexState.get_cons _ _ _ _ (by decide) (by decide)] at h
    subst h
    have := congrArg List.length hr
    simp at this
    omega
  · exact LexState.get_mirror t1 t2 _ a1 _ _ s1 hy h hr

/-- Where a loop `while (cond) get();` stops, its condition is false or the
input is at its end. -/
theorem LexState.getWhileAux_stops (cond : LexState → Bool) :
    ∀ (r : List Char) (l c : Nat),
      (LexState.getWhileAux cond r l c).2.rest = [] ∨
        (cond (LexState.getWhileAux cond r l c).2 &&
          (LexState.getWhileAux cond r l c).2.peek != '\x00') = false
  | [], l, c => by simp [LexState.getWhileAux]
  | ch :: r, l, c => by
    cases hb : (cond { rest := ch :: r, line := l, col := c } && ch != '\x00') with
    | true =>
      rw [LexState.getWhileAux_cons2 _ _ _ _ _ hb]
      exact LexState.getWhileAux_stops cond r _ _
    | false =>
      rw [LexState.getWhileAux_stop _ _ _ _ _ hb]
      exact Or.inr hb

theorem lineCond_agree (t1 t2 x : List Char) (l c : Nat) :
    (fun t : LexState => t.peek != '\x00' && t.peek != '\n')
        { rest := x ++ '/' :: t1, line := l, col := c } =
      (fun t : LexState => t.peek != '\x00' && t.peek != '\n')
        { rest := x ++ ' ' :: t2, line := l, col := c } := by
  cases x with
  | nil => rfl
  | cons d x => rfl

theorem blockCond_agree (t1 t2 b1 x : List Char) (l c : Nat) (h0 : b1 ≠ []) (h1 : b1 ≠ ['*'])
    (hs : b1 <:+ x) :
    (fun t : LexState => t.peek != '\x00' && !(t.peek = '*' && t.nextIs '/'))
        { rest := x ++ '/' :: t1, line := l, col := c } =
      (fun t : LexState => t.peek != '\x00' && !(t.peek = '*' && t.nextIs '/'))
        { rest := x ++ ' ' :: t2, line := l, col := c } := by
  cases x with
  | nil => exact absurd (List.eq_nil_of_suffix_nil hs) h0
  | cons d x =>
    cases x with
    | cons e x => rfl
    | nil =>
      have hb : b1 = [d] := by
        rcases List.suffix_cons_iff.mp hs with h | h
        · exact h
        · exact absurd (List.eq_nil_of_suffix_nil h) h0
      have hd : d ≠ '*' := by
        intro hd
        rw [hd] at hb
        exact h1 hb
      simp [LexState.peek, hd]

/-- One iteration of the loop of `skipWS` that stops before the comment does
the same when a space stands in place of the comment. -/
theorem wsStep_mirror (t1 t2 a a1 : List Char) (l c : Nat) (s1 : LexState) (ha : a ≠ [])
    (hsuf : a1 <:+ a)
    (h : wsStep { rest := a ++ '/' :: t1, line := l, col := c } = some s1)
    (hr : s1.rest = a1 ++ '/' :: t1) :
    wsStep { rest := a ++ ' ' :: t2, line := l, col := c } =
      some { rest := a1 ++ ' ' :: t2, line := s1.line, col := s1.col } := by
  have hlen : a1.length + t1.length + 1 = s1.rest.length := by
    rw [hr]
    simp
    omega
  cases a with
  | nil => exact absurd rfl ha
  | cons ch a =>
    have hpk1 : ({ rest := (ch :: a) ++ '/' :: t1, line := l, col := c } : LexState).peek = ch :=
      rfl
    have hpk2 : ({ rest := (ch :: a) ++ ' ' :: t2, line := l, col := c } : LexState).peek = ch :=
      rfl
    unfold wsStep at h ⊢
    dsimp only at h ⊢
    rw [hpk1] at h
    rw [hpk2]
    by_cases hsp : isspace ch = true
    · simp only [hsp, if_true, Option.some.injEq] at h ⊢
      exact LexState.get_mirror t1 t2 (ch :: a) a1 l c s1 (by simp) h hr
    · simp only [hsp, Bool.false_eq_true, if_false] at h ⊢
      cases a with
      | nil =>
        have hn1 : ∀ d, LexState.nextIs
            { rest := [ch] ++ '/' :: t1, line := l, col := c } d = decide ('/' = d) :=
          fun d => rfl
        have hn2 : ∀ d, LexState.nextIs
            { rest := [ch] ++ ' ' :: t2, line := l, col := c } d = decide (' ' = d) :=
          fun d => rfl
        simp only [hn1, hn2] at h ⊢
        by_cases hc : ch = '/'
        · subst hc
          simp only [decide_True, Bool.and_self, if_true, Option.some.injEq] at h
          have hle := LexState.getWhileAux_length_le
            (fun t => t.peek != '\x00' && t.peek != '\n') t1 l (c + 1 + 1)
          have hrun : (LexState.getWhile { rest := ['/'] ++ '/' :: t1, line := l, col := c }
              (fun t => t.peek != '\x00' && t.peek != '\n')).2 =
              (LexState.getWhileAux (fun t => t.peek != '\x00' && t.peek != '\n') t1 l
                (c + 1 + 1)).2 := by
            unfold LexState.getWhile
            simp only [List.singleton_append]
            rw [LexState.getWhileAux_cons _ _ _ _ _ rfl (by decide) (by decide),
              LexState.getWhileAux_cons _ _ _ _ _ rfl (by decide) (by decide)]
          rw [hrun] at h
          rw [h] at hle
          omega
        · simp only [hc, decide_False, Bool.false_and, Bool.false_eq_true, if_false] at h
          simp at h
      | cons e a =>
        have hn1 : ∀ d, LexState.nextIs
            { rest := (ch :: e :: a) ++ '/' :: t1, line := l, col := c } d = decide (e = d) :=
          fun d => rfl
        have hn2 : ∀ d, LexState.nextIs
            { rest := (ch :: e :: a) ++ ' ' :: t2, line := l, col := c } d = decide (e = d) :=
          fun d => rfl
        simp only [hn1, hn2] at h ⊢
        by_cases hl : (decide (ch = '/') && decide (e = '/')) = true
        · simp only [hl, if_true, Option.some.injEq] at h ⊢
          unfold LexState.getWhile at h ⊢
          dsimp only at h ⊢
          have hm := getWhileAux_mirror (fun t => t.peek != '\x00' && t.peek != '\n') t1 t2 a1
            (fun x l c _ => lineCond_agree t1 t2 x l c) (ch :: e :: a) l c
            (LexState.getWhileAux (fun t => t.peek != '\x00' && t.peek != '\n')
              ((ch :: e :: a) ++ '/' :: t1) l c).1 s1 hsuf (by rw [← h]) hr
          rw [hm]
        · simp only [hl, Bool.false_eq_true, if_false] at h ⊢
          by_cases hbk : (decide (ch = '/') && decide (e = '*')) = true
          · simp only [hbk, if_true, Option.some.injEq] at h ⊢
            simp only [Bool.and_eq_true, decide_eq_true_eq] at hbk
            obtain ⟨rfl, rfl⟩ := hbk
            have hg1 : (LexState.get
                  { rest := ('/' :: '*' :: a) ++ '/' :: t1, line := l, col := c }).2.get.2 =
                { rest := a ++ '/' :: t1, line := l, col := c + 1 + 1 } := by
              simp only [List.cons_append]
              rw [LexState.get_cons _ _ _ _ (by decide) (by decide),
                LexState.get_cons _ _ _ _ (by decide) (by decide)]
            have hg2 : (LexState.get
                  { rest := ('/' :: '*' :: a) ++ ' ' :: t2, line := l, col := c }).2.get.2 =
                { rest := a ++ ' ' :: t2, line := l, col := c + 1 + 1 } := by
              simp only [List.cons_append]
              rw [LexState.get_cons _ _ _ _ (by decide) (by decide),
                LexState.get_cons _ _ _ _ (by decide) (by decide)]
            rw [hg1] at h
            rw [hg2]
            unfold LexState.getWhile at h ⊢
            dsimp only at h ⊢
            have hsf := LexState.getWhileAux_suffix
              (fun t => t.peek != '\x00' && !(decide (t.peek = '*') && t.nextIs '/'))
              (a ++ '/' :: t1) l (c + 1 + 1)
            have hst := LexState.getWhileAux_stops
              (fun t => t.peek != '\x00' && !(decide (t.peek = '*') && t.nextIs '/'))
              (a ++ '/' :: t1) l (c + 1 + 1)
            have hmir := fun b1 h0 h1 => getWhileAux_mirror
              (fun t => t.peek != '\x00' && !(decide (t.peek = '*') && t.nextIs '/')) t1 t2 b1
              (fun x l c hs => blockCond_agree t1 t2 b1 x l c h0 h1 hs) a l (c + 1 + 1)
            generalize hR : LexState.getWhileAux
              (fun t => t.peek != '\x00' && !(decide (t.peek = '*') && t.nextIs '/'))
              (a ++ '/' :: t1) l (c + 1 + 1) = R at h hsf hst hmir
            obtain ⟨cs, s2⟩ := R
            dsimp only at h hsf hst
            have htl : ('/' :: t1) <:+ s2.rest := by
              have h3 : s1.rest <:+ s2.rest := by
                rw [← h]
                split
                · exact (LexState.get_suffix _).trans (LexState.get_suffix _)
                · exact List.suffix_refl _
              rw [hr] at h3
              exact (List.suffix_append _ _).trans h3
            obtain ⟨b1, hb1, hbs⟩ := suffix_split s2.rest a ('/' :: t1) hsf htl
            obtain ⟨r2, l2, c2⟩ := s2
            simp only at hb1 hst h
            subst hb1
            have h0 : b1 ≠ [] := by
              rintro rfl
              rcases hst with hst | hst
              · simp at hst
              · simp [LexState.peek] at hst
            have h1 : b1 ≠ ['*'] := by
              rintro rfl
              have hpk : ({ rest := ['*'] ++ '/' :: t1, line := l2, col := c2 } :
                  LexState).peek = '*' := rfl
              rw [hpk] at h
              simp only [List.singleton_append] at h
              rw [if_pos (by decide), LexState.get_cons _ _ _ _ (by decide) (by decide),
                LexState.get_cons _ _ _ _ (by decide) (by decide)] at h
              rw [← h] at hlen
              simp at hlen
              omega
            rw [hmir b1 h0 h1 cs _ hbs rfl rfl]
            dsimp only
            obtain ⟨d, b2, rfl⟩ := List.exists_cons_of_ne_nil h0
            have hpk1 : ({ rest := (d :: b2) ++ '/' :: t1, line := l2, col := c2 } :
                LexState).peek = d := rfl
            have hpk2 : ({ rest := (d :: b2) ++ ' ' :: t2, line := l2, col := c2 } :
                LexState).peek = d := rfl
            rw [hpk1] at h
            rw [hpk2]
            by_cases hd : (d != '\x00') = true
            · rw [if_pos hd] at h
              rw [if_pos hd]
              exact LexState.get2_mirror t1 t2 (d :: b2) a1 l2 c2 s1 (by simp) h hr
            · rw [if_neg hd] at h
              rw [if_neg hd]
              subst h
              simp only at hr ⊢
              rw [List.append_cancel_right hr]
          · simp only [hbk, Bool.false_eq_true, if_false] at h
            simp at h

theorem wsStep_none_mirror (t1 t2 a : List Char) (l c : Nat) (ha : a ≠ [])
    (h : wsStep { rest := a ++ '/' :: t1, line := l, col := c } = none) :
    wsStep { rest := a ++ ' ' :: t2, line := l, col := c } = none := by
  cases a with
  | nil => exact absurd rfl ha
  | cons ch a =>
    have hpk1 : ({ rest := (ch :: a) ++ '/' :: t1, line := l, col := c } : LexState).peek = ch :=
      rfl
    have hpk2 : ({ rest := (ch :: a) ++ ' ' :: t2, line := l, col := c } : LexState).peek = ch :=
      rfl
    unfold wsStep at h ⊢
    dsimp only at h ⊢
    rw [hpk1] at h
    rw [hpk2]
    by_cases hsp : isspace ch = true
    · simp [hsp] at h
    · simp only [hsp, Bool.false_eq_true, if_false] at h ⊢
      cases a with
      | nil =>
        have hn1 : ∀ d, LexState.nextIs
            { rest := [ch] ++ '/' :: t1, line := l, col := c } d = decide ('/' = d) :=
          fun d => rfl
        have hn2 : ∀ d, LexState.nextIs
            { rest := [ch] ++ ' ' :: t2, line := l, col := c } d = decide (' ' = d) :=
          fun d => rfl
        simp only [hn1, hn2] at h ⊢
        by_cases hc : ch = '/'
        · subst hc
          simp at h
        · simp [hc]
      | cons e a =>
        have hn1 : ∀ d, LexState.nextIs
            { rest := (ch :: e :: a) ++ '/' :: t1, line := l, col := c } d = decide (e = d) :=
          fun d => rfl
        have hn2 : ∀ d, LexState.nextIs
            { rest := (ch :: e :: a) ++ ' ' :: t2, line := l, col := c } d = decide (e = d) :=
          fun d => rfl
        simp only [hn1, hn2] at h ⊢
        split at h
        · simp at h
        · split at h
          · simp at h
          · rename_i h3 h4
            simp only [h3, h4, Bool.false_eq_true, if_false]

theorem identCond_agree (t1 t2 x : List Char) (l c : Nat) :
    (fun t : LexState => t.peek.isAlphanum || decide (t.peek = '_'))
        { rest := x ++ '/' :: t1, line := l, col := c } =
      (fun t : LexState => t.peek.isAlphanum || decide (t.peek = '_'))
        { rest := x ++ ' ' :: t2, line := l, col := c } := by
  cases x with
  | nil => rfl
  | cons d x => rfl

theorem digitCond_agree (t1 t2 x : List Char) (l c : Nat) :
    (fun t : LexState => t.peek.isDigit) { rest := x ++ '/' :: t1, line := l, col := c } =
      (fun t : LexState => t.peek.isDigit) { rest := x ++ ' ' :: t2, line := l, col := c } := by
  cases x with
  | nil => rfl
  | cons d x => rfl

theorem punct_mirror (t1 t2 a : List Char) (l c : Nat) (ha : a ≠ []) :
    punct { rest := a ++ '/' :: t1, line := l, col := c } =
      punct { rest := a ++ ' ' :: t2, line := l, col := c } := by
  cases a with
  | nil => exact absurd rfl ha
  | cons ch a =>
    cases a with
    | nil => rfl
    | cons e a => rfl

/-- A token that ends before the comment is read in the same way when a space
stands in place of the comment. -/
theorem tokStep_mirror (t1 t2 a a1 : List Char) (l c : Nat) (tok : Token) (s1 : LexState)
    (ha : a ≠ []) (hsuf : a1 <:+ a)
    (h : tokStep { rest := a ++ '/' :: t1, line := l, col := c } = some (tok, s1))
    (hr : s1.rest = a1 ++ '/' :: t1) :
    tokStep { rest := a ++ ' ' :: t2, line := l, col := c } =
      some (tok, { rest := a1 ++ ' ' :: t2, line := s1.line, col := s1.col }) := by
  obtain ⟨ch, a2, rfl⟩ := List.exists_cons_of_ne_nil ha
  have hpk1 : ({ rest := (ch :: a2) ++ '/' :: t1, line := l, col := c } : LexState).peek = ch :=
    rfl
  have hpk2 : ({ rest := (ch :: a2) ++ ' ' :: t2, line := l, col := c } : LexState).peek = ch :=
    rfl
  have hpun := punct_mirror t1 t2 (ch :: a2) l c ha
  unfold tokStep at h ⊢
  dsimp only at h ⊢
  rw [hpk1] at h
  rw [hpk2]
  split at h
  · simp at h
  · rename_i h0
    rw [if_neg h0]
    split at h
    · rename_i hid
      rw [if_pos hid]
      simp only [Option.some.injEq] at h ⊢
      unfold identOrKw at h ⊢
      unfold LexState.getWhile at h ⊢
      dsimp only at h ⊢
      simp only [Prod.mk.injEq] at h
      have hm := getWhileAux_mirror (fun t => t.peek.isAlphanum || decide (t.peek = '_')) t1 t2
        a1 (fun x l c _ => identCond_agree t1 t2 x l c) (ch :: a2) l c
        (LexState.getWhileAux (fun t => t.peek.isAlphanum || decide (t.peek = '_'))
          ((ch :: a2) ++ '/' :: t1) l c).1 s1 hsuf (by rw [← h.2]) hr
      rw [hm, ← h.1]
    · rename_i hid
      rw [if_neg hid]
      split at h
      · rename_i hdig
        rw [if_pos hdig]
        unfold number at h ⊢
        unfold LexState.getWhile at h ⊢
        dsimp only at h ⊢
        simp only [List.cons_append] at h ⊢
        cases hst : stoll (LexState.getWhileAux (fun t => t.peek.isDigit)
            (ch :: (a2 ++ '/' :: t1)) l c).1 with
        | error m => simp [hst] at h
        | ok v =>
          simp only [hst, Option.some.injEq, Prod.mk.injEq] at h
          have hm := getWhileAux_mirror (fun t => t.peek.isDigit) t1 t2
            a1 (fun x l c _ => digitCond_agree t1 t2 x l c) (ch :: a2) l c
            (LexState.getWhileAux (fun t => t.peek.isDigit)
              ((ch :: a2) ++ '/' :: t1) l c).1 s1 hsuf (by rw [← h.2]; rfl) hr
          simp only [List.cons_append] at hm
          rw [hm]
          simp only [hst, h.1]
      · rename_i hdig
        rw [if_neg hdig, ← hpun]
        simp only [Option.some.injEq, Prod.mk.injEq] at h ⊢
        refine ⟨h.1, ?_⟩
        have h2 := h.2
        split
        · rename_i hp
          rw [if_pos hp] at h2
          exact LexState.get2_mirror t1 t2 (ch :: a2) a1 l c s1 ha h2 hr
        · rename_i hp
          rw [if_neg hp] at h2
          exact LexState.get_mirror t1 t2 (ch :: a2) a1 l c s1 ha h2 hr

/-- From a token boundary that lies before the comment on, the lexer reads the
source with the comment and the source with a space in its place alike. -/
theorem lexFrom_mirror (t1 t2 : List Char)
    (hstate : ∀ l c, (lexFrom { rest := '/' :: t1, line := l, col := c }).contents =
      (lexFrom { rest := ' ' :: t2, line := l, col := c }).contents) :
    ∀ (n : Nat) (a : List Char) (l c : Nat),
      reachesHead n { rest := a ++ '/' :: t1, line := l, col := c } ('/' :: t1) = true →
      (lexFrom { rest := a ++ '/' :: t1, line := l, col := c }).contents =
        (lexFrom { rest := a ++ ' ' :: t2, line := l, col := c }).contents
  | n, a, l, c, h => by
    by_cases ha : a = []
    · subst ha
      exact hstate l c
    · have hne : ¬ (a ++ '/' :: t1 = '/' :: t1) := by
        intro h2
        have h3 := congrArg List.length h2
        have h4 : 0 < a.length := List.length_pos.mpr ha
        simp only [List.length_append, List.length_cons] at h3
        omega
      cases n with
      | zero =>
        rw [reachesHead] at h
        exact absurd (of_decide_eq_true h) hne
      | succ n =>
        rw [reachesHead] at h
        have hd : decide (({ rest := a ++ '/' :: t1, line := l, col := c } : LexState).rest =
            '/' :: t1) = false := decide_eq_false hne
        rw [hd, Bool.false_or] at h
        cases hs : headStep { rest := a ++ '/' :: t1, line := l, col := c } with
        | none =>
          rw [hs] at h
          exact absurd h Bool.false_ne_true
        | some s1 =>
          rw [hs] at h
          dsimp only at h
          obtain ⟨a1, hr, hsuf⟩ := suffix_split s1.rest a ('/' :: t1)
            (headStep_suffix _ s1 hs) (reachesHead_suffix n s1 _ h)
          have heta : s1 = { rest := a1 ++ '/' :: t1, line := s1.line, col := s1.col } := by
            rw [← hr]
          have ih := lexFrom_mirror t1 t2 hstate n a1 s1.line s1.col (by rw [← heta]; exact h)
          unfold headStep at hs
          cases hw : wsStep { rest := a ++ '/' :: t1, line := l, col := c } with
          | some s2 =>
            rw [hw] at hs
            have hs2 : s2 = s1 := Option.some.inj hs
            subst hs2
            have hw2 := wsStep_mirror t1 t2 a a1 l c s2 ha hsuf hw hr
            rw [lexFrom_wsStep _ _ hw, lexFrom_wsStep _ _ hw2, ← ih, ← heta]
          | none =>
            rw [hw] at hs
            cases ht : tokStep { rest := a ++ '/' :: t1, line := l, col := c } with
            | none =>
              rw [ht] at hs
              exact absurd hs (by simp)
            | some r =>
              obtain ⟨tok, s2⟩ := r
              rw [ht] at hs
              have hs2 : s2 = s1 := Option.some.inj hs
              subst hs2
              have hw2 := wsStep_none_mirror t1 t2 a l c ha hw
              have ht2 := tokStep_mirror t1 t2 a a1 l c tok s2 ha hsuf ht hr
              rw [lexFrom_tokStep _ _ _ hw ht, lexFrom_tokStep _ _ _ hw2 ht2]
              refine contents_pushTok _ _ _ _ rfl ?_
              rw [← ih, ← heta]

theorem isComment_cons (comment post : List Char) (hc : IsComment comment post) :
    ∃ t0, comment = '/' :: t0 := by
  rcases hc with ⟨body, rfl, _⟩ | ⟨body, rfl, _⟩
  · exact ⟨_, rfl⟩
  · exact ⟨_, rfl⟩

/-- C29 (amended): a comment that holds no `'\0'` character and starts at a
token boundary is invisible: replacing it by a single space does not change
the sequence of token kinds, lexemes and integer values. -/
theorem comment_invisible (pre comment post : List Char) (hc : IsComment comment post)
    (hn : ∀ d ∈ comment, d ≠ '\x00') (hb : tokenBoundary pre (comment ++ post)) :
    (lex (pre ++ comment ++ post)).contents = (lex (pre ++ ' ' :: post)).contents := by
  obtain ⟨t0, ht0⟩ := isComment_cons comment post hc
  have hstate : ∀ l c, (lexFrom { rest := '/' :: (t0 ++ post), line := l, col := c }).contents =
      (lexFrom { rest := ' ' :: post, line := l, col := c }).contents := by
    intro l c
    have := lexFrom_comment comment post l c l c hc hn
    rw [ht0] at this
    exact this
  obtain ⟨n, hb⟩ := hb
  rw [ht0] at hb
  have := lexFrom_mirror (t0 ++ post) post hstate n pre 1 1 hb
  unfold lex
  rw [ht0, List.append_assoc]
  exact this

/-- C29 (counterexample): the line comment `//` followed by a `'\0'` character
starts at a token boundary in the source `a //\0` newline `b`; the lexer stops
at the `'\0'` and yields `a`, `Eof`, while with a space in place of the comment
it yields `a`, `b`, `Eof`. -/
theorem comment_with_nul_visible :
    IsComment nulComment ['\n', 'b'] ∧
    tokenBoundary ['a', ' '] (nulComment ++ ['\n', 'b']) ∧
    (lex (['a', ' '] ++ nulComment ++ ['\n', 'b'])).contents =
      some (Except.ok [(TokKind.Ident, "a", 0), (TokKind.Eof, "", 0)]) ∧
    (lex (['a', ' '] ++ ' ' :: ['\n', 'b'])).contents =
      some (Except.ok [(TokKind.Ident, "a", 0), (TokKind.Ident, "b", 0),
        (TokKind.Eof, "", 0)]) ∧
    (lex (['a', ' '] ++ nulComment ++ ['\n', 'b'])).contents ≠
      (lex (['a', ' '] ++ ' ' :: ['\n', 'b'])).contents :=
  ⟨Or.inl ⟨['\x00'], rfl, by decide, Or.inr ⟨['b'], rfl⟩⟩, ⟨2, by decide⟩, by decide, by decide,
    by decide⟩

/-- C29 (witness): the block comment in `a/*x*/b`. -/
theorem comment_invisible_witness :
    (lex (['a'] ++ ['/', '*', 'x', '*', '/'] ++ ['b'])).contents =
      (lex (['a'] ++ ' ' :: ['b'])).contents :=
  comment_invisible ['a'] ['/', '*', 'x', '*', '/'] ['b']
    (Or.inr ⟨['x'], rfl, by decide⟩) (by decide) ⟨1, by decide⟩

/-- C28 (witness): `<=` before `b`. -/
theorem lex_two_char_operator_witness :
    lexFrom { rest := '<' :: '=' :: ['b'], line := 1, col := 2 } =
      pushTok { kind := TokKind.Le, lexeme := "", intValue := 0, line := 1, col := 2 }
        (lexFrom { rest := ['b'], line := 1, col := 2 + 2 }) :=
  (lex_two_char_operator '<' '=' TokKind.Le ['b'] 1 2 (by decide)).1

/-! ## `Type::equals` and `Type::clone` -/

theorem Ty.equals_refl : ∀ t : Ty, t.wellFormed = true → t.equals t = true
  | Ty.mk TyKind.Ptr (some e) n, h => by
    simp only [Ty.wellFormed] at h
    simp [Ty.equals, Ty.equals_refl e h]
  | Ty.mk TyKind.Ptr none n, h => by simp [Ty.wellFormed] at h
  | Ty.mk TyKind.Array (some e) n, h => by
    simp only [Ty.wellFormed] at h
    simp [Ty.equals, Ty.equals_refl e h]
  | Ty.mk TyKind.Array none n, h => by simp [Ty.wellFormed] at h
  | Ty.mk TyKind.I32 _ _, _ => by unfold Ty.equals; simp
  | Ty.mk TyKind.I64 _ _, _ => by unfold Ty.equals; simp
  | Ty.mk TyKind.Bool _ _, _ => by unfold Ty.equals; simp
  | Ty.mk TyKind.Void _ _, _ => by unfold Ty.equals; simp

theorem Ty.equals_kind (a b : Ty) (h : a.equals b = true) : a.k = b.k := by
  obtain ⟨k, e, n⟩ := a
  obtain ⟨k2, e2, n2⟩ := b
  unfold Ty.equals at h
  by_cases hk : k = k2
  · exact hk
  · simp [hk] at h

theorem Ty.equals_symm : ∀ a b : Ty, a.equals b = b.equals a
  | Ty.mk k e n, Ty.mk k2 e2 n2 => by
    unfold Ty.equals
    by_cases hk : k = k2
    · subst hk
      simp only [ne_eq, not_true_eq_false, if_false]
      cases e with
      | none => cases e2 <;> simp
      | some x =>
        cases e2 with
        | none => simp
        | some y =>
          simp only [Ty.equals_symm x y]
          have hn : (n == n2) = (n2 == n) := by
            by_cases h : n = n2
            · simp [h]
            · have h2 : ¬ n2 = n := fun e => h e.symm
              simp [h, h2]
          rw [hn]
    · have hk2 : ¬ k2 = k := fun e => hk e.symm
      simp [hk, hk2]

theorem Ty.equals_trans : ∀ a b c : Ty, a.equals b = true → b.equals c = true →
    a.equals c = true
  | Ty.mk k e n, Ty.mk k2 e2 n2, Ty.mk k3 e3 n3, h1, h2 => by
    have hk1 : k = k2 := Ty.equals_kind _ _ h1
    have hk2 : k2 = k3 := Ty.equals_kind _ _ h2
    subst hk1
    subst hk2
    unfold Ty.equals at h1 h2 ⊢
    simp only [ne_eq, not_true_eq_false, if_false] at h1 h2 ⊢
    by_cases hp : k = TyKind.Ptr
    · simp only [hp, if_true] at h1 h2 ⊢
      cases e with
      | none => simp at h1
      | some x =>
        cases e2 with
        | none => simp at h1
        | some y =>
          cases e3 with
          | none => simp at h2
          | some z => exact Ty.equals_trans x y z h1 h2
    · simp only [hp, if_false] at h1 h2 ⊢
      by_cases ha : k = TyKind.Array
      · simp only [ha, if_true, Bool.and_eq_true, beq_iff_eq] at h1 h2 ⊢
        cases e with
        | none => simp at h1
        | some x =>
          cases e2 with
          | none => simp at h1
          | some y =>
            cases e3 with
            | none => simp at h2
            | some z => exact ⟨h1.1.trans h2.1, Ty.equals_trans x y z h1.2 h2.2⟩
      · simp [ha]

theorem Ty.equals_of_kind_ne (a b : Ty) (h : a.k ≠ b.k) : a.equals b = false := by
  cases hq : a.equals b with
  | false => rfl
  | true => exact absurd (Ty.equals_kind a b hq) h

theorem Ty.equals_ptr (T U : Ty) : (Ty.ptr T).equals (Ty.ptr U) = T.equals U := by
  simp [Ty.ptr, Ty.equals]

theorem Ty.equals_array (T U : Ty) (N M : Int) :
    (Ty.array T N).equals (Ty.array U M) = (decide (N = M) && T.equals U) := by
  by_cases h : N = M <;> simp [Ty.array, Ty.equals, h]

theorem Ty.wellFormed_of_canonical : ∀ t : Ty, t.canonical = true → t.wellFormed = true
  | Ty.mk TyKind.Ptr (some e) n, h => by
    simp only [Ty.canonical, Bool.and_eq_true] at h
    simp only [Ty.wellFormed]
    exact Ty.wellFormed_of_canonical e h.2
  | Ty.mk TyKind.Ptr none n, h => by simp [Ty.canonical] at h
  | Ty.mk TyKind.Array (some e) n, h => by
    simp only [Ty.canonical] at h
    simp only [Ty.wellFormed]
    exact Ty.wellFormed_of_canonical e h
  | Ty.mk TyKind.Array none n, h => by simp [Ty.canonical] at h
  | Ty.mk TyKind.I32 _ _, _ => rfl
  | Ty.mk TyKind.I64 _ _, _ => rfl
  | Ty.mk TyKind.Bool _ _, _ => rfl
  | Ty.mk TyKind.Void _ _, _ => rfl

/-- On the values that the factory functions build, `equals` holds exactly
between a value and itself. -/
theorem Ty.equals_iff_eq : ∀ a b : Ty, a.canonical = true → b.canonical = true →
    (a.equals b = true ↔ a = b)
  | Ty.mk k e n, Ty.mk k2 e2 n2, ha, hb => by
    constructor
    · intro h
      have hk : k = k2 := Ty.equals_kind _ _ h
      subst hk
      unfold Ty.equals at h
      simp only [ne_eq, not_true_eq_false, if_false] at h
      cases k with
      | Ptr =>
        simp only [if_true] at h
        cases e with
        | none => simp at h
        | some x =>
          cases e2 with
          | none => simp at h
          | some y =>
            simp only [Ty.canonical, Bool.and_eq_true, beq_iff_eq] at ha hb
            have := (Ty.equals_iff_eq x y ha.2 hb.2).mp h
            rw [this, ha.1, hb.1]
      | Array =>
        have hne : ¬ (TyKind.Array = TyKind.Ptr) := by decide
        simp only [hne, if_false, if_true, Bool.and_eq_true, beq_iff_eq] at h
        cases e with
        | none => simp at h
        | some x =>
          cases e2 with
          | none => simp at h
          | some y =>
            simp only [Ty.canonical] at ha hb
            have := (Ty.equals_iff_eq x y ha hb).mp h.2
            rw [this, h.1]
      | I32 =>
        simp only [Ty.canonical, Bool.and_eq_true, beq_iff_eq, Option.isNone_iff_eq_none] at ha hb
        rw [ha.1, ha.2, hb.1, hb.2]
      | I64 =>
        simp only [Ty.canonical, Bool.and_eq_true, beq_iff_eq, Option.isNone_iff_eq_none] at ha hb
        rw [ha.1, ha.2, hb.1, hb.2]
      | Bool =>
        simp only [Ty.canonical, Bool.and_eq_true, beq_iff_eq, Option.isNone_iff_eq_none] at ha hb
        rw [ha.1, ha.2, hb.1, hb.2]
      | Void =>
        simp only [Ty.canonical, Bool.and_eq_true, beq_iff_eq, Option.isNone_iff_eq_none] at ha hb
        rw [ha.1, ha.2, hb.1, hb.2]
    · intro h
      rw [h]
      exact Ty.equals_refl _ (Ty.wellFormed_of_canonical _ hb)

/-- C33.  `Type::equals` is reflexive on well-formed types, symmetric and
transitive; two types of different kinds are never equal; `ptr<T>` equals
`ptr<U>` exactly when `T` equals `U`; `array<T,N>` equals `array<U,M>` exactly
when `N = M` and `T` equals `U`, so arrays of different sizes are different
types; and on the values that the factory functions build, `equals` is
equality of the values.  A `ptr` whose element pointer is null does not equal
itself. -/
theorem equals_structural :
    (∀ t : Ty, t.wellFormed = true → t.equals t = true) ∧
    (∀ a b : Ty, a.equals b = b.equals a) ∧
    (∀ a b c : Ty, a.equals b = true → b.equals c = true → a.equals c = true) ∧
    (∀ a b : Ty, a.k ≠ b.k → a.equals b = false) ∧
    (∀ T U : Ty, (Ty.ptr T).equals (Ty.ptr U) = true ↔ T.equals U = true) ∧
    (∀ (T U : Ty) (N M : Int),
      (Ty.array T N).equals (Ty.array U M) = true ↔ N = M ∧ T.equals U = true) ∧
    (∀ a b : Ty, a.canonical = true → b.canonical = true → (a.equals b = true ↔ a = b)) ∧
    (Ty.array Ty.i64 3).equals (Ty.array Ty.i64 4) = false ∧
    (Ty.ptr Ty.i64).equals (Ty.ptr Ty.i32) = false ∧
    (Ty.mk TyKind.Ptr none 0).equals (Ty.mk TyKind.Ptr none 0) = false :=
  ⟨Ty.equals_refl, Ty.equals_symm, Ty.equals_trans, Ty.equals_of_kind_ne,
    fun T U => by rw [Ty.equals_ptr],
    fun T U N M => by rw [Ty.equals_array]; simp,
    Ty.equals_iff_eq, by decide, by decide, by decide⟩

theorem Ty.clone_elem (t : Ty) : t.clone.elem = t.elem.map Ty.clone := by
  obtain ⟨k, e, n⟩ := t
  cases e <;> simp [Ty.clone, Ty.elem]

theorem Ty.clone_kind (t : Ty) : t.clone.k = t.k ∧ t.clone.arraySize = t.arraySize := by
  obtain ⟨k, e, n⟩ := t
  cases e <;> simp [Ty.clone, Ty.k, Ty.arraySize]

/-- C34.  For every well-formed type `t` the clone equals `t` in the sense of
`Type::equals`, in both directions; for every type the clone has the kind and
the array size of `t`, its element type is the clone of the element type of
`t` (none when `t` has none), it renders as `t` does, and it is the same value
as `t`. -/
theorem clone_equals (t : Ty) (h : t.wellFormed = true) :
    t.clone.equals t = true ∧ t.equals t.clone = true ∧
    t.clone.wellFormed = true ∧
    t.clone.k = t.k ∧ t.clone.arraySize = t.arraySize ∧
    t.clone.elem = t.elem.map Ty.clone ∧
    t.clone.str = t.str ∧ t.clone = t := by
  refine ⟨?_, ?_, ?_, (Ty.clone_kind t).1, (Ty.clone_kind t).2, Ty.clone_elem t, ?_, Ty.clone_eq t⟩
  · rw [Ty.clone_eq]
    exact Ty.equals_refl t h
  · rw [Ty.clone_eq]
    exact Ty.equals_refl t h
  · rw [Ty.clone_eq]
    exact h
  · rw [Ty.clone_eq]

/-- C34 (witness): the clone of `ptr<i64>[3]`. -/
theorem clone_equals_witness :
    (Ty.array (Ty.ptr Ty.i64) 3).clone.equals (Ty.array (Ty.ptr Ty.i64) 3) = true ∧
    (Ty.array (Ty.ptr Ty.i64) 3).clone.str = "ptr<i64>[3]" :=
  ⟨(clone_equals (Ty.array (Ty.ptr Ty.i64) 3) (by decide)).1,
    (clone_equals (Ty.array (Ty.ptr Ty.i64) 3) (by decide)).2.2.2.2.2.2.1.trans (by decide)⟩

/-! ## The builtins in the function table -/

theorem primaries_find (s : Sema) (n : String) :
    s.primaries.fns.find n =
      if n = "free" then some { params := [Ty.ptr Ty.i64], ret := Ty.voidty }
      else if n = "malloc" then some { params := [Ty.i64], ret := Ty.ptr Ty.i64 }
      else if n = "read_i64" then some { params := [], ret := Ty.i64 }
      else if n = "print_i64" then some { params := [Ty.i64], ret := Ty.i64 }
      else s.fns.find n := by
  simp only [Sema.primaries, FnTable.find_set]

/-- C32.  After `primaries()` on a fresh analyser the function table holds
four entries, `print_i64 : (i64) -> i64`, `read_i64 : () -> i64`,
`malloc : (i64) -> ptr<i64>` and `free : (ptr<i64>) -> void`, and a lookup of
any other name finds nothing.  On any analyser `primaries()` sets these four
entries and leaves the lookup of every other name as it was. -/
theorem primaries_builtins :
    Sema.fresh.primaries.fns.find "print_i64" = some { params := [Ty.i64], ret := Ty.i64 } ∧
    Sema.fresh.primaries.fns.find "read_i64" = some { params := [], ret := Ty.i64 } ∧
    Sema.fresh.primaries.fns.find "malloc" =
      some { params := [Ty.i64], ret := Ty.ptr Ty.i64 } ∧
    Sema.fresh.primaries.fns.find "free" =
      some { params := [Ty.ptr Ty.i64], ret := Ty.voidty } ∧
    (∀ n, n ∉ builtinNames → Sema.fresh.primaries.fns.find n = none) ∧
    Sema.fresh.primaries.fns.map (fun p => p.1) = ["free", "malloc", "read_i64", "print_i64"] ∧
    (∀ (s : Sema) (n : String), s.primaries.fns.find n =
      if n = "free" then some { params := [Ty.ptr Ty.i64], ret := Ty.voidty }
      else if n = "malloc" then some { params := [Ty.i64], ret := Ty.ptr Ty.i64 }
      else if n = "read_i64" then some { params := [], ret := Ty.i64 }
      else if n = "print_i64" then some { params := [Ty.i64], ret := Ty.i64 }
      else s.fns.find n) ∧
    (∀ s : Sema, s.primaries.scope = s.scope ∧ s.primaries.loopDepth = s.loopDepth) := by
  refine ⟨by rw [primaries_find]; simp, by rw [primaries_find]; simp,
    by rw [primaries_find]; simp, by rw [primaries_find]; simp, ?_, by decide,
    primaries_find, fun s => ⟨rfl, rfl⟩⟩
  intro n hn
  simp only [builtinNames, List.mem_cons, List.mem_singleton, List.mem_nil_iff, or_false,
    not_or] at hn
  rw [primaries_find]
  simp [hn.1, hn.2.1, hn.2.2.1, hn.2.2.2, Sema.fresh, FnTable.find]

/-! ## `Scope::lookup` -/

theorem Scope.lookupIn_append (pre : List Frame) (rest : List Frame) (n : String)
    (h : ∀ f ∈ pre, f.lookup n = none) :
    Scope.lookupIn (pre ++ rest) n = Scope.lookupIn rest n := by
  induction pre with
  | nil => rfl
  | cons f pre ih =>
    simp only [List.cons_append, Scope.lookupIn, h f (List.mem_cons_self _ _)]
    exact ih (fun g hg => h g (List.mem_cons_of_mem _ hg))

theorem Scope.lookupIn_none (st : List Frame) (n : String) :
    Scope.lookupIn st n = none ↔ ∀ f ∈ st, f.lookup n = none := by
  induction st with
  | nil => simp [Scope.lookupIn]
  | cons f st ih =>
    simp only [Scope.lookupIn, List.mem_cons, forall_eq_or_imp]
    cases hf : f.lookup n with
    | none => simpa using ih
    | some vi => simp

/-- C35.  `Scope::lookup(n)` returns the binding of `n` in the innermost frame
that binds `n`: the frames before it, which are further in, do not bind `n`.
It returns nothing exactly when no frame of the stack binds `n`.  After
`push(); declare(n, t2)` the declaration succeeds and a lookup of `n` yields
`t2`; after the matching `pop()` the scope is the one before the `push()`, so
a lookup yields the outer binding of `n` again.  In the stack with `x : bool`
in the inner frame and `y : i32`, `x : i64` in the outer one, `x` is `bool`,
after a `pop()` it is `i64`, and `z` is not found. -/
theorem lookup_innermost (sc : Scope) (n : String) :
    (∀ (inner : List Frame) (m : Frame) (outer : List Frame) (vi : VarInfo),
      sc.stack = inner ++ m :: outer → (∀ f ∈ inner, f.lookup n = none) →
      m.lookup n = some vi → sc.lookup n = some vi) ∧
    (∀ vi, sc.lookup n = some vi →
      ∃ inner m outer, sc.stack = inner ++ m :: outer ∧ (∀ f ∈ inner, f.lookup n = none) ∧
        m.lookup n = some vi) ∧
    (sc.lookup n = none ↔ ∀ f ∈ sc.stack, f.lookup n = none) ∧
    (∀ (t2 : Ty) (u : Bool),
      (sc.push.declare n t2 u).1 = true ∧
      (sc.push.declare n t2 u).2.lookup n = some { ty := t2, isUnique := u } ∧
      (sc.push.declare n t2 u).2.pop = sc ∧
      (sc.push.declare n t2 u).2.pop.lookup n = sc.lookup n) ∧
    (Scope.mk [[("x", ⟨Ty.boolean, false⟩)], [("y", ⟨Ty.i32, false⟩), ("x", ⟨Ty.i64, false⟩)]]).lookup
      "x" = some ⟨Ty.boolean, false⟩ ∧
    (Scope.mk [[("x", ⟨Ty.boolean, false⟩)], [("y", ⟨Ty.i32, false⟩), ("x", ⟨Ty.i64, false⟩)]]).pop.lookup
      "x" = some ⟨Ty.i64, false⟩ ∧
    (Scope.mk [[("x", ⟨Ty.boolean, false⟩)], [("y", ⟨Ty.i32, false⟩), ("x", ⟨Ty.i64, false⟩)]]).lookup
      "z" = none := by
  refine ⟨?_, ?_, Scope.lookupIn_none sc.stack n, ?_, by rfl, by rfl, by rfl⟩
  · intro inner m outer vi hst hin hm
    simp only [Scope.lookup, hst]
    rw [Scope.lookupIn_append inner _ n hin]
    simp [Scope.lookupIn, hm]
  · obtain ⟨st⟩ := sc
    simp only [Scope.lookup]
    induction st with
    | nil => intro vi h; simp [Scope.lookupIn] at h
    | cons f st ih =>
      intro vi h
      simp only [Scope.lookupIn] at h
      cases hf : f.lookup n with
      | some v =>
        simp only [hf, Option.some.injEq] at h
        subst h
        exact ⟨[], f, st, rfl, by simp, hf⟩
      | none =>
        simp only [hf] at h
        obtain ⟨inner, m, outer, h1, h2, h3⟩ := ih vi h
        refine ⟨f :: inner, m, outer, by simp [h1], ?_, h3⟩
        intro g hg
        rcases List.mem_cons.mp hg with rfl | hg
        · exact hf
        · exact h2 g hg
  · intro t2 u
    obtain ⟨st⟩ := sc
    simp [Scope.push, Scope.declare, Scope.lookup, Scope.lookupIn, Scope.pop, List.lookup]

/-! ## `checkStmt` restores the scope stack -/

theorem checkStmt_block_scope (ret : Option Ty) (cond : Expr) (thenStmts elseStmts : List Stmt)
    (s : Sema) (d : List Expr) (s2 : Sema) (d2 : List Expr)
    (h : checkStmt ret s d (Stmt.SIf cond thenStmts elseStmts) = Except.ok (s2, d2)) :
    s2 = s ∧ d2 = d := by
  simp only [checkStmt] at h
  split at h
  · simp at h
  · split at h
    · simp at h
    · split at h
      · simp at h
      · rename_i s1 d1 h1
        have b1 := checkStmts_block ret thenStmts s s.loopDepth s1 d1 h1
        split at h
        · simp at h
        · rename_i s3 d3 h3
          have b3 := checkStmts_block ret elseStmts { s1 with scope := s1.scope.pop }
            s1.loopDepth s3 d3 h3
          simp only [Except.ok.injEq, Prod.mk.injEq] at h
          obtain ⟨rfl, rfl⟩ := h
          refine ⟨?_, rfl⟩
          obtain ⟨sc, fns, ld⟩ := s
          obtain ⟨sc3, fns3, ld3⟩ := s3
          simp only at b1 b3 ⊢
          rw [b3.1, b1.1, b3.2.1, b1.2.1, b3.2.2, b1.2.2]

theorem checkStmt_while_scope (ret : Option Ty) (cond : Expr) (body : List Stmt)
    (s : Sema) (d : List Expr) (s2 : Sema) (d2 : List Expr)
    (h : checkStmt ret s d (Stmt.SWhile cond body) = Except.ok (s2, d2)) :
    s2 = s ∧ d2 = d := by
  simp only [checkStmt] at h
  split at h
  · simp at h
  · split at h
    · simp at h
    · split at h
      · simp at h
      · rename_i s1 d1 h1
        have b1 := checkStmts_block ret body s (s.loopDepth + 1) s1 d1 h1
        simp only [Except.ok.injEq, Prod.mk.injEq] at h
        obtain ⟨rfl, rfl⟩ := h
        refine ⟨?_, rfl⟩
        obtain ⟨sc, fns, ld⟩ := s
        obtain ⟨sc1, fns1, ld1⟩ := s1
        simp only at b1 ⊢
        rw [b1.1, b1.2.1, b1.2.2]
        simp

/-- A statement that is no `let` leaves the analyser state as it was. -/
theorem checkStmt_state (ret : Option Ty) (st : Stmt) (s : Sema) (d : List Expr) (s2 : Sema)
    (d2 : List Expr) (h : checkStmt ret s d st = Except.ok (s2, d2))
    (hl : ∀ name ann init u, st ≠ Stmt.SLet name ann init u) : s2 = s := by
  cases st with
  | SLet name ann init u => exact absurd rfl (hl name ann init u)
  | SExpr e =>
    simp only [checkStmt] at h
    split at h
    · simp at h
    · simp only [Except.ok.injEq, Prod.mk.injEq] at h
      exact h.1.symm
  | SReturn e =>
    simp only [checkStmt] at h
    split at h
    · simp at h
    · split at h
      · split at h
        · simp at h
        · simp only [Except.ok.injEq, Prod.mk.injEq] at h
          exact h.1.symm
      · split at h
        · simp at h
        · split at h
          · simp at h
          · split at h
            · simp at h
            · simp only [Except.ok.injEq, Prod.mk.injEq] at h
              exact h.1.symm
  | SIf cond thenStmts elseStmts => exact (checkStmt_block_scope ret _ _ _ _ _ _ _ h).1
  | SWhile cond body => exact (checkStmt_while_scope ret _ _ _ _ _ _ h).1
  | SDefer e =>
    simp only [checkStmt, Except.ok.injEq, Prod.mk.injEq] at h
    exact h.1.symm
  | SBreak =>
    simp only [checkStmt] at h
    split at h
    · simp at h
    · simp only [Except.ok.injEq, Prod.mk.injEq] at h
      exact h.1.symm
  | SContinue =>
    simp only [checkStmt] at h
    split at h
    · simp at h
    · simp only [Except.ok.injEq, Prod.mk.injEq] at h
      exact h.1.symm

/-- What a `let` that is accepted does to the analyser state. -/
theorem checkStmt_let_state (ret : Option Ty) (name : String) (ann : Option Ty) (init : Expr)
    (u : Bool) (s : Sema) (d : List Expr) (s2 : Sema) (d2 : List Expr)
    (h : checkStmt ret s d (Stmt.SLet name ann init u) = Except.ok (s2, d2)) :
    ∃ m rest t, s.scope.stack = m :: rest ∧ m.lookup name = none ∧
      declaredType s.scope s.fns ann init = Except.ok t ∧ t.k ≠ TyKind.Void ∧
      s2 = { s with scope := ⟨((name, { ty := t, isUnique := u }) :: m) :: rest⟩ } := by
  rw [checkStmt_let] at h
  split at h
  · simp at h
  · rename_i t ht
    split at h
    · simp at h
    · rename_i hv
      split at h
      · simp at h
      · rename_i sc hdecl
        obtain ⟨m, rest, hst, hm, hsc⟩ := Scope.declare_stack _ _ _ _ _ hdecl
        have hm2 : m.lookup name = none := by
          cases hq : m.lookup name with
          | none => rfl
          | some v => simp [hq] at hm
        have hsc2 : sc = ⟨((name, { ty := t, isUnique := u }) :: m) :: rest⟩ := by
          obtain ⟨st⟩ := sc
          simp only at hsc
          rw [hsc]
        refine ⟨m, rest, t, hst, hm2, by assumption, hv, ?_⟩
        split at h <;>
        · simp only [Except.ok.injEq, Prod.mk.injEq] at h
          rw [← h.1, hsc2]

/-- C36.  Whenever `checkStmt` returns normally, the scope stack has the depth
it had before and `loopDepth` its value; every frame below the innermost is
unchanged.  A statement that is no `let` leaves the whole stack unchanged; a
`let` adds exactly one binding, of its name with the declared type, to the
innermost frame, which did not bind the name.  After an `if` or a `while` a
lookup of any name gives what it gave before the statement: `leakIf` and
`leakWhile`, which use after a block a name declared in it, are rejected, and
in `shadowIf` the name stands for the outer variable after the block. -/
theorem checkStmt_restores (ret : Option Ty) (st : Stmt) (s : Sema) (d : List Expr)
    (s2 : Sema) (d2 : List Expr) (h : checkStmt ret s d st = Except.ok (s2, d2)) :
    s2.scope.stack.length = s.scope.stack.length ∧ s2.loopDepth = s.loopDepth ∧
    s2.fns = s.fns ∧ s2.scope.stack.tail = s.scope.stack.tail ∧
    ((∀ name ann init u, st ≠ Stmt.SLet name ann init u) → s2 = s) ∧
    (∀ name ann init u, st = Stmt.SLet name ann init u →
      ∃ m rest t, s.scope.stack = m :: rest ∧ m.lookup name = none ∧
        declaredType s.scope s.fns ann init = Except.ok t ∧
        s2.scope.stack = ((name, { ty := t, isUnique := u }) :: m) :: rest) ∧
    ((∃ cond thenStmts elseStmts, st = Stmt.SIf cond thenStmts elseStmts) ∨
      (∃ cond body, st = Stmt.SWhile cond body) →
      ∀ n, s2.scope.lookup n = s.scope.lookup n) ∧
    analyze leakIf = Except.error "unknown variable: y" ∧
    analyze leakWhile = Except.error "unknown variable: y" ∧
    (analyze shadowIf).isOk = true := by
  have hlet : ∀ name ann init u, st = Stmt.SLet name ann init u →
      ∃ m rest t, s.scope.stack = m :: rest ∧ m.lookup name = none ∧
        declaredType s.scope s.fns ann init = Except.ok t ∧
        s2.scope.stack = ((name, { ty := t, isUnique := u }) :: m) :: rest := by
    intro name ann init u hst
    subst hst
    obtain ⟨m, rest, t, h1, h2, h3, _, h5⟩ := checkStmt_let_state ret _ _ _ _ _ _ _ _ h
    exact ⟨m, rest, t, h1, h2, h3, by rw [h5]⟩
  have hother := checkStmt_state ret st s d s2 d2 h
  have hf := checkStmt_frame ret st s d s2 d2 h
  have hstack : s2.scope.stack.length = s.scope.stack.length ∧
      s2.scope.stack.tail = s.scope.stack.tail := by
    by_cases hl : ∃ name ann init u, st = Stmt.SLet name ann init u
    · obtain ⟨name, ann, init, u, hst⟩ := hl
      obtain ⟨m, rest, t, h1, _, _, h4⟩ := hlet name ann init u hst
      rw [h1, h4]
      exact ⟨rfl, rfl⟩
    · have := hother (fun name ann init u e => hl ⟨name, ann, init, u, e⟩)
      rw [this]
      exact ⟨rfl, rfl⟩
  refine ⟨hstack.1, hf.2.1, hf.1, hstack.2, hother, hlet, ?_, ?_, ?_, ?_⟩
  · rintro (⟨cond, thenStmts, elseStmts, rfl⟩ | ⟨cond, body, rfl⟩) n
    · rw [hother (fun _ _ _ _ e => by cases e)]
    · rw [hother (fun _ _ _ _ e => by cases e)]
  · simp [analyze, leakIf, Sema.fresh, Sema.primaries, FnTable.set, gatherSigs, gatherParams,
      checkBodies, declareParams, checkStmts, checkStmt, infer, inferArgs, inferElems,
      Scope.init, Scope.push, Scope.pop, Scope.declare, Scope.lookup, Scope.lookupIn,
      List.lookup, isVoid, Ty.k, Ty.i64, Ty.boolean, Ty.clone, Ty.equals]
  · simp [analyze, leakWhile, Sema.fresh, Sema.primaries, FnTable.set, gatherSigs, gatherParams,
      checkBodies, declareParams, checkStmts, checkStmt, infer, inferArgs, inferElems,
      Scope.init, Scope.push, Scope.pop, Scope.declare, Scope.lookup, Scope.lookupIn,
      List.lookup, isVoid, Ty.k, Ty.i64, Ty.boolean, Ty.clone, Ty.equals]
  · simp [analyze, shadowIf, Sema.fresh, Sema.primaries, FnTable.set, gatherSigs, gatherParams,
      checkBodies, declareParams, checkStmts, checkStmt, infer, inferArgs, inferElems,
      Scope.init, Scope.push, Scope.pop, Scope.declare, Scope.lookup, Scope.lookupIn,
      List.lookup, isVoid, Ty.k, Ty.i64, Ty.boolean, Ty.clone, Ty.equals, Except.isOk,
      Except.toBool]

theorem checkStmt_let_example :
    checkStmt (some Ty.i64) ⟨⟨[[], []]⟩, Sema.fresh.primaries.fns, 0⟩ []
      (Stmt.SLet "y" none (Expr.EInt 1) false) =
    Except.ok (⟨⟨[[("y", { ty := Ty.i64, isUnique := false })], []]⟩,
      Sema.fresh.primaries.fns, 0⟩, []) := by
  simp [checkStmt, infer, Scope.declare, Scope.lookup, Scope.lookupIn, List.lookup, isVoid,
    Ty.k, Ty.i64, Ty.clone]

/-- C36 (witness): a `let` checked in the state in which the body of a function
without parameters starts. -/
theorem checkStmt_restores_witness :
    checkStmt (some Ty.i64) ⟨⟨[[], []]⟩, Sema.fresh.primaries.fns, 0⟩ []
      (Stmt.SLet "y" none (Expr.EInt 1) false) =
    Except.ok (⟨⟨[[("y", { ty := Ty.i64, isUnique := false })], []]⟩,
      Sema.fresh.primaries.fns, 0⟩, []) ∧
    [[("y", ({ ty := Ty.i64, isUnique := false } : VarInfo))], []].length =
      ([[], []] : List (List (String × VarInfo))).length :=
  ⟨checkStmt_let_example,
   (checkStmt_restores (some Ty.i64) (Stmt.SLet "y" none (Expr.EInt 1) false)
    ⟨⟨[[], []]⟩, Sema.fresh.primaries.fns, 0⟩ []
    ⟨⟨[[("y", { ty := Ty.i64, isUnique := false })], []]⟩, Sema.fresh.primaries.fns, 0⟩ []
    checkStmt_let_example).1⟩

/-! ## Assignment targets -/

theorem assignLit_lexes : lexString assignLitSrc = some (Except.ok assignLitToks) := by decide!

set_option maxRecDepth 100000 in
theorem assignLit_parses : parseSource assignLitSrc = some (Except.ok assignLit) := by
  simp only [parseSource, assignLit_lexes]
  rfl

/-- The rule of the checker for `l = r`: only the two operand types count. -/
theorem infer_assign_types (scope : Scope) (fns : FnTable) (l r : Expr) (t : Ty) :
    infer scope fns (Expr.EBin l TokKind.Eq r) = Except.ok t ↔
      ∃ tl tr, infer scope fns l = Except.ok tl ∧ infer scope fns r = Except.ok tr ∧
        isVoid tr = false ∧ tl.equals tr = true ∧ t = tl := by
  simp only [infer, if_true]
  cases hl : infer scope fns l with
  | error m => simp
  | ok tl =>
    cases hr : infer scope fns r with
    | error m => simp
    | ok tr =>
      have hc : (Except.ok tl : Except String Ty) = Except.ok t ↔ t = tl :=
        ⟨fun h => (Except.ok.inj h).symm, fun h => by rw [h]⟩
      cases hvd : isVoid tr <;> cases hq : tl.equals tr <;> simp [hc, hvd, hq]

/-- The emitter on an assignment whose target is neither a variable nor an
index expression. -/
theorem genExpr_assign_target (lhs rhs : Expr) (s : CG) (hv : ∀ n, lhs ≠ Expr.EVar n)
    (hi : ∀ a i, lhs ≠ Expr.EIndex a i) :
    genExpr (Expr.EBin lhs TokKind.Eq rhs) s =
      Except.error "assignment target must be a variable" := by
  cases lhs with
  | EVar n => exact absurd rfl (hv n)
  | EIndex a i => exact absurd rfl (hi a i)
  | _ => simp [genExpr, Gen.fatal]

/-- C38.  The rule of the checker for `l = r` compares the types of `l` and `r`
and asks nothing else of `l`.  The text `fn f() -> i64 { 1 = 2; return 0; }`
parses to `assignLit`, whose assignment target is an integer literal; the
checker accepts it, and the emitter stops with "assignment target must be a
variable", as it does on every assignment whose target is neither a variable
nor an index expression. -/
theorem assignment_target_unchecked :
    (∀ (scope : Scope) (fns : FnTable) (l r : Expr) (t : Ty),
      infer scope fns (Expr.EBin l TokKind.Eq r) = Except.ok t ↔
        ∃ tl tr, infer scope fns l = Except.ok tl ∧ infer scope fns r = Except.ok tr ∧
          isVoid tr = false ∧ tl.equals tr = true ∧ t = tl) ∧
    (∀ (scope : Scope) (fns : FnTable),
      infer scope fns (Expr.EBin (Expr.EInt 1) TokKind.Eq (Expr.EInt 2)) = Except.ok Ty.i64) ∧
    parseSource assignLitSrc = some (Except.ok assignLit) ∧
    (analyze assignLit).isOk = true ∧
    emit assignLit = Except.error "assignment target must be a variable" ∧
    (∀ (lhs rhs : Expr) (s : CG), (∀ n, lhs ≠ Expr.EVar n) → (∀ a i, lhs ≠ Expr.EIndex a i) →
      genExpr (Expr.EBin lhs TokKind.Eq rhs) s =
        Except.error "assignment target must be a variable") := by
  refine ⟨infer_assign_types, ?_, assignLit_parses, by decide!, by decide!,
    genExpr_assign_target⟩
  intro scope fns
  simp [infer, isVoid, Ty.i64, Ty.k, Ty.equals]

/-! ## Functions that share a name -/

theorem lastNamed_none : ∀ (fs : List Func) (n : String),
    lastNamed fs n = none ↔ ∀ g ∈ fs, g.name ≠ n
  | [], n => by simp [lastNamed]
  | f :: rest, n => by
    simp only [lastNamed, List.mem_cons, forall_eq_or_imp]
    cases h : lastNamed rest n with
    | some g =>
      have := (lastNamed_none rest n).not.mp (by rw [h]; simp)
      simp [this]
    | none =>
      have := (lastNamed_none rest n).mp h
      by_cases hf : f.name = n
      · simp [hf]
      · simp only [hf, if_false, true_iff]
        exact ⟨hf, this⟩

/-- The function that `lastNamed` returns bears the name, and no function after
it in the list does. -/
theorem lastNamed_some : ∀ (fs : List Func) (n : String) (f : Func),
    lastNamed fs n = some f →
      ∃ pre post, fs = pre ++ f :: post ∧ f.name = n ∧ ∀ g ∈ post, g.name ≠ n
  | [], n, f, h => by simp [lastNamed] at h
  | f0 :: rest, n, f, h => by
    simp only [lastNamed] at h
    cases hr : lastNamed rest n with
    | some g =>
      rw [hr] at h
      simp only [Option.some.injEq] at h
      subst h
      obtain ⟨pre, post, e, hn, hp⟩ := lastNamed_some rest n g hr
      exact ⟨f0 :: pre, post, by rw [e]; rfl, hn, hp⟩
    | none =>
      rw [hr] at h
      simp only at h
      split at h
      · rename_i hf
        simp only [Option.some.injEq] at h
        subst h
        exact ⟨[], rest, rfl, hf, (lastNamed_none rest n).mp hr⟩
      · simp at h

/-- After the signature pass the table maps a name to the signature of the last
function of the program with that name, and a name that no function bears to
what it mapped it to before. -/
theorem gatherSigs_find_last : ∀ (fs : List Func) (fns T : FnTable),
    gatherSigs fns fs = Except.ok T → ∀ n,
      T.find n = match lastNamed fs n with
        | some f => some f.sig
        | none => fns.find n
  | [], fns, T, h, n => by
    simp only [gatherSigs, Except.ok.injEq] at h
    simp [lastNamed, h]
  | fn :: rest, fns, T, h, n => by
    simp only [gatherSigs] at h
    split at h
    · simp at h
    · rename_i ps hps
      rw [gatherSigs_find_last rest _ T h n]
      simp only [lastNamed]
      cases hr : lastNamed rest n with
      | some g => rfl
      | none =>
        simp only [FnTable.find_set]
        by_cases hf : fn.name = n
        · have hf2 : n = fn.name := hf.symm
          simp [hf, Func.sig, gatherParams_ok _ _ hps]
        · have hf2 : ¬ (n = fn.name) := fun e => hf e.symm
          simp [hf, hf2]

/-- C39.  The signature pass of `Sema::analyze` fails only on a parameter of
type `void`, whatever the names of the functions are; after it the table maps
every name to the signature of the last function of the program with that
name, and a name that no function of the program bears to what `primaries`
stored.  So `Sema::analyze` accepts a program exactly when no parameter is
`void` and every body passes the check against such a table, and a call of a
name that a function of the program bears is checked against the signature of
the last such function.  `dupLast` and `dupBetween`, with two functions `f` and
a call that fits the second, are accepted; `dupFirst`, whose call fits the
first, and `dupSwapped` are rejected by the check of the call; `builtinRedefined`
declares `print_i64` anew and is accepted, and the call `print_i64(1)` is then
rejected. -/
theorem duplicate_names_accepted :
    (∀ (fs : List Func) (fns : FnTable),
      (gatherSigs fns fs).isOk = true ↔ ∀ f ∈ fs, ∀ pr ∈ f.params, pr.ty.k ≠ TyKind.Void) ∧
    (∀ (fs : List Func) (fns T : FnTable), gatherSigs fns fs = Except.ok T → ∀ n,
      T.find n = match lastNamed fs n with
        | some f => some f.sig
        | none => fns.find n) ∧
    (∀ (fs : List Func) (n : String) (f : Func), lastNamed fs n = some f →
      ∃ pre post, fs = pre ++ f :: post ∧ f.name = n ∧ ∀ g ∈ post, g.name ≠ n) ∧
    (∀ (fs : List Func) (n : String), lastNamed fs n = none ↔ ∀ g ∈ fs, g.name ≠ n) ∧
    (∀ p : Program, (analyze p).isOk = true ↔
      (∀ f ∈ p.funcs, ∀ pr ∈ f.params, pr.ty.k ≠ TyKind.Void) ∧
      ∃ T : FnTable,
        (∀ n, T.find n = match lastNamed p.funcs n with
          | some f => some f.sig
          | none => Sema.fresh.primaries.fns.find n) ∧
        ∀ f ∈ p.funcs, bodyOk T f = true) ∧
    (∀ (fs : List Func) (fns T : FnTable) (f : Func) (scope : Scope) (args : List Expr),
      gatherSigs fns fs = Except.ok T → lastNamed fs f.name = some f →
      infer scope T (Expr.ECall f.name args) =
        if args.length ≠ f.params.length then
          Except.error ("wrong number of arguments to " ++ f.name)
        else
          match inferArgs scope T f.name 0 args (f.params.map (fun pr => pr.ty)) with
          | Except.error m => Except.error m
          | Except.ok _ => Except.ok f.ret) ∧
    (analyze dupLast).isOk = true ∧
    (analyze dupBetween).isOk = true ∧
    analyze dupFirst = Except.error "wrong number of arguments to f" ∧
    analyze dupSwapped = Except.error "wrong number of arguments to f" ∧
    (analyze builtinRedefined).isOk = true ∧
    analyze builtinRedefinedOld = Except.error "argument 1 type mismatch in print_i64" := by
  refine ⟨gatherSigs_isOk, gatherSigs_find_last, lastNamed_some, lastNamed_none, ?_, ?_,
    by decide!, by decide!, rfl, rfl, by decide!, rfl⟩
  · intro p
    rw [analyze_isOk]
    constructor
    · rintro ⟨T, hT, hb⟩
      exact ⟨(gatherSigs_isOk _ _).mp ((isOk_iff _).mpr ⟨T, hT⟩), T,
        gatherSigs_find_last _ _ _ hT, hb⟩
    · rintro ⟨hv, T, hT, hb⟩
      obtain ⟨U, hU⟩ := (isOk_iff _).mp ((gatherSigs_isOk p.funcs Sema.fresh.primaries.fns).mpr hv)
      refine ⟨U, hU, fun f hf => ?_⟩
      rw [← hb f hf]
      exact bodyOk_congr U T (fun n => by rw [gatherSigs_find_last _ _ _ hU n, hT n]) f
  · intro fs fns T f scope args hT hl
    have hfind := gatherSigs_find_last fs fns T hT f.name
    rw [hl] at hfind
    by_cases hlen : args.length = f.params.length
    · simp only [infer, hfind, Func.sig, Ty.clone_eq, List.length_map, hlen, ne_eq,
        not_true_eq_false, if_false]
    · simp [infer, hfind, Func.sig, Ty.clone_eq, hlen]

/-! ## The type written in `unique<T>` -/

theorem uniqueBool_lexes : lexString uniqueBoolSrc = some (Except.ok uniqueBoolToks) := by decide!

set_option maxRecDepth 100000 in
theorem uniqueBool_parses : parseSource uniqueBoolSrc = some (Except.ok letUnique) := by
  simp only [parseSource, uniqueBool_lexes]
  rfl

theorem uniqueArr_lexes : lexString uniqueArrSrc = some (Except.ok uniqueArrToks) := by decide!

set_option maxRecDepth 100000 in
theorem uniqueArr_parses : parseSource uniqueArrSrc = some (Except.ok letUnique) := by
  simp only [parseSource, uniqueArr_lexes]
  rfl

theorem plainLet_lexes : lexString plainLetSrc = some (Except.ok plainLetToks) := by decide!

set_option maxRecDepth 100000 in
theorem plainLet_parses : parseSource plainLetSrc = some (Except.ok letPlain) := by
  simp only [parseSource, plainLet_lexes]
  rfl

theorem uniqueBoolAnn_lexes : lexString uniqueBoolAnnSrc = some (Except.ok uniqueBoolAnnToks) := by decide!

set_option maxRecDepth 100000 in
theorem uniqueBoolAnn_parses : parseSource uniqueBoolAnnSrc = some (Except.ok letUniqueAnn) := by
  simp only [parseSource, uniqueBoolAnn_lexes]
  rfl

theorem plainLetAnn_lexes : lexString plainLetAnnSrc = some (Except.ok plainLetAnnToks) := by decide!

set_option maxRecDepth 100000 in
theorem plainLetAnn_parses : parseSource plainLetAnnSrc = some (Except.ok letPlainAnn) := by
  simp only [parseSource, plainLetAnn_lexes]
  rfl

/-- A `let` with `unique<T>` parses as the `let` without it does, the mark
`isUnique` apart. -/
theorem parseStmt_unique (fuel : Nat) (tlet tuniq tlt tgt : Token) (A tail : List Token) (T : Ty)
    (hlet : tlet.kind = TokKind.KwLet) (hu : tuniq.kind = TokKind.KwUnique)
    (hlt : tlt.kind = TokKind.Lt) (hgt : tgt.kind = TokKind.Gt)
    (hT : parseType fuel A = Except.ok (T, tgt :: tail))
    (hn : tail.head?.map (fun t => t.kind) ≠ some TokKind.KwUnique) :
    parseStmt (fuel + 1) (tlet :: tuniq :: tlt :: A) =
      match parseStmt (fuel + 1) (tlet :: tail) with
      | Except.ok (Stmt.SLet n ann init _, r) => Except.ok (Stmt.SLet n ann init true, r)
      | other => other := by
  have e1 : expect TokKind.Lt "'<'" (tlt :: A) = Except.ok A := by simp [expect, hlt]
  have e2 : expect TokKind.Gt "'>'" (tgt :: tail) = Except.ok tail := by simp [expect, hgt]
  cases tail with
  | nil => simp [parseStmt, hlet, hu, e1, hT, e2]
  | cons tn rest =>
    have hk : tn.kind ≠ TokKind.KwUnique := fun e => hn (by simp [e])
    simp only [parseStmt, hlet, hu, e1, hT, e2, if_true, hk, if_false]
    by_cases hid : tn.kind = TokKind.Ident
    · simp only [hid, ne_eq, not_true_eq_false, if_false]
      cases rest with
      | nil => rfl
      | cons t2 rest6 =>
        simp only
        by_cases hc : t2.kind = TokKind.Colon
        · simp only [hc, if_true]
          cases parseType fuel rest6 with
          | error e => rfl
          | ok a =>
            obtain ⟨ann, rest7⟩ := a
            simp only
            cases expect TokKind.Eq "'='" rest7 with
            | error e => rfl
            | ok rest9 =>
              simp only
              cases parseExpr fuel rest9 with
              | error e => rfl
              | ok b =>
                obtain ⟨init, rest10⟩ := b
                simp only
                cases expect TokKind.Semicolon "';'" rest10 with
                | error e => rfl
                | ok rest11 => rfl
        · simp only [hc, if_false]
          cases expect TokKind.Eq "'='" (t2 :: rest6) with
          | error e => rfl
          | ok rest9 =>
            simp only
            cases parseExpr fuel rest9 with
            | error e => rfl
            | ok b =>
              obtain ⟨init, rest10⟩ := b
              simp only
              cases expect TokKind.Semicolon "';'" rest10 with
              | error e => rfl
              | ok rest11 => rfl
    · simp [hid]

/-- A `let` without `unique` parses to an `SLet` that is not marked. -/
theorem parseStmt_let_plain (fuel : Nat) (tlet : Token) (tail : List Token)
    (hlet : tlet.kind = TokKind.KwLet)
    (hn : tail.head?.map (fun t => t.kind) ≠ some TokKind.KwUnique) (st : Stmt)
    (r : List Token) (h : parseStmt (fuel + 1) (tlet :: tail) = Except.ok (st, r)) :
    ∃ n ann init, st = Stmt.SLet n ann init false := by
  cases tail with
  | nil => simp [parseStmt, hlet] at h
  | cons tn rest =>
    have hk : tn.kind ≠ TokKind.KwUnique := fun e => hn (by simp [e])
    simp only [parseStmt, hlet, if_true, hk, if_false] at h
    split at h
    · simp at h
    · split at h
      · simp at h
      · split at h
        · simp at h
        · split at h
          · simp at h
          · split at h
            · simp at h
            · simp only [Except.ok.injEq, Prod.mk.injEq] at h
              exact ⟨_, _, _, h.1.symm⟩

theorem Scope.lookup_declared (m : Frame) (rest : List Frame) (n : String) (v : VarInfo) :
    Scope.lookup ⟨((n, v) :: m) :: rest⟩ n = some v := by
  simp [Scope.lookup, Scope.lookupIn, List.lookup]

/-- C31.  Let the tokens `A` hold a type `T` followed by `>` and the tokens
`tail`.  Then `let unique<` followed by `A` parses to what `let` followed by
`tail` parses to, with `isUnique` true instead of false and with the same
error when there is one; `T` does not occur in the result.  The checker gives
the variable of an accepted `let` the annotation, if there is one, and
otherwise the inferred type of the initializer, accepts a marked `let`
exactly when it accepts the unmarked one, and records the mark.  The texts
`let unique<bool> x = 1;` and `let unique<ptr<i32>[7]> x = 1;` parse to the
same `SLet`, that of `let x = 1;` with `isUnique` true, and likewise with the
annotation `: i64`. -/
theorem unique_type_ignored (fuel : Nat) (tlet tuniq tlt tgt : Token) (A tail : List Token)
    (T : Ty) (hlet : tlet.kind = TokKind.KwLet) (hu : tuniq.kind = TokKind.KwUnique)
    (hlt : tlt.kind = TokKind.Lt) (hgt : tgt.kind = TokKind.Gt)
    (hT : parseType fuel A = Except.ok (T, tgt :: tail))
    (hn : tail.head?.map (fun t => t.kind) ≠ some TokKind.KwUnique) :
    (parseStmt (fuel + 1) (tlet :: tuniq :: tlt :: A) =
      match parseStmt (fuel + 1) (tlet :: tail) with
      | Except.ok (Stmt.SLet n ann init _, r) => Except.ok (Stmt.SLet n ann init true, r)
      | other => other) ∧
    (∀ st r, parseStmt (fuel + 1) (tlet :: tail) = Except.ok (st, r) →
      ∃ n ann init, st = Stmt.SLet n ann init false) ∧
    (∀ (ret : Option Ty) (s : Sema) (d : List Expr) (n : String) (ann : Option Ty)
      (init : Expr) (u : Bool) (s2 : Sema) (d2 : List Expr),
      checkStmt ret s d (Stmt.SLet n ann init u) = Except.ok (s2, d2) →
        ∃ t, declaredType s.scope s.fns ann init = Except.ok t ∧
          s2.scope.lookup n = some { ty := t, isUnique := u }) ∧
    (∀ (sc : Scope) (fns : FnTable) (U : Ty) (init : Expr),
      declaredType sc fns (some U) init = Except.ok U) ∧
    (∀ (sc : Scope) (fns : FnTable) (init : Expr),
      declaredType sc fns none init = infer sc fns init) ∧
    (∀ (ret : Option Ty) (s : Sema) (d : List Expr) (n : String) (ann : Option Ty)
      (init : Expr),
      (checkStmt ret s d (Stmt.SLet n ann init true)).isOk =
        (checkStmt ret s d (Stmt.SLet n ann init false)).isOk) ∧
    parseSource plainLetSrc = some (Except.ok letPlain) ∧
    parseSource uniqueBoolSrc = some (Except.ok letUnique) ∧
    parseSource uniqueArrSrc = some (Except.ok letUnique) ∧
    parseSource plainLetAnnSrc = some (Except.ok letPlainAnn) ∧
    parseSource uniqueBoolAnnSrc = some (Except.ok letUniqueAnn) := by
  refine ⟨parseStmt_unique fuel tlet tuniq tlt tgt A tail T hlet hu hlt hgt hT hn,
    parseStmt_let_plain fuel tlet tail hlet hn, ?_, ?_, ?_, ?_, plainLet_parses,
    uniqueBool_parses, uniqueArr_parses, plainLetAnn_parses, uniqueBoolAnn_parses⟩
  · intro ret s d n ann init u s2 d2 h
    obtain ⟨m, rest, t, _, _, h3, _, h5⟩ := checkStmt_let_state ret n ann init u s d s2 d2 h
    refine ⟨t, h3, ?_⟩
    rw [h5]
    exact Scope.lookup_declared m rest n _
  · intro sc fns U init
    simp [declaredType, Ty.clone_eq]
  · intro sc fns init
    rfl
  · intro ret s d n ann init
    rw [checkStmt_let, checkStmt_let]
    cases declaredType s.scope s.fns ann init with
    | error m => rfl
    | ok t =>
      simp only
      by_cases hv : t.k = TyKind.Void
      · simp [hv]
      · simp only [hv, if_false]
        cases hs : s.scope.stack with
        | nil =>
          have e : ∀ u, s.scope.declare n t u = (false, s.scope) := by
            intro u
            simp [Scope.declare, hs]
          rw [e, e]
        | cons m rest =>
          have hsc : s.scope = ⟨m :: rest⟩ := by
            obtain ⟨sc, fns, ld⟩ := s
            obtain ⟨st⟩ := sc
            simp only at hs
            rw [hs]
          rw [hsc]
          cases hb : (m.lookup n).isSome with
          | true => rw [Scope.declare_bound m rest n t _ hb, Scope.declare_bound m rest n t _ hb]
          | false =>
            rw [Scope.declare_fresh m rest n t _ hb, Scope.declare_fresh m rest n t _ hb]
            rfl

/-- C31 (witness): the tokens of `let unique<bool> x = 1;` followed by the end
of the file. -/
theorem unique_type_ignored_witness :
    parseStmt 8 [⟨TokKind.KwLet, "let", 0, 1, 1⟩, ⟨TokKind.KwUnique, "unique", 0, 1, 5⟩,
        ⟨TokKind.Lt, "", 0, 1, 11⟩, ⟨TokKind.KwBool, "bool", 0, 1, 12⟩,
        ⟨TokKind.Gt, "", 0, 1, 16⟩, ⟨TokKind.Ident, "x", 0, 1, 18⟩, ⟨TokKind.Eq, "", 0, 1, 20⟩,
        ⟨TokKind.IntLit, "1", 1, 1, 22⟩, ⟨TokKind.Semicolon, "", 0, 1, 23⟩,
        ⟨TokKind.Eof, "", 0, 1, 24⟩] =
      match parseStmt 8 [⟨TokKind.KwLet, "let", 0, 1, 1⟩, ⟨TokKind.Ident, "x", 0, 1, 18⟩,
        ⟨TokKind.Eq, "", 0, 1, 20⟩, ⟨TokKind.IntLit, "1", 1, 1, 22⟩,
        ⟨TokKind.Semicolon, "", 0, 1, 23⟩, ⟨TokKind.Eof, "", 0, 1, 24⟩] with
      | Except.ok (Stmt.SLet n ann init _, r) => Except.ok (Stmt.SLet n ann init true, r)
      | other => other :=
  (unique_type_ignored 7 ⟨TokKind.KwLet, "let", 0, 1, 1⟩ ⟨TokKind.KwUnique, "unique", 0, 1, 5⟩
    ⟨TokKind.Lt, "", 0, 1, 11⟩ ⟨TokKind.Gt, "", 0, 1, 16⟩
    [⟨TokKind.KwBool, "bool", 0, 1, 12⟩, ⟨TokKind.Gt, "", 0, 1, 16⟩,
      ⟨TokKind.Ident, "x", 0, 1, 18⟩, ⟨TokKind.Eq, "", 0, 1, 20⟩,
      ⟨TokKind.IntLit, "1", 1, 1, 22⟩, ⟨TokKind.Semicolon, "", 0, 1, 23⟩,
      ⟨TokKind.Eof, "", 0, 1, 24⟩]
    [⟨TokKind.Ident, "x", 0, 1, 18⟩, ⟨TokKind.Eq, "", 0, 1, 20⟩,
      ⟨TokKind.IntLit, "1", 1, 1, 22⟩, ⟨TokKind.Semicolon, "", 0, 1, 23⟩,
      ⟨TokKind.Eof, "", 0, 1, 24⟩]
    Ty.boolean rfl rfl rfl rfl rfl (by decide)).1

theorem NoEof.nil : NoEof [] := fun _ h => absurd h (List.not_mem_nil _)

theorem Drops.refl (ts : List Token) : Drops ts ts := ⟨[], rfl, NoEof.nil⟩

theorem Drops.trans {a b c : List Token} (h1 : Drops a b) (h2 : Drops b c) : Drops a c := by
  obtain ⟨p1, e1, n1⟩ := h1
  obtain ⟨p2, e2, n2⟩ := h2
  refine ⟨p1 ++ p2, by rw [e1, e2, List.append_assoc], ?_⟩
  intro t ht
  rcases List.mem_append.mp ht with h | h
  · exact n1 t h
  · exact n2 t h

theorem Drops.cons {t : Token} {rest c : List Token} (hk : t.kind ≠ TokKind.Eof)
    (h : Drops rest c) : Drops (t :: rest) c := by
  obtain ⟨p, e, n⟩ := h
  refine ⟨t :: p, by rw [e]; rfl, ?_⟩
  intro x hx
  rcases List.mem_cons.mp hx with h | h
  · rw [h]; exact hk
  · exact n x h

theorem Drops.length_le {a b : List Token} (h : Drops a b) : b.length ≤ a.length := by
  obtain ⟨p, e, _⟩ := h
  rw [e, List.length_append]
  omega

theorem Drops.noEof {a b : List Token} (h : Drops a b) (hb : NoEof b) : NoEof a := by
  obtain ⟨p, e, n⟩ := h
  intro t ht
  rw [e] at ht
  rcases List.mem_append.mp ht with h | h
  · exact n t h
  · exact hb t h

theorem NoEof.consTok {t : Token} {rest : List Token} (hk : t.kind ≠ TokKind.Eof)
    (h : NoEof rest) : NoEof (t :: rest) := by
  intro x hx
  rcases List.mem_cons.mp hx with h1 | h1
  · rw [h1]; exact hk
  · exact h x h1

/-- The leaf of a parsing function that returns without reading. -/
theorem Fine.done {α : Type} (cur : List Token) (a fuel : Nat) (v : α) :
    Fine cur a fuel 0 (Except.ok (v, cur)) := ⟨Drops.refl cur, Nat.le_refl _⟩

theorem Fine.fatal {α : Type} (cur : List Token) (a fuel g : Nat) (m : String) :
    Fine cur a fuel g (Except.error (PErr.fatal m) : PRes α) := trivial

theorem Fine.oob {α : Type} (a fuel g : Nat) :
    Fine [] a fuel g (Except.error PErr.outOfBounds : PRes α) := NoEof.nil

theorem Fine.noFuel {α : Type} (cur : List Token) (a g : Nat) (h : 0 < a) :
    Fine cur a 0 g (Except.error PErr.outOfFuel : PRes α) := by
  show 0 < 16 * cur.length + a
  omega

/-- A result that is fine for one bound is fine for every weaker bound. -/
theorem Fine.mono {α : Type} {cur : List Token} {a fuel g a1 fuel1 g1 : Nat} {r : PRes α}
    (h : Fine cur a1 fuel1 g1 r) (hb : a1 + fuel ≤ a + fuel1) (hg : g ≤ g1) :
    Fine cur a fuel g r := by
  cases r with
  | ok p =>
    obtain ⟨v, rest⟩ := p
    exact ⟨h.1, Nat.le_trans (Nat.add_le_add_left hg _) h.2⟩
  | error e =>
    cases e with
    | fatal m => trivial
    | outOfBounds => exact h
    | outOfFuel =>
      have h1 : fuel1 < 16 * cur.length + a1 := h
      show fuel < 16 * cur.length + a
      omega

/-- An error of a sub-parser, passed on. -/
theorem Fine.error {α β : Type} {cur : List Token} {a fuel g a1 fuel1 g1 : Nat} {e : PErr}
    (h : Fine cur a1 fuel1 g1 (Except.error e : PRes α)) (hb : a1 + fuel ≤ a + fuel1) :
    Fine cur a fuel g (Except.error e : PRes β) := by
  cases e with
  | fatal m => trivial
  | outOfBounds => exact h
  | outOfFuel =>
    have h1 : fuel1 < 16 * cur.length + a1 := h
    show fuel < 16 * cur.length + a
    omega

/-- What follows a token that is read. -/
theorem Fine.step {α : Type} {t : Token} {rest : List Token} {a fuel g : Nat} {r : PRes α}
    (hk : t.kind ≠ TokKind.Eof) (h : Fine rest (a + 16) fuel (g - 1) r) :
    Fine (t :: rest) a fuel g r := by
  cases r with
  | ok p =>
    obtain ⟨v, rest2⟩ := p
    refine ⟨Drops.cons hk h.1, ?_⟩
    have := h.2
    simp only [List.length_cons]
    omega
  | error e =>
    cases e with
    | fatal m => trivial
    | outOfBounds => exact NoEof.consTok hk h
    | outOfFuel =>
      have h1 : fuel < 16 * rest.length + (a + 16) := h
      show fuel < 16 * (t :: rest).length + a
      simp only [List.length_cons]
      omega

/-- What follows a sub-parser that returned. -/
theorem Fine.after {α β : Type} {cur rest : List Token} {a fuel g a1 fuel1 g1 : Nat} {v : α}
    {r : PRes β} (h : Fine cur a1 fuel1 g1 (Except.ok (v, rest)))
    (h2 : Fine rest (a + 16 * g1) fuel (g - g1) r) : Fine cur a fuel g r := by
  obtain ⟨hd, hl⟩ := h
  cases r with
  | ok p =>
    obtain ⟨w, rest2⟩ := p
    refine ⟨Drops.trans hd h2.1, ?_⟩
    have := h2.2
    omega
  | error e =>
    cases e with
    | fatal m => trivial
    | outOfBounds => exact Drops.noEof hd h2
    | outOfFuel =>
      have h1 : fuel < 16 * rest.length + (a + 16 * g1) := h2
      show fuel < 16 * cur.length + a
      omega

theorem expect_ok {k : TokKind} {msg : String} {cur rest : List Token}
    (h : expect k msg cur = Except.ok rest) : ∃ t, cur = t :: rest ∧ t.kind = k := by
  cases cur with
  | nil => simp [expect] at h
  | cons t r =>
    simp only [expect] at h
    split at h
    · rename_i hk
      simp only [Except.ok.injEq] at h
      exact ⟨t, by rw [h], hk⟩
    · simp at h

/-- An error of `expect`, passed on. -/
theorem Fine.expect_error {α : Type} {k : TokKind} {msg : String} {cur : List Token}
    {a fuel g : Nat} {e : PErr} (h : expect k msg cur = Except.error e) :
    Fine cur a fuel g (Except.error e : PRes α) := by
  cases cur with
  | nil =>
    simp only [expect, Except.error.injEq] at h
    rw [← h]
    exact NoEof.nil
  | cons t r =>
    simp only [expect] at h
    split at h
    · simp at h
    · simp only [Except.error.injEq] at h
      rw [← h]
      trivial

/-- What follows an `expect` that returned. -/
theorem Fine.expected {α : Type} {k : TokKind} {msg : String} {cur rest : List Token}
    {a fuel g : Nat} {r : PRes α} (hk : k ≠ TokKind.Eof)
    (h : expect k msg cur = Except.ok rest) (h2 : Fine rest (a + 16) fuel (g - 1) r) :
    Fine cur a fuel g r := by
  obtain ⟨t, rfl, ht⟩ := Aurora.expect_ok h
  exact Fine.step (by rw [ht]; exact hk) h2

theorem parseExpr_fine (fuel : Nat) (ih : ExprFine fuel) (toks : List Token) :
    Fine toks 11 (fuel + 1) 0 (parseExpr (fuel + 1) toks) := by
  simp only [parseExpr]
  exact Fine.mono (ih.assign toks) (by omega) (by omega)

theorem parseAssign_fine (fuel : Nat) (ih : ExprFine fuel) (toks : List Token) :
    Fine toks 10 (fuel + 1) 0 (parseAssign (fuel + 1) toks) := by
  simp only [parseAssign]
  have h1 := ih.disj toks
  split
  · rename_i e he
    rw [he] at h1
    exact Fine.error h1 (by omega)
  · rename_i v he
    rw [he] at h1
    exact Fine.after h1 (Fine.oob _ _ _)
  · rename_i lhs t rest he
    rw [he] at h1
    refine Fine.after h1 ?_
    split
    · rename_i c
      refine Fine.step (fun h => by rw [h] at c; exact absurd c (by decide)) ?_
      have h2 := ih.assign rest
      split
      · rename_i e he2
        rw [he2] at h2
        exact Fine.error h2 (by omega)
      · rename_i rhs rest2 he2
        rw [he2] at h2
        exact Fine.after h2 (Fine.done _ _ _ _)
    · split
      · rename_i c
        split
        · refine Fine.step (fun h => by rw [h] at c; exact absurd c (by decide)) ?_
          have h2 := ih.assign rest
          split
          · rename_i e he2
            rw [he2] at h2
            exact Fine.error h2 (by omega)
          · rename_i rhs rest2 he2
            rw [he2] at h2
            exact Fine.after h2 (Fine.done _ _ _ _)
        · exact Fine.fatal _ _ _ _ _
      · exact Fine.done _ _ _ _


theorem parseOr_fine (fuel : Nat) (ih : ExprFine fuel) (toks : List Token) :
    Fine toks 9 (fuel + 1) 0 (parseOr (fuel + 1) toks) := by
  simp only [parseOr]
  have h1 := ih.conj toks
  split
  · rename_i e he
    rw [he] at h1
    exact Fine.error h1 (by omega)
  · rename_i v rest he
    rw [he] at h1
    exact Fine.after h1 (Fine.mono (ih.disjLoop v rest) (by omega) (by omega))

theorem parseOrLoop_fine (fuel : Nat) (ih : ExprFine fuel) (e0 : Expr) (toks : List Token) :
    Fine toks 1 (fuel + 1) 0 (parseOrLoop (fuel + 1) e0 toks) := by
  cases toks with
  | nil =>
    simp only [parseOrLoop]
    exact Fine.oob _ _ _
  | cons t rest =>
    simp only [parseOrLoop]
    split
    · rename_i c
      refine Fine.step (fun h => by rw [h] at c; exact absurd c (by decide)) ?_
      have h1 := ih.conj rest
      split
      · rename_i e he
        rw [he] at h1
        exact Fine.error h1 (by omega)
      · rename_i r rest2 he
        rw [he] at h1
        exact Fine.after h1 (Fine.mono (ih.disjLoop _ rest2) (by omega) (by omega))
    · exact Fine.done _ _ _ _

theorem parseAnd_fine (fuel : Nat) (ih : ExprFine fuel) (toks : List Token) :
    Fine toks 8 (fuel + 1) 0 (parseAnd (fuel + 1) toks) := by
  simp only [parseAnd]
  have h1 := ih.eq toks
  split
  · rename_i e he
    rw [he] at h1
    exact Fine.error h1 (by omega)
  · rename_i v rest he
    rw [he] at h1
    exact Fine.after h1 (Fine.mono (ih.conjLoop v rest) (by omega) (by omega))

theorem parseAndLoop_fine (fuel : Nat) (ih : ExprFine fuel) (e0 : Expr) (toks : List Token) :
    Fine toks 1 (fuel + 1) 0 (parseAndLoop (fuel + 1) e0 toks) := by
  cases toks with
  | nil =>
    simp only [parseAndLoop]
    exact Fine.oob _ _ _
  | cons t rest =>
    simp only [parseAndLoop]
    split
    · rename_i c
      refine Fine.step (fun h => by rw [h] at c; exact absurd c (by decide)) ?_
      have h1 := ih.eq rest
      split
      · rename_i e he
        rw [he] at h1
        exact Fine.error h1 (by omega)
      · rename_i r rest2 he
        rw [he] at h1
        exact Fine.after h1 (Fine.mono (ih.conjLoop _ rest2) (by omega) (by omega))
    · exact Fine.done _ _ _ _

theorem parseEq_fine (fuel : Nat) (ih : ExprFine fuel) (toks : List Token) :
    Fine toks 7 (fuel + 1) 0 (parseEq (fuel + 1) toks) := by
  simp only [parseEq]
  have h1 := ih.rel toks
  split
  · rename_i e he
    rw [he] at h1
    exact Fine.error h1 (by omega)
  · rename_i v rest he
    rw [he] at h1
    exact Fine.after h1 (Fine.mono (ih.eqLoop v rest) (by omega) (by omega))

theorem parseEqLoop_fine (fuel : Nat) (ih : ExprFine fuel) (e0 : Expr) (toks : List Token) :
    Fine toks 1 (fuel + 1) 0 (parseEqLoop (fuel + 1) e0 toks) := by
  cases toks with
  | nil =>
    simp only [parseEqLoop]
    exact Fine.oob _ _ _
  | cons t rest =>
    simp only [parseEqLoop]
    split
    · rename_i c
      refine Fine.step (fun h => by rw [h] at c; exact absurd c (by decide)) ?_
      have h1 := ih.rel rest
      split
      · rename_i e he
        rw [he] at h1
        exact Fine.error h1 (by omega)
      · rename_i r rest2 he
        rw [he] at h1
        exact Fine.after h1 (Fine.mono (ih.eqLoop _ rest2) (by omega) (by omega))
    · exact Fine.done _ _ _ _

theorem parseRel_fine (fuel : Nat) (ih : ExprFine fuel) (toks : List Token) :
    Fine toks 6 (fuel + 1) 0 (parseRel (fuel + 1) toks) := by
  simp only [parseRel]
  have h1 := ih.add toks
  split
  · rename_i e he
    rw [he] at h1
    exact Fine.error h1 (by omega)
  · rename_i v rest he
    rw [he] at h1
    exact Fine.after h1 (Fine.mono (ih.relLoop v rest) (by omega) (by omega))

theorem parseRelLoop_fine (fuel : Nat) (ih : ExprFine fuel) (e0 : Expr) (toks : List Token) :
    Fine toks 1 (fuel + 1) 0 (parseRelLoop (fuel + 1) e0 toks) := by
  cases toks with
  | nil =>
    simp only [parseRelLoop]
    exact Fine.oob _ _ _
  | cons t rest =>
    simp only [parseRelLoop]
    split
    · rename_i c
      refine Fine.step (fun h => by rw [h] at c; exact absurd c (by decide)) ?_
      have h1 := ih.add rest
      split
      · rename_i e he
        rw [he] at h1
        exact Fine.error h1 (by omega)
      · rename_i r rest2 he
        rw [he] at h1
        exact Fine.after h1 (Fine.mono (ih.relLoop _ rest2) (by omega) (by omega))
    · exact Fine.done _ _ _ _

theorem parseAdd_fine (fuel : Nat) (ih : ExprFine fuel) (toks : List Token) :
    Fine toks 5 (fuel + 1) 0 (parseAdd (fuel + 1) toks) := by
  simp only [parseAdd]
  have h1 := ih.mul toks
  split
  · rename_i e he
    rw [he] at h1
    exact Fine.error h1 (by omega)
  · rename_i v rest he
    rw [he] at h1
    exact Fine.after h1 (Fine.mono (ih.addLoop v rest) (by omega) (by omega))

theorem parseAddLoop_fine (fuel : Nat) (ih : ExprFine fuel) (e0 : Expr) (toks : List Token) :
    Fine toks 1 (fuel + 1) 0 (parseAddLoop (fuel + 1) e0 toks) := by
  cases toks with
  | nil =>
    simp only [parseAddLoop]
    exact Fine.oob _ _ _
  | cons t rest =>
    simp only [parseAddLoop]
    split
    · rename_i c
      refine Fine.step (fun h => by rw [h] at c; exact absurd c (by decide)) ?_
      have h1 := ih.mul rest
      split
      · rename_i e he
        rw [he] at h1
        exact Fine.error h1 (by omega)
      · rename_i r rest2 he
        rw [he] at h1
        exact Fine.after h1 (Fine.mono (ih.addLoop _ rest2) (by omega) (by omega))
    · exact Fine.done _ _ _ _

theorem parseMul_fine (fuel : Nat) (ih : ExprFine fuel) (toks : List Token) :
    Fine toks 4 (fuel + 1) 0 (parseMul (fuel + 1) toks) := by
  simp only [parseMul]
  have h1 := ih.unary toks
  split
  · rename_i e he
    rw [he] at h1
    exact Fine.error h1 (by omega)
  · rename_i v rest he
    rw [he] at h1
    exact Fine.after h1 (Fine.mono (ih.mulLoop v rest) (by omega) (by omega))

theorem parseMulLoop_fine (fuel : Nat) (ih : ExprFine fuel) (e0 : Expr) (toks : List Token) :
    Fine toks 1 (fuel + 1) 0 (parseMulLoop (fuel + 1) e0 toks) := by
  cases toks with
  | nil =>
    simp only [parseMulLoop]
    exact Fine.oob _ _ _
  | cons t rest =>
    simp only [parseMulLoop]
    split
    · rename_i c
      refine Fine.step (fun h => by rw [h] at c; exact absurd c (by decide)) ?_
      have h1 := ih.unary rest
      split
      · rename_i e he
        rw [he] at h1
        exact Fine.error h1 (by omega)
      · rename_i r rest2 he
        rw [he] at h1
        exact Fine.after h1 (Fine.mono (ih.mulLoop _ rest2) (by omega) (by omega))
    · exact Fine.done _ _ _ _

theorem parseUnary_fine (fuel : Nat) (ih : ExprFine fuel) (toks : List Token) :
    Fine toks 3 (fuel + 1) 0 (parseUnary (fuel + 1) toks) := by
  cases toks with
  | nil =>
    simp only [parseUnary]
    exact Fine.oob _ _ _
  | cons t rest =>
    simp only [parseUnary]
    have h1 := ih.unary rest
    split
    · rename_i c
      refine Fine.step (fun h => by rw [h] at c; exact absurd c (by decide)) ?_
      split
      · rename_i e he
        rw [he] at h1
        exact Fine.error h1 (by omega)
      · rename_i r rest2 he
        rw [he] at h1
        exact Fine.after h1 (Fine.done _ _ _ _)
    · split
      · rename_i c
        refine Fine.step (fun h => by rw [h] at c; exact absurd c (by decide)) ?_
        split
        · rename_i e he
          rw [he] at h1
          exact Fine.error h1 (by omega)
        · rename_i r rest2 he
          rw [he] at h1
          exact Fine.after h1 (Fine.done _ _ _ _)
      · exact Fine.mono (ih.primary (t :: rest)) (by omega) (by omega)

theorem parseExprList_fine (fuel : Nat) (ih : ExprFine fuel) (toks : List Token) :
    Fine toks 12 (fuel + 1) 0 (parseExprList (fuel + 1) toks) := by
  simp only [parseExprList]
  have h1 := ih.expr toks
  split
  · rename_i e he
    rw [he] at h1
    exact Fine.error h1 (by omega)
  · rename_i v he
    rw [he] at h1
    exact Fine.after h1 (Fine.oob _ _ _)
  · rename_i e1 t rest he
    rw [he] at h1
    refine Fine.after h1 ?_
    split
    · rename_i c
      refine Fine.step (fun h => by rw [h] at c; exact absurd c (by decide)) ?_
      have h2 := ih.exprList rest
      split
      · rename_i e he2
        rw [he2] at h2
        exact Fine.error h2 (by omega)
      · rename_i es rest2 he2
        rw [he2] at h2
        exact Fine.after h2 (Fine.done _ _ _ _)
    · exact Fine.done _ _ _ _

theorem parsePostfix_fine (fuel : Nat) (ih : ExprFine fuel) (toks : List Token) :
    Fine toks 2 (fuel + 1) 0 (parsePostfix (fuel + 1) toks) := by
  cases toks with
  | nil =>
    simp only [parsePostfix]
    exact Fine.oob _ _ _
  | cons t rest =>
    simp only [parsePostfix]
    generalize hP : (ite (t.kind = TokKind.Ident) _ _ : PRes Expr) = p
    have hp : Fine (t :: rest) 2 (fuel + 1) 0 p := by
      rw [← hP]
      split
      · rename_i c
        refine Fine.step (fun h => by rw [h] at c; exact absurd c (by decide)) ?_
        split
        · exact Fine.oob _ _ _
        · rename_i t1 rest1
          split
          · rename_i c1
            refine Fine.step (fun h => by rw [h] at c1; exact absurd c1 (by decide)) ?_
            split
            · exact Fine.oob _ _ _
            · rename_i t2 rest2
              split
              · have h1 := ih.exprList (t2 :: rest2)
                split
                · rename_i e he
                  rw [he] at h1
                  exact Fine.error h1 (by omega)
                · rename_i args rest3 he
                  rw [he] at h1
                  refine Fine.after h1 ?_
                  split
                  · rename_i e he2
                    exact Fine.expect_error he2
                  · rename_i rest4 he2
                    exact Fine.expected (by decide) he2 (Fine.done _ _ _ _)
              · rename_i c2
                exact Fine.step (fun h => by rw [h] at c2; exact absurd c2 (by decide))
                  (Fine.done _ _ _ _)
          · exact Fine.done _ _ _ _
      · split
        · rename_i c
          exact Fine.step (fun h => by rw [h] at c; exact absurd c (by decide))
            (Fine.done _ _ _ _)
        · split
          · rename_i c
            exact Fine.step (fun h => by rw [h] at c; exact absurd c (by decide))
              (Fine.done _ _ _ _)
          · split
            · rename_i c
              exact Fine.step (fun h => by rw [h] at c; exact absurd c (by decide))
                (Fine.done _ _ _ _)
            · split
              · rename_i c
                refine Fine.step (fun h => by rw [h] at c; exact absurd c (by decide)) ?_
                split
                · exact Fine.oob _ _ _
                · rename_i t1 rest1
                  split
                  · have h1 := ih.exprList (t1 :: rest1)
                    split
                    · rename_i e he
                      rw [he] at h1
                      exact Fine.error h1 (by omega)
                    · rename_i elems rest2 he
                      rw [he] at h1
                      refine Fine.after h1 ?_
                      split
                      · rename_i e he2
                        exact Fine.expect_error he2
                      · rename_i rest3 he2
                        exact Fine.expected (by decide) he2 (Fine.done _ _ _ _)
                  · rename_i c2
                    exact Fine.step (fun h => by rw [h] at c2; exact absurd c2 (by decide))
                      (Fine.done _ _ _ _)
              · split
                · rename_i c
                  refine Fine.step (fun h => by rw [h] at c; exact absurd c (by decide)) ?_
                  have h1 := ih.expr rest
                  split
                  · rename_i e he
                    rw [he] at h1
                    exact Fine.error h1 (by omega)
                  · rename_i e1 rest1 he
                    rw [he] at h1
                    refine Fine.after h1 ?_
                    split
                    · rename_i e he2
                      exact Fine.expect_error he2
                    · rename_i rest2 he2
                      exact Fine.expected (by decide) he2 (Fine.done _ _ _ _)
                · exact Fine.fatal _ _ _ _ _
    split
    · rename_i e he
      exact Fine.error hp (by omega)
    · rename_i e1 rest5
      exact Fine.after hp (Fine.mono (ih.indexLoop e1 rest5) (by omega) (by omega))

theorem parseIndexLoop_fine (fuel : Nat) (ih : ExprFine fuel) (e0 : Expr)
    (toks : List Token) : Fine toks 1 (fuel + 1) 0 (parseIndexLoop (fuel + 1) e0 toks) := by
  cases toks with
  | nil =>
    simp only [parseIndexLoop]
    exact Fine.oob _ _ _
  | cons t rest =>
    simp only [parseIndexLoop]
    split
    · rename_i c
      refine Fine.step (fun h => by rw [h] at c; exact absurd c (by decide)) ?_
      have h1 := ih.expr rest
      split
      · rename_i e he
        rw [he] at h1
        exact Fine.error h1 (by omega)
      · rename_i idx rest1 he
        rw [he] at h1
        refine Fine.after h1 ?_
        split
        · rename_i e he2
          exact Fine.expect_error he2
        · rename_i rest2 he2
          exact Fine.expected (by decide) he2
            (Fine.mono (ih.indexLoop _ rest2) (by omega) (by omega))
    · exact Fine.done _ _ _ _

/-- The expression parsers read no end-of-file token, leave the token vector
only when it holds none, and reach the recursion bound only when it is below
sixteen times the number of unread tokens plus a constant. -/
theorem exprFine : ∀ fuel, ExprFine fuel
  | 0 => {
    expr := fun toks => by
      simp only [parseExpr]
      exact Fine.noFuel _ _ _ (by omega)
    assign := fun toks => by
      simp only [parseAssign]
      exact Fine.noFuel _ _ _ (by omega)
    disj := fun toks => by
      simp only [parseOr]
      exact Fine.noFuel _ _ _ (by omega)
    disjLoop := fun e toks => by
      simp only [parseOrLoop]
      exact Fine.noFuel _ _ _ (by omega)
    conj := fun toks => by
      simp only [parseAnd]
      exact Fine.noFuel _ _ _ (by omega)
    conjLoop := fun e toks => by
      simp only [parseAndLoop]
      exact Fine.noFuel _ _ _ (by omega)
    eq := fun toks => by
      simp only [parseEq]
      exact Fine.noFuel _ _ _ (by omega)
    eqLoop := fun e toks => by
      simp only [parseEqLoop]
      exact Fine.noFuel _ _ _ (by omega)
    rel := fun toks => by
      simp only [parseRel]
      exact Fine.noFuel _ _ _ (by omega)
    relLoop := fun e toks => by
      simp only [parseRelLoop]
      exact Fine.noFuel _ _ _ (by omega)
    add := fun toks => by
      simp only [parseAdd]
      exact Fine.noFuel _ _ _ (by omega)
    addLoop := fun e toks => by
      simp only [parseAddLoop]
      exact Fine.noFuel _ _ _ (by omega)
    mul := fun toks => by
      simp only [parseMul]
      exact Fine.noFuel _ _ _ (by omega)
    mulLoop := fun e toks => by
      simp only [parseMulLoop]
      exact Fine.noFuel _ _ _ (by omega)
    unary := fun toks => by
      simp only [parseUnary]
      exact Fine.noFuel _ _ _ (by omega)
    exprList := fun toks => by
      simp only [parseExprList]
      exact Fine.noFuel _ _ _ (by omega)
    primary := fun toks => by
      simp only [parsePostfix]
      exact Fine.noFuel _ _ _ (by omega)
    indexLoop := fun e toks => by
      simp only [parseIndexLoop]
      exact Fine.noFuel _ _ _ (by omega) }
  | fuel + 1 => {
    expr := parseExpr_fine fuel (exprFine fuel)
    assign := parseAssign_fine fuel (exprFine fuel)
    disj := parseOr_fine fuel (exprFine fuel)
    disjLoop := parseOrLoop_fine fuel (exprFine fuel)
    conj := parseAnd_fine fuel (exprFine fuel)
    conjLoop := parseAndLoop_fine fuel (exprFine fuel)
    eq := parseEq_fine fuel (exprFine fuel)
    eqLoop := parseEqLoop_fine fuel (exprFine fuel)
    rel := parseRel_fine fuel (exprFine fuel)
    relLoop := parseRelLoop_fine fuel (exprFine fuel)
    add := parseAdd_fine fuel (exprFine fuel)
    addLoop := parseAddLoop_fine fuel (exprFine fuel)
    mul := parseMul_fine fuel (exprFine fuel)
    mulLoop := parseMulLoop_fine fuel (exprFine fuel)
    unary := parseUnary_fine fuel (exprFine fuel)
    exprList := parseExprList_fine fuel (exprFine fuel)
    primary := parsePostfix_fine fuel (exprFine fuel)
    indexLoop := parseIndexLoop_fine fuel (exprFine fuel) }

theorem parseType_fine : ∀ (fuel : Nat) (toks : List Token),
    Fine toks 1 fuel 0 (parseType fuel toks)
  | 0, toks => by
    simp only [parseType]
    exact Fine.noFuel _ _ _ (by omega)
  | fuel + 1, [] => by
    simp only [parseType]
    exact Fine.oob _ _ _
  | fuel + 1, t :: rest => by
    simp only [parseType]
    generalize hP : (ite (t.kind = TokKind.KwI32) _ _ : PRes Ty) = p
    have hp : Fine (t :: rest) 1 (fuel + 1) 0 p := by
      rw [← hP]
      split
      · rename_i c
        exact Fine.step (fun h => by rw [h] at c; exact absurd c (by decide))
          (Fine.done _ _ _ _)
      · split
        · rename_i c
          exact Fine.step (fun h => by rw [h] at c; exact absurd c (by decide))
            (Fine.done _ _ _ _)
        · split
          · rename_i c
            exact Fine.step (fun h => by rw [h] at c; exact absurd c (by decide))
              (Fine.done _ _ _ _)
          · split
            · rename_i c
              exact Fine.step (fun h => by rw [h] at c; exact absurd c (by decide))
                (Fine.done _ _ _ _)
            · split
              · rename_i c
                refine Fine.step (fun h => by rw [h] at c; exact absurd c (by decide)) ?_
                split
                · rename_i e he
                  exact Fine.expect_error he
                · rename_i rest1 he
                  refine Fine.expected (by decide) he ?_
                  have h1 := parseType_fine fuel rest1
                  split
                  · rename_i e he2
                    rw [he2] at h1
                    exact Fine.error h1 (by omega)
                  · rename_i t1 rest2 he2
                    rw [he2] at h1
                    refine Fine.after h1 ?_
                    split
                    · rename_i e he3
                      exact Fine.expect_error he3
                    · rename_i rest3 he3
                      exact Fine.expected (by decide) he3 (Fine.done _ _ _ _)
              · exact Fine.fatal _ _ _ _ _
    split
    · rename_i e he
      exact Fine.error hp (by omega)
    · rename_i v
      exact Fine.after hp (Fine.oob _ _ _)
    · rename_i baseType t2 rest5
      refine Fine.after hp ?_
      split
      · rename_i c
        refine Fine.step (fun h => by rw [h] at c; exact absurd c (by decide)) ?_
        split
        · exact Fine.oob _ _ _
        · rename_i t3 rest6
          split
          · exact Fine.fatal _ _ _ _ _
          · rename_i c3
            refine Fine.step (fun h => by rw [h] at c3; exact absurd c3 (by decide)) ?_
            split
            · rename_i e he
              exact Fine.expect_error he
            · rename_i rest7 he
              exact Fine.expected (by decide) he (Fine.done _ _ _ _)
      · exact Fine.done _ _ _ _

theorem parseBlock_fine (fuel : Nat) (ih : StmtFine fuel) (toks : List Token) :
    Fine toks 14 (fuel + 1) 0 (parseBlock (fuel + 1) toks) := by
  simp only [parseBlock]
  split
  · rename_i e he
    exact Fine.expect_error he
  · rename_i rest he
    refine Fine.expected (by decide) he ?_
    have h1 := ih.blockLoop rest
    split
    · rename_i e he2
      rw [he2] at h1
      exact Fine.error h1 (by omega)
    · rename_i stmts rest1 he2
      rw [he2] at h1
      refine Fine.after h1 ?_
      split
      · rename_i e he3
        exact Fine.expect_error he3
      · rename_i rest2 he3
        exact Fine.expected (by decide) he3 (Fine.done _ _ _ _)

theorem parseBlockLoop_fine (fuel : Nat) (ih : StmtFine fuel) (toks : List Token) :
    Fine toks 13 (fuel + 1) 0 (parseBlockLoop (fuel + 1) toks) := by
  cases toks with
  | nil =>
    simp only [parseBlockLoop]
    exact Fine.oob _ _ _
  | cons t rest =>
    simp only [parseBlockLoop]
    split
    · have h1 := ih.stmt (t :: rest)
      split
      · rename_i e he
        rw [he] at h1
        exact Fine.error h1 (by omega)
      · rename_i st rest1 he
        rw [he] at h1
        refine Fine.after h1 ?_
        have h2 := ih.blockLoop rest1
        split
        · rename_i e he2
          rw [he2] at h2
          exact Fine.error h2 (by omega)
        · rename_i stmts rest2 he2
          rw [he2] at h2
          exact Fine.after h2 (Fine.done _ _ _ _)
    · exact Fine.done _ _ _ _

/-- The tail `expect(Eq); parseExpr(); expect(Semicolon)` of a `let`. -/
theorem letTail_fine (fuel a : Nat) (name : String) (ann : Option Ty) (u : Bool)
    (rest8 : List Token) :
    Fine rest8 (a + 12) (fuel + 1) 0
      (match expect TokKind.Eq "'='" rest8 with
      | Except.error e => Except.error e
      | Except.ok rest9 =>
        match parseExpr fuel rest9 with
        | Except.error e => Except.error e
        | Except.ok (init, rest10) =>
          match expect TokKind.Semicolon "';'" rest10 with
          | Except.error e => Except.error e
          | Except.ok rest11 => Except.ok (Stmt.SLet name ann init u, rest11)) := by
  split
  · rename_i e he
    exact Fine.expect_error he
  · rename_i rest9 he
    refine Fine.expected (by decide) he ?_
    have h1 := (exprFine fuel).expr rest9
    split
    · rename_i e he2
      rw [he2] at h1
      exact Fine.error h1 (by omega)
    · rename_i init rest10 he2
      rw [he2] at h1
      refine Fine.after h1 ?_
      split
      · rename_i e he3
        exact Fine.expect_error he3
      · rename_i rest11 he3
        exact Fine.expected (by decide) he3 (Fine.done _ _ _ _)

theorem parseStmt_let_fine (fuel : Nat) (t : Token) (rest : List Token)
    (hlet : t.kind = TokKind.KwLet) :
    Fine (t :: rest) 12 (fuel + 1) 1 (parseStmt (fuel + 1) (t :: rest)) := by
  refine Fine.step (by rw [hlet]; decide) ?_
  cases rest with
  | nil =>
    simp only [parseStmt, hlet, if_true]
    exact Fine.oob _ _ _
  | cons t1 rest1 =>
    simp only [parseStmt, hlet, if_true]
    generalize hP : (ite (t1.kind = TokKind.KwUnique) _ _ : PRes Bool) = p
    have hp : Fine (t1 :: rest1) (12 + 16) (fuel + 1) 0 p := by
      rw [← hP]
      split
      · rename_i c
        refine Fine.step (fun h => by rw [h] at c; exact absurd c (by decide)) ?_
        split
        · rename_i e he
          exact Fine.expect_error he
        · rename_i rest2 he
          refine Fine.expected (by decide) he ?_
          have h1 := parseType_fine fuel rest2
          split
          · rename_i e he2
            rw [he2] at h1
            exact Fine.error h1 (by omega)
          · rename_i ty rest3 he2
            rw [he2] at h1
            refine Fine.after h1 ?_
            split
            · rename_i e he3
              exact Fine.expect_error he3
            · rename_i rest4 he3
              exact Fine.expected (by decide) he3 (Fine.done _ _ _ _)
      · exact Fine.done _ _ _ _
    split
    · rename_i e he
      exact Fine.error hp (by omega)
    · rename_i v
      exact Fine.after hp (Fine.oob _ _ _)
    · rename_i isUnique tn rest5
      refine Fine.after hp ?_
      split
      · exact Fine.fatal _ _ _ _ _
      · rename_i c
        refine Fine.step (fun h => by rw [h] at c; exact absurd c (by decide)) ?_
        cases rest5 with
        | nil => exact Fine.oob _ _ _
        | cons t2 rest6 =>
          simp only
          generalize hQ : (ite (t2.kind = TokKind.Colon) _ _ : PRes (Option Ty)) = q
          have hq : Fine (t2 :: rest6) (12 + 16) (fuel + 1) 0 q := by
            rw [← hQ]
            split
            · rename_i c2
              refine Fine.step (fun h => by rw [h] at c2; exact absurd c2 (by decide)) ?_
              have h1 := parseType_fine fuel rest6
              split
              · rename_i e he2
                rw [he2] at h1
                exact Fine.error h1 (by omega)
              · rename_i ann rest7 he2
                rw [he2] at h1
                exact Fine.after h1 (Fine.done _ _ _ _)
            · exact Fine.done _ _ _ _
          split
          · rename_i e he
            exact Fine.error hq (by omega)
          · rename_i ann rest8
            exact Fine.after hq (Fine.mono (letTail_fine fuel 0 _ _ _ rest8) (by omega) (by omega))

/-- The tail `parseExpr(); expect(Semicolon)` of a statement. -/
theorem exprTail_fine {α : Type} (fuel a g : Nat) (mk : Expr → α) (cur : List Token)
    (ha : 12 ≤ a) (hg : g ≤ 1) :
    Fine cur a (fuel + 1) g
      (match parseExpr fuel cur with
      | Except.error e => Except.error e
      | Except.ok (e, rest1) =>
        match expect TokKind.Semicolon "';'" rest1 with
        | Except.error err => Except.error err
        | Except.ok rest2 => Except.ok (mk e, rest2)) := by
  have h1 := (exprFine fuel).expr cur
  split
  · rename_i e he
    rw [he] at h1
    exact Fine.error h1 (by omega)
  · rename_i e1 rest1 he
    rw [he] at h1
    refine Fine.after h1 ?_
    split
    · rename_i e he3
      exact Fine.expect_error he3
    · rename_i rest2 he3
      exact Fine.expected (by decide) he3
        (Fine.mono (Fine.done rest2 0 (fuel + 1) _) (by omega) (by omega))

theorem parseStmt_fine (fuel : Nat) (ih : StmtFine fuel) (toks : List Token) :
    Fine toks 12 (fuel + 1) 1 (parseStmt (fuel + 1) toks) := by
  cases toks with
  | nil =>
    simp only [parseStmt]
    exact Fine.oob _ _ _
  | cons t rest =>
    by_cases hlet : t.kind = TokKind.KwLet
    · exact parseStmt_let_fine fuel t rest hlet
    · simp only [parseStmt, hlet, if_false]
      split
      · rename_i c
        refine Fine.step (fun h => by rw [h] at c; exact absurd c (by decide)) ?_
        split
        · exact Fine.oob _ _ _
        · rename_i t1 rest1
          split
          · rename_i c1
            exact Fine.step (fun h => by rw [h] at c1; exact absurd c1 (by decide))
              (Fine.done _ _ _ _)
          · exact exprTail_fine fuel _ _ _ _ (by omega) (by omega)
      · split
        · rename_i c
          refine Fine.step (fun h => by rw [h] at c; exact absurd c (by decide)) ?_
          split
          · rename_i e he
            exact Fine.expect_error he
          · rename_i rest1 he
            refine Fine.expected (by decide) he ?_
            have h1 := (exprFine fuel).expr rest1
            split
            · rename_i e he2
              rw [he2] at h1
              exact Fine.error h1 (by omega)
            · rename_i cond rest2 he2
              rw [he2] at h1
              refine Fine.after h1 ?_
              split
              · rename_i e he3
                exact Fine.expect_error he3
              · rename_i rest3 he3
                refine Fine.expected (by decide) he3 ?_
                have h2 := ih.block rest3
                split
                · rename_i e he4
                  rw [he4] at h2
                  exact Fine.error h2 (by omega)
                · rename_i v he4
                  rw [he4] at h2
                  exact Fine.after h2 (Fine.oob _ _ _)
                · rename_i thenStmts t4 rest4 he4
                  rw [he4] at h2
                  refine Fine.after h2 ?_
                  split
                  · rename_i c4
                    refine Fine.step (fun h => by rw [h] at c4; exact absurd c4 (by decide)) ?_
                    have h3 := ih.block rest4
                    split
                    · rename_i e he5
                      rw [he5] at h3
                      exact Fine.error h3 (by omega)
                    · rename_i elseStmts rest5 he5
                      rw [he5] at h3
                      exact Fine.after h3 (Fine.done _ _ _ _)
                  · exact Fine.done _ _ _ _
        · split
          · rename_i c
            refine Fine.step (fun h => by rw [h] at c; exact absurd c (by decide)) ?_
            split
            · rename_i e he
              exact Fine.expect_error he
            · rename_i rest1 he
              refine Fine.expected (by decide) he ?_
              have h1 := (exprFine fuel).expr rest1
              split
              · rename_i e he2
                rw [he2] at h1
                exact Fine.error h1 (by omega)
              · rename_i cond rest2 he2
                rw [he2] at h1
                refine Fine.after h1 ?_
                split
                · rename_i e he3
                  exact Fine.expect_error he3
                · rename_i rest3 he3
                  refine Fine.expected (by decide) he3 ?_
                  have h2 := ih.block rest3
                  split
                  · rename_i e he4
                    rw [he4] at h2
                    exact Fine.error h2 (by omega)
                  · rename_i body rest4 he4
                    rw [he4] at h2
                    exact Fine.after h2 (Fine.done _ _ _ _)
          · split
            · rename_i c
              exact Fine.step (fun h => by rw [h] at c; exact absurd c (by decide))
                (exprTail_fine fuel _ _ _ _ (by omega) (by omega))
            · split
              · rename_i c
                refine Fine.step (fun h => by rw [h] at c; exact absurd c (by decide)) ?_
                split
                · rename_i e he
                  exact Fine.expect_error he
                · rename_i rest1 he
                  exact Fine.expected (by decide) he (Fine.done _ _ _ _)
              · split
                · rename_i c
                  refine Fine.step (fun h => by rw [h] at c; exact absurd c (by decide)) ?_
                  split
                  · rename_i e he
                    exact Fine.expect_error he
                  · rename_i rest1 he
                    exact Fine.expected (by decide) he (Fine.done _ _ _ _)
                · exact exprTail_fine fuel _ _ _ _ (by omega) (by omega)

/-- The statement parsers read no end-of-file token, leave the token vector
only when it holds none, and reach the recursion bound only when it is below
sixteen times the number of unread tokens plus a constant; a statement that is
parsed has at least one token. -/
theorem stmtFine : ∀ fuel, StmtFine fuel
  | 0 => {
    block := fun toks => by
      simp only [parseBlock]
      exact Fine.noFuel _ _ _ (by omega)
    blockLoop := fun toks => by
      simp only [parseBlockLoop]
      exact Fine.noFuel _ _ _ (by omega)
    stmt := fun toks => by
      simp only [parseStmt]
      exact Fine.noFuel _ _ _ (by omega) }
  | fuel + 1 => {
    block := parseBlock_fine fuel (stmtFine fuel)
    blockLoop := parseBlockLoop_fine fuel (stmtFine fuel)
    stmt := parseStmt_fine fuel (stmtFine fuel) }

theorem parseParams_fine : ∀ (fuel : Nat) (toks : List Token),
    Fine toks 2 fuel 0 (parseParams fuel toks)
  | 0, toks => by
    simp only [parseParams]
    exact Fine.noFuel _ _ _ (by omega)
  | fuel + 1, [] => by
    simp only [parseParams]
    exact Fine.oob _ _ _
  | fuel + 1, t :: rest => by
    simp only [parseParams]
    split
    · exact Fine.fatal _ _ _ _ _
    · rename_i c
      refine Fine.step (fun h => by rw [h] at c; exact absurd c (by decide)) ?_
      split
      · rename_i e he
        exact Fine.expect_error he
      · rename_i rest1 he
        refine Fine.expected (by decide) he ?_
        have h1 := parseType_fine fuel rest1
        split
        · rename_i e he2
          rw [he2] at h1
          exact Fine.error h1 (by omega)
        · rename_i v he2
          rw [he2] at h1
          exact Fine.after h1 (Fine.oob _ _ _)
        · rename_i ty t2 rest2 he2
          rw [he2] at h1
          refine Fine.after h1 ?_
          split
          · rename_i c2
            refine Fine.step (fun h => by rw [h] at c2; exact absurd c2 (by decide)) ?_
            have h2 := parseParams_fine fuel rest2
            split
            · rename_i e he3
              rw [he3] at h2
              exact Fine.error h2 (by omega)
            · rename_i ps rest3 he3
              rw [he3] at h2
              exact Fine.after h2 (Fine.done _ _ _ _)
          · exact Fine.done _ _ _ _

theorem parseFunc_fine (fuel : Nat) (toks : List Token) :
    Fine toks 0 fuel 1 (parseFunc fuel toks) := by
  simp only [parseFunc]
  split
  · rename_i e he
    exact Fine.expect_error he
  · rename_i he
    exact Fine.expected (by decide) he (Fine.oob _ _ _)
  · rename_i tn rest he
    refine Fine.expected (by decide) he ?_
    split
    · exact Fine.fatal _ _ _ _ _
    · rename_i c
      refine Fine.step (fun h => by rw [h] at c; exact absurd c (by decide)) ?_
      split
      · rename_i e he2
        exact Fine.expect_error he2
      · rename_i he2
        exact Fine.expected (by decide) he2 (Fine.oob _ _ _)
      · rename_i t1 rest1 he2
        refine Fine.expected (by decide) he2 ?_
        generalize hP : (ite (t1.kind ≠ TokKind.RParen) _ _ : PRes (List Param)) = p
        have hp : Fine (t1 :: rest1) 48 fuel 0 p := by
          rw [← hP]
          split
          · exact Fine.mono (parseParams_fine fuel (t1 :: rest1)) (by omega) (by omega)
          · exact Fine.done _ _ _ _
        split
        · rename_i e he3
          exact Fine.error hp (by omega)
        · rename_i ps rest2
          refine Fine.after hp ?_
          split
          · rename_i e he4
            exact Fine.expect_error he4
          · rename_i rest3 he4
            refine Fine.expected (by decide) he4 ?_
            split
            · rename_i e he5
              exact Fine.expect_error he5
            · rename_i rest4 he5
              refine Fine.expected (by decide) he5 ?_
              have h1 := parseType_fine fuel rest4
              split
              · rename_i e he6
                rw [he6] at h1
                exact Fine.error h1 (by omega)
              · rename_i ret rest5 he6
                rw [he6] at h1
                refine Fine.after h1 ?_
                have h2 := (stmtFine fuel).block rest5
                split
                · rename_i e he7
                  rw [he7] at h2
                  exact Fine.error h2 (by omega)
                · rename_i body rest6 he7
                  rw [he7] at h2
                  exact Fine.after h2 (Fine.done _ _ _ _)

theorem parseFuncs_fine : ∀ (fuel : Nat) (toks : List Token),
    FineTop toks fuel (parseFuncs fuel toks)
  | 0, toks => by
    simp only [parseFuncs]
    show 0 < 16 * toks.length + 1
    omega
  | fuel + 1, [] => by
    simp only [parseFuncs]
    exact NoEof.nil
  | fuel + 1, t :: rest => by
    simp only [parseFuncs]
    split
    · have h1 := parseFunc_fine fuel (t :: rest)
      split
      · rename_i e he
        rw [he] at h1
        cases e with
        | fatal m => trivial
        | outOfBounds => exact h1
        | outOfFuel =>
          have h2 : fuel < 16 * (t :: rest).length + 0 := h1
          show fuel + 1 < 16 * (t :: rest).length + 1
          omega
      · rename_i fn rest1 he
        rw [he] at h1
        obtain ⟨hd, hl⟩ := h1
        have h2 := parseFuncs_fine fuel rest1
        split
        · rename_i e he2
          rw [he2] at h2
          cases e with
          | fatal m => trivial
          | outOfBounds => exact Drops.noEof hd h2
          | outOfFuel =>
            have h3 : fuel < 16 * rest1.length + 1 := h2
            show fuel + 1 < 16 * (t :: rest).length + 1
            omega
        · trivial
    · trivial

theorem parseProgram_fine (fuel : Nat) (toks : List Token) :
    FineTop toks fuel (parseProgram fuel toks) := by
  simp only [parseProgram]
  have h := parseFuncs_fine fuel toks
  split
  · rename_i e he
    rw [he] at h
    cases e with
    | fatal m => trivial
    | outOfBounds => exact h
    | outOfFuel => exact h
  · trivial

theorem Fine.inBounds {α : Type} {toks : List Token} {a fuel g : Nat} {r : PRes α}
    (h : ∃ t ∈ toks, t.kind = TokKind.Eof) (hf : Fine toks a fuel g r) : InBounds toks r := by
  obtain ⟨t, ht, hk⟩ := h
  constructor
  · intro e
    rw [e] at hf
    exact hf t ht hk
  · intro v rest e
    rw [e] at hf
    obtain ⟨⟨pre, hpre, hno⟩, _⟩ := hf
    refine ⟨⟨pre, hpre, hno⟩, t, ?_, hk⟩
    rw [hpre] at ht
    rcases List.mem_append.mp ht with h1 | h1
    · exact absurd hk (hno t h1)
    · exact h1

/-- C37.  Let `toks` hold an end-of-file token.  Then `parseProgram` never
reads where no token is, whatever the recursion bound; with a bound of at
least `16 * toks.length + 1`, so with the bound that the front end gives it,
it does not stop at the bound: it returns a program or ends in a parse error.
Every parsing function run on `toks` stays inside the token vector, and when
it returns, the tokens it read are a prefix of `toks` without end-of-file
token, so that the first end-of-file token is still unread. -/
theorem parser_within_bounds (toks : List Token) (h : ∃ t ∈ toks, t.kind = TokKind.Eof) :
    (∀ fuel, parseProgram fuel toks ≠ Except.error PErr.outOfBounds) ∧
    (∀ fuel, 16 * toks.length + 1 ≤ fuel →
      parseProgram fuel toks ≠ Except.error PErr.outOfFuel) ∧
    ((∃ p, parseProgram (16 * toks.length + 16) toks = Except.ok p) ∨
      ∃ m, parseProgram (16 * toks.length + 16) toks = Except.error (PErr.fatal m)) ∧
    (∀ fuel, InBounds toks (parseFunc fuel toks) ∧ InBounds toks (parseParams fuel toks) ∧
      InBounds toks (parseType fuel toks) ∧ InBounds toks (parseBlock fuel toks) ∧
      InBounds toks (parseBlockLoop fuel toks) ∧ InBounds toks (parseStmt fuel toks) ∧
      InBounds toks (parseExpr fuel toks) ∧ InBounds toks (parseAssign fuel toks) ∧
      InBounds toks (parseOr fuel toks) ∧ InBounds toks (parseAnd fuel toks) ∧
      InBounds toks (parseEq fuel toks) ∧ InBounds toks (parseRel fuel toks) ∧
      InBounds toks (parseAdd fuel toks) ∧ InBounds toks (parseMul fuel toks) ∧
      InBounds toks (parseUnary fuel toks) ∧ InBounds toks (parsePostfix fuel toks) ∧
      InBounds toks (parseExprList fuel toks)) ∧
    (∀ fuel e, InBounds toks (parseOrLoop fuel e toks) ∧
      InBounds toks (parseAndLoop fuel e toks) ∧ InBounds toks (parseEqLoop fuel e toks) ∧
      InBounds toks (parseRelLoop fuel e toks) ∧ InBounds toks (parseAddLoop fuel e toks) ∧
      InBounds toks (parseMulLoop fuel e toks) ∧
      InBounds toks (parseIndexLoop fuel e toks)) := by
  have hno : ¬ NoEof toks := by
    obtain ⟨t, ht, hk⟩ := h
    exact fun hn => hn t ht hk
  have h1 : ∀ fuel, parseProgram fuel toks ≠ Except.error PErr.outOfBounds := by
    intro fuel e
    have hf := parseProgram_fine fuel toks
    rw [e] at hf
    exact hno hf
  have h2 : ∀ fuel, 16 * toks.length + 1 ≤ fuel →
      parseProgram fuel toks ≠ Except.error PErr.outOfFuel := by
    intro fuel hfuel e
    have hf := parseProgram_fine fuel toks
    rw [e] at hf
    have hf2 : fuel < 16 * toks.length + 1 := hf
    omega
  refine ⟨h1, h2, ?_, ?_, ?_⟩
  · have h3 := h1 (16 * toks.length + 16)
    have h4 := h2 (16 * toks.length + 16) (by omega)
    cases hp : parseProgram (16 * toks.length + 16) toks with
    | ok p => exact Or.inl ⟨p, rfl⟩
    | error e =>
      cases e with
      | fatal m => exact Or.inr ⟨m, rfl⟩
      | outOfBounds => exact absurd hp h3
      | outOfFuel => exact absurd hp h4
  · intro fuel
    have he := exprFine fuel
    have hs := stmtFine fuel
    exact ⟨Fine.inBounds h (parseFunc_fine fuel toks), Fine.inBounds h (parseParams_fine fuel toks),
      Fine.inBounds h (parseType_fine fuel toks), Fine.inBounds h (hs.block toks),
      Fine.inBounds h (hs.blockLoop toks), Fine.inBounds h (hs.stmt toks),
      Fine.inBounds h (he.expr toks), Fine.inBounds h (he.assign toks),
      Fine.inBounds h (he.disj toks), Fine.inBounds h (he.conj toks),
      Fine.inBounds h (he.eq toks), Fine.inBounds h (he.rel toks),
      Fine.inBounds h (he.add toks), Fine.inBounds h (he.mul toks),
      Fine.inBounds h (he.unary toks), Fine.inBounds h (he.primary toks),
      Fine.inBounds h (he.exprList toks)⟩
  · intro fuel e
    have he := exprFine fuel
    exact ⟨Fine.inBounds h (he.disjLoop e toks), Fine.inBounds h (he.conjLoop e toks),
      Fine.inBounds h (he.eqLoop e toks), Fine.inBounds h (he.relLoop e toks),
      Fine.inBounds h (he.addLoop e toks), Fine.inBounds h (he.mulLoop e toks),
      Fine.inBounds h (he.indexLoop e toks)⟩

/-- C37 (witness): the tokens of `fn f() -> i64 { 1 = 2; return 0; }`. -/
theorem parser_within_bounds_witness :
    (∃ t ∈ assignLitToks, t.kind = TokKind.Eof) ∧
    ∀ fuel, parseProgram fuel assignLitToks ≠ Except.error PErr.outOfBounds :=
  ⟨⟨⟨TokKind.Eof, "", 0, 1, 35⟩, by simp [assignLitToks], rfl⟩,
   (parser_within_bounds assignLitToks
    ⟨⟨TokKind.Eof, "", 0, 1, 35⟩, by simp [assignLitToks], rfl⟩).1⟩

/-! ## Rendering a type and reading it back -/

theorem wsStep_none_at (ch : Char) (rest : List Char) (l c : Nat) (h : 33 ≤ ch.toNat)
    (hs : ch ≠ '/') : wsStep { rest := ch :: rest, line := l, col := c } = none := by
  simp [wsStep, LexState.peek, isspace_false_of ch h, hs]

/-- One iteration of `lexFrom` at a word that is followed by a character that
cannot go on the word. -/
theorem lexFrom_word (c : Char) (cs post : List Char) (l k : Nat) (h1 : isIdentStart c = true)
    (h2 : ∀ d ∈ cs, isIdentChar d = true)
    (hpost : ∀ d ∈ post.head?, isIdentChar d = false) :
    lexFrom { rest := c :: cs ++ post, line := l, col := k } =
      pushTok { kind := keywordKind (String.mk (c :: cs)), lexeme := String.mk (c :: cs),
                intValue := 0, line := l, col := k }
        (lexFrom { rest := post, line := l, col := k + (c :: cs).length }) := by
  have hr := isIdentStart_range c h1
  have hc0 : c ≠ '\x00' := ne_of_toNat_ne _ _ (by simp only [Char.reduceToNat]; omega)
  have hcs : c ≠ '/' := ne_of_toNat_ne _ _ (by simp only [Char.reduceToNat]; omega)
  have hstart : (c.isAlpha || decide (c = '_')) = true := by rw [← isIdentStart_eq]; exact h1
  have hall : ∀ d ∈ c :: cs, (d.isAlphanum || decide (d = '_')) = true ∧ d ≠ '\x00' ∧
      d ≠ '\n' := by
    intro d hd
    have hd2 : isIdentChar d = true := by
      rcases List.mem_cons.mp hd with rfl | hd
      · exact isIdentChar_of_start _ h1
      · exact h2 d hd
    have hrd := isIdentChar_range d hd2
    refine ⟨by rw [← isIdentChar_eq]; exact hd2, ?_, ?_⟩
    · exact ne_of_toNat_ne _ _ (by simp only [Char.reduceToNat]; omega)
    · exact ne_of_toNat_ne _ _ (by simp only [Char.reduceToNat]; omega)
  have hspan := getWhileAux_span (fun d => d.isAlphanum || decide (d = '_')) post
    (by
      intro d hd
      have := hpost d hd
      rw [isIdentChar_eq] at this
      simp [this]) (c :: cs) l k hall
  have hid : identOrKw { rest := c :: cs ++ post, line := l, col := k } =
      ({ kind := keywordKind (String.mk (c :: cs)), lexeme := String.mk (c :: cs),
         intValue := 0, line := l, col := k },
       { rest := post, line := l, col := k + (c :: cs).length }) := by
    simp only [identOrKw, LexState.getWhile, hspan]
  refine lexFrom_tokStep _ _ _ (wsStep_none_at c _ l k (by omega) hcs) ?_
  have hpeek : ({ rest := c :: cs ++ post, line := l, col := k } : LexState).peek = c := rfl
  simp only [tokStep, hpeek, hc0, if_false, hstart, if_true, hid]

/-- One iteration of `lexFrom` at a run of digits that is followed by a
character that is no digit. -/
theorem lexFrom_number (c : Char) (cs post : List Char) (l k : Nat)
    (h : ∀ d ∈ c :: cs, d.isDigit = true)
    (hpost : ∀ d ∈ post.head?, d.isDigit = false)
    (hv : decimalValue (c :: cs) ≤ 9223372036854775807) :
    lexFrom { rest := c :: cs ++ post, line := l, col := k } =
      pushTok { kind := TokKind.IntLit, lexeme := String.mk (c :: cs),
                intValue := Int.ofNat (decimalValue (c :: cs)), line := l, col := k }
        (lexFrom { rest := post, line := l, col := k + (c :: cs).length }) := by
  have hc := h c (List.mem_cons_self _ _)
  have hr := isDigit_range c hc
  have hc0 : c ≠ '\x00' := ne_of_toNat_ne _ _ (by simp only [Char.reduceToNat]; omega)
  have hcs : c ≠ '/' := ne_of_toNat_ne _ _ (by simp only [Char.reduceToNat]; omega)
  have hnot : (c.isAlpha || decide (c = '_')) = false := by
    simp only [Bool.or_eq_false_iff, decide_eq_false_iff_not]
    constructor
    · cases ha : c.isAlpha with
      | false => rfl
      | true =>
        have := isAlpha_range c ha
        omega
    · exact ne_of_toNat_ne _ _ (by simp only [Char.reduceToNat]; omega)
  have hall : ∀ d ∈ c :: cs, d.isDigit = true ∧ d ≠ '\x00' ∧ d ≠ '\n' := by
    intro d hd
    have hd2 := h d hd
    have hrd := isDigit_range d hd2
    refine ⟨hd2, ?_, ?_⟩
    · exact ne_of_toNat_ne _ _ (by simp only [Char.reduceToNat]; omega)
    · exact ne_of_toNat_ne _ _ (by simp only [Char.reduceToNat]; omega)
  have hspan := getWhileAux_span (fun d => d.isDigit) post
    (by
      intro d hd
      simp [hpost d hd]) (c :: cs) l k hall
  have hst : stoll (c :: cs) = Except.ok (Int.ofNat (decimalValue (c :: cs))) := by
    rw [stoll, if_pos hv]
  have hnum : number { rest := c :: cs ++ post, line := l, col := k } =
      Except.ok (⟨TokKind.IntLit, String.mk (c :: cs), Int.ofNat (decimalValue (c :: cs)), l, k⟩,
        ⟨post, l, k + (c :: cs).length⟩) := by
    simp only [number, LexState.getWhile, hspan, hst]
  refine lexFrom_tokStep _ _ _ (wsStep_none_at c _ l k (by omega) hcs) ?_
  have hpeek : ({ rest := c :: cs ++ post, line := l, col := k } : LexState).peek = c := rfl
  simp only [tokStep, hpeek, hc0, if_false, hnot, hc, if_true, hnum, Bool.false_eq_true]

/-- One iteration of `lexFrom` at one of the characters `<`, `>`, `[`, `]`
that is not followed by `=`. -/
theorem lexFrom_bracket (ch : Char) (kind : TokKind) (post : List Char) (l k : Nat)
    (hch : (ch = '<' ∧ kind = TokKind.Lt) ∨ (ch = '>' ∧ kind = TokKind.Gt) ∨
      (ch = '[' ∧ kind = TokKind.LBracket) ∨ (ch = ']' ∧ kind = TokKind.RBracket))
    (hpost : post.head? ≠ some '=') :
    lexFrom { rest := ch :: post, line := l, col := k } =
      pushTok { kind := kind, lexeme := "", intValue := 0, line := l, col := k }
        (lexFrom { rest := post, line := l, col := k + 1 }) := by
  have hn : ({ rest := ch :: post, line := l, col := k } : LexState).nextIs '=' = false := by
    cases post with
    | nil => rfl
    | cons d p =>
      simp only [List.head?_cons, ne_eq, Option.some.injEq] at hpost
      simp [LexState.nextIs, hpost]
  refine lexFrom_tokStep _ _ _ ?_ ?_
  · rcases hch with ⟨rfl, _⟩ | ⟨rfl, _⟩ | ⟨rfl, _⟩ | ⟨rfl, _⟩ <;>
      exact wsStep_none_at _ _ l k (by decide) (by decide)
  · rcases hch with ⟨rfl, rfl⟩ | ⟨rfl, rfl⟩ | ⟨rfl, rfl⟩ | ⟨rfl, rfl⟩ <;>
      simp [tokStep, punct, LexState.peek, hn, LexState.get, Char.isAlpha, Char.isUpper,
        Char.isLower, Char.isDigit]

theorem digitChar_digit (m : Nat) (h : m < 10) :
    (Nat.digitChar m).isDigit = true ∧ (Nat.digitChar m).toNat - 48 = m := by
  interval_cases m <;> exact ⟨rfl, rfl⟩

/-- The decimal digits that `std::to_string` writes for a number: they are
digits, there is at least one, and their value is the number. -/
theorem toDigitsCore_spec : ∀ (fuel n : Nat) (ds : List Char), n < fuel →
    ∃ cs, Nat.toDigitsCore 10 fuel n ds = cs ++ ds ∧ cs ≠ [] ∧
      (∀ d ∈ cs, d.isDigit = true) ∧ decimalValue cs = n
  | 0, n, ds, h => absurd h (Nat.not_lt_zero _)
  | fuel + 1, n, ds, h => by
    have hd := digitChar_digit (n % 10) (Nat.mod_lt _ (by decide))
    simp only [Nat.toDigitsCore]
    split
    · rename_i h0
      refine ⟨[Nat.digitChar (n % 10)], rfl, by simp, ?_, ?_⟩
      · intro d hd2
        rw [List.mem_singleton.mp hd2]
        exact hd.1
      · simp only [decimalValue, List.foldl_cons, List.foldl_nil, Nat.zero_mul, Nat.zero_add]
        rw [hd.2]
        omega
    · rename_i h0
      obtain ⟨cs, e, hne, hall, hv⟩ := toDigitsCore_spec fuel (n / 10)
        (Nat.digitChar (n % 10) :: ds) (by omega)
      refine ⟨cs ++ [Nat.digitChar (n % 10)], by rw [e]; simp, by simp, ?_, ?_⟩
      · intro d hd2
        rcases List.mem_append.mp hd2 with h1 | h1
        · exact hall d h1
        · rw [List.mem_singleton.mp h1]
          exact hd.1
      · rw [decimalValue_append, hv, hd.2]
        omega

theorem toDigits_spec (n : Nat) :
    Nat.toDigits 10 n ≠ [] ∧ (∀ d ∈ Nat.toDigits 10 n, d.isDigit = true) ∧
      decimalValue (Nat.toDigits 10 n) = n := by
  obtain ⟨cs, e, hne, hall, hv⟩ := toDigitsCore_spec (n + 1) n [] (Nat.lt_succ_self _)
  rw [List.append_nil] at e
  unfold Nat.toDigits
  rw [e]
  exact ⟨hne, hall, hv⟩

theorem toString_int_toList (m : Nat) :
    (toString (Int.ofNat m)).toList = Nat.toDigits 10 m := rfl

theorem str_ptr_toList (e : Ty) (n : Int) :
    (Ty.str (Ty.mk TyKind.Ptr (some e) n)).toList =
      'p' :: 't' :: 'r' :: '<' :: ((Ty.str e).toList ++ ['>']) := by
  simp [Ty.str, String.toList]

theorem str_array_toList (e : Ty) (m : Nat) :
    (Ty.str (Ty.mk TyKind.Array (some e) (m : Int))).toList =
      (Ty.str e).toList ++ '[' :: (Nat.toDigits 10 m ++ [']']) := by
  have h : (toString ((m : Nat) : Int)).data = Nat.toDigits 10 m := rfl
  simp [Ty.str, String.toList, h]

theorem str_head : ∀ (t : Ty), t.inParserRange = true →
    ∃ ch cs, t.str.toList = ch :: cs ∧ isIdentStart ch = true
  | Ty.mk TyKind.I32 _ _, _ => ⟨'i', ['3', '2'], rfl, rfl⟩
  | Ty.mk TyKind.I64 _ _, _ => ⟨'i', ['6', '4'], rfl, rfl⟩
  | Ty.mk TyKind.Bool _ _, _ => ⟨'b', ['o', 'o', 'l'], rfl, rfl⟩
  | Ty.mk TyKind.Void _ _, _ => ⟨'v', ['o', 'i', 'd'], rfl, rfl⟩
  | Ty.mk TyKind.Ptr (some e) n, _ => ⟨'p', _, str_ptr_toList e n, rfl⟩
  | Ty.mk TyKind.Ptr none _, h => by simp [Ty.inParserRange] at h
  | Ty.mk TyKind.Array none _, h => by simp [Ty.inParserRange] at h
  | Ty.mk TyKind.Array (some e) n, h => by
    simp only [Ty.inParserRange, Bool.and_eq_true, decide_eq_true_eq] at h
    obtain ⟨ch, cs, e1, e2⟩ := str_head e h.2
    obtain ⟨m, rfl⟩ := Int.eq_ofNat_of_zero_le h.1.1.1
    exact ⟨ch, cs ++ '[' :: (Nat.toDigits 10 m ++ [']']), by
      rw [str_array_toList, e1]; rfl, e2⟩

theorem parseType_keyword (fuel : Nat) (tok t2 : Token) (rest : List Token) (ty : Ty)
    (hk : (tok.kind = TokKind.KwI32 ∧ ty = Ty.i32) ∨ (tok.kind = TokKind.KwI64 ∧ ty = Ty.i64) ∨
      (tok.kind = TokKind.KwBool ∧ ty = Ty.boolean) ∨
      (tok.kind = TokKind.KwVoid ∧ ty = Ty.voidty))
    (h2 : t2.kind ≠ TokKind.LBracket) :
    parseType (fuel + 1) (tok :: t2 :: rest) = Except.ok (ty, t2 :: rest) := by
  rcases hk with ⟨h, rfl⟩ | ⟨h, rfl⟩ | ⟨h, rfl⟩ | ⟨h, rfl⟩ <;> simp [parseType, h, h2]

theorem parseType_keyword_array (fuel : Nat) (tok lb num rb : Token) (rest : List Token)
    (ty : Ty)
    (hk : (tok.kind = TokKind.KwI32 ∧ ty = Ty.i32) ∨ (tok.kind = TokKind.KwI64 ∧ ty = Ty.i64) ∨
      (tok.kind = TokKind.KwBool ∧ ty = Ty.boolean) ∨
      (tok.kind = TokKind.KwVoid ∧ ty = Ty.voidty))
    (hlb : lb.kind = TokKind.LBracket) (hnum : num.kind = TokKind.IntLit)
    (hrb : rb.kind = TokKind.RBracket) :
    parseType (fuel + 1) (tok :: lb :: num :: rb :: rest) =
      Except.ok (Ty.array ty num.intValue, rest) := by
  rcases hk with ⟨h, rfl⟩ | ⟨h, rfl⟩ | ⟨h, rfl⟩ | ⟨h, rfl⟩ <;>
    simp [parseType, h, hlb, hnum, hrb, expect]

theorem parseType_ptr (fuel : Nat) (kw lt gt t2 : Token) (mid rest : List Token) (e : Ty)
    (hkw : kw.kind = TokKind.KwPtr) (hlt : lt.kind = TokKind.Lt) (hgt : gt.kind = TokKind.Gt)
    (hmid : parseType fuel (mid ++ gt :: t2 :: rest) = Except.ok (e, gt :: t2 :: rest))
    (h2 : t2.kind ≠ TokKind.LBracket) :
    parseType (fuel + 1) (kw :: lt :: (mid ++ gt :: t2 :: rest)) =
      Except.ok (Ty.ptr e, t2 :: rest) := by
  simp [parseType, hkw, hlt, hgt, hmid, expect, h2]

theorem parseType_ptr_array (fuel : Nat) (kw lt gt lb num rb : Token) (mid rest : List Token)
    (e : Ty) (hkw : kw.kind = TokKind.KwPtr) (hlt : lt.kind = TokKind.Lt)
    (hgt : gt.kind = TokKind.Gt)
    (hmid : parseType fuel (mid ++ gt :: lb :: num :: rb :: rest) =
      Except.ok (e, gt :: lb :: num :: rb :: rest))
    (hlb : lb.kind = TokKind.LBracket) (hnum : num.kind = TokKind.IntLit)
    (hrb : rb.kind = TokKind.RBracket) :
    parseType (fuel + 1) (kw :: lt :: (mid ++ gt :: lb :: num :: rb :: rest)) =
      Except.ok (Ty.array (Ty.ptr e) num.intValue, rest) := by
  simp [parseType, hkw, hlt, hgt, hmid, expect, hlb, hnum, hrb]

theorem typeToks_length_pos : ∀ (t : Ty), t.inParserRange = true → ∀ l c,
    0 < (typeToks t l c).length
  | Ty.mk TyKind.I32 _ _, _, _, _ => by simp [typeToks]
  | Ty.mk TyKind.I64 _ _, _, _, _ => by simp [typeToks]
  | Ty.mk TyKind.Bool _ _, _, _, _ => by simp [typeToks]
  | Ty.mk TyKind.Void _ _, _, _, _ => by simp [typeToks]
  | Ty.mk TyKind.Ptr (some e) n, _, _, _ => by simp [typeToks]
  | Ty.mk TyKind.Ptr none _, h, _, _ => by simp [Ty.inParserRange] at h
  | Ty.mk TyKind.Array none _, h, _, _ => by simp [Ty.inParserRange] at h
  | Ty.mk TyKind.Array (some e) n, _, _, _ => by simp [typeToks]

/-- `parseType` on the tokens of the text of a type: it reads them all and
returns the type, when the next token is not `[` or the type is an array; and
when the type is no array and `[`, an integer and `]` follow, it reads them
too and returns the array of the type. -/
theorem parse_typeToks : ∀ (t : Ty), t.inParserRange = true → ∀ (l c : Nat),
    (∀ fuel tail, (typeToks t l c).length ≤ fuel →
      (t.k = TyKind.Array ∨ ∃ t2 rest, tail = t2 :: rest ∧ t2.kind ≠ TokKind.LBracket) →
      parseType fuel (typeToks t l c ++ tail) = Except.ok (t, tail)) ∧
    (t.k ≠ TyKind.Array → ∀ fuel lb num rb tail, (typeToks t l c).length ≤ fuel →
      lb.kind = TokKind.LBracket → num.kind = TokKind.IntLit → rb.kind = TokKind.RBracket →
      parseType fuel (typeToks t l c ++ lb :: num :: rb :: tail) =
        Except.ok (Ty.array t num.intValue, tail))
  | Ty.mk TyKind.Ptr none _, h, _, _ => by simp [Ty.inParserRange] at h
  | Ty.mk TyKind.Array none _, h, _, _ => by simp [Ty.inParserRange] at h
  | Ty.mk TyKind.I32 e n, h, l, c => by
    simp only [Ty.inParserRange, Bool.and_eq_true, Option.isNone_iff_eq_none, beq_iff_eq] at h
    obtain ⟨rfl, rfl⟩ := h
    constructor
    · intro fuel tail hf ht
      rcases ht with ht | ⟨t2, rest, rfl, h2⟩
      · exact absurd ht (by decide)
      · obtain ⟨f, rfl⟩ : ∃ f, fuel = f + 1 := ⟨fuel - 1, by simp [typeToks] at hf; omega⟩
        exact parseType_keyword f _ t2 rest _ (Or.inl ⟨rfl, rfl⟩) h2
    · intro _ fuel lb num rb tail hf hlb hnum hrb
      obtain ⟨f, rfl⟩ : ∃ f, fuel = f + 1 := ⟨fuel - 1, by simp [typeToks] at hf; omega⟩
      exact parseType_keyword_array f _ lb num rb tail _ (Or.inl ⟨rfl, rfl⟩) hlb hnum hrb
  | Ty.mk TyKind.I64 e n, h, l, c => by
    simp only [Ty.inParserRange, Bool.and_eq_true, Option.isNone_iff_eq_none, beq_iff_eq] at h
    obtain ⟨rfl, rfl⟩ := h
    constructor
    · intro fuel tail hf ht
      rcases ht with ht | ⟨t2, rest, rfl, h2⟩
      · exact absurd ht (by decide)
      · obtain ⟨f, rfl⟩ : ∃ f, fuel = f + 1 := ⟨fuel - 1, by simp [typeToks] at hf; omega⟩
        exact parseType_keyword f _ t2 rest _ (Or.inr (Or.inl ⟨rfl, rfl⟩)) h2
    · intro _ fuel lb num rb tail hf hlb hnum hrb
      obtain ⟨f, rfl⟩ : ∃ f, fuel = f + 1 := ⟨fuel - 1, by simp [typeToks] at hf; omega⟩
      exact parseType_keyword_array f _ lb num rb tail _ (Or.inr (Or.inl ⟨rfl, rfl⟩))
        hlb hnum hrb
  | Ty.mk TyKind.Bool e n, h, l, c => by
    simp only [Ty.inParserRange, Bool.and_eq_true, Option.isNone_iff_eq_none, beq_iff_eq] at h
    obtain ⟨rfl, rfl⟩ := h
    constructor
    · intro fuel tail hf ht
      rcases ht with ht | ⟨t2, rest, rfl, h2⟩
      · exact absurd ht (by decide)
      · obtain ⟨f, rfl⟩ : ∃ f, fuel = f + 1 := ⟨fuel - 1, by simp [typeToks] at hf; omega⟩
        exact parseType_keyword f _ t2 rest _ (Or.inr (Or.inr (Or.inl ⟨rfl, rfl⟩))) h2
    · intro _ fuel lb num rb tail hf hlb hnum hrb
      obtain ⟨f, rfl⟩ : ∃ f, fuel = f + 1 := ⟨fuel - 1, by simp [typeToks] at hf; omega⟩
      exact parseType_keyword_array f _ lb num rb tail _ (Or.inr (Or.inr (Or.inl ⟨rfl, rfl⟩)))
        hlb hnum hrb
  | Ty.mk TyKind.Void e n, h, l, c => by
    simp only [Ty.inParserRange, Bool.and_eq_true, Option.isNone_iff_eq_none, beq_iff_eq] at h
    obtain ⟨rfl, rfl⟩ := h
    constructor
    · intro fuel tail hf ht
      rcases ht with ht | ⟨t2, rest, rfl, h2⟩
      · exact absurd ht (by decide)
      · obtain ⟨f, rfl⟩ : ∃ f, fuel = f + 1 := ⟨fuel - 1, by simp [typeToks] at hf; omega⟩
        exact parseType_keyword f _ t2 rest _ (Or.inr (Or.inr (Or.inr ⟨rfl, rfl⟩))) h2
    · intro _ fuel lb num rb tail hf hlb hnum hrb
      obtain ⟨f, rfl⟩ : ∃ f, fuel = f + 1 := ⟨fuel - 1, by simp [typeToks] at hf; omega⟩
      exact parseType_keyword_array f _ lb num rb tail _ (Or.inr (Or.inr (Or.inr ⟨rfl, rfl⟩)))
        hlb hnum hrb
  | Ty.mk TyKind.Ptr (some e) n, h, l, c => by
    simp only [Ty.inParserRange, Bool.and_eq_true, beq_iff_eq] at h
    obtain ⟨rfl, he⟩ := h
    have ih := (parse_typeToks e he l (c + 4)).1
    constructor
    · intro fuel tail hf ht
      rcases ht with ht | ⟨t2, rest, rfl, h2⟩
      · exact absurd ht (fun h => by simp [Ty.k] at h)
      · obtain ⟨f, rfl⟩ : ∃ f, fuel = f + 1 := ⟨fuel - 1, by simp [typeToks] at hf; omega⟩
        have hmid := ih f (⟨TokKind.Gt, "", 0, l, c + 4 + e.str.toList.length⟩ :: t2 :: rest)
          (by simp [typeToks] at hf; omega) (Or.inr ⟨_, _, rfl, fun h => by simp at h⟩)
        have := parseType_ptr f ⟨TokKind.KwPtr, "ptr", 0, l, c⟩ ⟨TokKind.Lt, "", 0, l, c + 3⟩
          ⟨TokKind.Gt, "", 0, l, c + 4 + e.str.toList.length⟩ t2 _ rest e rfl rfl rfl hmid h2
        simpa [typeToks, Ty.ptr] using this
    · intro _ fuel lb num rb tail hf hlb hnum hrb
      obtain ⟨f, rfl⟩ : ∃ f, fuel = f + 1 := ⟨fuel - 1, by simp [typeToks] at hf; omega⟩
      have hmid := ih f
        (⟨TokKind.Gt, "", 0, l, c + 4 + e.str.toList.length⟩ :: lb :: num :: rb :: tail)
        (by simp [typeToks] at hf; omega) (Or.inr ⟨_, _, rfl, fun h => by simp at h⟩)
      have := parseType_ptr_array f ⟨TokKind.KwPtr, "ptr", 0, l, c⟩
        ⟨TokKind.Lt, "", 0, l, c + 3⟩ ⟨TokKind.Gt, "", 0, l, c + 4 + e.str.toList.length⟩
        lb num rb _ tail e rfl rfl rfl hmid hlb hnum hrb
      simpa [typeToks, Ty.ptr] using this
  | Ty.mk TyKind.Array (some e) n, h, l, c => by
    simp only [Ty.inParserRange, Bool.and_eq_true, decide_eq_true_eq, bne_iff_ne, ne_eq] at h
    obtain ⟨⟨⟨h0, hmax⟩, hk⟩, he⟩ := h
    have ih := (parse_typeToks e he l c).2 hk
    constructor
    · intro fuel tail hf _
      have := ih fuel ⟨TokKind.LBracket, "", 0, l, c + e.str.toList.length⟩
        ⟨TokKind.IntLit, toString n, n, l, c + e.str.toList.length + 1⟩
        ⟨TokKind.RBracket, "", 0, l, c + e.str.toList.length + 1 + (toString n).toList.length⟩
        tail (by simp [typeToks] at hf; omega) rfl rfl rfl
      simpa [typeToks, Ty.array] using this
    · intro hne
      exact absurd rfl hne

theorem isIdentStart_ne_eq (ch : Char) (h : isIdentStart ch = true) : ch ≠ '=' := by
  have := isIdentStart_range ch h
  exact ne_of_toNat_ne _ _ (by simp only [Char.reduceToNat]; omega)

theorem isDigit_ne_eq (ch : Char) (h : ch.isDigit = true) : ch ≠ '=' := by
  have := isDigit_range ch h
  exact ne_of_toNat_ne _ _ (by simp only [Char.reduceToNat]; omega)

theorem lexFrom_keyword (c : Char) (cs post : List Char) (l k : Nat) (kind : TokKind)
    (h1 : isIdentStart c = true) (h2 : ∀ d ∈ cs, isIdentChar d = true)
    (hk : keywordKind (String.mk (c :: cs)) = kind)
    (hpost : ∀ d ∈ post.head?, isIdentChar d = false ∧ d ≠ '=') :
    lexFrom { rest := c :: cs ++ post, line := l, col := k } =
      pushTok { kind := kind, lexeme := String.mk (c :: cs), intValue := 0, line := l, col := k }
        (lexFrom { rest := post, line := l, col := k + (c :: cs).length }) := by
  rw [lexFrom_word c cs post l k h1 h2 (fun d hd => (hpost d hd).1), hk]

/-- The lexer on the text of a type in the range of the parser, followed by
`post`: it pushes the tokens of the type and goes on at `post`. -/
theorem lex_typeToks : ∀ (t : Ty), t.inParserRange = true → ∀ (post : List Char) (l c : Nat),
    (∀ d ∈ post.head?, isIdentChar d = false ∧ d ≠ '=') →
    lexFrom { rest := t.str.toList ++ post, line := l, col := c } =
      (typeToks t l c).foldr pushTok
        (lexFrom { rest := post, line := l, col := c + t.str.toList.length })
  | Ty.mk TyKind.Ptr none _, h, _, _, _, _ => by simp [Ty.inParserRange] at h
  | Ty.mk TyKind.Array none _, h, _, _, _, _ => by simp [Ty.inParserRange] at h
  | Ty.mk TyKind.I32 e n, _, post, l, c, hpost =>
    lexFrom_keyword 'i' ['3', '2'] post l c TokKind.KwI32 rfl (by decide) (by decide) hpost
  | Ty.mk TyKind.I64 e n, _, post, l, c, hpost =>
    lexFrom_keyword 'i' ['6', '4'] post l c TokKind.KwI64 rfl (by decide) (by decide) hpost
  | Ty.mk TyKind.Bool e n, _, post, l, c, hpost =>
    lexFrom_keyword 'b' ['o', 'o', 'l'] post l c TokKind.KwBool rfl (by decide) (by decide) hpost
  | Ty.mk TyKind.Void e n, _, post, l, c, hpost =>
    lexFrom_keyword 'v' ['o', 'i', 'd'] post l c TokKind.KwVoid rfl (by decide) (by decide) hpost
  | Ty.mk TyKind.Ptr (some e) n, h, post, l, c, hpost => by
    simp only [Ty.inParserRange, Bool.and_eq_true, beq_iff_eq] at h
    obtain ⟨rfl, he⟩ := h
    obtain ⟨ch, cs, hse, hch⟩ := str_head e he
    have ih := lex_typeToks e he ('>' :: post) l (c + 4)
      (by
        intro d hd
        simp only [List.head?_cons, Option.mem_def, Option.some.injEq] at hd
        rw [← hd]
        exact ⟨by decide, by decide⟩)
    have s1 : lexFrom ⟨'p' :: ['t', 'r'] ++ '<' :: (e.str.toList ++ '>' :: post), l, c⟩ =
        pushTok ⟨TokKind.KwPtr, "ptr", 0, l, c⟩
          (lexFrom ⟨'<' :: (e.str.toList ++ '>' :: post), l, c + 3⟩) :=
      lexFrom_keyword 'p' ['t', 'r'] ('<' :: (e.str.toList ++ '>' :: post)) l c
      TokKind.KwPtr rfl (by decide) (by decide)
      (by
        intro d hd
        simp only [List.head?_cons, Option.mem_def, Option.some.injEq] at hd
        rw [← hd]
        exact ⟨by decide, by decide⟩)
    have s2 : lexFrom ⟨'<' :: (e.str.toList ++ '>' :: post), l, c + 3⟩ =
        pushTok ⟨TokKind.Lt, "", 0, l, c + 3⟩
          (lexFrom ⟨e.str.toList ++ '>' :: post, l, c + 4⟩) :=
      lexFrom_bracket '<' TokKind.Lt (e.str.toList ++ '>' :: post) l (c + 3)
      (Or.inl ⟨rfl, rfl⟩)
      (by
        rw [hse]
        simp only [List.cons_append, List.head?_cons, ne_eq, Option.some.injEq]
        exact isIdentStart_ne_eq ch hch)
    have s4 := lexFrom_bracket '>' TokKind.Gt post l (c + 4 + e.str.toList.length)
      (Or.inr (Or.inl ⟨rfl, rfl⟩))
      (by
        intro hp
        exact (hpost '=' hp).2 rfl)
    have hchars : (Ty.str (Ty.mk TyKind.Ptr (some e) 0)).toList ++ post =
        'p' :: ['t', 'r'] ++ '<' :: (e.str.toList ++ '>' :: post) := by
      rw [str_ptr_toList]
      simp
    have hlen : c + (Ty.str (Ty.mk TyKind.Ptr (some e) 0)).toList.length =
        c + 4 + e.str.toList.length + 1 := by
      rw [str_ptr_toList]
      simp only [List.length_cons, List.length_append, List.length_nil]
      omega
    rw [hchars, s1, s2, ih, s4, hlen]
    simp only [typeToks, List.foldr_cons, List.foldr_append, List.foldr_nil]
  | Ty.mk TyKind.Array (some e) n, h, post, l, c, hpost => by
    simp only [Ty.inParserRange, Bool.and_eq_true, decide_eq_true_eq, bne_iff_ne, ne_eq] at h
    obtain ⟨⟨⟨h0, hmax⟩, hk⟩, he⟩ := h
    obtain ⟨m, rfl⟩ := Int.eq_ofNat_of_zero_le h0
    obtain ⟨hne, hdig, hval⟩ := toDigits_spec m
    obtain ⟨d, ds, hds⟩ : ∃ d ds, Nat.toDigits 10 m = d :: ds := by
      cases hq : Nat.toDigits 10 m with
      | nil => exact absurd hq hne
      | cons d ds => exact ⟨d, ds, rfl⟩
    have hm : m ≤ 9223372036854775807 := by
      have : ((m : Nat) : Int) ≤ 9223372036854775807 := hmax
      omega
    have ih := lex_typeToks e he ('[' :: (d :: ds ++ ']' :: post)) l c
      (by
        intro x hx
        simp only [List.head?_cons, Option.mem_def, Option.some.injEq] at hx
        rw [← hx]
        exact ⟨by decide, by decide⟩)
    have s2 := lexFrom_bracket '[' TokKind.LBracket (d :: ds ++ ']' :: post) l
      (c + e.str.toList.length) (Or.inr (Or.inr (Or.inl ⟨rfl, rfl⟩)))
      (by
        simp only [List.cons_append, List.head?_cons, ne_eq, Option.some.injEq]
        exact isDigit_ne_eq d (hdig d (by rw [hds]; exact List.mem_cons_self _ _)))
    have s3 := lexFrom_number d ds (']' :: post) l (c + e.str.toList.length + 1)
      (by rw [← hds]; exact hdig)
      (by
        intro x hx
        simp only [List.head?_cons, Option.mem_def, Option.some.injEq] at hx
        rw [← hx]
        decide)
      (by rw [← hds, hval]; exact hm)
    have s4 := lexFrom_bracket ']' TokKind.RBracket post l
      (c + e.str.toList.length + 1 + (d :: ds).length) (Or.inr (Or.inr (Or.inr ⟨rfl, rfl⟩)))
      (by
        intro hp
        exact (hpost '=' hp).2 rfl)
    have hstr : (toString (m : Int)).toList = d :: ds := by
      rw [← hds]
      rfl
    have hchars : (Ty.str (Ty.mk TyKind.Array (some e) (m : Int))).toList ++ post =
        e.str.toList ++ '[' :: (d :: ds ++ ']' :: post) := by
      rw [str_array_toList, hds]
      simp
    have hlen : c + (Ty.str (Ty.mk TyKind.Array (some e) (m : Int))).toList.length =
        c + e.str.toList.length + 1 + (d :: ds).length + 1 := by
      rw [str_array_toList, hds]
      simp only [List.length_cons, List.length_append, List.length_nil]
      omega
    have hlex : String.mk (d :: ds) = toString (m : Int) := by
      rw [← hds]
      rfl
    have hv2 : Int.ofNat (decimalValue (d :: ds)) = (m : Int) := by
      rw [← hds, hval]
      rfl
    rw [hchars, ih, s2, s3, s4, hlen, hlex, hv2]
    simp only [typeToks, List.foldr_cons, List.foldr_append, List.foldr_nil, hstr]

theorem Drops.mem {a b : List Token} (h : Drops a b) (x : Token) (hx : x ∈ b) : x ∈ a := by
  obtain ⟨p, e, _⟩ := h
  rw [e]
  exact List.mem_append_right _ hx

theorem parseType_drops (fuel : Nat) (toks : List Token) (t : Ty) (rest : List Token)
    (h : parseType fuel toks = Except.ok (t, rest)) : Drops toks rest := by
  have hf := parseType_fine fuel toks
  rw [h] at hf
  exact hf.1

/-- The types that `parseType` returns are in the range `Ty.inParserRange`,
when the integer literals among the tokens have values from 0 to 2^63 - 1, as
those of the lexer have. -/
theorem parseType_range : ∀ (fuel : Nat) (toks : List Token) (ty : Ty) (rest2 : List Token),
    parseType fuel toks = Except.ok (ty, rest2) →
    (∀ x ∈ toks, x.kind = TokKind.IntLit → 0 ≤ x.intValue ∧ x.intValue ≤ 9223372036854775807) →
    ty.inParserRange = true
  | 0, toks, ty, rest2, h, _ => by simp [parseType] at h
  | fuel + 1, [], ty, rest2, h, _ => by simp [parseType] at h
  | fuel + 1, t :: rest, ty, rest2, h, hint => by
    simp only [parseType] at h
    generalize hP : (ite (t.kind = TokKind.KwI32) _ _ : PRes Ty) = p at h
    have hp : ∀ b r5, p = Except.ok (b, r5) →
        b.inParserRange = true ∧ b.k ≠ TyKind.Array ∧ ∀ x ∈ r5, x ∈ t :: rest := by
      intro b r5 hb
      rw [← hP] at hb
      split at hb
      · simp only [Except.ok.injEq, Prod.mk.injEq] at hb
        obtain ⟨rfl, rfl⟩ := hb
        exact ⟨rfl, by decide, fun x hx => List.mem_cons_of_mem _ hx⟩
      · split at hb
        · simp only [Except.ok.injEq, Prod.mk.injEq] at hb
          obtain ⟨rfl, rfl⟩ := hb
          exact ⟨rfl, by decide, fun x hx => List.mem_cons_of_mem _ hx⟩
        · split at hb
          · simp only [Except.ok.injEq, Prod.mk.injEq] at hb
            obtain ⟨rfl, rfl⟩ := hb
            exact ⟨rfl, by decide, fun x hx => List.mem_cons_of_mem _ hx⟩
          · split at hb
            · simp only [Except.ok.injEq, Prod.mk.injEq] at hb
              obtain ⟨rfl, rfl⟩ := hb
              exact ⟨rfl, by decide, fun x hx => List.mem_cons_of_mem _ hx⟩
            · split at hb
              · split at hb
                · simp at hb
                · rename_i rest1 he1
                  obtain ⟨tl, rfl, _⟩ := expect_ok he1
                  split at hb
                  · simp at hb
                  · rename_i t1 r2 hin
                    split at hb
                    · simp at hb
                    · rename_i rest3 he3
                      obtain ⟨tg, rfl, _⟩ := expect_ok he3
                      simp only [Except.ok.injEq, Prod.mk.injEq] at hb
                      obtain ⟨rfl, rfl⟩ := hb
                      have hsub : ∀ x ∈ rest1, x ∈ t :: tl :: rest1 := fun x hx =>
                        List.mem_cons_of_mem _ (List.mem_cons_of_mem _ hx)
                      have ih := parseType_range fuel rest1 t1 _ hin
                        (fun x hx => hint x (hsub x hx))
                      refine ⟨by simp [Ty.ptr, Ty.inParserRange, ih], by simp [Ty.ptr, Ty.k], ?_⟩
                      intro x hx
                      exact hsub x ((parseType_drops _ _ _ _ hin).mem x
                        (List.mem_cons_of_mem _ hx))
              · simp at hb
    split at h
    · simp at h
    · simp at h
    · rename_i b t2 rest5
      obtain ⟨hb1, hb2, hb3⟩ := hp b (t2 :: rest5) rfl
      split at h
      · split at h
        · simp at h
        · rename_i t3 rest6
          split at h
          · simp at h
          · rename_i hk3
            split at h
            · simp at h
            · simp only [Except.ok.injEq, Prod.mk.injEq] at h
              obtain ⟨rfl, _⟩ := h
              have hk : t3.kind = TokKind.IntLit := by
                by_contra hne
                exact hk3 hne
              have := hint t3 (hb3 t3 (List.mem_cons_of_mem _ (List.mem_cons_self _ _))) hk
              simp [Ty.array, Ty.inParserRange, this.1, this.2, hb1, hb2]
      · simp only [Except.ok.injEq, Prod.mk.injEq] at h
        obtain ⟨rfl, _⟩ := h
        exact hb1

theorem pushTok_ok (t : Token) (r : LexResult) (ts : List Token)
    (h : pushTok t r = some (Except.ok ts)) :
    ∃ ts2, r = some (Except.ok ts2) ∧ ts = t :: ts2 := by
  cases r with
  | none => simp [pushTok] at h
  | some e =>
    cases e with
    | error m => simp [pushTok] at h
    | ok ts2 =>
      simp only [pushTok, Option.some.injEq, Except.ok.injEq] at h
      exact ⟨ts2, rfl, h.symm⟩

/-- The integer value of every token of the lexer is from 0 to 2^63 - 1. -/
theorem lexLoop_intValues : ∀ (fuel : Nat) (s : LexState) (toks : List Token),
    lexLoop fuel s = some (Except.ok toks) →
    ∀ x ∈ toks, 0 ≤ x.intValue ∧ x.intValue ≤ 9223372036854775807
  | 0, s, toks, h => by simp [lexLoop] at h
  | fuel + 1, s, toks, h => by
    simp only [lexLoop] at h
    split at h
    · simp only [Option.some.injEq, Except.ok.injEq] at h
      intro x hx
      rw [← h] at hx
      rw [List.mem_singleton.mp hx]
      simp
    · split at h
      · obtain ⟨ts2, h2, rfl⟩ := pushTok_ok _ _ _ h
        intro x hx
        rcases List.mem_cons.mp hx with rfl | hx
        · simp [identOrKw]
        · exact lexLoop_intValues fuel _ ts2 h2 x hx
      · split at h
        · split at h
          · simp at h
          · rename_i r hr
            obtain ⟨ts2, h2, rfl⟩ := pushTok_ok _ _ _ h
            intro x hx
            rcases List.mem_cons.mp hx with rfl | hx
            · simp only [number] at hr
              split at hr
              · simp at hr
              · rename_i v hv
                simp only [Except.ok.injEq] at hr
                rw [← hr]
                simp only [stoll] at hv
                split at hv
                · rename_i hle
                  simp only [Except.ok.injEq] at hv
                  rw [← hv]
                  constructor
                  · exact Int.ofNat_nonneg _
                  · have : ((decimalValue _ : Nat) : Int) ≤ ((9223372036854775807 : Nat) : Int) :=
                      Int.ofNat_le.mpr hle
                    exact this
                · simp at hv
            · exact lexLoop_intValues fuel _ ts2 h2 x hx
        · obtain ⟨ts2, h2, rfl⟩ := pushTok_ok _ _ _ h
          intro x hx
          rcases List.mem_cons.mp hx with rfl | hx
          · simp
          · exact lexLoop_intValues fuel _ ts2 h2 x hx

theorem foldr_pushTok_ok (toks ts : List Token) :
    toks.foldr pushTok (some (Except.ok ts)) = some (Except.ok (toks ++ ts)) := by
  induction toks with
  | nil => rfl
  | cons t rest ih => simp [List.foldr_cons, ih, pushTok]

theorem typeToks_noEof : ∀ (t : Ty) (l c : Nat), ∀ x ∈ typeToks t l c, x.kind ≠ TokKind.Eof
  | Ty.mk TyKind.I32 _ _, _, _, x, hx => by
    simp only [typeToks, List.mem_singleton] at hx
    rw [hx]
    simp
  | Ty.mk TyKind.I64 _ _, _, _, x, hx => by
    simp only [typeToks, List.mem_singleton] at hx
    rw [hx]
    simp
  | Ty.mk TyKind.Bool _ _, _, _, x, hx => by
    simp only [typeToks, List.mem_singleton] at hx
    rw [hx]
    simp
  | Ty.mk TyKind.Void _ _, _, _, x, hx => by
    simp only [typeToks, List.mem_singleton] at hx
    rw [hx]
    simp
  | Ty.mk TyKind.Ptr none _, _, _, x, hx => by simp [typeToks] at hx
  | Ty.mk TyKind.Array none _, _, _, x, hx => by simp [typeToks] at hx
  | Ty.mk TyKind.Ptr (some e) _, l, c, x, hx => by
    simp only [typeToks, List.mem_cons, List.mem_append, List.mem_singleton,
      List.not_mem_nil, or_false] at hx
    rcases hx with rfl | rfl | hx | rfl
    · simp
    · simp
    · exact typeToks_noEof e l (c + 4) x hx
    · simp
  | Ty.mk TyKind.Array (some e) n, l, c, x, hx => by
    simp only [typeToks, List.mem_cons, List.mem_append, List.mem_singleton,
      List.not_mem_nil, or_false] at hx
    rcases hx with hx | rfl | rfl | rfl
    · exact typeToks_noEof e l c x hx
    · simp
    · simp
    · simp

theorem wellFormed_of_inParserRange : ∀ (t : Ty), t.inParserRange = true → t.wellFormed = true
  | Ty.mk TyKind.I32 _ _, _ => rfl
  | Ty.mk TyKind.I64 _ _, _ => rfl
  | Ty.mk TyKind.Bool _ _, _ => rfl
  | Ty.mk TyKind.Void _ _, _ => rfl
  | Ty.mk TyKind.Ptr none _, h => by simp [Ty.inParserRange] at h
  | Ty.mk TyKind.Array none _, h => by simp [Ty.inParserRange] at h
  | Ty.mk TyKind.Ptr (some e) _, h => by
    simp only [Ty.inParserRange, Bool.and_eq_true] at h
    simp only [Ty.wellFormed]
    exact wellFormed_of_inParserRange e h.2
  | Ty.mk TyKind.Array (some e) n, h => by
    simp only [Ty.inParserRange, Bool.and_eq_true] at h
    simp only [Ty.wellFormed]
    exact wellFormed_of_inParserRange e h.2

/-- C40.  Let `t` be a type in the range of the parser: a base type, `ptr` of
such a type, or an array, of a size from 0 to 2^63 - 1, of such a type that is
no array.  The lexer on the text `t.str` returns the tokens `typeToks t 1 1`
followed by the end-of-file token; `parseType` on them, with a recursion bound
of at least their number, reads all of them but the end-of-file token and
returns `t`, which `equals` takes for equal to `t`.  The types that
`parseType` returns on tokens of the lexer are in that range. -/
theorem type_roundtrip (t : Ty) (h : t.inParserRange = true) :
    lexString t.str = some (Except.ok
      (typeToks t 1 1 ++ [⟨TokKind.Eof, "", 0, 1, 1 + t.str.toList.length⟩])) ∧
    (∀ x ∈ typeToks t 1 1, x.kind ≠ TokKind.Eof) ∧
    (∀ fuel, (typeToks t 1 1).length ≤ fuel →
      parseType fuel (typeToks t 1 1 ++ [⟨TokKind.Eof, "", 0, 1, 1 + t.str.toList.length⟩]) =
        Except.ok (t, [⟨TokKind.Eof, "", 0, 1, 1 + t.str.toList.length⟩])) ∧
    t.equals t = true ∧
    (∀ (src : String) (toks : List Token) (fuel : Nat) (ty : Ty) (pre rest : List Token),
      lexString src = some (Except.ok (pre ++ toks)) →
      parseType fuel toks = Except.ok (ty, rest) → ty.inParserRange = true) := by
  refine ⟨?_, typeToks_noEof t 1 1, ?_, Ty.equals_refl t (wellFormed_of_inParserRange t h), ?_⟩
  · have hl := lex_typeToks t h [] 1 1 (by simp)
    rw [List.append_nil] at hl
    have he : lexFrom ⟨[], 1, 1 + t.str.toList.length⟩ =
        some (Except.ok [⟨TokKind.Eof, "", 0, 1, 1 + t.str.toList.length⟩]) :=
      lexLoop_end 0 1 _
    rw [he, foldr_pushTok_ok] at hl
    exact hl
  · intro fuel hf
    refine (parse_typeToks t h 1 1).1 fuel _ hf (Or.inr ⟨_, [], rfl, ?_⟩)
    intro hk
    simp at hk
  · intro src toks fuel ty pre rest hlex hp
    refine parseType_range fuel toks ty rest hp (fun x hx _ => ?_)
    exact lexLoop_intValues _ _ _ hlex x (List.mem_append_right _ hx)

/-- C40 (witness): the type `ptr<i64[3]>[2]`. -/
theorem type_roundtrip_witness :
    (Ty.array (Ty.ptr (Ty.array Ty.i64 3)) 2).str = "ptr<i64[3]>[2]" ∧
    lexString (Ty.array (Ty.ptr (Ty.array Ty.i64 3)) 2).str = some (Except.ok
      (typeToks (Ty.array (Ty.ptr (Ty.array Ty.i64 3)) 2) 1 1 ++
        [⟨TokKind.Eof, "", 0, 1,
          1 + (Ty.array (Ty.ptr (Ty.array Ty.i64 3)) 2).str.toList.length⟩])) :=
  ⟨by decide, (type_roundtrip (Ty.array (Ty.ptr (Ty.array Ty.i64 3)) 2) (by decide)).1⟩

end Aurora
